import Mathlib

/-!
# Dancing-links exact-cover solver (DLX.h): embedding and verification

The four-way linked mesh of `DLX.h` is embedded with explicit state passing.
A pointer to a matrix node is the index of that node in the flattened
`matrix` (node `matrix[r][i]` of the generic builder is index
`r * num_constraints + i`); a pointer to a header is its index in
`matrix_header`; the null pointer of `top` / `bottom` is `Option.none`.
The two `std::set<dlx_header_node*, header_compare>` indices are kept as
membership vectors over the header array: `erase` clears a bit, `insert`
sets it, and `begin()` recomputes the least member under `header_compare`
from the current keys (the source brackets every key change by erase/insert,
so the ordered set is always ordered by the current keys).
Pointer-chasing loops carry a fuel argument; running out of fuel is reported
as `Err.out_of_fuel`, dereferencing null or reading outside a vector as
`Err.undefined_behaviour`.
A `std::vector` of the mesh is a `Vec`: a binary trie addressed by the binary
digits of the index, so that a read or a write unfolds in logarithmically many
steps.  Writes into the mesh are call-by-value as in the source: the index and
the value are evaluated before they are stored (`Vec.set_nat` and its
siblings), which keeps stored cells in normal form.
-/

namespace DLX

/-! ## Vectors -/

/-- Storage of a vector: a binary trie whose paths are the binary digits of
the index, least significant digit first. -/
inductive Vec (α : Type) where
  | leaf : α → Vec α
  | node : Vec α → Vec α → Vec α
  deriving DecidableEq

/-- Read `v[i]`; outside the vector the default `d` is returned. -/
def Vec.getD {α : Type} : Vec α → Nat → α → α
  | Vec.leaf a, i, d => if i = 0 then a else d
  | Vec.node l r, i, d => if i % 2 = 0 then l.getD (i / 2) d else r.getD (i / 2) d

/-- Write `v[i] = a`; outside the vector nothing is written. -/
def Vec.set {α : Type} : Vec α → Nat → α → Vec α
  | Vec.leaf b, i, a => if i = 0 then Vec.leaf a else Vec.leaf b
  | Vec.node l r, i, a =>
    if i % 2 = 0 then Vec.node (l.set (i / 2) a) r else Vec.node l (r.set (i / 2) a)

/-- Whether index `i` lies inside the vector. -/
def Vec.inb {α : Type} : Vec α → Nat → Bool
  | Vec.leaf _, i => decide (i = 0)
  | Vec.node l r, i => if i % 2 = 0 then l.inb (i / 2) else r.inb (i / 2)

/-- Perfect trie of the given depth filled with `a`. -/
def Vec.full {α : Type} : Nat → α → Vec α
  | 0, a => Vec.leaf a
  | d + 1, a => Vec.node (Vec.full d a) (Vec.full d a)

/-- Number of binary digits needed to address `n` cells. -/
def Vec.depth : Nat → Nat → Nat
  | 0, _ => 0
  | fuel + 1, n => if n ≤ 1 then 0 else Vec.depth fuel ((n + 1) / 2) + 1

/-- A vector with room for `n` cells, all holding `a`
(`std::vector::resize(n)` on an empty vector). -/
def Vec.replicate {α : Type} (n : Nat) (a : α) : Vec α :=
  Vec.full (Vec.depth n n) a

/-- Evaluate a natural number, then continue with it. -/
def strict_nat {α : Type} (n : Nat) (k : Nat → α) : α :=
  match n with
  | 0 => k 0
  | n1 + 1 => k (n1 + 1)

/-- Evaluate an integer, then continue with it. -/
def strict_int {α : Type} (n : Int) (k : Int → α) : α :=
  match n with
  | Int.ofNat a => strict_nat a (fun a1 => k (Int.ofNat a1))
  | Int.negSucc a => strict_nat a (fun a1 => k (Int.negSucc a1))

/-- Evaluate a nullable pointer, then continue with it. -/
def strict_opt {α : Type} (p : Option Nat) (k : Option Nat → α) : α :=
  match p with
  | Option.none => k Option.none
  | some x => strict_nat x (fun x1 => k (some x1))

/-- Write of a number or pointer, `v[i] = a`, call-by-value. -/
def Vec.set_nat (v : Vec Nat) (i a : Nat) : Vec Nat :=
  strict_nat i (fun i1 => strict_nat a (fun a1 => v.set i1 a1))

/-- Write of an integer, `v[i] = a`, call-by-value. -/
def Vec.set_int (v : Vec Int) (i : Nat) (a : Int) : Vec Int :=
  strict_nat i (fun i1 => strict_int a (fun a1 => v.set i1 a1))

/-- Write of a nullable pointer, `v[i] = a`, call-by-value. -/
def Vec.set_opt (v : Vec (Option Nat)) (i : Nat) (a : Option Nat) : Vec (Option Nat) :=
  strict_nat i (fun i1 => strict_opt a (fun a1 => v.set i1 a1))

/-- Write of a flag, `v[i] = a`, call-by-value. -/
def Vec.set_bool (v : Vec Bool) (i : Nat) (a : Bool) : Vec Bool :=
  strict_nat i (fun i1 => match a with | true => v.set i1 true | false => v.set i1 false)

/-! ## Data model -/

/-- Ways in which a run does not produce a value: the model runs out of fuel,
the source has undefined behaviour, or the source calls `exit(1)`. -/
inductive Err where
  | out_of_fuel
  | undefined_behaviour
  | exit_failure
  deriving DecidableEq

/-- Save setting of the solver (`dlx_matrix::dlx_save_setting`). -/
inductive dlx_save_setting where
  | solutions
  | correct_moves
  | all_moves
  | none
  deriving DecidableEq

/-- The mesh owned by a `dlx_matrix` object together with the two header
indices that `solve` passes by reference.  Node fields (`left` ... `matrix_row`)
are indexed by node, header fields (`count` ... `bottom`) by header. -/
structure dlx_matrix where
  array_len : Nat
  array_width : Nat
  num_constraints : Nat
  left : Vec Nat
  right : Vec Nat
  up : Vec Nat
  down : Vec Nat
  header : Vec Nat
  matrix_row : Vec Nat
  count : Vec Int
  matrix_column : Vec Nat
  top : Vec (Option Nat)
  bottom : Vec (Option Nat)
  optional_constraint_start_column : Nat
  header_tree : Vec Bool
  optional_header_tree : Vec Bool
  deriving DecidableEq

/-- Comparator `header_compare` on two headers of the mesh. -/
def header_compare (m : dlx_matrix) (l r : Nat) : Bool :=
  decide (m.count.getD l 0 < m.count.getD r 0) ||
    (decide (m.matrix_column.getD l 0 < m.matrix_column.getD r 0) &&
      decide (m.count.getD l 0 = m.count.getD r 0))

/-- One step of the scan for the least member of `header_tree` under
`header_compare`: header `i` replaces the best so far when it is a member and
compares below it. -/
def tree_begin_step (m : dlx_matrix) (best : Option Nat) (i : Nat) : Option Nat :=
  if m.header_tree.getD i false then
    (match best with
      | Option.none => some i
      | some j => if header_compare m i j then some i else some j)
  else best

/-- The header `*header_tree.begin()`, or `none` when the index is empty. -/
def tree_begin (m : dlx_matrix) : Option Nat :=
  (List.range m.array_width).foldl (tree_begin_step m) Option.none

/-- Test `header_tree.empty()`. -/
def tree_empty (m : dlx_matrix) : Bool :=
  (List.range m.array_width).all (fun i => !(m.header_tree.getD i false))

/-- Statement `header_tree.erase(h)`. -/
def header_tree_erase (m : dlx_matrix) (h : Nat) : dlx_matrix :=
  { m with header_tree := m.header_tree.set_bool h false }

/-- Statement `header_tree.insert(h)`. -/
def header_tree_insert (m : dlx_matrix) (h : Nat) : dlx_matrix :=
  { m with header_tree := m.header_tree.set_bool h true }

/-- Statement `optional_header_tree.erase(h)`. -/
def optional_header_tree_erase (m : dlx_matrix) (h : Nat) : dlx_matrix :=
  { m with optional_header_tree := m.optional_header_tree.set_bool h false }

/-- Statement `optional_header_tree.insert(h)`. -/
def optional_header_tree_insert (m : dlx_matrix) (h : Nat) : dlx_matrix :=
  { m with optional_header_tree := m.optional_header_tree.set_bool h true }

/-! ## Linked-matrix primitives -/

/-- Body of the inner loop of `remove_column` for `curr_row_node = r`:
the header of `r` is re-keyed with its count decreased, and `r` is unlinked
from its column unless the count reached zero. -/
def remove_node (m : dlx_matrix) (r : Nat) : dlx_matrix :=
  let h := m.header.getD r 0
  let c := m.count.getD h 0 - 1
  let m1 : dlx_matrix :=
    if m.matrix_column.getD h 0 < m.optional_constraint_start_column then
      header_tree_insert { header_tree_erase m h with count := m.count.set_int h c } h
    else
      optional_header_tree_insert
        { optional_header_tree_erase m h with count := m.count.set_int h c } h
  if c = 0 then
    { m1 with top := m1.top.set_opt h Option.none, bottom := m1.bottom.set_opt h Option.none }
  else
    let m2 : dlx_matrix :=
      if m1.top.getD h Option.none = some r then
        { m1 with top := m1.top.set_opt h (some (m1.down.getD r 0)) }
      else if m1.bottom.getD h Option.none = some r then
        { m1 with bottom := m1.bottom.set_opt h (some (m1.up.getD r 0)) }
      else m1
    let m3 : dlx_matrix :=
      { m2 with down := m2.down.set_nat (m2.up.getD r 0) (m2.down.getD r 0) }
    { m3 with up := m3.up.set_nat (m3.down.getD r 0) (m3.up.getD r 0) }

/-- Inner loop of `remove_column`: visits the nodes of the row of `curr_node`
rightward, starting at `curr_row_node`, until `curr_node` is met again. -/
def remove_column_row (curr_node : Nat) : Nat → dlx_matrix → Nat → Except Err dlx_matrix
  | 0, _, _ => Except.error Err.out_of_fuel
  | fuel + 1, m, curr_row_node =>
    if curr_row_node = curr_node then Except.ok m
    else
      let m1 := remove_node m curr_row_node
      remove_column_row curr_node fuel m1 (m1.right.getD curr_row_node 0)

/-- Outer loop of `remove_column`: visits the nodes of the column of
`given_node` downward, starting at `curr_node`, until `given_node` is met. -/
def remove_column_loop (fuel0 : Nat) (given_node : Nat) :
    Nat → dlx_matrix → Nat → Except Err dlx_matrix
  | 0, _, _ => Except.error Err.out_of_fuel
  | fuel + 1, m, curr_node =>
    if curr_node = given_node then Except.ok m
    else
      match remove_column_row curr_node fuel0 m (m.right.getD curr_node 0) with
      | Except.error e => Except.error e
      | Except.ok m1 => remove_column_loop fuel0 given_node fuel m1 (m1.down.getD curr_node 0)

/-- Function `dlx_matrix::remove_column`. -/
def remove_column (fuel : Nat) (m : dlx_matrix) (given_node : Nat) : Except Err dlx_matrix :=
  remove_column_loop fuel given_node fuel m (m.down.getD given_node 0)

/-- First half of the body of the inner loop of `restore_column` for
`curr_row_node = r`: the node is linked back into its column and `top` /
`bottom` of its header are adjusted.  Reading `header->bottom->matrix_row` or
`header->top->matrix_row` through a null pointer is undefined behaviour. -/
def relink_node (m : dlx_matrix) (r : Nat) : Except Err dlx_matrix :=
  let h := m.header.getD r 0
  if m.count.getD h 0 = 0 then
    Except.ok { m with top := m.top.set_opt h (some r), bottom := m.bottom.set_opt h (some r) }
  else
    let m1 : dlx_matrix := { m with down := m.down.set_nat (m.up.getD r 0) r }
    let m2 : dlx_matrix := { m1 with up := m1.up.set_nat (m1.down.getD r 0) r }
    match m2.bottom.getD h Option.none with
    | Option.none => Except.error Err.undefined_behaviour
    | some b =>
      if m2.matrix_row.getD b 0 < m2.matrix_row.getD r 0 then
        Except.ok { m2 with bottom := m2.bottom.set_opt h (some r) }
      else
        match m2.top.getD h Option.none with
        | Option.none => Except.error Err.undefined_behaviour
        | some t =>
          if m2.matrix_row.getD r 0 < m2.matrix_row.getD t 0 then
            Except.ok { m2 with top := m2.top.set_opt h (some r) }
          else Except.ok m2

/-- Second half of the body of the inner loop of `restore_column`: header `h`
leaves its index, its count grows by one, and it re-enters the index. -/
def rekey_up (m : dlx_matrix) (h : Nat) : dlx_matrix :=
  if m.matrix_column.getD h 0 < m.optional_constraint_start_column then
    header_tree_insert
      { header_tree_erase m h with count := m.count.set_int h (m.count.getD h 0 + 1) } h
  else
    optional_header_tree_insert
      { optional_header_tree_erase m h with
          count := m.count.set_int h (m.count.getD h 0 + 1) } h

/-- Body of the inner loop of `restore_column` for `curr_row_node = r`. -/
def restore_node (m : dlx_matrix) (r : Nat) : Except Err dlx_matrix :=
  match relink_node m r with
  | Except.error e => Except.error e
  | Except.ok m3 => Except.ok (rekey_up m3 (m3.header.getD r 0))

/-- Inner loop of `restore_column`: visits the row of `curr_node` leftward. -/
def restore_column_row (curr_node : Nat) : Nat → dlx_matrix → Nat → Except Err dlx_matrix
  | 0, _, _ => Except.error Err.out_of_fuel
  | fuel + 1, m, curr_row_node =>
    if curr_row_node = curr_node then Except.ok m
    else
      match restore_node m curr_row_node with
      | Except.error e => Except.error e
      | Except.ok m1 => restore_column_row curr_node fuel m1 (m1.left.getD curr_row_node 0)

/-- Outer loop of `restore_column`: visits the column of `given_node` upward. -/
def restore_column_loop (fuel0 : Nat) (given_node : Nat) :
    Nat → dlx_matrix → Nat → Except Err dlx_matrix
  | 0, _, _ => Except.error Err.out_of_fuel
  | fuel + 1, m, curr_node =>
    if curr_node = given_node then Except.ok m
    else
      match restore_column_row curr_node fuel0 m (m.left.getD curr_node 0) with
      | Except.error e => Except.error e
      | Except.ok m1 => restore_column_loop fuel0 given_node fuel m1 (m1.up.getD curr_node 0)

/-- Function `dlx_matrix::restore_column`. -/
def restore_column (fuel : Nat) (m : dlx_matrix) (given_node : Nat) : Except Err dlx_matrix :=
  restore_column_loop fuel given_node fuel m (m.up.getD given_node 0)

/-- Loop of `remove_row`: for every node of the row other than
`given_row_node`, rightward, its header leaves its index and its column is
removed. -/
def remove_row_loop (fuel0 : Nat) (given_row_node : Nat) :
    Nat → dlx_matrix → Nat → Except Err dlx_matrix
  | 0, _, _ => Except.error Err.out_of_fuel
  | fuel + 1, m, base_row_node =>
    if base_row_node = given_row_node then Except.ok m
    else
      let h := m.header.getD base_row_node 0
      let m1 :=
        if m.matrix_column.getD h 0 < m.optional_constraint_start_column then
          header_tree_erase m h
        else optional_header_tree_erase m h
      match remove_column fuel0 m1 base_row_node with
      | Except.error e => Except.error e
      | Except.ok m2 =>
        remove_row_loop fuel0 given_row_node fuel m2 (m2.right.getD base_row_node 0)

/-- Function `dlx_matrix::remove_row`. -/
def remove_row (fuel : Nat) (m : dlx_matrix) (given_row_node : Nat) : Except Err dlx_matrix :=
  remove_row_loop fuel given_row_node fuel m (m.right.getD given_row_node 0)

/-- Loop of `restore_row`: for every node of the row other than
`given_row_node`, leftward, its column is restored and its header re-enters
its index. -/
def restore_row_loop (fuel0 : Nat) (given_row_node : Nat) :
    Nat → dlx_matrix → Nat → Except Err dlx_matrix
  | 0, _, _ => Except.error Err.out_of_fuel
  | fuel + 1, m, base_row_node =>
    if base_row_node = given_row_node then Except.ok m
    else
      match restore_column fuel0 m base_row_node with
      | Except.error e => Except.error e
      | Except.ok m1 =>
        let h := m1.header.getD base_row_node 0
        let m2 :=
          if m1.matrix_column.getD h 0 < m1.optional_constraint_start_column then
            header_tree_insert m1 h
          else optional_header_tree_insert m1 h
        restore_row_loop fuel0 given_row_node fuel m2 (m2.left.getD base_row_node 0)

/-- Function `dlx_matrix::restore_row`. -/
def restore_row (fuel : Nat) (m : dlx_matrix) (given_row_node : Nat) : Except Err dlx_matrix :=
  restore_row_loop fuel given_row_node fuel m (m.left.getD given_row_node 0)

/-! ## Algorithm X engine -/

/-- Local variables of `solve` that change in its main loop. -/
structure solve_state (β : Type) where
  m : dlx_matrix
  backtrack_stack : List (Nat × Nat)
  solutions : List β
  solution_count : Int

/-- The `while` loop of `solve` that backtracks: as long as the node on top of
the stack is the bottom of its header, its row and column are restored, the
header re-enters the mandatory index and the entry is popped. -/
def backtrack_loop (fuel0 : Nat) :
    dlx_matrix → List (Nat × Nat) → Except Err (dlx_matrix × List (Nat × Nat))
  | m, [] => Except.ok (m, [])
  | m, (h, nd) :: rest =>
    if m.bottom.getD h Option.none = some nd then
      match restore_row fuel0 m nd with
      | Except.error e => Except.error e
      | Except.ok m1 =>
        match restore_column fuel0 m1 nd with
        | Except.error e => Except.error e
        | Except.ok m2 => backtrack_loop fuel0 (header_tree_insert m2 h) rest
    else Except.ok (m, (h, nd) :: rest)

/-- First `while` loop of the `correct_moves` branch: the copy of the stack is
popped entry by entry and the interpretation of what is left is pushed on
`temporary_results` (a stack, top first). -/
def correct_moves_results {β : Type} (interpret_result : List (Nat × Nat) → β) :
    List (Nat × Nat) → List β → List β
  | [], temporary_results => temporary_results
  | e :: rest, temporary_results =>
    correct_moves_results interpret_result rest (interpret_result (e :: rest) :: temporary_results)

/-- Outputs appended in `correct_moves` mode: the second `while` loop pops
`temporary_results` from its top and pushes each onto `solutions`. -/
def correct_moves_outputs {β : Type} (interpret_result : List (Nat × Nat) → β)
    (backtrack_stack : List (Nat × Nat)) : List β :=
  correct_moves_results interpret_result backtrack_stack []

/-- Condition of the first `if` of the main loop:
`header_tree.empty() || (*header_tree.begin())->count <= 0`. -/
def terminal_check (m : dlx_matrix) : Bool :=
  tree_empty m ||
    (match tree_begin m with
      | some b => decide (m.count.getD b 0 ≤ 0)
      | Option.none => true)

/-- Body of `if (header_tree.empty())` in the main loop: the solution on the
stack is saved as the save setting asks and counted. -/
def record_solution {β : Type} (interpret_result : dlx_matrix → List (Nat × Nat) → β)
    (save_setting : dlx_save_setting) (st : solve_state β) : solve_state β :=
  { st with
    solutions :=
      (match save_setting with
        | dlx_save_setting.solutions =>
          st.solutions ++ [interpret_result st.m st.backtrack_stack]
        | dlx_save_setting.correct_moves =>
          st.solutions ++ correct_moves_outputs (interpret_result st.m) st.backtrack_stack
        | _ => st.solutions),
    solution_count := st.solution_count + 1 }

/-- Statement `if (save_setting == all_moves) solutions.push_back(...)` that
follows a push or a replacement on the stack. -/
def record_move {β : Type} (interpret_result : dlx_matrix → List (Nat × Nat) → β)
    (save_setting : dlx_save_setting) (solutions : List β) (m : dlx_matrix)
    (backtrack_stack : List (Nat × Nat)) : List β :=
  if save_setting = dlx_save_setting.all_moves then
    solutions ++ [interpret_result m backtrack_stack]
  else solutions

/-- Body of the main `while` loop of `solve`, run on the loop variables.  The
flag of the value tells whether the body executed a `return` (then
`solutions` holds the returned vector) or fell through to the loop test. -/
def solve_body {β : Type} (interpret_result : dlx_matrix → List (Nat × Nat) → β)
    (fuel0 : Nat) (save_setting : dlx_save_setting) (st : solve_state β) :
    Except Err (Bool × solve_state β) :=
  if terminal_check st.m then
    let st1 : solve_state β :=
      if tree_empty st.m then record_solution interpret_result save_setting st else st
    match backtrack_loop fuel0 st1.m st1.backtrack_stack with
    | Except.error e => Except.error e
    | Except.ok (m2, []) =>
      if st1.solution_count < 1 then
        Except.ok (true, { st1 with m := m2, backtrack_stack := [], solutions := [] })
      else Except.ok (true, { st1 with m := m2, backtrack_stack := [] })
    | Except.ok (m2, (curr_header, nd) :: rest) =>
      let curr_node := m2.down.getD nd 0
      match restore_row fuel0 m2 nd with
      | Except.error e => Except.error e
      | Except.ok m3 =>
        match restore_column fuel0 m3 nd with
        | Except.error e => Except.error e
        | Except.ok m4 =>
          match remove_column fuel0 m4 curr_node with
          | Except.error e => Except.error e
          | Except.ok m5 =>
            match remove_row fuel0 m5 curr_node with
            | Except.error e => Except.error e
            | Except.ok m6 =>
              Except.ok (false,
                { m := m6, backtrack_stack := (curr_header, curr_node) :: rest,
                  solutions :=
                    record_move interpret_result save_setting st1.solutions m6
                      ((curr_header, curr_node) :: rest),
                  solution_count := st1.solution_count })
  else
    match tree_begin st.m with
    | Option.none => Except.error Err.undefined_behaviour
    | some curr_header =>
      match st.m.top.getD curr_header Option.none with
      | Option.none => Except.error Err.undefined_behaviour
      | some curr_node =>
        match remove_column fuel0 (header_tree_erase st.m curr_header) curr_node with
        | Except.error e => Except.error e
        | Except.ok m2 =>
          match remove_row fuel0 m2 curr_node with
          | Except.error e => Except.error e
          | Except.ok m3 =>
            Except.ok (false,
              { m := m3, backtrack_stack := (curr_header, curr_node) :: st.backtrack_stack,
                solutions :=
                  record_move interpret_result save_setting st.solutions m3
                    ((curr_header, curr_node) :: st.backtrack_stack),
                solution_count := st.solution_count })

/-- Main `while (solution_count < max_solutions)` loop of `solve`.  The value
is the state at the `return`: the mesh and the stack left behind, the returned
vector in `solutions`, and the number of solutions counted. -/
def solve_loop {β : Type} (interpret_result : dlx_matrix → List (Nat × Nat) → β)
    (fuel0 : Nat) (max_solutions : Int) (save_setting : dlx_save_setting) :
    Nat → solve_state β → Except Err (solve_state β)
  | 0, _ => Except.error Err.out_of_fuel
  | fuel + 1, st =>
    if st.solution_count < max_solutions then
      match solve_body interpret_result fuel0 save_setting st with
      | Except.error e => Except.error e
      | Except.ok (true, st1) => Except.ok st1
      | Except.ok (false, st1) =>
        solve_loop interpret_result fuel0 max_solutions save_setting fuel st1
    else Except.ok st

/-- The two header indices as `solve` fills them before calling the adapter:
headers below `optional_constraint_start_column` in `header_tree`, the others
in `optional_header_tree`. -/
def populate_trees (m : dlx_matrix) : dlx_matrix :=
  { m with
    header_tree :=
      (List.range m.optional_constraint_start_column).foldl
        (fun t i => t.set_bool i true) (Vec.replicate m.array_width false),
    optional_header_tree :=
      (List.range m.array_width).foldl
        (fun t i => if m.optional_constraint_start_column ≤ i then t.set_bool i true else t)
        (Vec.replicate m.array_width false) }

/-- Function `dlx_matrix::solve(data_in, max_solutions, save_setting)`.  The
adapter enters through its `initialize` (already applied to `data_in`) and its
`interpret_result`.  The value is the state at the `return`, with the returned
vector in `solutions`. -/
def solve {β : Type} (initialize_fn : Nat → dlx_matrix → Except Err (Bool × dlx_matrix))
    (interpret_result : dlx_matrix → List (Nat × Nat) → β)
    (fuel : Nat) (m : dlx_matrix) (max_solutions : Int)
    (save_setting : dlx_save_setting) : Except Err (solve_state β) :=
  let max_solutions1 : Int := if max_solutions = -1 then 2147483647 else max_solutions
  if m.array_width < m.optional_constraint_start_column then
    Except.error Err.undefined_behaviour
  else
    match initialize_fn fuel (populate_trees m) with
    | Except.error e => Except.error e
    | Except.ok (false, m1) =>
      Except.ok { m := m1, backtrack_stack := [], solutions := [], solution_count := 0 }
    | Except.ok (true, m1) =>
      solve_loop interpret_result fuel max_solutions1 save_setting fuel
        { m := m1, backtrack_stack := [], solutions := [], solution_count := 0 }

/-- The vector a call of `solve` returns, when it returns. -/
def returned {β : Type} (r : Except Err (solve_state β)) : Option (List β) :=
  match r with
  | Except.ok st => some st.solutions
  | Except.error _ => Option.none

/-- One-argument `solve(data_in)`, that is `solve(data_in, 1)[0]`: indexing an
empty vector is undefined behaviour. -/
def solve_first {β : Type} (initialize_fn : Nat → dlx_matrix → Except Err (Bool × dlx_matrix))
    (interpret_result : dlx_matrix → List (Nat × Nat) → β)
    (fuel : Nat) (m : dlx_matrix) : Except Err β :=
  match solve initialize_fn interpret_result fuel m 1 dlx_save_setting.solutions with
  | Except.error e => Except.error e
  | Except.ok st =>
    match st.solutions with
    | [] => Except.error Err.undefined_behaviour
    | x :: _ => Except.ok x

/-! ## Generic matrix builder -/

/-- Body of the inner loop of `generate` for node `matrix[matrix_row][i]`. -/
def generate_node (num_constraints : Nat) (get_column : Nat → Nat → Int)
    (m : dlx_matrix) (matrix_row i : Nat) : dlx_matrix :=
  let p := matrix_row * num_constraints + i
  let h := (get_column matrix_row i).toNat
  let m1 : dlx_matrix :=
    { m with
      header := m.header.set_nat p h,
      right := m.right.set_nat p (matrix_row * num_constraints +
        (if i ≠ num_constraints - 1 then i + 1 else 0)),
      left := m.left.set_nat p (matrix_row * num_constraints +
        (if i ≠ 0 then i - 1 else num_constraints - 1)),
      matrix_row := m.matrix_row.set_nat p matrix_row }
  match m1.top.getD h Option.none, m1.bottom.getD h Option.none with
  | some t, some b =>
    let m2 : dlx_matrix := { m1 with up := m1.up.set_nat p b, down := m1.down.set_nat p t }
    let m3 : dlx_matrix := { m2 with down := m2.down.set_nat b p }
    let m4 : dlx_matrix := { m3 with up := m3.up.set_nat t p }
    { m4 with bottom := m4.bottom.set_opt h (some p) }
  | some _, Option.none => m1
  | Option.none, _ =>
    { m1 with
      top := m1.top.set_opt h (some p), bottom := m1.bottom.set_opt h (some p),
      up := m1.up.set_nat p p, down := m1.down.set_nat p p }

/-- Function `dlx_matrix::generate` run on vectors of the sizes the
constructors allocate (`array_len * num_constraints` nodes, `array_width`
headers). -/
def generate (array_len array_width num_constraints : Nat) (get_count : Nat → Int)
    (get_column : Nat → Nat → Int) (optional_constraint_start_column : Nat) : dlx_matrix :=
  let m0 : dlx_matrix :=
    { array_len := array_len,
      array_width := array_width,
      num_constraints := num_constraints,
      left := Vec.replicate (array_len * num_constraints) 0,
      right := Vec.replicate (array_len * num_constraints) 0,
      up := Vec.replicate (array_len * num_constraints) 0,
      down := Vec.replicate (array_len * num_constraints) 0,
      header := Vec.replicate (array_len * num_constraints) 0,
      matrix_row := Vec.replicate (array_len * num_constraints) 0,
      count :=
        (List.range array_width).foldl (fun v i => v.set_int i (get_count i))
          (Vec.replicate array_width 0),
      matrix_column :=
        (List.range array_width).foldl (fun v i => v.set_nat i i) (Vec.replicate array_width 0),
      top := Vec.replicate array_width Option.none,
      bottom := Vec.replicate array_width Option.none,
      optional_constraint_start_column := optional_constraint_start_column,
      header_tree := Vec.replicate array_width false,
      optional_header_tree := Vec.replicate array_width false }
  (List.range array_len).foldl
    (fun m matrix_row =>
      (List.range num_constraints).foldl
        (fun m1 i => generate_node num_constraints get_column m1 matrix_row i) m)
    m0

/-- Shared shape of `dlx_matrix_sudoku::initialize` and
`dlx_matrix_n_queens::initialize` for one pre-filled cell: the `do ... while`
walk over the row of `base_row_node`.  Dereferencing `header_tree.begin()` of
an empty index is undefined behaviour. -/
def initialize_walk (fuel0 : Nat) (base_row_node : Nat) :
    Nat → dlx_matrix → Nat → Except Err (Bool × dlx_matrix)
  | 0, _, _ => Except.error Err.out_of_fuel
  | fuel + 1, m, curr_row_node =>
    match tree_begin m with
    | Option.none => Except.error Err.undefined_behaviour
    | some b =>
      if m.count.getD b 0 ≤ 0 then Except.ok (false, m)
      else
        match remove_column fuel0 (header_tree_erase m (m.header.getD curr_row_node 0))
            curr_row_node with
        | Except.error e => Except.error e
        | Except.ok m1 =>
          if m1.right.getD curr_row_node 0 = base_row_node then Except.ok (true, m1)
          else initialize_walk fuel0 base_row_node fuel m1 (m1.right.getD curr_row_node 0)

/-- Write `v` at `board[i][j]`. -/
def board_set (board : List (List Int)) (i j : Nat) (v : Int) : List (List Int) :=
  board.set i ((board.getD i []).set j v)

/-- Cell positions in the order of the two nested `for` loops of the adapters'
`initialize`: rows `0 .. size()-1`, columns `0 .. starting_puzzle[0].size()-1`. -/
def board_positions (starting_puzzle : List (List Int)) : List (Nat × Nat) :=
  (List.range starting_puzzle.length).flatMap
    (fun row => (List.range (starting_puzzle.getD 0 []).length).map (fun col => (row, col)))

/-! ## Sudoku adapter -/

/-- Truncated square root, `(int)sqrt(x)`. -/
def isqrt (x : Nat) : Nat :=
  (List.range (x + 1)).foldl (fun s k => if k * k ≤ x then k else s) 0

/-- Function `dlx_matrix_sudoku::get_count`. -/
def sudoku_get_count (sudoku_width : Nat) (_matrix_column : Nat) : Int :=
  sudoku_width

/-- Function `dlx_matrix_sudoku::get_column`. -/
def sudoku_get_column (sudoku_width sqrt_width : Nat) (matrix_row constraint_num : Nat) : Int :=
  let row_num := matrix_row / sudoku_width / sudoku_width
  let col_num := matrix_row / sudoku_width % sudoku_width
  let curr_num := matrix_row % sudoku_width
  match constraint_num with
  | 0 => ((row_num * sudoku_width + col_num : Nat) : Int)
  | 1 => ((row_num * sudoku_width + curr_num + sudoku_width * sudoku_width : Nat) : Int)
  | 2 => ((col_num * sudoku_width + curr_num + sudoku_width * sudoku_width * 2 : Nat) : Int)
  | 3 => (((row_num / sqrt_width * sqrt_width + col_num / sqrt_width) * sudoku_width +
      curr_num + sudoku_width * sudoku_width * 3 : Nat) : Int)
  | _ => -1

/-- Constructor `dlx_matrix_sudoku(puzzle_width)`: the mesh after `generate`. -/
def dlx_matrix_sudoku (puzzle_width : Nat) : dlx_matrix :=
  generate (puzzle_width * puzzle_width * puzzle_width) (puzzle_width * puzzle_width * 4) 4
    (sudoku_get_count puzzle_width) (sudoku_get_column puzzle_width (isqrt puzzle_width))
    (puzzle_width * puzzle_width * 4)

/-- The two nested `for` loops of `dlx_matrix_sudoku::initialize` over the
cell positions still to visit.  Reading a missing cell or a matrix row outside
the matrix is undefined behaviour. -/
def initialize_sudoku_loop (sudoku_width fuel : Nat) (starting_puzzle : List (List Int)) :
    List (Nat × Nat) → dlx_matrix → Except Err (Bool × dlx_matrix)
  | [], m => Except.ok (true, m)
  | (row, col) :: rest, m =>
    match (starting_puzzle.getD row []).get? col with
    | Option.none => Except.error Err.undefined_behaviour
    | some v =>
      if v ≠ -1 then
        let idx : Int := ((row * sudoku_width + col) * sudoku_width : Nat) + v - 1
        if idx < 0 ∨ ((sudoku_width * sudoku_width * sudoku_width : Nat) : Int) ≤ idx then
          Except.error Err.undefined_behaviour
        else
          match initialize_walk fuel (idx.toNat * 4) fuel m (idx.toNat * 4) with
          | Except.error e => Except.error e
          | Except.ok (false, m1) => Except.ok (false, m1)
          | Except.ok (true, m1) =>
            initialize_sudoku_loop sudoku_width fuel starting_puzzle rest m1
      else initialize_sudoku_loop sudoku_width fuel starting_puzzle rest m

/-- Function `dlx_matrix_sudoku::initialize`. -/
def initialize_sudoku (sudoku_width : Nat) (starting_puzzle : List (List Int))
    (fuel : Nat) (m : dlx_matrix) : Except Err (Bool × dlx_matrix) :=
  initialize_sudoku_loop sudoku_width fuel starting_puzzle (board_positions starting_puzzle) m

/-- The `while (!backtrack_stack.empty())` loop of
`dlx_matrix_sudoku::interpret_result`; the stack is read from its top. -/
def interpret_result_sudoku_loop (sudoku_width : Nat) (m : dlx_matrix) :
    List (Nat × Nat) → List (List Int) → List (List Int)
  | [], solved_puzzle => solved_puzzle
  | (_, nd) :: rest, solved_puzzle =>
    let matrix_row := m.matrix_row.getD nd 0
    let matrix_column := m.matrix_column.getD (m.header.getD (matrix_row * 4) 0) 0
    interpret_result_sudoku_loop sudoku_width m rest
      (board_set solved_puzzle
        (matrix_column % (sudoku_width * sudoku_width) / sudoku_width)
        (matrix_column % (sudoku_width * sudoku_width) % sudoku_width)
        ((matrix_row % sudoku_width + 1 : Nat) : Int))

/-- Function `dlx_matrix_sudoku::interpret_result`; `initial_data` is the
board stored by `initialize`. -/
def interpret_result_sudoku (sudoku_width : Nat) (initial_data : List (List Int))
    (m : dlx_matrix) (backtrack_stack : List (Nat × Nat)) : List (List Int) :=
  interpret_result_sudoku_loop sudoku_width m backtrack_stack initial_data

/-- Three-argument `solve` of a fresh `dlx_matrix_sudoku(puzzle_width)`. -/
def sudoku_solve (puzzle_width fuel : Nat) (board : List (List Int)) (max_solutions : Int)
    (save_setting : dlx_save_setting) : Except Err (solve_state (List (List Int))) :=
  solve (initialize_sudoku puzzle_width board) (interpret_result_sudoku puzzle_width board)
    fuel (dlx_matrix_sudoku puzzle_width) max_solutions save_setting

/-! ## N-Queens adapter -/

/-- Function `dlx_matrix_n_queens::get_count`. -/
def n_queens_get_count (board_width : Nat) (matrix_column : Nat) : Int :=
  if matrix_column < board_width * 2 then (board_width : Int)
  else if (matrix_column : Int) < (board_width : Int) * 4 - 1 then
    (board_width : Int) - |(board_width : Int) * 3 - (matrix_column : Int) - 1|
  else
    (board_width : Int) - |(board_width : Int) * 5 - (matrix_column : Int) - 2|

/-- Function `dlx_matrix_n_queens::get_column`. -/
def n_queens_get_column (board_width : Nat) (matrix_row constraint_num : Nat) : Int :=
  let row_num : Int := ((matrix_row / board_width : Nat) : Int)
  let col_num : Int := ((matrix_row % board_width : Nat) : Int)
  match constraint_num with
  | 0 => row_num
  | 1 => col_num + board_width
  | 2 => col_num + row_num + (board_width : Int) * 2
  | 3 => (board_width : Int) - 1 - row_num + col_num + (board_width : Int) * 2 +
      (board_width : Int) * 2 - 1
  | _ => -1

/-- Constructor `dlx_matrix_n_queens(board_width_in)`: the mesh after
`generate`. -/
def dlx_matrix_n_queens (board_width_in : Nat) : dlx_matrix :=
  generate (board_width_in * board_width_in) (board_width_in * 2 + (board_width_in * 2 - 1) * 2)
    4 (n_queens_get_count board_width_in) (n_queens_get_column board_width_in)
    (board_width_in * 2)

/-- The two nested `for` loops of `dlx_matrix_n_queens::initialize` over the
cell positions still to visit. -/
def initialize_n_queens_loop (board_width fuel : Nat) (starting_puzzle : List (List Int)) :
    List (Nat × Nat) → dlx_matrix → Except Err (Bool × dlx_matrix)
  | [], m => Except.ok (true, m)
  | (row, col) :: rest, m =>
    match (starting_puzzle.getD row []).get? col with
    | Option.none => Except.error Err.undefined_behaviour
    | some v =>
      if v ≠ 0 then
        if board_width * board_width ≤ row * board_width + col then
          Except.error Err.undefined_behaviour
        else
          match initialize_walk fuel ((row * board_width + col) * 4) fuel m
              ((row * board_width + col) * 4) with
          | Except.error e => Except.error e
          | Except.ok (false, m1) => Except.ok (false, m1)
          | Except.ok (true, m1) =>
            initialize_n_queens_loop board_width fuel starting_puzzle rest m1
      else initialize_n_queens_loop board_width fuel starting_puzzle rest m

/-- Function `dlx_matrix_n_queens::initialize`. -/
def initialize_n_queens (board_width : Nat) (starting_puzzle : List (List Int))
    (fuel : Nat) (m : dlx_matrix) : Except Err (Bool × dlx_matrix) :=
  initialize_n_queens_loop board_width fuel starting_puzzle (board_positions starting_puzzle) m

/-- The `while (!backtrack_stack.empty())` loop of
`dlx_matrix_n_queens::interpret_result`. -/
def interpret_result_n_queens_loop (board_width : Nat) (m : dlx_matrix) :
    List (Nat × Nat) → List (List Int) → List (List Int)
  | [], result => result
  | (_, nd) :: rest, result =>
    let matrix_row := m.matrix_row.getD nd 0
    interpret_result_n_queens_loop board_width m rest
      (board_set result (matrix_row / board_width) (matrix_row % board_width) 1)

/-- Function `dlx_matrix_n_queens::interpret_result`. -/
def interpret_result_n_queens (board_width : Nat) (initial_data : List (List Int))
    (m : dlx_matrix) (backtrack_stack : List (Nat × Nat)) : List (List Int) :=
  interpret_result_n_queens_loop board_width m backtrack_stack
    (if initial_data ≠ [] then initial_data
     else List.replicate board_width (List.replicate board_width 0))

/-- Three-argument `solve` of a fresh `dlx_matrix_n_queens(board_width)`. -/
def n_queens_solve (board_width fuel : Nat) (board : List (List Int)) (max_solutions : Int)
    (save_setting : dlx_save_setting) : Except Err (solve_state (List (List Int))) :=
  solve (initialize_n_queens board_width board) (interpret_result_n_queens board_width board)
    fuel (dlx_matrix_n_queens board_width) max_solutions save_setting

/-! ## Polyomino pieces -/

/-- Order `operator<` of `std::pair<int,int>`. -/
def pair_lt (a b : Int × Int) : Bool :=
  decide (a.1 < b.1) || (decide (a.1 = b.1) && decide (a.2 < b.2))

/-- Member `insert` of `std::set<pair<int,int>>`, the set being kept as its
sorted sequence of elements. -/
def cell_set_insert (p : Int × Int) : List (Int × Int) → List (Int × Int)
  | [] => [p]
  | q :: rest =>
    if pair_lt p q then p :: q :: rest
    else if pair_lt q p then q :: cell_set_insert p rest
    else q :: rest

/-- The `std::set<pair<int,int>>` filled with the elements of a sequence, in
the order of the sequence. -/
def cell_set_of (l : List (Int × Int)) : List (Int × Int) :=
  l.foldl (fun s p => cell_set_insert p s) []

/-- The `for` loop of `set_polyomino_compare::operator()` over two sets of the
same size. -/
def set_polyomino_compare_loop : List (Int × Int) → List (Int × Int) → Bool
  | a :: l, b :: r => if a ≠ b then pair_lt a b else set_polyomino_compare_loop l r
  | _, _ => false

/-- Comparator `set_polyomino_compare`: by size, then by the first differing
element. -/
def set_polyomino_compare (l r : List (Int × Int)) : Bool :=
  if l.length ≠ r.length then decide (l.length < r.length)
  else set_polyomino_compare_loop l r

/-- Member `insert` of `shape_set`, kept as its sorted sequence of shapes. -/
def shape_set_insert (s : List (Int × Int)) : List (List (Int × Int)) → List (List (Int × Int))
  | [] => [s]
  | t :: rest =>
    if set_polyomino_compare s t then s :: t :: rest
    else if set_polyomino_compare t s then t :: shape_set_insert s rest
    else t :: rest

/-- Value that 32-bit `int` arithmetic gives an expression whose exact value
is `x`: the two's-complement wrap of `x`. -/
def int_wrap (x : Int) : Int := (x + 2147483648) % 4294967296 - 2147483648

/-- A piece as the constructor of class `polyomino` stores it. -/
structure polyomino where
  x_len : Int
  y_len : Int
  size : Nat
  orientations : Nat
  shapes : List (List (Int × Int))
  flipped : List Bool
  deriving DecidableEq

/-- First loop of the constructor: the largest `first` and `second` of the
offsets; `none` when an offset is negative (`exit(1)`). -/
def polyomino_extent : List (Int × Int) → Int → Int → Option (Int × Int)
  | [], x_len, y_len => some (x_len, y_len)
  | p :: rest, x_len, y_len =>
    if p.1 < 0 ∨ p.2 < 0 then Option.none
    else polyomino_extent rest (if p.1 > x_len then p.1 else x_len)
      (if p.2 > y_len then p.2 else y_len)

/-- Body of the inner loop of a rotation pass: every cell of `last_rotation`
is inserted into `current_rotation` as `(second, len - first)`. -/
def rotate_cells (len : Int) (last_rotation : List (Int × Int)) : List (Int × Int) :=
  cell_set_of (last_rotation.map (fun p => (p.2, len - p.1)))

/-- One pass `i` of a `for (int i=0; i<3; i++)` rotation loop on
`(last_rotation, shape_set, flipped_orientation)`; the shapes that the
iterators in `flipped_orientation` point to are kept as a list. -/
def rotation_step (x_len y_len : Int)
    (st : List (Int × Int) × List (List (Int × Int)) × List (List (Int × Int))) (i : Nat) :
    List (Int × Int) × List (List (Int × Int)) × List (List (Int × Int)) :=
  let current_rotation := rotate_cells (if i % 2 = 1 then y_len else x_len) st.1
  (current_rotation, shape_set_insert current_rotation st.2.1,
    if i % 2 = 0 then st.2.2 ++ [current_rotation] else st.2.2)

/-- Constructor `polyomino(block_positions)`; `x_len++; y_len++;` are `int`
increments. -/
def polyomino_new (block_positions : List (Int × Int)) : Except Err polyomino :=
  match polyomino_extent block_positions 0 0 with
  | Option.none => Except.error Err.exit_failure
  | some (x_len, y_len) =>
    let last_rotation := cell_set_of block_positions
    let st1 := (List.range 3).foldl (rotation_step x_len y_len)
      (last_rotation, shape_set_insert last_rotation [], [])
    let mirrored := cell_set_of (block_positions.map (fun p => (p.1, y_len - p.2)))
    let st2 := (List.range 3).foldl (rotation_step x_len y_len)
      (mirrored, shape_set_insert mirrored st1.2.1, st1.2.2)
    let shape_set := st2.2.1
    Except.ok
      { x_len := int_wrap (x_len + 1),
        y_len := int_wrap (y_len + 1),
        size := block_positions.length,
        orientations := shape_set.length,
        shapes := shape_set.map
          (fun s => s ++ List.replicate (block_positions.length - s.length) (0, 0)),
        flipped := shape_set.map (fun s => decide (s ∈ st2.2.2)) }

/-- Member `getXLength(orientation_num)`. -/
def getXLength (p : polyomino) (orientation_num : Nat) : Int :=
  if p.flipped.getD orientation_num false then p.y_len else p.x_len

/-- Member `getYLength(orientation_num)`. -/
def getYLength (p : polyomino) (orientation_num : Nat) : Int :=
  if p.flipped.getD orientation_num false then p.x_len else p.y_len

/-- Member `getSize()`. -/
def getSize (p : polyomino) : Nat := p.size

/-- Member `getOrientations()`. -/
def getOrientations (p : polyomino) : Nat := p.orientations

/-- Member `getBlock(orientation_num, block_num)`. -/
def getBlock (p : polyomino) (orientation_num block_num : Nat) : Int × Int :=
  (p.shapes.getD orientation_num []).getD block_num (0, 0)

/-! ## Polyomino adapter -/

/-- The object `dlx_matrix_polyomino`: the mesh, and for every matrix row the
index of its first node and its number of nodes (`matrix[r].size()`). -/
structure polyomino_adapter where
  m : dlx_matrix
  board_width : Nat
  row_start : List Nat
  row_size : List Nat
  deriving DecidableEq

/-- The placements `(row, col, poly_num, orient)` for which the four nested
loops of `polyomino_generate` reach the body of their `if`, in loop order; the
two sums of the test are `int` sums. -/
def polyomino_placements (polyomino_list : List polyomino) (board_width : Nat) :
    List (Nat × Nat × Nat × Nat) :=
  (List.range board_width).flatMap (fun row =>
    (List.range board_width).flatMap (fun col =>
      (List.range polyomino_list.length).flatMap (fun poly_num =>
        match polyomino_list.get? poly_num with
        | Option.none => []
        | some curr_poly =>
          (List.range (getOrientations curr_poly)).flatMap (fun orient =>
            if int_wrap ((row : Int) + getYLength curr_poly orient) ≤ board_width ∧
                int_wrap ((col : Int) + getXLength curr_poly orient) ≤ board_width then
              [(row, col, poly_num, orient)]
            else []))))

/-- The statements that hang a new node `p` below the nodes of header
`matrix_header[h]` and count it (`curr_header->count++`); an index `h` past the
end of `matrix_header` is undefined behaviour. -/
def polyomino_link (m : dlx_matrix) (p h : Nat) : Except Err dlx_matrix :=
  if m.array_width ≤ h then Except.error Err.undefined_behaviour
  else
  match m.top.getD h Option.none with
  | Option.none =>
    Except.ok
      { m with
        top := m.top.set_opt h (some p), bottom := m.bottom.set_opt h (some p),
        up := m.up.set_nat p p, down := m.down.set_nat p p,
        count := m.count.set_int h (m.count.getD h 0 + 1) }
  | some t =>
    match m.bottom.getD h Option.none with
    | Option.none => Except.error Err.undefined_behaviour
    | some b =>
      let m2 : dlx_matrix := { m with up := m.up.set_nat p b, down := m.down.set_nat p t }
      let m3 : dlx_matrix := { m2 with down := m2.down.set_nat b p }
      let m4 : dlx_matrix := { m3 with up := m3.up.set_nat t p }
      Except.ok
        { m4 with
          bottom := m4.bottom.set_opt h (some p),
          count := m4.count.set_int h (m4.count.getD h 0 + 1) }

/-- The `for (int i = 0; i < curr_poly.getSize(); i++)` loop of
`polyomino_generate` for the matrix row `matrix_row` whose nodes start at index
`base`: the cell nodes still to build are `i, i+1, ...`.  The index `idx` and
the bound `board_width*board_width` are computed in `int`. -/
def polyomino_cells (curr_poly : polyomino) (board_width row col orient matrix_row base : Nat) :
    Nat → Nat → dlx_matrix → Except Err dlx_matrix
  | 0, _, m => Except.ok m
  | todo + 1, i, m =>
    let block := getBlock curr_poly orient i
    let idx : Int :=
      int_wrap (int_wrap (block.1 + col) + int_wrap (int_wrap (block.2 + row) * board_width))
    if idx ≥ int_wrap ((board_width : Int) * board_width) ∨ idx < 0 then
      Except.error Err.exit_failure
    else
      let m1 : dlx_matrix :=
        { m with
          matrix_row := m.matrix_row.set_nat (base + i) matrix_row,
          header := m.header.set_nat (base + i) idx.toNat,
          right := m.right.set_nat (base + i) (base + i + 1),
          left := m.left.set_nat (base + i)
            (base + (if i > 0 then i - 1 else getSize curr_poly)) }
      match polyomino_link m1 (base + i) idx.toNat with
      | Except.error e => Except.error e
      | Except.ok m2 =>
        polyomino_cells curr_poly board_width row col orient matrix_row base todo (i + 1) m2

/-- Body of the `if` of `polyomino_generate` for one placement: a new matrix
row with `getSize()+1` nodes, the last one in the usage column of the piece,
`matrix_header[poly_num+board_width*board_width]` with an `int` index.  The
`left` of the last node is `&matrix.back()[getSize()-1]`, the node before it;
for a piece without cells that is the address one node before the row. -/
def polyomino_row (polyomino_list : List polyomino) (a : polyomino_adapter)
    (pl : Nat × Nat × Nat × Nat) : Except Err polyomino_adapter :=
  match polyomino_list.get? pl.2.2.1 with
  | Option.none => Except.error Err.undefined_behaviour
  | some curr_poly =>
    let matrix_row := a.row_start.length
    let base := a.row_start.foldl (fun _ s => s) 0 +
      a.row_size.foldl (fun _ s => s) 0
    match polyomino_cells curr_poly a.board_width pl.1 pl.2.1 pl.2.2.2 matrix_row base
        (getSize curr_poly) 0 a.m with
    | Except.error e => Except.error e
    | Except.ok m1 =>
      if int_wrap ((pl.2.2.1 : Int) + int_wrap ((a.board_width : Int) * a.board_width)) < 0
      then Except.error Err.undefined_behaviour
      else
        let poly_constr := getSize curr_poly
        let h :=
          (int_wrap ((pl.2.2.1 : Int) + int_wrap ((a.board_width : Int) * a.board_width))).toNat
        let m2 : dlx_matrix :=
          { m1 with
            matrix_row := m1.matrix_row.set_nat (base + poly_constr) matrix_row,
            header := m1.header.set_nat (base + poly_constr) h,
            right := m1.right.set_nat (base + poly_constr) base,
            left := m1.left.set_nat (base + poly_constr) (base + getSize curr_poly - 1) }
        match polyomino_link m2 (base + poly_constr) h with
        | Except.error e => Except.error e
        | Except.ok m3 =>
          Except.ok
            { a with
              m := { m3 with array_len := matrix_row + 1 },
              row_start := a.row_start ++ [base],
              row_size := a.row_size ++ [getSize curr_poly + 1] }

/-- Number of nodes `polyomino_generate` builds. -/
def polyomino_node_count (polyomino_list : List polyomino) (board_width : Nat) : Nat :=
  ((polyomino_placements polyomino_list board_width).map
    (fun pl => getSize ((polyomino_list.get? pl.2.2.1).getD
      { x_len := 0, y_len := 0, size := 0, orientations := 0, shapes := [], flipped := [] }) +
      1)).sum

/-- Constructor `dlx_matrix_polyomino(polyomino_list_in, board_width_in)`: the
overriding `generate()` clears the headers, `polyomino_generate()` builds the
rows.  The node vectors are allocated at their final size.  The header count
`array_width` is an `int`; when it is negative `matrix_header.resize` throws
and no object is built. -/
def dlx_matrix_polyomino (polyomino_list : List polyomino) (board_width : Nat) :
    Except Err polyomino_adapter :=
  if int_wrap (int_wrap ((board_width : Int) * board_width) + polyomino_list.length) < 0 then
    Except.error Err.undefined_behaviour
  else
  let array_width :=
    (int_wrap (int_wrap ((board_width : Int) * board_width) + polyomino_list.length)).toNat
  let n := polyomino_node_count polyomino_list board_width
  let m0 : dlx_matrix :=
    { array_len := 0,
      array_width := array_width,
      num_constraints := 0,
      left := Vec.replicate n 0,
      right := Vec.replicate n 0,
      up := Vec.replicate n 0,
      down := Vec.replicate n 0,
      header := Vec.replicate n 0,
      matrix_row := Vec.replicate n 0,
      count := Vec.replicate array_width 0,
      matrix_column :=
        (List.range array_width).foldl (fun v i => v.set_nat i i) (Vec.replicate array_width 0),
      top := Vec.replicate array_width Option.none,
      bottom := Vec.replicate array_width Option.none,
      optional_constraint_start_column := array_width,
      header_tree := Vec.replicate array_width false,
      optional_header_tree := Vec.replicate array_width false }
  (polyomino_placements polyomino_list board_width).foldl
    (fun r pl =>
      match r with
      | Except.error e => Except.error e
      | Except.ok a => polyomino_row polyomino_list a pl)
    (Except.ok { m := m0, board_width := board_width, row_start := [], row_size := [] })

/-- The two nested `for` loops of `dlx_matrix_polyomino::initialize` over the
cell positions still to visit.  For a non-zero cell the column of the cell is
removed through its `top` node, and that node is then unlinked from its row. -/
def initialize_polyomino_loop (board_width fuel : Nat) (board : List (List Int)) :
    List (Nat × Nat) → dlx_matrix → Except Err (Bool × dlx_matrix)
  | [], m => Except.ok (true, m)
  | (row, col) :: rest, m =>
    match (board.getD row []).get? col with
    | Option.none => Except.error Err.undefined_behaviour
    | some v =>
      if v ≠ 0 then
        let header_target := row * board_width + col
        if m.array_width ≤ header_target then Except.error Err.undefined_behaviour
        else
          match tree_begin m with
          | Option.none => Except.error Err.undefined_behaviour
          | some b =>
            if m.count.getD b 0 ≤ 0 then Except.ok (false, m)
            else
              let m1 := header_tree_erase m header_target
              match m1.top.getD header_target Option.none with
              | Option.none => Except.error Err.undefined_behaviour
              | some t =>
                match remove_column fuel m1 t with
                | Except.error e => Except.error e
                | Except.ok m2 =>
                  match m2.top.getD header_target Option.none with
                  | Option.none => Except.error Err.undefined_behaviour
                  | some t1 =>
                    let m3 : dlx_matrix :=
                      { m2 with left := m2.left.set_nat (m2.right.getD t1 0) (m2.left.getD t1 0) }
                    let m4 : dlx_matrix :=
                      { m3 with right := m3.right.set_nat (m3.left.getD t1 0) (m3.right.getD t1 0) }
                    initialize_polyomino_loop board_width fuel board rest m4
      else initialize_polyomino_loop board_width fuel board rest m

/-- Function `dlx_matrix_polyomino::initialize`. -/
def initialize_polyomino (board_width : Nat) (board : List (List Int))
    (fuel : Nat) (m : dlx_matrix) : Except Err (Bool × dlx_matrix) :=
  initialize_polyomino_loop board_width fuel board (board_positions board) m

/-- The `for (int i = 0; i < matrix[matrix_row].size()-1; i++)` loop of
`dlx_matrix_polyomino::interpret_result`: the cells of the row whose nodes
start at `base` receive the number `v` of the piece. -/
def interpret_result_polyomino_row (board_width : Nat) (m : dlx_matrix) (base : Nat) (v : Int) :
    List Nat → List (List Int) → List (List Int)
  | [], result => result
  | i :: rest, result =>
    let c := m.matrix_column.getD (m.header.getD (base + i) 0) 0
    interpret_result_polyomino_row board_width m base v rest
      (board_set result (c / board_width) (c % board_width) v)

/-- The `while (!backtrack_stack.empty())` loop of
`dlx_matrix_polyomino::interpret_result`. -/
def interpret_result_polyomino_loop (a : polyomino_adapter) (m : dlx_matrix) :
    List (Nat × Nat) → List (List Int) → List (List Int)
  | [], result => result
  | (_, nd) :: rest, result =>
    let matrix_row := m.matrix_row.getD nd 0
    let base := a.row_start.getD matrix_row 0
    let sz := a.row_size.getD matrix_row 0
    let v : Int :=
      int_wrap ((m.matrix_column.getD (m.header.getD (base + (sz - 1)) 0) 0 : Int) -
        int_wrap ((a.board_width : Int) * a.board_width))
    interpret_result_polyomino_loop a m rest
      (interpret_result_polyomino_row a.board_width m base v (List.range (sz - 1)) result)

/-- Function `dlx_matrix_polyomino::interpret_result`. -/
def interpret_result_polyomino (a : polyomino_adapter) (board : List (List Int))
    (m : dlx_matrix) (backtrack_stack : List (Nat × Nat)) : List (List Int) :=
  interpret_result_polyomino_loop a m backtrack_stack
    (if board ≠ [] then board
     else List.replicate a.board_width (List.replicate a.board_width 0))

/-- Three-argument `solve` of a fresh
`dlx_matrix_polyomino(polyomino_list, board_width)`. -/
def polyomino_solve (polyomino_list : List polyomino) (board_width fuel : Nat)
    (board : List (List Int)) (max_solutions : Int) (save_setting : dlx_save_setting) :
    Except Err (solve_state (List (List Int))) :=
  match dlx_matrix_polyomino polyomino_list board_width with
  | Except.error e => Except.error e
  | Except.ok a =>
    solve (initialize_polyomino board_width board) (interpret_result_polyomino a board)
      fuel a.m max_solutions save_setting

/-! ## Reading a board (`main.cpp`) -/

/-- The lines that successive calls of `std::getline(in, line)` deliver for
the characters `s` of a stream; `acc` holds the characters of the line being
read.  At the end of the stream a call that extracted nothing fails, so no
line is delivered for it. -/
def stream_lines : List Char → List Char → List (List Char)
  | [], acc => if acc = [] then [] else [acc]
  | c :: rest, acc =>
    if c = Char.ofNat 10 then acc :: stream_lines rest [] else stream_lines rest (acc ++ [c])

/-- The loop `while (sin >> value)` of `getBoardFromStream` over the values
the extractions deliver: `none` stands for the `return vector<vector<int> >()`
inside it, otherwise the row built and the new `max`. -/
def getBoardFromStream_row (size : Int) : List Int → List Int → Int → Option (List Int × Int)
  | [], row, max => some (row, max)
  | value :: rest, row, max =>
    if size = -1 then
      getBoardFromStream_row size rest (row ++ [if value < 1 then -1 else value])
        (if value > max then value else max)
    else if value > size then Option.none
    else getBoardFromStream_row size rest (row ++ [if value < 1 then -1 else value]) max

/-- The loop `while (getline(in, line) && !line.empty())` of
`getBoardFromStream` over the lines still to come, followed by the final test
of the function.  `extract line` is the sequence of values that the
extractions `sin >> value` deliver for a line before the first one that fails,
and `square_ok size` tells whether `sqrt(size) * sqrt(size) == size` holds in
the floating-point arithmetic of the machine. -/
def getBoardFromStream_loop (extract : List Char → List Int) (square_ok : Nat → Bool) :
    List (List Char) → List (List Int) → Int → Int → List (List Int)
  | [], to_return, size, _ => if size ≠ (to_return.length : Int) then [] else to_return
  | line :: rest, to_return, size, max =>
    if line = [] then (if size ≠ (to_return.length : Int) then [] else to_return)
    else
      match getBoardFromStream_row size (extract line) [] max with
      | Option.none => []
      | some (row, max1) =>
        if size = -1 then
          if square_ok row.length = false then []
          else if max1 > (row.length : Int) then []
          else getBoardFromStream_loop extract square_ok rest (to_return ++ [row])
            (row.length : Int) max1
        else if size ≠ (row.length : Int) then []
        else getBoardFromStream_loop extract square_ok rest (to_return ++ [row]) size max1

/-- Function `getBoardFromStream(in)` on the characters of the stream. -/
def getBoardFromStream (extract : List Char → List Int) (square_ok : Nat → Bool)
    (text : List Char) : List (List Int) :=
  getBoardFromStream_loop extract square_ok (stream_lines text []) [] (-1) 0

/-! ## Well-formed meshes -/

/-- In the set `S` of node indices, `q` is the cyclic successor of `p`: the
least member above `p`, or the least member of all when nothing lies above. -/
def CycSucc (S : Nat → Prop) (p q : Nat) : Prop :=
  S q ∧ ((p < q ∧ ∀ x, S x → ¬ (p < x ∧ x < q)) ∨
    (q ≤ p ∧ (∀ x, S x → x ≤ p) ∧ ∀ x, S x → q ≤ x))

/-- Number of forward steps from position `a` to position `b` on a ring of
`n` positions. -/
def cdist (n a b : Nat) : Nat :=
  if a ≤ b then b - a else b + n - a

/-- The two meshes agree on every field that cover and uncover never write. -/
structure SameFrame (m m' : dlx_matrix) : Prop where
  array_len : m'.array_len = m.array_len
  array_width : m'.array_width = m.array_width
  num_constraints : m'.num_constraints = m.num_constraints
  left : m'.left = m.left
  right : m'.right = m.right
  header : m'.header = m.header
  matrix_row : m'.matrix_row = m.matrix_row
  matrix_column : m'.matrix_column = m.matrix_column
  optional_start : m'.optional_constraint_start_column = m.optional_constraint_start_column

/-- Every vector of the mesh has room for its `N` nodes or its `array_width`
headers. -/
structure Shape (m : dlx_matrix) (N : Nat) : Prop where
  left : ∀ p, p < N → m.left.inb p = true
  right : ∀ p, p < N → m.right.inb p = true
  up : ∀ p, p < N → m.up.inb p = true
  down : ∀ p, p < N → m.down.inb p = true
  header : ∀ p, p < N → m.header.inb p = true
  matrix_row : ∀ p, p < N → m.matrix_row.inb p = true
  count : ∀ c, c < m.array_width → m.count.inb c = true
  matrix_column : ∀ c, c < m.array_width → m.matrix_column.inb c = true
  top : ∀ c, c < m.array_width → m.top.inb c = true
  bottom : ∀ c, c < m.array_width → m.bottom.inb c = true
  header_tree : ∀ c, c < m.array_width → m.header_tree.inb c = true
  optional_header_tree : ∀ c, c < m.array_width → m.optional_header_tree.inb c = true

/-- The nodes of the matrix row that holds node `p`. -/
def row_set (m : dlx_matrix) (N p : Nat) : Nat → Prop :=
  fun x => x < N ∧ m.matrix_row.getD x 0 = m.matrix_row.getD p 0

/-- The part of the mesh that is fixed once the matrix is built: headers are
numbered by their index, nodes are numbered row by row, a row meets a column at
most once, and `right` / `left` run cyclically through the nodes of a row. -/
structure Static (m : dlx_matrix) (N : Nat) : Prop where
  column_id : ∀ c, c < m.array_width → m.matrix_column.getD c 0 = c
  header_lt : ∀ p, p < N → m.header.getD p 0 < m.array_width
  row_mono : ∀ p q, p < N → q < N → p ≤ q → m.matrix_row.getD p 0 ≤ m.matrix_row.getD q 0
  row_distinct : ∀ p q, p < N → q < N → m.matrix_row.getD p 0 = m.matrix_row.getD q 0 →
    m.header.getD p 0 = m.header.getD q 0 → p = q
  right_succ : ∀ p, p < N → CycSucc (row_set m N p) p (m.right.getD p 0)
  left_pred : ∀ p, p < N → CycSucc (row_set m N p) (m.left.getD p 0) p
  left_mem : ∀ p, p < N → row_set m N p (m.left.getD p 0)

/-- The nodes of column `c` that are currently linked, given the set `hid` of
unlinked nodes. -/
def col_set (m : dlx_matrix) (N : Nat) (hid : Nat → Prop) (c : Nat) : Nat → Prop :=
  fun x => x < N ∧ m.header.getD x 0 = c ∧ ¬ hid x

/-- Column `c` is well linked: its count is the number of linked nodes, `top`
and `bottom` are the linked nodes of least and greatest index (null when there
is none), and `down` / `up` run cyclically through the linked nodes in
increasing order. -/
structure ColOK (m : dlx_matrix) (N : Nat) (hid : Nat → Prop) (c : Nat) : Prop where
  count_eq : m.count.getD c 0 = ((Set.ncard {x | col_set m N hid c x} : Nat) : Int)
  top_none : m.top.getD c Option.none = Option.none → ∀ x, ¬ col_set m N hid c x
  top_some : ∀ t, m.top.getD c Option.none = some t →
    col_set m N hid c t ∧ ∀ x, col_set m N hid c x → t ≤ x
  bottom_none : m.bottom.getD c Option.none = Option.none → ∀ x, ¬ col_set m N hid c x
  bottom_some : ∀ b, m.bottom.getD c Option.none = some b →
    col_set m N hid c b ∧ ∀ x, col_set m N hid c x → x ≤ b
  down_succ : ∀ p, col_set m N hid c p → CycSucc (col_set m N hid c) p (m.down.getD p 0)
  up_pred : ∀ p, col_set m N hid c p → CycSucc (col_set m N hid c) (m.up.getD p 0) p
  up_mem : ∀ p, col_set m N hid c p → col_set m N hid c (m.up.getD p 0)

/-- Every column of the mesh is well linked with respect to the set `hid` of
unlinked nodes. -/
structure ColInv (m : dlx_matrix) (N : Nat) (hid : Nat → Prop) : Prop where
  shape : Shape m N
  static : Static m N
  hid_lt : ∀ x, hid x → x < N
  col : ∀ c, c < m.array_width → ColOK m N hid c

/-- Header `c` is a member of the index it belongs to: `header_tree` for a
mandatory column, `optional_header_tree` for an optional one. -/
def in_index (m : dlx_matrix) (c : Nat) : Prop :=
  if m.matrix_column.getD c 0 < m.optional_constraint_start_column then
    m.header_tree.getD c false = true
  else m.optional_header_tree.getD c false = true


/-- The nodes of the row of `C` that a rightward walk standing at `x` still
has to visit before it is back at `C`. -/
def row_rest (m : dlx_matrix) (N C x : Nat) : Nat → Prop :=
  fun y => row_set m N C y ∧ y ≠ C ∧ cdist N y C ≤ cdist N x C

/-- The nodes that the outer loop of `remove_column`, called on `s` and
standing at `x`, still has to unlink: the other nodes of the rows of the
linked nodes of the column of `s` between `x` and `s`. -/
def col_rest (m : dlx_matrix) (N : Nat) (hid : Nat → Prop) (s x : Nat) : Nat → Prop :=
  fun y => ∃ C, col_set m N hid (m.header.getD s 0) C ∧ C ≠ s ∧
    cdist N C s ≤ cdist N x s ∧ row_set m N C y ∧ y ≠ C

/-- The nodes that `remove_column` called on `s` unlinks: the other nodes of
the rows of the other linked nodes of the column of `s`. -/
def col_others (m : dlx_matrix) (N : Nat) (hid : Nat → Prop) (s : Nat) : Nat → Prop :=
  fun y => ∃ C, col_set m N hid (m.header.getD s 0) C ∧ C ≠ s ∧ row_set m N C y ∧ y ≠ C

/-- The two meshes agree on every link, count, `top` and `bottom`; only the
header indices may differ. -/
structure MeshEq (m m' : dlx_matrix) : Prop where
  frame : SameFrame m m'
  up : m'.up = m.up
  down : m'.down = m.down
  count : m'.count = m.count
  top : m'.top = m.top
  bottom : m'.bottom = m.bottom

/-- The header indices hold exactly the mandatory headers that are not covered
and at least the optional headers that are not covered. -/
structure TreeOK (m : dlx_matrix) (cov : Nat → Prop) : Prop where
  mand : ∀ c, c < m.array_width → c < m.optional_constraint_start_column →
    (m.header_tree.getD c false = true ↔ ¬ cov c)
  opt : ∀ c, c < m.array_width → m.optional_constraint_start_column ≤ c → ¬ cov c →
    m.optional_header_tree.getD c false = true
  only_mand : ∀ c, c < m.array_width → m.optional_constraint_start_column ≤ c →
    m.header_tree.getD c false = false

/-- Consistency of a mesh in which the columns `cov` have been covered and the
nodes `hid` unlinked: every column is well linked; a row with an unlinked node
keeps its linked nodes in covered columns only and has such a node; a fully
linked row meets covered columns everywhere or nowhere, except the row `cur`
whose columns are being covered; the indices hold the uncovered headers. -/
structure Cons (m : dlx_matrix) (N : Nat) (hid : Nat → Prop) (cov : Nat → Prop)
    (cur : Option Nat) : Prop where
  col : ColInv m N hid
  cov_lt : ∀ c, cov c → c < m.array_width
  dismissed : ∀ p q, p < N → q < N → m.matrix_row.getD p 0 = m.matrix_row.getD q 0 →
    ¬ hid p → hid q → cov (m.header.getD p 0)
  chosen : ∀ p q, p < N → q < N → m.matrix_row.getD p 0 = m.matrix_row.getD q 0 →
    ¬ hid p → ¬ hid q → cov (m.header.getD p 0) →
    cov (m.header.getD q 0) ∨ cur = some (m.matrix_row.getD p 0)
  witness : ∀ q, hid q → ∃ p, p < N ∧ m.matrix_row.getD p 0 = m.matrix_row.getD q 0 ∧
    ¬ hid p ∧ cov (m.header.getD p 0)
  tree : TreeOK m cov

/-! ## Matrices built by `generate` -/

/-- Header index the generic builder gives node `p`, that is node
`matrix[p / K][p % K]`. -/
def node_header (K : Nat) (get_column : Nat → Nat → Int) (p : Nat) : Nat :=
  (get_column (p / K) (p % K)).toNat

/-- The adapter's `get_column` describes a matrix: there is at least one
constraint per row, every node gets a header inside the header array, and a
row meets a column at most once. -/
structure GenShape (L W K : Nat) (get_column : Nat → Nat → Int) : Prop where
  K_pos : 0 < K
  in_range : ∀ r i, r < L → i < K → 0 ≤ get_column r i ∧ get_column r i < W
  distinct : ∀ r i j, r < L → i < K → j < K → get_column r i = get_column r j → i = j

/-- The adapter callbacks describe an exact-cover matrix: `get_column` is as
above and `get_count` is the number of nodes of each column. -/
structure GenOK (L W K : Nat) (get_count : Nat → Int) (get_column : Nat → Nat → Int)
    extends GenShape L W K get_column : Prop where
  count : ∀ c, c < W →
    get_count c = ((Set.ncard {p | p < L * K ∧ node_header K get_column p = c} : Nat) : Int)

/-- The vertical ring of column `c` runs through the node set `S` in
increasing order, with `top` and `bottom` at its ends. -/
structure RingOK (m : dlx_matrix) (S : Nat → Prop) (c : Nat) : Prop where
  top_none : m.top.getD c Option.none = Option.none → ∀ x, ¬ S x
  top_some : ∀ t, m.top.getD c Option.none = some t → S t ∧ ∀ x, S x → t ≤ x
  bottom_none : m.bottom.getD c Option.none = Option.none → ∀ x, ¬ S x
  bottom_some : ∀ b, m.bottom.getD c Option.none = some b → S b ∧ ∀ x, S x → x ≤ b
  down_succ : ∀ p, S p → CycSucc S p (m.down.getD p 0)
  up_pred : ∀ p, S p → CycSucc S (m.up.getD p 0) p
  up_mem : ∀ p, S p → S (m.up.getD p 0)
  both : m.top.getD c Option.none = Option.none ↔ m.bottom.getD c Option.none = Option.none

/-- State of the mesh while `generate` runs, after the nodes below `P` have
been linked in. -/
structure GenInv (L W K : Nat) (get_count : Nat → Int) (get_column : Nat → Nat → Int)
    (ocs : Nat) (m : dlx_matrix) (P : Nat) : Prop where
  array_width : m.array_width = W
  optional_start : m.optional_constraint_start_column = ocs
  count : ∀ c, c < W → m.count.getD c 0 = get_count c
  matrix_column : ∀ c, c < W → m.matrix_column.getD c 0 = c
  shape : Shape m (L * K)
  header : ∀ p, p < P → m.header.getD p 0 = node_header K get_column p
  right : ∀ p, p < P →
    m.right.getD p 0 = p / K * K + (if p % K ≠ K - 1 then p % K + 1 else 0)
  left : ∀ p, p < P →
    m.left.getD p 0 = p / K * K + (if p % K ≠ 0 then p % K - 1 else K - 1)
  matrix_row : ∀ p, p < P → m.matrix_row.getD p 0 = p / K
  ring : ∀ c, c < W → RingOK m (fun x => x < P ∧ node_header K get_column x = c) c

/-- Row `r` of the matrix described by `get_column` has a node in column `c`. -/
def touches (K : Nat) (get_column : Nat → Nat → Int) (r c : Nat) : Bool :=
  (List.range K).any (fun k => get_column r k == (c : Int))

/-- Number of rows below `L` that have a node in column `c`. -/
def row_count (L K : Nat) (get_column : Nat → Nat → Int) (c : Nat) : Nat :=
  ((List.range L).filter (fun r => touches K get_column r c)).length

/-! ## States of the search -/

/-- Matrix row `r` has a node in column `c`. -/
def row_touches (m : dlx_matrix) (N r c : Nat) : Prop :=
  ∃ p, p < N ∧ m.matrix_row.getD p 0 = r ∧ m.header.getD p 0 = c

/-- The matrix rows `rows` form an exact cover: no two of them (at different
places of the list) touch a common column, so that every column is touched at
most once, and every mandatory column is touched. -/
structure ExactCover (m : dlx_matrix) (N : Nat) (rows : List Nat) : Prop where
  disjoint : rows.Pairwise (fun a b => ∀ c, ¬ (row_touches m N a c ∧ row_touches m N b c))
  mandatory : ∀ c, c < m.array_width → c < m.optional_constraint_start_column →
    ∃ r, r ∈ rows ∧ row_touches m N r c

/-- The mesh `m` with covered columns `cov` is the state of the search with
choice stack `stack` (top first), started from the mesh `m0` with covered
columns `cov0`: every entry was pushed onto a consistent state, holds a linked
node of an uncovered mandatory column, and the mesh above it is what covering
its row as in the descend step returns (with inner-loop fuel `fuel0`). -/
inductive Reach (N fuel0 : Nat) (m0 : dlx_matrix) (cov0 : Nat → Prop) :
    List (Nat × Nat) → dlx_matrix → (Nat → Prop) → Prop where
  | base : Reach N fuel0 m0 cov0 [] m0 cov0
  | push (stack : List (Nat × Nat)) (mp : dlx_matrix) (covp hidp : Nat → Prop) (nd : Nat)
      (m1 m : dlx_matrix) (cov : Nat → Prop) :
      Reach N fuel0 m0 cov0 stack mp covp →
      Cons mp N hidp covp Option.none → nd < N → ¬ hidp nd →
      ¬ covp (mp.header.getD nd 0) →
      mp.header.getD nd 0 < mp.optional_constraint_start_column →
      remove_column fuel0 (header_tree_erase mp (mp.header.getD nd 0)) nd = Except.ok m1 →
      remove_row fuel0 m1 nd = Except.ok m →
      (∀ c, cov c ↔ (covp c ∨ ∃ p, row_set mp N nd p ∧ mp.header.getD p 0 = c)) →
      Reach N fuel0 m0 cov0 ((mp.header.getD nd 0, nd) :: stack) m cov

/-- The output `o` is the interpretation of the choice stack of a state of the
search in which every mandatory column is covered. -/
def SolOut {β : Type} (interpret_result : dlx_matrix → List (Nat × Nat) → β)
    (N fuel0 : Nat) (m0 : dlx_matrix) (cov0 : Nat → Prop) (o : β) : Prop :=
  ∃ m stack cov, Reach N fuel0 m0 cov0 stack m cov ∧
    (∀ c, c < m.array_width → c < m.optional_constraint_start_column → cov c) ∧
    o = interpret_result m stack

/-- Shape of the headers: a header with count 0 has null `top` and `bottom`,
a header with positive count has the linked nodes of least and greatest index
(hence least and greatest matrix row) of its column as `top` and `bottom`. -/
def HeaderShape (m : dlx_matrix) (N : Nat) (hid : Nat → Prop) : Prop :=
  ∀ c, c < m.array_width →
    (m.count.getD c 0 = 0 →
      m.top.getD c Option.none = Option.none ∧ m.bottom.getD c Option.none = Option.none) ∧
    (0 < m.count.getD c 0 →
      ∃ t b, m.top.getD c Option.none = some t ∧ m.bottom.getD c Option.none = some b ∧
        col_set m N hid c t ∧ col_set m N hid c b ∧
        ∀ x, col_set m N hid c x →
          (t ≤ x ∧ x ≤ b ∧ m.matrix_row.getD t 0 ≤ m.matrix_row.getD x 0 ∧
            m.matrix_row.getD x 0 ≤ m.matrix_row.getD b 0))

/-! ## Boards -/

/-- Entry `board[i][j]`, 0 outside the board. -/
def cell (board : List (List Int)) (i j : Nat) : Int :=
  (board.getD i []).getD j 0

/-- The board is `w × w`. -/
def board_dims (w : Nat) (board : List (List Int)) : Prop :=
  board.length = w ∧ ∀ i, i < w → (board.getD i []).length = w

/-- A board of the n-queens solver is valid: it is `w × w` with entries 0 and
1, has exactly one 1 in every row and in every column, and at most one 1 on
each of the `2w-1` diagonals of either direction (`i + j = d`, and
`j + (w-1) - i = d`). -/
def n_queens_valid (w : Nat) (board : List (List Int)) : Prop :=
  board_dims w board ∧
  (∀ i j, i < w → j < w → cell board i j = 0 ∨ cell board i j = 1) ∧
  (∀ i, i < w → ((List.range w).filter (fun j => cell board i j == 1)).length = 1) ∧
  (∀ j, j < w → ((List.range w).filter (fun i => cell board i j == 1)).length = 1) ∧
  (∀ d, d < 2 * w - 1 → ((List.range (w * w)).filter
    (fun r => r / w + r % w == d && cell board (r / w) (r % w) == 1)).length ≤ 1) ∧
  (∀ d, d < 2 * w - 1 → ((List.range (w * w)).filter
    (fun r => r % w + (w - 1) - r / w == d && cell board (r / w) (r % w) == 1)).length ≤ 1)

/-! ## Observations on a call -/

/-- The error a call ends with, when it does not return. -/
def raised {α : Type} (r : Except Err α) : Option Err :=
  match r with
  | Except.ok _ => Option.none
  | Except.error e => some e

/-- The mesh a call of `solve` leaves behind, when it returns. -/
def final_mesh {β : Type} (r : Except Err (solve_state β)) : Option dlx_matrix :=
  match r with
  | Except.ok st => some st.m
  | Except.error _ => Option.none

/-- The value of `solution_count` when `solve` returns. -/
def final_count {β : Type} (r : Except Err (solve_state β)) : Option Int :=
  match r with
  | Except.ok st => some st.solution_count
  | Except.error _ => Option.none

/-- The part of the loop variables that does not depend on the save setting:
the mesh, the stack and the solution count. -/
def solve_state.core {β : Type} (st : solve_state β) : dlx_matrix × List (Nat × Nat) × Int :=
  (st.m, st.backtrack_stack, st.solution_count)

/-- The choice stack at the `return` of `solve`, when it returns. -/
def final_stack {β : Type} (r : Except Err (solve_state β)) : Option (List (Nat × Nat)) :=
  match r with
  | Except.ok st => some st.backtrack_stack
  | Except.error _ => Option.none

/-- The mesh an adapter's `initialize` leaves behind, when it returns. -/
def initialized_mesh (r : Except Err (Bool × dlx_matrix)) : Option dlx_matrix :=
  match r with
  | Except.ok (_, m) => some m
  | Except.error _ => Option.none

/-- The states `(mesh, choice stack)` right after every push and every
replace-on-backtrack of the main loop of `solve`, started on `st` with the cap
`max_solutions`, in the order of the run: a pass of the body that does not
return performs exactly one push or one replacement.  The passes are run with
the save setting `none`, which records nothing. -/
def search_moves (fuel0 : Nat) (max_solutions : Int) :
    Nat → solve_state Unit → List (dlx_matrix × List (Nat × Nat))
  | 0, _ => []
  | fuel + 1, st =>
    if st.solution_count < max_solutions then
      match solve_body (fun _ _ => ()) fuel0 dlx_save_setting.none st with
      | Except.ok (false, st1) =>
        (st1.m, st1.backtrack_stack) :: search_moves fuel0 max_solutions fuel st1
      | _ => []
    else []

/-- The states right after every push and every replace-on-backtrack of a call
of `solve`, in the order of the run. -/
def solve_moves (initialize_fn : Nat → dlx_matrix → Except Err (Bool × dlx_matrix))
    (fuel : Nat) (m : dlx_matrix) (max_solutions : Int) :
    List (dlx_matrix × List (Nat × Nat)) :=
  match initialize_fn fuel (populate_trees m) with
  | Except.ok (true, m1) =>
    search_moves fuel (if max_solutions = -1 then 2147483647 else max_solutions) fuel
      { m := m1, backtrack_stack := [], solutions := [], solution_count := 0 }
  | _ => []

/-! ## Specification-level notions for the polyomino adapter -/

/-- Largest `first` among the cells of an orientation (0 when there is no cell). -/
def largest_x (s : List (Int × Int)) : Int := s.foldl (fun a p => max a p.1) 0

/-- Largest `second` among the cells of an orientation (0 when there is no cell). -/
def largest_y (s : List (Int × Int)) : Int := s.foldl (fun a p => max a p.2) 0

/-- The cells `getBlock(k, 0) .. getBlock(k, getSize()-1)` of orientation `k`. -/
def orientation_cells (p : polyomino) (k : Nat) : List (Int × Int) :=
  (List.range (getSize p)).map (getBlock p k)

/-- The eight dihedral images of a piece whose cells span `[0, X] x [0, Y]`:
the piece, its three successive quarter turns, its mirror image and the three
successive quarter turns of the mirror image, each moved back to the origin. -/
def dihedral_images (block_positions : List (Int × Int)) : List (List (Int × Int)) :=
  let X := largest_x block_positions
  let Y := largest_y block_positions
  [block_positions,
   block_positions.map (fun p => (p.2, X - p.1)),
   block_positions.map (fun p => (X - p.1, Y - p.2)),
   block_positions.map (fun p => (Y - p.2, p.1)),
   block_positions.map (fun p => (p.1, Y - p.2)),
   block_positions.map (fun p => (Y - p.2, X - p.1)),
   block_positions.map (fun p => (X - p.1, p.2)),
   block_positions.map (fun p => (p.2, p.1))]

/-- The choice stacks behind the outputs of `solve` on a polyomino board: the
run of `polyomino_solve` with the stack itself returned by `interpret_result`. -/
def polyomino_choice_stacks (polyomino_list : List polyomino) (board_width fuel : Nat)
    (board : List (List Int)) (max_solutions : Int) : Option (List (List (Nat × Nat))) :=
  match dlx_matrix_polyomino polyomino_list board_width with
  | Except.error _ => Option.none
  | Except.ok a =>
    returned (solve (initialize_polyomino board_width board) (fun _ st => st)
      fuel a.m max_solutions dlx_save_setting.solutions)

/-- The cell columns of matrix row `r`: the columns of all its nodes but the
last one. -/
def polyomino_row_cells (a : polyomino_adapter) (r : Nat) : List Nat :=
  (List.range (a.row_size.getD r 0 - 1)).map
    (fun i => a.m.matrix_column.getD (a.m.header.getD (a.row_start.getD r 0 + i) 0) 0)

/-- The eight cell sets that the constructor of `polyomino` inserts into
`shape_set`, in the order of insertion, for the extents `x_len`, `y_len` found
by its first loop. -/
def constructor_images (x_len y_len : Int) (block_positions : List (Int × Int)) :
    List (List (Int × Int)) :=
  let s0 := cell_set_of block_positions
  let s1 := rotate_cells x_len s0
  let s2 := rotate_cells y_len s1
  let s3 := rotate_cells x_len s2
  let t0 := cell_set_of (block_positions.map (fun p => (p.1, y_len - p.2)))
  let t1 := rotate_cells x_len t0
  let t2 := rotate_cells y_len t1
  let t3 := rotate_cells x_len t2
  [s0, s1, s2, s3, t0, t1, t2, t3]

/-- The cells of `s` lie in `[0, X] x [0, Y]` and reach all four sides of that
box. -/
def Spans (s : List (Int × Int)) (X Y : Int) : Prop :=
  (∀ p ∈ s, 0 ≤ p.1 ∧ p.1 ≤ X ∧ 0 ≤ p.2 ∧ p.2 ≤ Y) ∧
  (∃ p ∈ s, p.1 = 0) ∧ (∃ p ∈ s, p.1 = X) ∧ (∃ p ∈ s, p.2 = 0) ∧ (∃ p ∈ s, p.2 = Y)

/-- The four cell sets whose iterators the constructor of `polyomino` keeps in
`flipped_orientation`: the first and third rotation of the piece and of its
mirror image. -/
def flipped_images (x_len y_len : Int) (block_positions : List (Int × Int)) :
    List (List (Int × Int)) :=
  let s0 := cell_set_of block_positions
  let s1 := rotate_cells x_len s0
  let s2 := rotate_cells y_len s1
  let s3 := rotate_cells x_len s2
  let t0 := cell_set_of (block_positions.map (fun p => (p.1, y_len - p.2)))
  let t1 := rotate_cells x_len t0
  let t2 := rotate_cells y_len t1
  let t3 := rotate_cells x_len t2
  [s1, s3, t1, t3]

/-- The columns of the nodes of the matrix row that `polyomino_generate` builds
for the placement `pl = (row, col, poly_num, orient)`: the cell columns
`(x + col) + (y + row) * board_width`, then the usage column of the piece. -/
def placement_columns (polyomino_list : List polyomino) (board_width : Nat)
    (pl : Nat × Nat × Nat × Nat) : List Nat :=
  match polyomino_list.get? pl.2.2.1 with
  | Option.none => []
  | some P =>
    (List.range (getSize P)).map
      (fun i => ((getBlock P pl.2.2.2 i).1 + pl.2.1 +
        ((getBlock P pl.2.2.2 i).2 + pl.1) * board_width).toNat) ++
      [pl.2.2.1 + board_width * board_width]

/-- The columns of the nodes of matrix row `r`, read from the mesh. -/
def polyomino_row_columns (a : polyomino_adapter) (r : Nat) : List Nat :=
  (List.range (a.row_size.getD r 0)).map
    (fun j => a.m.header.getD (a.row_start.getD r 0 + j) 0)

/-- The first `cols.length` nodes of the mesh have the headers `cols` and the
matrix rows `rows`, every header counts its nodes, and `top` and `bottom` of a
header are null together; `n` nodes and all headers are allocated. -/
structure NodesOK (m : dlx_matrix) (n : Nat) (cols rows : List Nat) : Prop where
  node_inb : ∀ i, i < n → m.header.inb i = true ∧ m.matrix_row.inb i = true
  head_inb : ∀ h, h < m.array_width →
    m.count.inb h = true ∧ m.top.inb h = true ∧ m.bottom.inb h = true
  len : rows.length = cols.length
  hdr : ∀ j, j < cols.length → m.header.getD j 0 = cols.getD j 0
  mrow : ∀ j, j < cols.length → m.matrix_row.getD j 0 = rows.getD j 0
  cnt : ∀ h, h < m.array_width → m.count.getD h 0 = (cols.count h : Int)
  tb : ∀ h, m.top.getD h Option.none = Option.none ↔ m.bottom.getD h Option.none = Option.none

/-- State of `polyomino_generate` after the rows of the placements `done`:
`cols` and `rows` are the headers and matrix rows of the nodes built so far,
row `r` occupies the nodes `row_start[r] .. row_start[r] + row_size[r] - 1` and
these carry the columns of placement `r`. -/
structure PolyInv (polyomino_list : List polyomino) (b n : Nat)
    (done : List (Nat × Nat × Nat × Nat)) (a : polyomino_adapter) (cols rows : List Nat) :
    Prop where
  width : a.board_width = b
  aw : a.m.array_width = b * b + polyomino_list.length
  alen : a.m.array_len = done.length
  nodes : NodesOK a.m n cols rows
  start_len : a.row_start.length = done.length
  size_len : a.row_size.length = done.length
  next : a.row_start.foldl (fun _ s => s) 0 + a.row_size.foldl (fun _ s => s) 0 = cols.length
  count : ∀ h, cols.count h =
    ((List.range done.length).filter (fun r =>
      decide (h ∈ placement_columns polyomino_list b (done.getD r (0, 0, 0, 0))))).length
  row : ∀ r, r < done.length →
    a.row_size.getD r 0 = (placement_columns polyomino_list b (done.getD r (0, 0, 0, 0))).length ∧
    a.row_start.getD r 0 +
      (placement_columns polyomino_list b (done.getD r (0, 0, 0, 0))).length ≤ cols.length ∧
    ∀ j, j < (placement_columns polyomino_list b (done.getD r (0, 0, 0, 0))).length →
      cols.getD (a.row_start.getD r 0 + j) 0 =
        (placement_columns polyomino_list b (done.getD r (0, 0, 0, 0))).getD j 0 ∧
      rows.getD (a.row_start.getD r 0 + j) 0 = r
  mcol : ∀ c, c < a.m.array_width → a.m.matrix_column.getD c 0 = c

/-- The cells of `s` lie in `[0, X] x [0, Y]`. -/
def Within (s : List (Int × Int)) (X Y : Int) : Prop :=
  ∀ p ∈ s, 0 ≤ p.1 ∧ p.1 ≤ X ∧ 0 ≤ p.2 ∧ p.2 ≤ Y

/-- The lengths of each orientation of a stored piece are positive, and its
cells are pairwise distinct and lie inside the box
`getXLength(k) x getYLength(k)`. -/
def PieceOK (P : polyomino) : Prop :=
  ∀ k, k < getOrientations P →
    (0 < getXLength P k ∧ 0 < getYLength P k) ∧
    (orientation_cells P k).Nodup ∧
    ∀ i, i < getSize P →
      0 ≤ (getBlock P k i).1 ∧ (getBlock P k i).1 < getXLength P k ∧
      0 ≤ (getBlock P k i).2 ∧ (getBlock P k i).2 < getYLength P k

/-- The placement names a piece, its cells lie on the board and the columns of
its row are pairwise distinct. -/
def PlacementOK (polyomino_list : List polyomino) (b : Nat) (pl : Nat × Nat × Nat × Nat) : Prop :=
  ∃ P, polyomino_list.get? pl.2.2.1 = some P ∧
    (∀ i, i < getSize P →
      0 ≤ (getBlock P pl.2.2.2 i).1 + pl.2.1 ∧ (getBlock P pl.2.2.2 i).1 + pl.2.1 < (b : Int) ∧
      0 ≤ (getBlock P pl.2.2.2 i).2 + pl.1 ∧ (getBlock P pl.2.2.2 i).2 + pl.1 < (b : Int)) ∧
    (placement_columns polyomino_list b pl).Nodup

/-- What every object built by the constructor of `dlx_matrix_polyomino`
satisfies, whatever the pieces: the rows occupy consecutive nodes, the nodes
not built yet have header 0, the header of every cell node (every node of a
row but its last) is a column below `board_width*board_width`, and header `c`
has `matrix_column` `c`. -/
structure PolyFrame (b : Nat) (a : polyomino_adapter) : Prop where
  width : a.board_width = b
  lens : a.row_size.length = a.row_start.length
  below : ∀ r, r < a.row_start.length →
    a.row_start.getD r 0 + a.row_size.getD r 0 ≤
      a.row_start.foldl (fun _ s => s) 0 + a.row_size.foldl (fun _ s => s) 0
  fresh : ∀ j, a.row_start.foldl (fun _ s => s) 0 + a.row_size.foldl (fun _ s => s) 0 ≤ j →
    a.m.header.getD j 0 = 0
  cells : ∀ r i, i + 1 < a.row_size.getD r 0 →
    ((a.m.header.getD (a.row_start.getD r 0 + i) 0 : Nat) : Int) <
      int_wrap ((b : Int) * b) ∧
    a.m.header.getD (a.row_start.getD r 0 + i) 0 < a.m.array_width
  mcol : ∀ c, c < a.m.array_width → a.m.matrix_column.getD c 0 = c
  mcol_le : ∀ c, a.m.matrix_column.getD c 0 ≤ 2147483647

/-- The board cells `(column / b, column % b)` of the cell columns of the
matrix row that the stack entry `e` chose, read from the mesh `m`. -/
def polyomino_entry_cells (a : polyomino_adapter) (m : dlx_matrix) (e : Nat × Nat) :
    List (Nat × Nat) :=
  (List.range (a.row_size.getD (m.matrix_row.getD e.2 0) 0 - 1)).map
    (fun i =>
      (m.matrix_column.getD
          (m.header.getD (a.row_start.getD (m.matrix_row.getD e.2 0) 0 + i) 0) 0 / a.board_width,
        m.matrix_column.getD
          (m.header.getD (a.row_start.getD (m.matrix_row.getD e.2 0) 0 + i) 0) 0 % a.board_width))

/-! ## A column that a step leaves alone -/

/-- Column `c` is the same in the two meshes: the count, `top` and `bottom`
of its header, and the `up` and `down` links of every node whose header is
`c`, linked or not. -/
structure ColKeep (c N : Nat) (m m' : dlx_matrix) : Prop where
  count : m'.count.getD c 0 = m.count.getD c 0
  top : m'.top.getD c Option.none = m.top.getD c Option.none
  bottom : m'.bottom.getD c Option.none = m.bottom.getD c Option.none
  up : ∀ p, p < N → m.header.getD p 0 = c → m'.up.getD p 0 = m.up.getD p 0
  down : ∀ p, p < N → m.header.getD p 0 = c → m'.down.getD p 0 = m.down.getD p 0

/-! ## A given node that is no longer in its column -/

/-- The node `s` heads no walk back to itself: in a mesh of `N` nodes in rows
of `K` nodes, `up` and `down` stay inside the column of the node they start
from, no node of the column of `s` has `s` as its `down`, `right` stays inside
the row, and a row meets a column at most once. -/
def Stuck (N K s : Nat) (m : dlx_matrix) : Prop :=
  0 < K ∧ s < N ∧
  (∀ p, p < N → m.down.getD p 0 < N ∧ m.up.getD p 0 < N ∧
    m.header.getD (m.down.getD p 0) 0 = m.header.getD p 0 ∧
    m.header.getD (m.up.getD p 0) 0 = m.header.getD p 0) ∧
  (∀ p, p < N → m.header.getD p 0 = m.header.getD s 0 → m.down.getD p 0 ≠ s) ∧
  (∀ p, p < N → m.right.getD p 0 < N ∧ m.right.getD p 0 / K = p / K) ∧
  (∀ p, p < N → ∀ k, k < K →
    m.header.getD (p / K * K + k) 0 = m.header.getD p 0 → p / K * K + k = p)

instance Stuck.decidable (N K s : Nat) (m : dlx_matrix) : Decidable (Stuck N K s m) := by
  unfold Stuck
  infer_instance

/-! ## A measure of the progress of the search -/

/-- The choice stack read as a number in base `B` with `D` digits, the bottom
entry first, an entry with node `nd` standing for the digit `nd + 1`. -/
def stack_value (B D : Nat) (stack : List (Nat × Nat)) : Nat :=
  Nat.ofDigits B (stack.map (fun e => e.2 + 1)) * B ^ (D - stack.length)

/-- One step of the search on the choice stack (top first): an entry is
pushed, or entries are popped and the node of the entry then on top is replaced
by a node further down its column. -/
def StackNext (old new : List (Nat × Nat)) : Prop :=
  (∃ H nd, new = (H, nd) :: old) ∨
  (∃ pre H nd nd' rest, old = pre ++ (H, nd) :: rest ∧ new = (H, nd') :: rest ∧ nd < nd')

/-! ## Sudoku boards -/

/-- The board satisfies the Sudoku rules for the width `s * s`: it is square of
that width, its entries are digits `1 .. s * s`, and every digit occurs exactly
once in every row, in every column and in every `s × s` block (block `b` holds
the cells `(b / s * s + t / s, b % s * s + t % s)`). -/
def sudoku_valid (s : Nat) (board : List (List Int)) : Prop :=
  board_dims (s * s) board ∧
  (∀ i, i < s * s → ∀ j, j < s * s →
    1 ≤ cell board i j ∧ cell board i j ≤ ((s * s : Nat) : Int)) ∧
  (∀ i, i < s * s → ∀ d, d < s * s →
    ((List.range (s * s)).filter (fun j => cell board i j == (d : Int) + 1)).length = 1) ∧
  (∀ j, j < s * s → ∀ d, d < s * s →
    ((List.range (s * s)).filter (fun i => cell board i j == (d : Int) + 1)).length = 1) ∧
  (∀ b, b < s * s → ∀ d, d < s * s →
    ((List.range (s * s)).filter
      (fun t => cell board (b / s * s + t / s) (b % s * s + t % s) == (d : Int) + 1)).length = 1)

/-- Every digit `1 .. n` occurs exactly once in the list `l`. -/
def digits_once (n : Nat) (l : List Int) : Prop :=
  ∀ d, d < n → (l.filter (fun x => x == (d : Int) + 1)).length = 1

instance digits_once.decidable (n : Nat) (l : List Int) : Decidable (digits_once n l) := by
  unfold digits_once
  infer_instance

/-! ## Links of the unlinked nodes -/

/-- The set `S` of matrix rows solves the problem left once the columns `cov0`
are covered: every row of `S` has a node and meets no column of `cov0`, no two
rows of `S` meet a common column, and every mandatory column outside `cov0` is
met by a row of `S`. -/
structure CoverOf (m0 : dlx_matrix) (N : Nat) (cov0 : Nat → Prop) (S : Nat → Prop) : Prop where
  real : ∀ r, S r → ∃ p, p < N ∧ m0.matrix_row.getD p 0 = r
  live : ∀ r, S r → ∀ c, row_touches m0 N r c → ¬ cov0 c
  disjoint : ∀ r r' c, S r → S r' → row_touches m0 N r c → row_touches m0 N r' c → r = r'
  mandatory : ∀ c, c < m0.array_width → c < m0.optional_constraint_start_column → ¬ cov0 c →
    ∃ r, S r ∧ row_touches m0 N r c

/-- The cover `S` is still to come for the search standing at `stack` (top
first): `S` holds the rows of the entries of a lower part `post` of the stack,
and either `post` is the whole stack, or the node of the entry right above
`post` lies before the node that `S` has in the column of that entry. -/
def Ahead (m0 : dlx_matrix) (N : Nat) (S : Nat → Prop) (stack : List (Nat × Nat)) : Prop :=
  ∃ pre post, stack = pre ++ post ∧ (∀ e, e ∈ post → S (m0.matrix_row.getD e.2 0)) ∧
    (pre = [] ∨ ∃ pre' H nd p, pre = pre' ++ [(H, nd)] ∧ p < N ∧
      S (m0.matrix_row.getD p 0) ∧ m0.header.getD p 0 = H ∧ nd < p)

/-- Every entry of the stack holds the header that `*header_tree.begin()` named
in the state below the entry. -/
def Canon (N fuel0 : Nat) (m0 : dlx_matrix) (cov0 : Nat → Prop)
    (stack : List (Nat × Nat)) : Prop :=
  ∀ a H nd c mc covc, stack = a ++ (H, nd) :: c → Reach N fuel0 m0 cov0 c mc covc →
    tree_begin mc = some H

/-! ## Vectors: reads after writes -/

theorem strict_nat_eq {α : Type} (n : Nat) (k : Nat → α) : strict_nat n k = k n := by
  cases n <;> rfl

theorem strict_int_eq {α : Type} (n : Int) (k : Int → α) : strict_int n k = k n := by
  cases n <;> simp [strict_int, strict_nat_eq]

theorem strict_opt_eq {α : Type} (p : Option Nat) (k : Option Nat → α) : strict_opt p k = k p := by
  cases p <;> simp [strict_opt, strict_nat_eq]

@[simp] theorem Vec.set_nat_eq (v : Vec Nat) (i a : Nat) : v.set_nat i a = v.set i a := by
  simp [Vec.set_nat, strict_nat_eq]

@[simp] theorem Vec.set_int_eq (v : Vec Int) (i : Nat) (a : Int) : v.set_int i a = v.set i a := by
  simp [Vec.set_int, strict_nat_eq, strict_int_eq]

@[simp] theorem Vec.set_opt_eq (v : Vec (Option Nat)) (i : Nat) (a : Option Nat) :
    v.set_opt i a = v.set i a := by
  simp [Vec.set_opt, strict_nat_eq, strict_opt_eq]

@[simp] theorem Vec.set_bool_eq (v : Vec Bool) (i : Nat) (a : Bool) : v.set_bool i a = v.set i a := by
  cases a <;> simp [Vec.set_bool, strict_nat_eq]

theorem Vec.half_eq_iff (i j : Nat) (h : i % 2 = j % 2) : i / 2 = j / 2 ↔ i = j := by
  omega

theorem Vec.getD_set {α : Type} (v : Vec α) (i j : Nat) (a d : α) :
    (v.set i a).getD j d = if i = j ∧ v.inb i = true then a else v.getD j d := by
  induction v generalizing i j with
  | leaf b =>
    by_cases hi : i = 0 <;> by_cases hj : j = 0
    · simp [Vec.set, Vec.getD, Vec.inb, hi, hj]
    · have : ¬ (0 = j) := fun h => hj h.symm
      simp [Vec.set, Vec.getD, Vec.inb, hi, hj, this]
    · simp [Vec.set, Vec.getD, Vec.inb, hi, hj]
    · simp [Vec.set, Vec.getD, Vec.inb, hi, hj]
  | node l r ihl ihr =>
    by_cases hi : i % 2 = 0 <;> by_cases hj : j % 2 = 0
    · simp only [Vec.set, Vec.getD, Vec.inb, hi, hj, if_true, ihl]
      have := Vec.half_eq_iff i j (by omega)
      simp only [this]
    · have hne : i ≠ j := fun h => hj (h ▸ hi)
      simp [Vec.set, Vec.getD, hi, hj, hne]
    · have hne : i ≠ j := fun h => hi (h ▸ hj)
      simp [Vec.set, Vec.getD, hi, hj, hne]
    · simp only [Vec.set, Vec.getD, Vec.inb, hi, hj, if_false, ihr]
      have := Vec.half_eq_iff i j (by omega)
      simp only [this]

theorem Vec.getD_set_ne {α : Type} (v : Vec α) (i j : Nat) (a d : α) (h : i ≠ j) :
    (v.set i a).getD j d = v.getD j d := by
  simp [Vec.getD_set, h]

theorem Vec.getD_set_eq {α : Type} (v : Vec α) (i : Nat) (a d : α) (h : v.inb i = true) :
    (v.set i a).getD i d = a := by
  simp [Vec.getD_set, h]

@[simp] theorem Vec.inb_set {α : Type} (v : Vec α) (i j : Nat) (a : α) :
    (v.set i a).inb j = v.inb j := by
  induction v generalizing i j with
  | leaf b => by_cases hi : i = 0 <;> simp [Vec.set, Vec.inb, hi]
  | node l r ihl ihr =>
    by_cases hi : i % 2 = 0 <;> by_cases hj : j % 2 = 0 <;>
      simp [Vec.set, Vec.inb, hi, hj, ihl, ihr]

@[simp] theorem Vec.set_set {α : Type} (v : Vec α) (i : Nat) (a b : α) :
    (v.set i a).set i b = v.set i b := by
  induction v generalizing i with
  | leaf c => by_cases hi : i = 0 <;> simp [Vec.set, hi]
  | node l r ihl ihr => by_cases hi : i % 2 = 0 <;> simp [Vec.set, hi, ihl, ihr]

@[simp] theorem Vec.set_getD_self {α : Type} (v : Vec α) (i : Nat) (d : α) :
    v.set i (v.getD i d) = v := by
  induction v generalizing i with
  | leaf c => by_cases hi : i = 0 <;> simp [Vec.set, Vec.getD, hi]
  | node l r ihl ihr => by_cases hi : i % 2 = 0 <;> simp [Vec.set, Vec.getD, hi, ihl, ihr]

theorem Vec.set_eq_self {α : Type} (v : Vec α) (i : Nat) (a d : α) (h : v.getD i d = a) :
    v.set i a = v := by
  rw [← h]; exact Vec.set_getD_self v i d

theorem Vec.set_comm {α : Type} (v : Vec α) (i j : Nat) (a b : α) (h : i ≠ j) :
    (v.set i a).set j b = (v.set j b).set i a := by
  induction v generalizing i j with
  | leaf c =>
    by_cases hi : i = 0 <;> by_cases hj : j = 0 <;> simp [Vec.set, hi, hj]
    omega
  | node l r ihl ihr =>
    by_cases hi : i % 2 = 0 <;> by_cases hj : j % 2 = 0
    · simp only [Vec.set, hi, hj, if_true]
      rw [ihl]; omega
    · simp [Vec.set, hi, hj]
    · simp [Vec.set, hi, hj]
    · simp only [Vec.set, hi, hj, if_false]
      rw [ihr]; omega

theorem Vec.inb_full {α : Type} (d : Nat) (a : α) (i : Nat) :
    (Vec.full d a).inb i = decide (i < 2 ^ d) := by
  induction d generalizing i with
  | zero => simp [Vec.full, Vec.inb]
  | succ d ih =>
    by_cases hi : i % 2 = 0 <;> simp only [Vec.full, Vec.inb, hi, if_true, if_false, ih] <;>
      simp only [decide_eq_decide] <;> rw [pow_succ] <;> omega

theorem Vec.getD_full {α : Type} (d : Nat) (a dflt : α) (i : Nat) :
    (Vec.full d a).getD i dflt = if i < 2 ^ d then a else dflt := by
  induction d generalizing i with
  | zero => simp [Vec.full, Vec.getD]
  | succ d ih =>
    have h2 : (i / 2 < 2 ^ d) ↔ (i < 2 ^ (d + 1)) := by rw [pow_succ]; omega
    by_cases hi : i % 2 = 0 <;> simp only [Vec.full, Vec.getD, hi, if_true, if_false, ih, h2]

theorem Vec.depth_spec (fuel n : Nat) (h : n ≤ fuel) : n ≤ 2 ^ Vec.depth fuel n := by
  induction fuel generalizing n with
  | zero => simp [Vec.depth]; omega
  | succ f ih =>
    by_cases h1 : n ≤ 1
    · simp [Vec.depth, h1]
    · simp only [Vec.depth, h1, if_false]
      have := ih ((n + 1) / 2) (by omega)
      rw [pow_succ]; omega

theorem Vec.inb_replicate {α : Type} (n : Nat) (a : α) (i : Nat) (h : i < n) :
    (Vec.replicate n a).inb i = true := by
  have := Vec.depth_spec n n le_rfl
  simp only [Vec.replicate, Vec.inb_full, decide_eq_true_eq]
  omega

theorem Vec.getD_replicate {α : Type} (n : Nat) (a : α) (i : Nat) :
    (Vec.replicate n a).getD i a = a := by
  simp [Vec.replicate, Vec.getD_full]

theorem nodup_flatMap_tag {α β : Type} (l : List α) (f : α → List β) (tag : β → α)
    (hl : l.Nodup) (hf : ∀ a ∈ l, (f a).Nodup) (ht : ∀ a ∈ l, ∀ x ∈ f a, tag x = a) :
    (l.flatMap f).Nodup := by
  rw [List.nodup_flatMap]
  refine ⟨hf, ?_⟩
  refine List.Pairwise.imp_of_mem ?_ hl
  intro a c ha hc hne
  intro x hx1 hx2
  exact hne ((ht a ha x hx1).symm.trans (ht c hc x hx2))

/-! ## Cyclic successors -/

theorem CycSucc.mem {S : Nat → Prop} {p q : Nat} (h : CycSucc S p q) : S q := h.1

theorem CycSucc.unique_succ {S : Nat → Prop} {p q q' : Nat}
    (h : CycSucc S p q) (h' : CycSucc S p q') : q = q' := by
  obtain ⟨hq, h1 | ⟨h1, h2, h3⟩⟩ := h <;> obtain ⟨hq', h1' | ⟨h1', h2', h3'⟩⟩ := h'
  · have a := h1.2 q' hq'
    have b := h1'.2 q hq
    omega
  · have a := h2' q hq
    omega
  · have a := h2 q' hq'
    omega
  · have a := h3 q' hq'
    have b := h3' q hq
    omega

theorem CycSucc.unique_pred {S : Nat → Prop} {p p' q : Nat} (hp : S p) (hp' : S p')
    (h : CycSucc S p q) (h' : CycSucc S p' q) : p = p' := by
  obtain ⟨hq, h1 | ⟨h1, h2, h3⟩⟩ := h <;> obtain ⟨_, h1' | ⟨h1', h2', h3'⟩⟩ := h'
  · have a := h1.2 p' hp'
    have b := h1'.2 p hp
    omega
  · have a := h2' p hp
    have b := h3' p hp
    omega
  · have a := h2 p' hp'
    have b := h3 p' hp'
    omega
  · have a := h2 p' hp'
    have b := h2' p hp
    omega

theorem CycSucc.self_only {S : Nat → Prop} {p : Nat} (h : CycSucc S p p) :
    ∀ x, S x → x = p := by
  intro x hx
  obtain ⟨_, h1 | ⟨_, h2, h3⟩⟩ := h
  · omega
  · have a := h2 x hx
    have b := h3 x hx
    omega

theorem CycSucc.of_singleton {S : Nat → Prop} {p : Nat} (hp : S p) (h : ∀ x, S x → x = p) :
    CycSucc S p p :=
  ⟨hp, Or.inr ⟨le_rfl, fun x hx => (h x hx).le, fun x hx => (h x hx).ge⟩⟩

theorem cdist_self (n a : Nat) : cdist n a a = 0 := by
  simp [cdist]

theorem cdist_pos {n a b : Nat} (ha : a < n) (hb : b < n) (h : a ≠ b) : 0 < cdist n a b := by
  unfold cdist; split_ifs <;> omega

theorem cdist_lt {n a b : Nat} (ha : a < n) (hb : b < n) : cdist n a b < n := by
  unfold cdist; split_ifs <;> omega

/-- Walking to the cyclic successor strictly decreases the distance to any
other member of the set. -/
theorem CycSucc.cdist_succ_lt {S : Nat → Prop} {n x q s : Nat} (hS : ∀ y, S y → y < n)
    (hs : S s) (hx : S x) (hxs : x ≠ s) (h : CycSucc S x q) :
    cdist n q s < cdist n x s := by
  have hxn := hS x hx
  have hsn := hS s hs
  have hqn := hS q h.1
  obtain ⟨_, h1 | ⟨h1, h2, h3⟩⟩ := h
  · have a := h1.2 s hs
    unfold cdist; split_ifs <;> omega
  · have a := h2 s hs
    have b := h3 s hs
    unfold cdist; split_ifs <;> omega

/-- Walking to the cyclic predecessor strictly decreases the distance from any
other member of the set. -/
theorem CycSucc.cdist_pred_lt {S : Nat → Prop} {n x q s : Nat} (hS : ∀ y, S y → y < n)
    (hs : S s) (hx : S x) (hq : S q) (hxs : x ≠ s) (h : CycSucc S q x) :
    cdist n s q < cdist n s x := by
  have hxn := hS x hx
  have hsn := hS s hs
  have hqn := hS q hq
  obtain ⟨_, h1 | ⟨h1, h2, h3⟩⟩ := h
  · have a := h1.2 s hs
    unfold cdist; split_ifs <;> omega
  · have a := h2 s hs
    have b := h3 s hs
    unfold cdist; split_ifs <;> omega

/-- Members strictly farther from `s` than the successor of `x` are `x` itself
or members strictly farther than `x`. -/
theorem CycSucc.cdist_succ_between {S : Nat → Prop} {n x q s y : Nat} (hS : ∀ y, S y → y < n)
    (hs : S s) (hx : S x) (hy : S y) (hxs : x ≠ s) (h : CycSucc S x q) :
    cdist n q s < cdist n y s ↔ (y = x ∨ cdist n x s < cdist n y s) := by
  have hxn := hS x hx
  have hsn := hS s hs
  have hyn := hS y hy
  have hqn := hS q h.1
  obtain ⟨_, h1 | ⟨h1, h2, h3⟩⟩ := h
  · have a := h1.2 s hs
    have b := h1.2 y hy
    unfold cdist; split_ifs <;> omega
  · have a := h2 s hs
    have b := h3 s hs
    have c := h2 y hy
    have d := h3 y hy
    unfold cdist; split_ifs <;> omega

/-- No member other than `s` is farther from `s` than the successor of `s`. -/
theorem CycSucc.cdist_succ_max {S : Nat → Prop} {n q s y : Nat} (hS : ∀ y, S y → y < n)
    (hs : S s) (hy : S y) (hys : y ≠ s) (h : CycSucc S s q) :
    ¬ cdist n q s < cdist n y s := by
  have hsn := hS s hs
  have hyn := hS y hy
  have hqn := hS q h.1
  obtain ⟨_, h1 | ⟨h1, h2, h3⟩⟩ := h
  · have b := h1.2 y hy
    unfold cdist; split_ifs <;> omega
  · have c := h2 y hy
    have d := h3 y hy
    unfold cdist; split_ifs <;> omega

/-- Mirror image of `cdist_succ_between` for walks to the predecessor. -/
theorem CycSucc.cdist_pred_between {S : Nat → Prop} {n x q s y : Nat} (hS : ∀ y, S y → y < n)
    (hs : S s) (hx : S x) (hq : S q) (hy : S y) (hxs : x ≠ s) (h : CycSucc S q x) :
    cdist n s q < cdist n s y ↔ (y = x ∨ cdist n s x < cdist n s y) := by
  have hxn := hS x hx
  have hsn := hS s hs
  have hyn := hS y hy
  have hqn := hS q hq
  obtain ⟨_, h1 | ⟨h1, h2, h3⟩⟩ := h
  · have a := h1.2 s hs
    have b := h1.2 y hy
    unfold cdist; split_ifs <;> omega
  · have a := h2 s hs
    have b := h3 s hs
    have c := h2 y hy
    have d := h3 y hy
    unfold cdist; split_ifs <;> omega

/-- Unlinking the member `R`: successors in the remaining set. -/
theorem CycSucc.erase_succ {S : Nat → Prop} {R p dnp dnR : Nat} (hp : S p) (hpR : p ≠ R)
    (h1 : CycSucc S p dnp) (h2 : CycSucc S R dnR) (hne : dnR ≠ R) :
    CycSucc (fun x => S x ∧ x ≠ R) p (if dnp = R then dnR else dnp) := by
  by_cases hd : dnp = R
  · subst hd
    simp only [if_true]
    refine ⟨⟨h2.1, hne⟩, ?_⟩
    obtain ⟨_, a1 | ⟨a1, a2, a3⟩⟩ := h1 <;> obtain ⟨hq, b1 | ⟨b1, b2, b3⟩⟩ := h2
    · left
      refine ⟨by omega, fun x hx => ?_⟩
      have := a1.2 x hx.1
      have := b1.2 x hx.1
      have := hx.2
      omega
    · right
      refine ⟨?_, fun x hx => ?_, fun x hx => ?_⟩
      · have := b3 p hp; omega
      · have := b2 x hx.1
        have := a1.2 x hx.1
        have := hx.2
        omega
      · exact b3 x hx.1
    · have c := a3 dnR hq
      by_cases hlt : p < dnR
      · left
        refine ⟨hlt, fun x hx => ?_⟩
        have := a2 x hx.1
        omega
      · right
        refine ⟨by omega, fun x hx => a2 x hx.1, fun x hx => ?_⟩
        have := b1.2 x hx.1
        have := a3 x hx.1
        have := hx.2
        omega
    · exfalso
      have := b2 p hp
      have := a3 p hp
      have := a2 dnR hq
      have := b3 dnR hq
      omega
  · simp only [hd, if_false]
    refine ⟨⟨h1.1, hd⟩, ?_⟩
    obtain ⟨_, a1 | ⟨a1, a2, a3⟩⟩ := h1
    · left
      exact ⟨a1.1, fun x hx => a1.2 x hx.1⟩
    · right
      exact ⟨a1, fun x hx => a2 x hx.1, fun x hx => a3 x hx.1⟩

/-- Unlinking the member `R`: predecessors in the remaining set. -/
theorem CycSucc.erase_pred {S : Nat → Prop} {R p upp upR : Nat} (hp : S p) (hpR : p ≠ R)
    (hupp : S upp) (hupR : S upR)
    (h1 : CycSucc S upp p) (h2 : CycSucc S upR R) (hne : upR ≠ R) :
    CycSucc (fun x => S x ∧ x ≠ R) (if upp = R then upR else upp) p ∧
      (fun x => S x ∧ x ≠ R) (if upp = R then upR else upp) := by
  by_cases hd : upp = R
  · subst hd
    simp only [if_true]
    refine ⟨⟨⟨hp, hpR⟩, ?_⟩, hupR, hne⟩
    obtain ⟨_, a1 | ⟨a1, a2, a3⟩⟩ := h1 <;> obtain ⟨hq, b1 | ⟨b1, b2, b3⟩⟩ := h2
    · left
      refine ⟨by omega, fun x hx => ?_⟩
      have := a1.2 x hx.1
      have := b1.2 x hx.1
      have := hx.2
      omega
    · have c := b2 p hp
      by_cases hlt : upR < p
      · left
        refine ⟨hlt, fun x hx => ?_⟩
        have := b3 x hx.1
        have := a1.2 x hx.1
        have := hx.2
        omega
      · right
        refine ⟨by omega, fun x hx => b2 x hx.1, fun x hx => ?_⟩
        have := b3 x hx.1
        have := a1.2 x hx.1
        have := hx.2
        omega
    · right
      refine ⟨?_, fun x hx => ?_, fun x hx => a3 x hx.1⟩
      · have := a3 upR hupR; omega
      · have := a2 x hx.1
        have := b1.2 x hx.1
        have := hx.2
        omega
    · exfalso
      have := b2 p hp
      have := a3 p hp
      have := a2 upR hupR
      have := b3 upR hupR
      omega
  · simp only [hd, if_false]
    refine ⟨⟨⟨hp, hpR⟩, ?_⟩, hupp, hd⟩
    obtain ⟨_, a1 | ⟨a1, a2, a3⟩⟩ := h1
    · left
      exact ⟨a1.1, fun x hx => a1.2 x hx.1⟩
    · right
      exact ⟨a1, fun x hx => a2 x hx.1, fun x hx => a3 x hx.1⟩

/-! ## The two node-level steps -/

theorem remove_node_count (m : dlx_matrix) (r : Nat) :
    (remove_node m r).count =
      m.count.set (m.header.getD r 0) (m.count.getD (m.header.getD r 0) 0 - 1) := by
  unfold remove_node header_tree_insert header_tree_erase optional_header_tree_insert
    optional_header_tree_erase
  simp only [Vec.set_int_eq]
  split_ifs <;> rfl

theorem remove_node_frame (m : dlx_matrix) (r : Nat) : SameFrame m (remove_node m r) := by
  unfold remove_node header_tree_insert header_tree_erase optional_header_tree_insert
    optional_header_tree_erase
  constructor <;> (simp only []; split_ifs <;> rfl)

theorem remove_node_header_tree (m : dlx_matrix) (r : Nat) :
    (remove_node m r).header_tree =
      if m.matrix_column.getD (m.header.getD r 0) 0 < m.optional_constraint_start_column then
        m.header_tree.set (m.header.getD r 0) true
      else m.header_tree := by
  unfold remove_node header_tree_insert header_tree_erase optional_header_tree_insert
    optional_header_tree_erase
  simp only [Vec.set_bool_eq]
  split_ifs <;> simp

theorem remove_node_optional_header_tree (m : dlx_matrix) (r : Nat) :
    (remove_node m r).optional_header_tree =
      if m.matrix_column.getD (m.header.getD r 0) 0 < m.optional_constraint_start_column then
        m.optional_header_tree
      else m.optional_header_tree.set (m.header.getD r 0) true := by
  unfold remove_node header_tree_insert header_tree_erase optional_header_tree_insert
    optional_header_tree_erase
  simp only [Vec.set_bool_eq]
  split_ifs <;> simp

theorem remove_node_top (m : dlx_matrix) (r : Nat) :
    (remove_node m r).top =
      if m.count.getD (m.header.getD r 0) 0 - 1 = 0 then
        m.top.set (m.header.getD r 0) Option.none
      else if m.top.getD (m.header.getD r 0) Option.none = some r then
        m.top.set (m.header.getD r 0) (some (m.down.getD r 0))
      else m.top := by
  unfold remove_node header_tree_insert header_tree_erase optional_header_tree_insert
    optional_header_tree_erase
  simp only [Vec.set_opt_eq]
  split_ifs <;> rfl

theorem remove_node_bottom (m : dlx_matrix) (r : Nat) :
    (remove_node m r).bottom =
      if m.count.getD (m.header.getD r 0) 0 - 1 = 0 then
        m.bottom.set (m.header.getD r 0) Option.none
      else if m.top.getD (m.header.getD r 0) Option.none = some r then m.bottom
      else if m.bottom.getD (m.header.getD r 0) Option.none = some r then
        m.bottom.set (m.header.getD r 0) (some (m.up.getD r 0))
      else m.bottom := by
  unfold remove_node header_tree_insert header_tree_erase optional_header_tree_insert
    optional_header_tree_erase
  simp only [Vec.set_opt_eq]
  split_ifs <;> rfl

theorem remove_node_down (m : dlx_matrix) (r : Nat) :
    (remove_node m r).down =
      if m.count.getD (m.header.getD r 0) 0 - 1 = 0 then m.down
      else m.down.set (m.up.getD r 0) (m.down.getD r 0) := by
  unfold remove_node header_tree_insert header_tree_erase optional_header_tree_insert
    optional_header_tree_erase
  simp only [Vec.set_nat_eq]
  split_ifs <;> rfl

theorem remove_node_up (m : dlx_matrix) (r : Nat) :
    (remove_node m r).up =
      if m.count.getD (m.header.getD r 0) 0 - 1 = 0 then m.up
      else m.up.set ((m.down.set (m.up.getD r 0) (m.down.getD r 0)).getD r 0)
        (m.up.getD r 0) := by
  unfold remove_node header_tree_insert header_tree_erase optional_header_tree_insert
    optional_header_tree_erase
  simp only [Vec.set_nat_eq]
  split_ifs <;> rfl

/-! ## Unlinking one node keeps every column well linked -/

theorem Static.of_frame {m m' : dlx_matrix} {N : Nat} (f : SameFrame m m') (h : Static m N) :
    Static m' N := by
  have hrow : ∀ p, row_set m' N p = row_set m N p := by
    intro p; unfold row_set; rw [f.matrix_row]
  constructor
  · intro c hc; rw [f.matrix_column]; exact h.column_id c (f.array_width ▸ hc)
  · intro p hp; rw [f.header, f.array_width]; exact h.header_lt p hp
  · intro p q hp hq hpq; rw [f.matrix_row]; exact h.row_mono p q hp hq hpq
  · intro p q hp hq; rw [f.matrix_row, f.header]; exact h.row_distinct p q hp hq
  · intro p hp; rw [hrow, f.right]; exact h.right_succ p hp
  · intro p hp; rw [hrow, f.left]; exact h.left_pred p hp
  · intro p hp; rw [hrow, f.left]; exact h.left_mem p hp

theorem SameFrame.refl (m : dlx_matrix) : SameFrame m m :=
  ⟨rfl, rfl, rfl, rfl, rfl, rfl, rfl, rfl, rfl⟩

theorem SameFrame.trans {a b c : dlx_matrix} (h1 : SameFrame a b) (h2 : SameFrame b c) :
    SameFrame a c :=
  ⟨h2.array_len.trans h1.array_len, h2.array_width.trans h1.array_width,
    h2.num_constraints.trans h1.num_constraints, h2.left.trans h1.left,
    h2.right.trans h1.right, h2.header.trans h1.header, h2.matrix_row.trans h1.matrix_row,
    h2.matrix_column.trans h1.matrix_column, h2.optional_start.trans h1.optional_start⟩

theorem SameFrame.symm {a b : dlx_matrix} (h : SameFrame a b) : SameFrame b a :=
  ⟨h.array_len.symm, h.array_width.symm, h.num_constraints.symm, h.left.symm, h.right.symm,
    h.header.symm, h.matrix_row.symm, h.matrix_column.symm, h.optional_start.symm⟩

theorem remove_node_shape {m : dlx_matrix} {N : Nat} (h : Shape m N) (r : Nat) :
    Shape (remove_node m r) N := by
  have f := remove_node_frame m r
  constructor
  · intro p hp; rw [f.left]; exact h.left p hp
  · intro p hp; rw [f.right]; exact h.right p hp
  · intro p hp; rw [remove_node_up]; split_ifs <;> simp [h.up p hp]
  · intro p hp; rw [remove_node_down]; split_ifs <;> simp [h.down p hp]
  · intro p hp; rw [f.header]; exact h.header p hp
  · intro p hp; rw [f.matrix_row]; exact h.matrix_row p hp
  · intro c hc; rw [remove_node_count]; simp [h.count c (f.array_width ▸ hc)]
  · intro c hc; rw [f.matrix_column]; exact h.matrix_column c (f.array_width ▸ hc)
  · intro c hc; rw [remove_node_top]; split_ifs <;> simp [h.top c (f.array_width ▸ hc)]
  · intro c hc; rw [remove_node_bottom]; split_ifs <;> simp [h.bottom c (f.array_width ▸ hc)]
  · intro c hc; rw [remove_node_header_tree]
    split_ifs <;> simp [h.header_tree c (f.array_width ▸ hc)]
  · intro c hc; rw [remove_node_optional_header_tree]
    split_ifs <;> simp [h.optional_header_tree c (f.array_width ▸ hc)]

theorem col_set_finite (m : dlx_matrix) (N : Nat) (hid : Nat → Prop) (c : Nat) :
    {x | col_set m N hid c x}.Finite :=
  Set.Finite.subset (Set.finite_lt_nat N) (fun _ hx => hx.1)

/-- A column keeps being well linked when its linked set, its header fields
and the links of its linked nodes are unchanged. -/
theorem ColOK.transfer {m m' : dlx_matrix} {N : Nat} {hid hid' : Nat → Prop} {c : Nat}
    (h : ColOK m N hid c)
    (hset : ∀ x, col_set m' N hid' c x ↔ col_set m N hid c x)
    (hcount : m'.count.getD c 0 = m.count.getD c 0)
    (htop : m'.top.getD c Option.none = m.top.getD c Option.none)
    (hbot : m'.bottom.getD c Option.none = m.bottom.getD c Option.none)
    (hdown : ∀ p, col_set m N hid c p → m'.down.getD p 0 = m.down.getD p 0)
    (hup : ∀ p, col_set m N hid c p → m'.up.getD p 0 = m.up.getD p 0) :
    ColOK m' N hid' c := by
  have hs : col_set m' N hid' c = col_set m N hid c := funext fun x => propext (hset x)
  constructor
  · rw [hs, hcount]; exact h.count_eq
  · rw [hs, htop]; exact h.top_none
  · rw [hs, htop]; exact h.top_some
  · rw [hs, hbot]; exact h.bottom_none
  · rw [hs, hbot]; exact h.bottom_some
  · rw [hs]; intro p hp; rw [hdown p hp]; exact h.down_succ p hp
  · rw [hs]; intro p hp; rw [hup p hp]; exact h.up_pred p hp
  · rw [hs]; intro p hp; rw [hup p hp]; exact h.up_mem p hp

theorem ColOK.count_pos {m : dlx_matrix} {N : Nat} {hid : Nat → Prop} {c r : Nat}
    (h : ColOK m N hid c) (hr : col_set m N hid c r) : 1 ≤ m.count.getD c 0 := by
  rw [h.count_eq]
  have : 0 < Set.ncard {x | col_set m N hid c x} :=
    (Set.ncard_pos (col_set_finite m N hid c)).2 ⟨r, hr⟩
  omega

theorem ColOK.singleton_of_count {m : dlx_matrix} {N : Nat} {hid : Nat → Prop} {c r : Nat}
    (h : ColOK m N hid c) (hr : col_set m N hid c r) (h1 : m.count.getD c 0 - 1 = 0) :
    ∀ x, col_set m N hid c x → x = r := by
  have hc := h.count_eq
  have h1' : Set.ncard {x | col_set m N hid c x} = 1 := by omega
  obtain ⟨a, ha⟩ := Set.ncard_eq_one.1 h1'
  intro x hx
  have hxa : x ∈ ({a} : Set Nat) := ha ▸ (show x ∈ {x | col_set m N hid c x} from hx)
  have hra : r ∈ ({a} : Set Nat) := ha ▸ (show r ∈ {x | col_set m N hid c x} from hr)
  simp only [Set.mem_singleton_iff] at hxa hra
  rw [hxa, hra]

theorem ColOK.other_of_count {m : dlx_matrix} {N : Nat} {hid : Nat → Prop} {c r : Nat}
    (h : ColOK m N hid c) (hr : col_set m N hid c r) (h1 : m.count.getD c 0 - 1 ≠ 0) :
    ¬ ∀ x, col_set m N hid c x → x = r := by
  intro hall
  have hc := h.count_eq
  have : {x | col_set m N hid c x} = {r} := by
    ext x
    simp only [Set.mem_setOf_eq, Set.mem_singleton_iff]
    exact ⟨hall x, fun e => e ▸ hr⟩
  rw [this, Set.ncard_singleton] at hc
  omega

theorem col_set_remove_other {m : dlx_matrix} {N : Nat} {hid : Nat → Prop} {r c : Nat}
    (hc : c ≠ m.header.getD r 0) (x : Nat) :
    col_set (remove_node m r) N (fun x => hid x ∨ x = r) c x ↔ col_set m N hid c x := by
  unfold col_set
  rw [(remove_node_frame m r).header]
  constructor
  · rintro ⟨a, b, c'⟩; exact ⟨a, b, fun hx => c' (Or.inl hx)⟩
  · rintro ⟨a, b, c'⟩
    refine ⟨a, b, ?_⟩
    rintro (hx | rfl)
    · exact c' hx
    · exact hc b.symm

theorem col_set_remove_same {m : dlx_matrix} {N : Nat} {hid : Nat → Prop} {r : Nat} (x : Nat) :
    col_set (remove_node m r) N (fun x => hid x ∨ x = r) (m.header.getD r 0) x ↔
      (col_set m N hid (m.header.getD r 0) x ∧ x ≠ r) := by
  unfold col_set
  rw [(remove_node_frame m r).header]
  constructor
  · rintro ⟨a, b, c'⟩; exact ⟨⟨a, b, fun hx => c' (Or.inl hx)⟩, fun hx => c' (Or.inr hx)⟩
  · rintro ⟨⟨a, b, c'⟩, d⟩
    exact ⟨a, b, fun hx => hx.elim c' d⟩

/-- The column of the unlinked node stays well linked when the node was its
last linked node. -/
theorem remove_node_colok_last {m : dlx_matrix} {N : Nat} {hid : Nat → Prop} {r : Nat}
    (h : ColInv m N hid) (hr : r < N) (hnr : ¬ hid r)
    (h1 : m.count.getD (m.header.getD r 0) 0 - 1 = 0) :
    ColOK (remove_node m r) N (fun x => hid x ∨ x = r) (m.header.getD r 0) := by
  have hW : m.header.getD r 0 < m.array_width := h.static.header_lt r hr
  have hS : col_set m N hid (m.header.getD r 0) r := ⟨hr, rfl, hnr⟩
  have hc0 := h.col _ hW
  have hone := hc0.singleton_of_count hS h1
  have hempty : ∀ x, ¬ col_set (remove_node m r) N (fun x => hid x ∨ x = r)
      (m.header.getD r 0) x := by
    intro x hx
    have := (col_set_remove_same x).1 hx
    exact this.2 (hone x this.1)
  have hset : {x | col_set (remove_node m r) N (fun x => hid x ∨ x = r)
      (m.header.getD r 0) x} = ∅ := by
    ext x; simp only [Set.mem_setOf_eq, Set.mem_empty_iff_false, iff_false]; exact hempty x
  constructor
  · rw [hset, remove_node_count, Vec.getD_set_eq _ _ _ _ (h.shape.count _ hW), h1]; simp
  · intro _; exact hempty
  · intro t ht
    rw [remove_node_top, if_pos h1, Vec.getD_set_eq _ _ _ _ (h.shape.top _ hW)] at ht
    exact absurd ht (by simp)
  · intro _; exact hempty
  · intro b hb
    rw [remove_node_bottom, if_pos h1, Vec.getD_set_eq _ _ _ _ (h.shape.bottom _ hW)] at hb
    exact absurd hb (by simp)
  · intro p hp; exact absurd hp (hempty p)
  · intro p hp; exact absurd hp (hempty p)
  · intro p hp; exact absurd hp (hempty p)

/-- Facts about the neighbours of a linked node in a column with other linked
nodes. -/
theorem ColOK.neighbours {m : dlx_matrix} {N : Nat} {hid : Nat → Prop} {c r : Nat}
    (h : ColOK m N hid c) (hr : col_set m N hid c r) (h1 : m.count.getD c 0 - 1 ≠ 0) :
    m.down.getD r 0 ≠ r ∧ m.up.getD r 0 ≠ r := by
  have hother := h.other_of_count hr h1
  constructor
  · intro e
    have := h.down_succ r hr
    rw [e] at this
    exact hother this.self_only
  · intro e
    have := h.up_pred r hr
    rw [e] at this
    exact hother this.self_only

/-- The column of the unlinked node stays well linked when other linked nodes
remain. -/
theorem remove_node_colok_more {m : dlx_matrix} {N : Nat} {hid : Nat → Prop} {r : Nat}
    (h : ColInv m N hid) (hr : r < N) (hnr : ¬ hid r)
    (h1 : m.count.getD (m.header.getD r 0) 0 - 1 ≠ 0) :
    ColOK (remove_node m r) N (fun x => hid x ∨ x = r) (m.header.getD r 0) := by
  have hW : m.header.getD r 0 < m.array_width := h.static.header_lt r hr
  have hS : col_set m N hid (m.header.getD r 0) r := ⟨hr, rfl, hnr⟩
  have hc0 := h.col _ hW
  obtain ⟨hdne, hupne⟩ := hc0.neighbours hS h1
  have hother := hc0.other_of_count hS h1
  have hdn := hc0.down_succ r hS
  have hup := hc0.up_pred r hS
  have hupm := hc0.up_mem r hS
  have hs : col_set (remove_node m r) N (fun x => hid x ∨ x = r) (m.header.getD r 0) =
      fun x => col_set m N hid (m.header.getD r 0) x ∧ x ≠ r :=
    funext fun x => propext (col_set_remove_same x)
  have hidx : (m.down.set (m.up.getD r 0) (m.down.getD r 0)).getD r 0 = m.down.getD r 0 :=
    Vec.getD_set_ne _ _ _ _ _ hupne
  have hdown' : ∀ p, (remove_node m r).down.getD p 0 =
      if m.up.getD r 0 = p then m.down.getD r 0 else m.down.getD p 0 := by
    intro p
    rw [remove_node_down, if_neg h1, Vec.getD_set]
    simp [h.shape.down _ hupm.1]
  have hup' : ∀ p, (remove_node m r).up.getD p 0 =
      if m.down.getD r 0 = p then m.up.getD r 0 else m.up.getD p 0 := by
    intro p
    rw [remove_node_up, if_neg h1, hidx, Vec.getD_set]
    simp [h.shape.up _ hdn.1.1]
  have hmin_max : ∀ t b, (col_set m N hid (m.header.getD r 0) t ∧
      ∀ x, col_set m N hid (m.header.getD r 0) x → t ≤ x) →
      (col_set m N hid (m.header.getD r 0) b ∧
      ∀ x, col_set m N hid (m.header.getD r 0) x → x ≤ b) → t = r → b ≠ r := by
    rintro t b ⟨_, ht⟩ ⟨_, hb⟩ rfl rfl
    exact hother fun x hx => le_antisymm (hb x hx) (ht x hx)
  constructor
  · rw [hs, remove_node_count, Vec.getD_set_eq _ _ _ _ (h.shape.count _ hW), hc0.count_eq]
    have e : {x | col_set m N hid (m.header.getD r 0) x ∧ x ≠ r} =
        {x | col_set m N hid (m.header.getD r 0) x} \ {r} := by
      ext x; simp
    rw [e, Set.ncard_diff_singleton_of_mem (show r ∈ {x | col_set m N hid _ x} from hS)
      (col_set_finite m N hid _)]
    have := (Set.ncard_pos (col_set_finite m N hid (m.header.getD r 0))).2 ⟨r, hS⟩
    omega
  · rw [hs, remove_node_top, if_neg h1]
    intro ht x hx
    split_ifs at ht with ht0
    · rw [Vec.getD_set_eq _ _ _ _ (h.shape.top _ hW)] at ht
      exact absurd ht (by simp)
    · exact hc0.top_none ht x hx.1
  · rw [hs, remove_node_top, if_neg h1]
    intro t ht
    split_ifs at ht with ht0
    · rw [Vec.getD_set_eq _ _ _ _ (h.shape.top _ hW)] at ht
      obtain rfl : m.down.getD r 0 = t := by simpa using ht
      have hmin := (hc0.top_some r ht0).2
      refine ⟨⟨hdn.1, hdne⟩, fun x hx => ?_⟩
      obtain ⟨_, a | ⟨_, _, a3⟩⟩ := hdn
      · have := a.2 x hx.1
        have := hmin x hx.1
        have := hx.2
        omega
      · exact a3 x hx.1
    · obtain ⟨a, b⟩ := hc0.top_some t ht
      refine ⟨⟨a, ?_⟩, fun x hx => b x hx.1⟩
      rintro rfl
      exact ht0 ht
  · rw [hs, remove_node_bottom, if_neg h1]
    intro hb x hx
    split_ifs at hb with ht0 hb0
    · exact hc0.bottom_none hb x hx.1
    · rw [Vec.getD_set_eq _ _ _ _ (h.shape.bottom _ hW)] at hb
      exact absurd hb (by simp)
    · exact hc0.bottom_none hb x hx.1
  · rw [hs, remove_node_bottom, if_neg h1]
    intro b hb
    split_ifs at hb with ht0 hb0
    · obtain ⟨a, c⟩ := hc0.bottom_some b hb
      exact ⟨⟨a, hmin_max r b (hc0.top_some r ht0) ⟨a, c⟩ rfl⟩, fun x hx => c x hx.1⟩
    · rw [Vec.getD_set_eq _ _ _ _ (h.shape.bottom _ hW)] at hb
      obtain rfl : m.up.getD r 0 = b := by simpa using hb
      have hmax := (hc0.bottom_some r hb0).2
      refine ⟨⟨hupm, hupne⟩, fun x hx => ?_⟩
      obtain ⟨_, a | ⟨_, a2, _⟩⟩ := hup
      · have := a.2 x hx.1
        have := hmax x hx.1
        have := hx.2
        omega
      · exact a2 x hx.1
    · obtain ⟨a, c⟩ := hc0.bottom_some b hb
      refine ⟨⟨a, ?_⟩, fun x hx => c x hx.1⟩
      rintro rfl
      exact hb0 hb
  · rw [hs]
    intro p hp
    rw [hdown']
    have e : (m.up.getD r 0 = p) ↔ (m.down.getD p 0 = r) := by
      constructor
      · intro e
        exact (hc0.down_succ p hp.1).unique_succ (e ▸ hup)
      · intro e
        exact CycSucc.unique_pred hupm hp.1 hup (e ▸ hc0.down_succ p hp.1)
    have := CycSucc.erase_succ hp.1 hp.2 (hc0.down_succ p hp.1) hdn hdne
    by_cases hq : m.down.getD p 0 = r
    · rw [if_pos (e.2 hq)]; rw [if_pos hq] at this; exact this
    · rw [if_neg (fun x => hq (e.1 x))]; rw [if_neg hq] at this; exact this
  · rw [hs]
    intro p hp
    rw [hup']
    have e : (m.down.getD r 0 = p) ↔ (m.up.getD p 0 = r) := by
      constructor
      · intro e
        exact (CycSucc.unique_pred hS (hc0.up_mem p hp.1) (e ▸ hdn) (hc0.up_pred p hp.1)).symm
      · intro e
        exact hdn.unique_succ (e ▸ hc0.up_pred p hp.1)
    have := (CycSucc.erase_pred hp.1 hp.2 (hc0.up_mem p hp.1) hupm (hc0.up_pred p hp.1) hup
      hupne).1
    by_cases hq : m.up.getD p 0 = r
    · rw [if_pos (e.2 hq)]; rw [if_pos hq] at this; exact this
    · rw [if_neg (fun x => hq (e.1 x))]; rw [if_neg hq] at this; exact this
  · rw [hs]
    intro p hp
    rw [hup']
    have e : (m.down.getD r 0 = p) ↔ (m.up.getD p 0 = r) := by
      constructor
      · intro e
        exact (CycSucc.unique_pred hS (hc0.up_mem p hp.1) (e ▸ hdn) (hc0.up_pred p hp.1)).symm
      · intro e
        exact hdn.unique_succ (e ▸ hc0.up_pred p hp.1)
    have := (CycSucc.erase_pred hp.1 hp.2 (hc0.up_mem p hp.1) hupm (hc0.up_pred p hp.1) hup
      hupne).2
    by_cases hq : m.up.getD p 0 = r
    · rw [if_pos (e.2 hq)]; rw [if_pos hq] at this; exact this
    · rw [if_neg (fun x => hq (e.1 x))]; rw [if_neg hq] at this; exact this

/-- A column other than the one of the unlinked node is untouched. -/
theorem remove_node_colok_other {m : dlx_matrix} {N : Nat} {hid : Nat → Prop} {r c : Nat}
    (h : ColInv m N hid) (hr : r < N) (hnr : ¬ hid r) (hc : c < m.array_width)
    (hne : c ≠ m.header.getD r 0) :
    ColOK (remove_node m r) N (fun x => hid x ∨ x = r) c := by
  have hW : m.header.getD r 0 < m.array_width := h.static.header_lt r hr
  have hS : col_set m N hid (m.header.getD r 0) r := ⟨hr, rfl, hnr⟩
  have hc0 := h.col _ hW
  apply (h.col c hc).transfer
  · exact col_set_remove_other hne
  · rw [remove_node_count, Vec.getD_set_ne _ _ _ _ _ (Ne.symm hne)]
  · rw [remove_node_top]
    split_ifs <;> first | rfl | rw [Vec.getD_set_ne _ _ _ _ _ (Ne.symm hne)]
  · rw [remove_node_bottom]
    split_ifs <;> first | rfl | rw [Vec.getD_set_ne _ _ _ _ _ (Ne.symm hne)]
  · intro p hp
    rw [remove_node_down]
    split_ifs with h1
    · rfl
    · rw [Vec.getD_set_ne]
      rintro rfl
      exact hne ((hc0.up_mem r hS).2.1 ▸ hp.2.1.symm)
  · intro p hp
    rw [remove_node_up]
    split_ifs with h1
    · rfl
    · rw [Vec.getD_set_ne _ _ _ _ _ (hc0.neighbours hS h1).2, Vec.getD_set_ne]
      rintro rfl
      exact hne ((hc0.down_succ r hS).1.2.1 ▸ hp.2.1.symm)

/-- Unlinking a linked node keeps every column well linked, with the node
added to the unlinked set. -/
theorem remove_node_colinv {m : dlx_matrix} {N : Nat} {hid : Nat → Prop} {r : Nat}
    (h : ColInv m N hid) (hr : r < N) (hnr : ¬ hid r) :
    ColInv (remove_node m r) N (fun x => hid x ∨ x = r) := by
  have f := remove_node_frame m r
  refine ⟨remove_node_shape h.shape r, h.static.of_frame f, ?_, ?_⟩
  · rintro x (hx | rfl)
    · exact h.hid_lt x hx
    · exact hr
  · intro c hc
    rw [f.array_width] at hc
    by_cases hch : c = m.header.getD r 0
    · subst hch
      by_cases h1 : m.count.getD (m.header.getD r 0) 0 - 1 = 0
      · exact remove_node_colok_last h hr hnr h1
      · exact remove_node_colok_more h hr hnr h1
    · exact remove_node_colok_other h hr hnr hc hch

/-! ## Relinking undoes unlinking -/

theorem dlx_matrix.ext_fields {a b : dlx_matrix} (f : SameFrame a b)
    (h1 : b.up = a.up) (h2 : b.down = a.down) (h3 : b.count = a.count) (h4 : b.top = a.top)
    (h5 : b.bottom = a.bottom) (h6 : b.header_tree = a.header_tree)
    (h7 : b.optional_header_tree = a.optional_header_tree) : b = a := by
  obtain ⟨f1, f2, f3, f4, f5, f6, f7, f8, f9⟩ := f
  cases a; cases b
  simp only [dlx_matrix.mk.injEq] at *
  simp_all

/-- Order of two linked nodes of one column is the order of their rows. -/
theorem Static.row_lt {m : dlx_matrix} {N : Nat} (h : Static m N) {p q : Nat} (hp : p < N)
    (hq : q < N) (hc : m.header.getD p 0 = m.header.getD q 0) (hlt : p < q) :
    m.matrix_row.getD p 0 < m.matrix_row.getD q 0 := by
  have h1 := h.row_mono p q hp hq hlt.le
  have h2 : m.matrix_row.getD p 0 ≠ m.matrix_row.getD q 0 := fun e =>
    absurd (h.row_distinct p q hp hq e hc) (by omega)
  omega

theorem rekey_up_frame (m : dlx_matrix) (h : Nat) : SameFrame m (rekey_up m h) := by
  unfold rekey_up header_tree_insert header_tree_erase optional_header_tree_insert
    optional_header_tree_erase
  constructor <;> (simp only []; split_ifs <;> rfl)

theorem rekey_up_count (m : dlx_matrix) (h : Nat) :
    (rekey_up m h).count = m.count.set h (m.count.getD h 0 + 1) := by
  unfold rekey_up header_tree_insert header_tree_erase optional_header_tree_insert
    optional_header_tree_erase
  simp only [Vec.set_int_eq]
  split_ifs <;> rfl

theorem rekey_up_links (m : dlx_matrix) (h : Nat) :
    (rekey_up m h).up = m.up ∧ (rekey_up m h).down = m.down ∧ (rekey_up m h).top = m.top ∧
      (rekey_up m h).bottom = m.bottom := by
  unfold rekey_up header_tree_insert header_tree_erase optional_header_tree_insert
    optional_header_tree_erase
  split_ifs <;> exact ⟨rfl, rfl, rfl, rfl⟩

theorem rekey_up_header_tree (m : dlx_matrix) (h : Nat) :
    (rekey_up m h).header_tree =
      if m.matrix_column.getD h 0 < m.optional_constraint_start_column then
        m.header_tree.set h true
      else m.header_tree := by
  unfold rekey_up header_tree_insert header_tree_erase optional_header_tree_insert
    optional_header_tree_erase
  simp only [Vec.set_bool_eq]
  split_ifs <;> simp

theorem rekey_up_optional_header_tree (m : dlx_matrix) (h : Nat) :
    (rekey_up m h).optional_header_tree =
      if m.matrix_column.getD h 0 < m.optional_constraint_start_column then
        m.optional_header_tree
      else m.optional_header_tree.set h true := by
  unfold rekey_up header_tree_insert header_tree_erase optional_header_tree_insert
    optional_header_tree_erase
  simp only [Vec.set_bool_eq]
  split_ifs <;> simp

/-- Re-keying the header of `r` after the links of the mesh are back restores
the mesh from before `remove_node`. -/
theorem rekey_up_remove_node {m m3 : dlx_matrix} {N : Nat} {hid : Nat → Prop} {r : Nat}
    (h : ColInv m N hid) (hr : r < N) (hidx : in_index m (m.header.getD r 0))
    (f3 : SameFrame (remove_node m r) m3)
    (hup : m3.up = m.up) (hdown : m3.down = m.down) (htop : m3.top = m.top)
    (hbot : m3.bottom = m.bottom) (hcount : m3.count = (remove_node m r).count)
    (htree : m3.header_tree = (remove_node m r).header_tree)
    (hopt : m3.optional_header_tree = (remove_node m r).optional_header_tree) :
    rekey_up m3 (m3.header.getD r 0) = m := by
  have f := (remove_node_frame m r).trans f3
  have hW : m.header.getD r 0 < m.array_width := h.static.header_lt r hr
  obtain ⟨l1, l2, l3, l4⟩ := rekey_up_links m3 (m3.header.getD r 0)
  unfold in_index at hidx
  apply dlx_matrix.ext_fields (f.trans (rekey_up_frame _ _))
  · rw [l1, hup]
  · rw [l2, hdown]
  · rw [rekey_up_count, hcount, f.header, remove_node_count,
      Vec.getD_set_eq _ _ _ _ (h.shape.count _ hW), Vec.set_set]
    exact Vec.set_eq_self _ _ _ 0 (by omega)
  · rw [l3, htop]
  · rw [l4, hbot]
  · rw [rekey_up_header_tree, htree, remove_node_header_tree, f.header, f.matrix_column,
      f.optional_start]
    split_ifs with hm
    · rw [Vec.set_set]
      exact Vec.set_eq_self _ _ _ false (by simpa [hm] using hidx)
    · rfl
  · rw [rekey_up_optional_header_tree, hopt, remove_node_optional_header_tree, f.header,
      f.matrix_column, f.optional_start]
    split_ifs with hm
    · rfl
    · rw [Vec.set_set]
      exact Vec.set_eq_self _ _ _ false (by simpa [hm] using hidx)

theorem relink_node_zero {m : dlx_matrix} {r : Nat}
    (h0 : m.count.getD (m.header.getD r 0) 0 = 0) :
    relink_node m r = Except.ok
      { m with top := m.top.set (m.header.getD r 0) (some r),
               bottom := m.bottom.set (m.header.getD r 0) (some r) } := by
  simp [relink_node, h0]

theorem relink_node_bottom {m : dlx_matrix} {r b : Nat}
    (h0 : m.count.getD (m.header.getD r 0) 0 ≠ 0)
    (hb : m.bottom.getD (m.header.getD r 0) Option.none = some b)
    (hlt : m.matrix_row.getD b 0 < m.matrix_row.getD r 0) :
    relink_node m r = Except.ok
      { m with down := m.down.set (m.up.getD r 0) r,
               up := m.up.set ((m.down.set (m.up.getD r 0) r).getD r 0) r,
               bottom := m.bottom.set (m.header.getD r 0) (some r) } := by
  simp [relink_node, h0, hb, hlt]

theorem relink_node_top {m : dlx_matrix} {r b t : Nat}
    (h0 : m.count.getD (m.header.getD r 0) 0 ≠ 0)
    (hb : m.bottom.getD (m.header.getD r 0) Option.none = some b)
    (hlt : ¬ m.matrix_row.getD b 0 < m.matrix_row.getD r 0)
    (ht : m.top.getD (m.header.getD r 0) Option.none = some t)
    (hlt2 : m.matrix_row.getD r 0 < m.matrix_row.getD t 0) :
    relink_node m r = Except.ok
      { m with down := m.down.set (m.up.getD r 0) r,
               up := m.up.set ((m.down.set (m.up.getD r 0) r).getD r 0) r,
               top := m.top.set (m.header.getD r 0) (some r) } := by
  simp [relink_node, h0, hb, hlt, ht, hlt2]

theorem relink_node_mid {m : dlx_matrix} {r b t : Nat}
    (h0 : m.count.getD (m.header.getD r 0) 0 ≠ 0)
    (hb : m.bottom.getD (m.header.getD r 0) Option.none = some b)
    (hlt : ¬ m.matrix_row.getD b 0 < m.matrix_row.getD r 0)
    (ht : m.top.getD (m.header.getD r 0) Option.none = some t)
    (hlt2 : ¬ m.matrix_row.getD r 0 < m.matrix_row.getD t 0) :
    relink_node m r = Except.ok
      { m with down := m.down.set (m.up.getD r 0) r,
               up := m.up.set ((m.down.set (m.up.getD r 0) r).getD r 0) r } := by
  simp [relink_node, h0, hb, hlt, ht, hlt2]

/-- Relinking the node that `remove_node` has just unlinked puts every link,
`top` and `bottom` back. -/
theorem relink_remove_node {m : dlx_matrix} {N : Nat} {hid : Nat → Prop} {r : Nat}
    (h : ColInv m N hid) (hr : r < N) (hnr : ¬ hid r) :
    ∃ m3, relink_node (remove_node m r) r = Except.ok m3 ∧ SameFrame (remove_node m r) m3 ∧
      m3.up = m.up ∧ m3.down = m.down ∧ m3.top = m.top ∧ m3.bottom = m.bottom ∧
      m3.count = (remove_node m r).count ∧
      m3.header_tree = (remove_node m r).header_tree ∧
      m3.optional_header_tree = (remove_node m r).optional_header_tree := by
  have f := remove_node_frame m r
  have hW : m.header.getD r 0 < m.array_width := h.static.header_lt r hr
  have hS : col_set m N hid (m.header.getD r 0) r := ⟨hr, rfl, hnr⟩
  have hc0 := h.col _ hW
  have hcnt : (remove_node m r).count.getD ((remove_node m r).header.getD r 0) 0 =
      m.count.getD (m.header.getD r 0) 0 - 1 := by
    rw [f.header, remove_node_count, Vec.getD_set_eq _ _ _ _ (h.shape.count _ hW)]
  have htop_ne : m.top.getD (m.header.getD r 0) Option.none ≠ Option.none :=
    fun e => hc0.top_none e r hS
  have hbot_ne : m.bottom.getD (m.header.getD r 0) Option.none ≠ Option.none :=
    fun e => hc0.bottom_none e r hS
  by_cases h1 : m.count.getD (m.header.getD r 0) 0 - 1 = 0
  · have hone := hc0.singleton_of_count hS h1
    have htop : m.top.getD (m.header.getD r 0) Option.none = some r := by
      cases ht : m.top.getD (m.header.getD r 0) Option.none with
      | none => exact absurd ht htop_ne
      | some t => rw [hone t (hc0.top_some t ht).1]
    have hbot : m.bottom.getD (m.header.getD r 0) Option.none = some r := by
      cases ht : m.bottom.getD (m.header.getD r 0) Option.none with
      | none => exact absurd ht hbot_ne
      | some t => rw [hone t (hc0.bottom_some t ht).1]
    refine ⟨_, relink_node_zero (hcnt.trans h1), ⟨rfl, rfl, rfl, rfl, rfl, rfl, rfl, rfl, rfl⟩,
      ?_, ?_, ?_, ?_, rfl, rfl, rfl⟩
    · simp [remove_node_up, h1]
    · simp [remove_node_down, h1]
    · simp only [f.header, remove_node_top, h1, if_true, Vec.set_set]
      exact Vec.set_eq_self _ _ _ _ htop
    · simp only [f.header, remove_node_bottom, h1, if_true, Vec.set_set]
      exact Vec.set_eq_self _ _ _ _ hbot
  · obtain ⟨hdne, hupne⟩ := hc0.neighbours hS h1
    have hdn := hc0.down_succ r hS
    have hup := hc0.up_pred r hS
    have hupm := hc0.up_mem r hS
    have hother := hc0.other_of_count hS h1
    have hcnt' : (remove_node m r).count.getD ((remove_node m r).header.getD r 0) 0 ≠ 0 := by
      rw [hcnt]; exact h1
    have hdu : m.down.getD (m.up.getD r 0) 0 = r :=
      (hc0.down_succ _ hupm).unique_succ hup
    have hud : m.up.getD (m.down.getD r 0) 0 = r :=
      (CycSucc.unique_pred hS (hc0.up_mem _ hdn.1) hdn (hc0.up_pred _ hdn.1)).symm
    have e_up : (remove_node m r).up = m.up.set (m.down.getD r 0) (m.up.getD r 0) := by
      rw [remove_node_up, if_neg h1, Vec.getD_set_ne _ _ _ _ _ hupne]
    have e_down : (remove_node m r).down = m.down.set (m.up.getD r 0) (m.down.getD r 0) := by
      rw [remove_node_down, if_neg h1]
    have e_upr : (remove_node m r).up.getD r 0 = m.up.getD r 0 := by
      rw [e_up, Vec.getD_set_ne _ _ _ _ _ hdne]
    have hd2 : (remove_node m r).down.set ((remove_node m r).up.getD r 0) r = m.down := by
      rw [e_upr, e_down, Vec.set_set]
      exact Vec.set_eq_self _ _ _ 0 hdu
    have hu2 : (remove_node m r).up.set
        (((remove_node m r).down.set ((remove_node m r).up.getD r 0) r).getD r 0) r = m.up := by
      rw [hd2, e_up, Vec.set_set]
      exact Vec.set_eq_self _ _ _ 0 hud
    obtain ⟨b, hb⟩ := Option.ne_none_iff_exists'.1 hbot_ne
    obtain ⟨t, ht⟩ := Option.ne_none_iff_exists'.1 htop_ne
    have hbmax := hc0.bottom_some b hb
    have htmin := hc0.top_some t ht
    by_cases ht0 : m.top.getD (m.header.getD r 0) Option.none = some r
    · -- `r` was the top of its column
      have hbr : b ≠ r := by
        rintro rfl
        have := (hc0.top_some b ht0).2
        exact hother fun x hx => le_antisymm (hbmax.2 x hx) (this x hx)
      have e_bot : (remove_node m r).bottom = m.bottom := by
        rw [remove_node_bottom, if_neg h1, if_pos ht0]
      have e_top : (remove_node m r).top =
          m.top.set (m.header.getD r 0) (some (m.down.getD r 0)) := by
        rw [remove_node_top, if_neg h1, if_pos ht0]
      have hrb : r < b := lt_of_le_of_ne (hbmax.2 r hS) (Ne.symm hbr)
      have hrd : r < m.down.getD r 0 :=
        lt_of_le_of_ne ((hc0.top_some r ht0).2 _ hdn.1) (Ne.symm hdne)
      have k1 : (remove_node m r).bottom.getD ((remove_node m r).header.getD r 0) Option.none
          = some b := by rw [e_bot, f.header, hb]
      have k2 : ¬ (remove_node m r).matrix_row.getD b 0 <
          (remove_node m r).matrix_row.getD r 0 := by
        rw [f.matrix_row]
        have := h.static.row_mono r b hr hbmax.1.1 hrb.le
        omega
      have k3 : (remove_node m r).top.getD ((remove_node m r).header.getD r 0) Option.none
          = some (m.down.getD r 0) := by
        rw [e_top, f.header, Vec.getD_set_eq _ _ _ _ (h.shape.top _ hW)]
      have k4 : (remove_node m r).matrix_row.getD r 0 <
          (remove_node m r).matrix_row.getD (m.down.getD r 0) 0 := by
        rw [f.matrix_row]
        exact h.static.row_lt hr hdn.1.1 hdn.1.2.1.symm hrd
      refine ⟨_, relink_node_top hcnt' k1 k2 k3 k4,
        ⟨rfl, rfl, rfl, rfl, rfl, rfl, rfl, rfl, rfl⟩, hu2, hd2, ?_, e_bot, rfl, rfl, rfl⟩
      simp only [f.header, e_top, Vec.set_set]
      exact Vec.set_eq_self _ _ _ _ ht0
    · by_cases hb0 : m.bottom.getD (m.header.getD r 0) Option.none = some r
      · -- `r` was the bottom of its column
        have e_bot : (remove_node m r).bottom =
            m.bottom.set (m.header.getD r 0) (some (m.up.getD r 0)) := by
          rw [remove_node_bottom, if_neg h1, if_neg ht0, if_pos hb0]
        have e_top : (remove_node m r).top = m.top := by
          rw [remove_node_top, if_neg h1, if_neg ht0]
        have hur : m.up.getD r 0 < r :=
          lt_of_le_of_ne ((hc0.bottom_some r hb0).2 _ hupm) hupne
        have k1 : (remove_node m r).bottom.getD ((remove_node m r).header.getD r 0) Option.none
            = some (m.up.getD r 0) := by
          rw [e_bot, f.header, Vec.getD_set_eq _ _ _ _ (h.shape.bottom _ hW)]
        have k2 : (remove_node m r).matrix_row.getD (m.up.getD r 0) 0 <
            (remove_node m r).matrix_row.getD r 0 := by
          rw [f.matrix_row]
          exact h.static.row_lt hupm.1 hr hupm.2.1 hur
        refine ⟨_, relink_node_bottom hcnt' k1 k2,
          ⟨rfl, rfl, rfl, rfl, rfl, rfl, rfl, rfl, rfl⟩, hu2, hd2, e_top, ?_, rfl, rfl, rfl⟩
        simp only [f.header, e_bot, Vec.set_set]
        exact Vec.set_eq_self _ _ _ _ hb0
      · -- `r` was strictly between top and bottom
        have e_bot : (remove_node m r).bottom = m.bottom := by
          rw [remove_node_bottom, if_neg h1, if_neg ht0, if_neg hb0]
        have e_top : (remove_node m r).top = m.top := by
          rw [remove_node_top, if_neg h1, if_neg ht0]
        have k1 : (remove_node m r).bottom.getD ((remove_node m r).header.getD r 0) Option.none
            = some b := by rw [e_bot, f.header, hb]
        have k2 : ¬ (remove_node m r).matrix_row.getD b 0 <
            (remove_node m r).matrix_row.getD r 0 := by
          rw [f.matrix_row]
          have := h.static.row_mono r b hr hbmax.1.1 (hbmax.2 r hS)
          omega
        have k3 : (remove_node m r).top.getD ((remove_node m r).header.getD r 0) Option.none
            = some t := by rw [e_top, f.header, ht]
        have k4 : ¬ (remove_node m r).matrix_row.getD r 0 <
            (remove_node m r).matrix_row.getD t 0 := by
          rw [f.matrix_row]
          have := h.static.row_mono t r htmin.1.1 hr (htmin.2 r hS)
          omega
        exact ⟨_, relink_node_mid hcnt' k1 k2 k3 k4,
          ⟨rfl, rfl, rfl, rfl, rfl, rfl, rfl, rfl, rfl⟩, hu2, hd2, e_top, e_bot, rfl, rfl, rfl⟩

/-- `restore_node` undoes `remove_node` on a linked node whose header is in its
index. -/
theorem restore_remove_node {m : dlx_matrix} {N : Nat} {hid : Nat → Prop} {r : Nat}
    (h : ColInv m N hid) (hr : r < N) (hnr : ¬ hid r) (hidx : in_index m (m.header.getD r 0)) :
    restore_node (remove_node m r) r = Except.ok m := by
  obtain ⟨m3, e, f3, a1, a2, a3, a4, a5, a6, a7⟩ := relink_remove_node h hr hnr
  unfold restore_node
  rw [e]
  simp only []
  rw [rekey_up_remove_node h hr hidx f3 a1 a2 a3 a4 a5 a6 a7]

/-! ## The inner loops: one row of a column being removed -/

theorem row_set_self {m : dlx_matrix} {N p : Nat} (hp : p < N) : row_set m N p p := ⟨hp, rfl⟩

theorem row_set_lt {m : dlx_matrix} {N p x : Nat} (h : row_set m N p x) : x < N := h.1

theorem row_set_eq {m : dlx_matrix} {N p x : Nat} (h : row_set m N p x) :
    row_set m N x = row_set m N p := by
  funext y
  unfold row_set
  rw [h.2]

theorem row_set_frame {m m' : dlx_matrix} (f : SameFrame m m') (N p : Nat) :
    row_set m' N p = row_set m N p := by
  unfold row_set; rw [f.matrix_row]

theorem row_rest_frame {m m' : dlx_matrix} (f : SameFrame m m') (N C x : Nat) :
    row_rest m' N C x = row_rest m N C x := by
  unfold row_rest; rw [row_set_frame f]

theorem Static.right_mem {m : dlx_matrix} {N : Nat} (h : Static m N) {C x : Nat}
    (hx : row_set m N C x) : row_set m N C (m.right.getD x 0) := by
  have := (h.right_succ x hx.1).1
  rwa [row_set_eq hx] at this

theorem Static.left_mem' {m : dlx_matrix} {N : Nat} (h : Static m N) {C x : Nat}
    (hx : row_set m N C x) : row_set m N C (m.left.getD x 0) := by
  have := h.left_mem x hx.1
  rwa [row_set_eq hx] at this

theorem Static.left_right {m : dlx_matrix} {N : Nat} (h : Static m N) {x : Nat} (hx : x < N) :
    m.left.getD (m.right.getD x 0) 0 = x := by
  have h1 := h.right_succ x hx
  have hr : row_set m N x (m.right.getD x 0) := h1.1
  have h2 := h.left_pred _ hr.1
  have h3 := h.left_mem _ hr.1
  rw [row_set_eq hr] at h2 h3
  exact CycSucc.unique_pred h3 (row_set_self hx) h2 h1

theorem Static.right_left {m : dlx_matrix} {N : Nat} (h : Static m N) {x : Nat} (hx : x < N) :
    m.right.getD (m.left.getD x 0) 0 = x := by
  have h1 := h.left_pred x hx
  have hl : row_set m N x (m.left.getD x 0) := h.left_mem x hx
  have h2 := h.right_succ _ hl.1
  rw [row_set_eq hl] at h2
  exact h2.unique_succ h1

theorem remove_node_trees {m : dlx_matrix} {r : Nat} (hidx : in_index m (m.header.getD r 0)) :
    (remove_node m r).header_tree = m.header_tree ∧
      (remove_node m r).optional_header_tree = m.optional_header_tree := by
  unfold in_index at hidx
  rw [remove_node_header_tree, remove_node_optional_header_tree]
  split_ifs with hm
  · exact ⟨Vec.set_eq_self _ _ _ false (by simpa [hm] using hidx), rfl⟩
  · exact ⟨rfl, Vec.set_eq_self _ _ _ false (by simpa [hm] using hidx)⟩

theorem in_index_congr {m m' : dlx_matrix} (f : SameFrame m m')
    (h1 : m'.header_tree = m.header_tree)
    (h2 : m'.optional_header_tree = m.optional_header_tree) (c : Nat) :
    in_index m' c ↔ in_index m c := by
  unfold in_index
  rw [f.matrix_column, f.optional_start, h1, h2]

theorem row_rest_base {m : dlx_matrix} {N C : Nat} (y : Nat) (hC : C < N) :
    ¬ row_rest m N C C y := by
  rintro ⟨h1, h2, h3⟩
  rw [cdist_self] at h3
  have := cdist_pos h1.1 hC h2
  omega

theorem row_rest_step {m : dlx_matrix} {N C x : Nat} (h : Static m N) (hC : C < N)
    (hx : row_set m N C x) (hxC : x ≠ C) (y : Nat) :
    row_rest m N C x y ↔ (y = x ∨ row_rest m N C (m.right.getD x 0) y) := by
  have hs := h.right_succ x hx.1
  rw [row_set_eq hx] at hs
  unfold row_rest
  constructor
  · rintro ⟨h1, h2, h3⟩
    by_cases e : y = x
    · exact Or.inl e
    · right
      refine ⟨h1, h2, ?_⟩
      have := (CycSucc.cdist_succ_between (fun y hy => row_set_lt hy) (row_set_self hC) hx h1
        hxC hs).not
      simp only [e, false_or, not_lt] at this
      exact this.2 h3
  · rintro (rfl | ⟨h1, h2, h3⟩)
    · exact ⟨hx, hxC, le_rfl⟩
    · refine ⟨h1, h2, ?_⟩
      have := CycSucc.cdist_succ_lt (fun y hy => row_set_lt hy) (row_set_self hC) hx hxC hs
      omega

theorem row_rest_first {m : dlx_matrix} {N C : Nat} (h : Static m N) (hC : C < N) (y : Nat) :
    row_rest m N C (m.right.getD C 0) y ↔ (row_set m N C y ∧ y ≠ C) := by
  unfold row_rest
  constructor
  · rintro ⟨h1, h2, _⟩; exact ⟨h1, h2⟩
  · rintro ⟨h1, h2⟩
    refine ⟨h1, h2, ?_⟩
    have := CycSucc.cdist_succ_max (fun y hy => row_set_lt hy) (row_set_self hC) h1 h2
      (h.right_succ C hC)
    omega

theorem restore_column_row_mono {C : Nat} {fuel fuel' : Nat} {m v : dlx_matrix} {x : Nat}
    (h : restore_column_row C fuel m x = Except.ok v) (hle : fuel ≤ fuel') :
    restore_column_row C fuel' m x = Except.ok v := by
  induction fuel generalizing fuel' m x with
  | zero => simp [restore_column_row] at h
  | succ n ih =>
    obtain ⟨k, rfl⟩ : ∃ k, fuel' = k + 1 := ⟨fuel' - 1, by omega⟩
    unfold restore_column_row at h ⊢
    split_ifs at h ⊢ with hx
    · exact h
    · cases hr : restore_node m x with
      | error e => rw [hr] at h; simp at h
      | ok m1 =>
        rw [hr] at h
        simp only [] at h ⊢
        exact ih h (by omega)

/-- The inner loop of `remove_column` from `x` onwards unlinks exactly the
nodes of the row that lie between `x` and `C`, and the inner loop of
`restore_column` run over the same stretch undoes it. -/
theorem remove_column_row_spec {N C : Nat} (n : Nat) :
    ∀ (m : dlx_matrix) (hid : Nat → Prop) (x : Nat), ColInv m N hid → C < N →
      row_set m N C x → cdist N x C ≤ n →
      (∀ y, row_rest m N C x y → ¬ hid y ∧ in_index m (m.header.getD y 0)) →
      ∀ fuel, n < fuel →
      ∃ m', remove_column_row C fuel m x = Except.ok m' ∧
        ColInv m' N (fun y => hid y ∨ row_rest m N C x y) ∧ SameFrame m m' ∧
        m'.header_tree = m.header_tree ∧ m'.optional_header_tree = m.optional_header_tree ∧
        ∀ fuel2 v, restore_column_row C fuel2 m (m.left.getD x 0) = Except.ok v →
          restore_column_row C (fuel2 + n) m' (m.left.getD C 0) = Except.ok v := by
  induction n with
  | zero =>
    intro m hid x h hC hx hd _ fuel hf
    have hxC : x = C := by
      by_contra hne
      have := cdist_pos hx.1 hC hne
      omega
    subst hxC
    obtain ⟨k, rfl⟩ : ∃ k, fuel = k + 1 := ⟨fuel - 1, by omega⟩
    refine ⟨m, by simp [remove_column_row], ?_, SameFrame.refl m, rfl, rfl, fun f2 v hv => hv⟩
    have : (fun y => hid y ∨ row_rest m N x x y) = hid := by
      funext y; apply propext
      constructor
      · rintro (a | a)
        · exact a
        · exact absurd a (row_rest_base y hC)
      · exact Or.inl
    rw [this]; exact h
  | succ n ih =>
    intro m hid x h hC hx hd hrest fuel hf
    obtain ⟨k, rfl⟩ : ∃ k, fuel = k + 1 := ⟨fuel - 1, by omega⟩
    by_cases hxC : x = C
    · subst hxC
      refine ⟨m, by simp [remove_column_row], ?_, SameFrame.refl m, rfl, rfl,
        fun f2 v hv => restore_column_row_mono hv (by omega)⟩
      have : (fun y => hid y ∨ row_rest m N x x y) = hid := by
        funext y; apply propext
        constructor
        · rintro (a | a)
          · exact a
          · exact absurd a (row_rest_base y hC)
        · exact Or.inl
      rw [this]; exact h
    · have hxx : row_rest m N C x x := ⟨hx, hxC, le_rfl⟩
      obtain ⟨hnx, hix⟩ := hrest x hxx
      have f1 := remove_node_frame m x
      have h1 := remove_node_colinv h hx.1 hnx
      obtain ⟨t1, t2⟩ := remove_node_trees hix
      have hs := h.static.right_succ x hx.1
      rw [row_set_eq hx] at hs
      have hlt := CycSucc.cdist_succ_lt (fun y hy => row_set_lt hy) (row_set_self hC) hx hxC hs
      have hx' : row_set (remove_node m x) N C (m.right.getD x 0) := by
        rw [row_set_frame f1]; exact h.static.right_mem hx
      have hrest' : ∀ y, row_rest (remove_node m x) N C (m.right.getD x 0) y →
          ¬ (hid y ∨ y = x) ∧
            in_index (remove_node m x) ((remove_node m x).header.getD y 0) := by
        intro y hy
        rw [row_rest_frame f1] at hy
        have hy' := (row_rest_step h.static hC hx hxC y).2 (Or.inr hy)
        obtain ⟨a, b⟩ := hrest y hy'
        refine ⟨?_, ?_⟩
        · rintro (c | rfl)
          · exact a c
          · have := hy.2.2
            omega
        · rw [in_index_congr f1 t1 t2, f1.header]; exact b
      obtain ⟨m', e, hc', f', t1', t2', hrt⟩ :=
        ih (remove_node m x) _ (m.right.getD x 0) h1 hC hx' (by omega) hrest' k (by omega)
      refine ⟨m', ?_, ?_, f1.trans f', t1'.trans t1, t2'.trans t2, ?_⟩
      · rw [remove_column_row]
        simp only [hxC, if_false, f1.right]
        exact e
      · have : (fun y => hid y ∨ row_rest m N C x y) =
            (fun y => (hid y ∨ y = x) ∨ row_rest (remove_node m x) N C (m.right.getD x 0) y) := by
          funext y; apply propext
          rw [row_rest_frame f1, row_rest_step h.static hC hx hxC y]
          tauto
        rw [this]; exact hc'
      · intro f2 v hv
        have hstep : restore_column_row C (f2 + 1) (remove_node m x) x = Except.ok v := by
          rw [restore_column_row]
          simp only [hxC, if_false, restore_remove_node h hx.1 hnx hix]
          exact hv
        have := hrt (f2 + 1) v (by
          rw [f1.left, h.static.left_right hx.1]; exact hstep)
        rw [f1.left] at this
        rw [show f2 + (n + 1) = f2 + 1 + n by omega]; exact this

/-! ## The outer loops: removing and restoring a column -/

theorem restore_column_loop_mono {s : Nat} {fuel0 fuel0' fuel fuel' : Nat} {m v : dlx_matrix}
    {x : Nat} (h : restore_column_loop fuel0 s fuel m x = Except.ok v) (hle0 : fuel0 ≤ fuel0')
    (hle : fuel ≤ fuel') : restore_column_loop fuel0' s fuel' m x = Except.ok v := by
  induction fuel generalizing fuel' m x with
  | zero => simp [restore_column_loop] at h
  | succ n ih =>
    obtain ⟨k, rfl⟩ : ∃ k, fuel' = k + 1 := ⟨fuel' - 1, by omega⟩
    unfold restore_column_loop at h ⊢
    split_ifs at h ⊢ with hx
    · exact h
    · cases hr : restore_column_row x fuel0 m (m.left.getD x 0) with
      | error e => rw [hr] at h; simp at h
      | ok m1 =>
        rw [hr] at h
        rw [restore_column_row_mono hr hle0]
        simp only [] at h ⊢
        exact ih h (by omega)

theorem col_set_hide_row {m m' : dlx_matrix} {N : Nat} {hid : Nat → Prop} {s x : Nat}
    (hst : Static m N) (f : SameFrame m m') (hx : col_set m N hid (m.header.getD s 0) x)
    (z : Nat) (y : Nat) :
    col_set m' N (fun y => hid y ∨ row_rest m N x z y) (m.header.getD s 0) y ↔
      col_set m N hid (m.header.getD s 0) y := by
  unfold col_set
  rw [f.header]
  constructor
  · rintro ⟨a, b, c⟩; exact ⟨a, b, fun hy => c (Or.inl hy)⟩
  · rintro ⟨a, b, c⟩
    refine ⟨a, b, ?_⟩
    rintro (hy | hy)
    · exact c hy
    · exact hy.2.1 (hst.row_distinct y x a hx.1 hy.1.2 (b.trans hx.2.1.symm))

theorem col_rest_base {m : dlx_matrix} {N : Nat} {hid : Nat → Prop} {s : Nat} (hs : s < N)
    (y : Nat) : ¬ col_rest m N hid s s y := by
  rintro ⟨C, h1, h2, h3, _⟩
  rw [cdist_self] at h3
  have := cdist_pos h1.1 hs h2
  omega

theorem col_rest_step {m : dlx_matrix} {N : Nat} {hid : Nat → Prop} {s x q : Nat}
    (hs : col_set m N hid (m.header.getD s 0) s) (hx : col_set m N hid (m.header.getD s 0) x)
    (hxs : x ≠ s) (hq : CycSucc (col_set m N hid (m.header.getD s 0)) x q) (y : Nat) :
    col_rest m N hid s x y ↔ ((row_set m N x y ∧ y ≠ x) ∨ col_rest m N hid s q y) := by
  unfold col_rest
  constructor
  · rintro ⟨C, h1, h2, h3, h4, h5⟩
    by_cases e : C = x
    · subst e; exact Or.inl ⟨h4, h5⟩
    · right
      refine ⟨C, h1, h2, ?_, h4, h5⟩
      have := (CycSucc.cdist_succ_between (fun y hy => hy.1) hs hx h1 hxs hq).not
      simp only [e, false_or, not_lt] at this
      exact this.2 h3
  · rintro (⟨h4, h5⟩ | ⟨C, h1, h2, h3, h4, h5⟩)
    · exact ⟨x, hx, hxs, le_rfl, h4, h5⟩
    · refine ⟨C, h1, h2, ?_, h4, h5⟩
      have := CycSucc.cdist_succ_lt (fun y hy => hy.1) hs hx hxs hq
      omega

theorem col_rest_first {m : dlx_matrix} {N : Nat} {hid : Nat → Prop} {s q : Nat}
    (hs : col_set m N hid (m.header.getD s 0) s)
    (hq : CycSucc (col_set m N hid (m.header.getD s 0)) s q) (y : Nat) :
    col_rest m N hid s q y ↔ col_others m N hid s y := by
  unfold col_rest col_others
  constructor
  · rintro ⟨C, h1, h2, _, h4, h5⟩; exact ⟨C, h1, h2, h4, h5⟩
  · rintro ⟨C, h1, h2, h4, h5⟩
    refine ⟨C, h1, h2, ?_, h4, h5⟩
    have := CycSucc.cdist_succ_max (fun y hy => hy.1) hs h1 h2 hq
    omega

/-- The outer loop of `remove_column` from `x` onwards unlinks exactly the
other nodes of the rows of the linked column nodes between `x` and the given
node `s`, and the outer loop of `restore_column` run over the same stretch
undoes it. -/
theorem remove_column_loop_spec {N s : Nat} (n : Nat) :
    ∀ (m : dlx_matrix) (hid : Nat → Prop) (x : Nat), ColInv m N hid →
      col_set m N hid (m.header.getD s 0) s → col_set m N hid (m.header.getD s 0) x →
      cdist N x s ≤ n →
      (∀ y, col_rest m N hid s x y → ¬ hid y ∧ in_index m (m.header.getD y 0)) →
      ∀ fuel0 fuel, N ≤ fuel0 → n < fuel →
      ∃ m', remove_column_loop fuel0 s fuel m x = Except.ok m' ∧
        ColInv m' N (fun y => hid y ∨ col_rest m N hid s x y) ∧ SameFrame m m' ∧
        m'.header_tree = m.header_tree ∧ m'.optional_header_tree = m.optional_header_tree ∧
        m'.up.getD s 0 = m.up.getD s 0 ∧
        ∀ F f2 v, N < F → restore_column_loop F s f2 m (m.up.getD x 0) = Except.ok v →
          restore_column_loop F s (f2 + n) m' (m.up.getD s 0) = Except.ok v := by
  induction n with
  | zero =>
    intro m hid x h hs hx hd _ fuel0 fuel _ hf
    have hxs : x = s := by
      by_contra hne
      have := cdist_pos hx.1 hs.1 hne
      omega
    subst hxs
    obtain ⟨k, rfl⟩ : ∃ k, fuel = k + 1 := ⟨fuel - 1, by omega⟩
    refine ⟨m, by simp [remove_column_loop], ?_, SameFrame.refl m, rfl, rfl, rfl,
      fun F f2 v _ hv => hv⟩
    have : (fun y => hid y ∨ col_rest m N hid x x y) = hid := by
      funext y; apply propext
      constructor
      · rintro (a | a)
        · exact a
        · exact absurd a (col_rest_base hs.1 y)
      · exact Or.inl
    rw [this]; exact h
  | succ n ih =>
    intro m hid x h hs hx hd hrest fuel0 fuel hf0 hf
    obtain ⟨k, rfl⟩ : ∃ k, fuel = k + 1 := ⟨fuel - 1, by omega⟩
    by_cases hxs : x = s
    · subst hxs
      refine ⟨m, by simp [remove_column_loop], ?_, SameFrame.refl m, rfl, rfl, rfl,
        fun F f2 v _ hv => restore_column_loop_mono hv le_rfl (by omega)⟩
      have : (fun y => hid y ∨ col_rest m N hid x x y) = hid := by
        funext y; apply propext
        constructor
        · rintro (a | a)
          · exact a
          · exact absurd a (col_rest_base hs.1 y)
        · exact Or.inl
      rw [this]; exact h
    · -- the inner loop on the row of `x`
      have hxN := hx.1
      have hrow_in : ∀ y, row_rest m N x (m.right.getD x 0) y →
          ¬ hid y ∧ in_index m (m.header.getD y 0) := by
        intro y hy
        exact hrest y ⟨x, hx, hxs, le_rfl, hy.1, hy.2.1⟩
      obtain ⟨m1, e1, hc1, f1, t1, t2, hrt1⟩ :=
        remove_column_row_spec (N - 1) m hid (m.right.getD x 0) h hxN
          (h.static.right_mem (row_set_self hxN))
          (by have := cdist_lt (h.static.right_mem (row_set_self hxN)).1 hxN (n := N); omega)
          hrow_in fuel0 (by omega)
      have hS1 : col_set m1 N (fun y => hid y ∨ row_rest m N x (m.right.getD x 0) y)
          (m.header.getD s 0) = col_set m N hid (m.header.getD s 0) :=
        funext fun y => propext (col_set_hide_row h.static f1 hx _ y)
      have hW : m.header.getD s 0 < m1.array_width := by
        rw [f1.array_width]; exact h.static.header_lt s hs.1
      have hcol1 := hc1.col _ hW
      have hq := hcol1.down_succ x (hS1 ▸ hx)
      rw [hS1] at hq
      have hlt := CycSucc.cdist_succ_lt (fun y hy => hy.1) hs hx hxs hq
      have hrest_eq : col_rest m1 N (fun y => hid y ∨ row_rest m N x (m.right.getD x 0) y) s
          (m1.down.getD x 0) = col_rest m N hid s (m1.down.getD x 0) := by
        unfold col_rest
        rw [f1.header, hS1]
        simp only [row_set_frame f1]
      have hrest' : ∀ y, col_rest m1 N (fun y => hid y ∨ row_rest m N x (m.right.getD x 0) y) s
          (m1.down.getD x 0) y →
          ¬ (hid y ∨ row_rest m N x (m.right.getD x 0) y) ∧
            in_index m1 (m1.header.getD y 0) := by
        intro y hy
        rw [hrest_eq] at hy
        obtain ⟨a, b⟩ := hrest y ((col_rest_step hs hx hxs hq y).2 (Or.inr hy))
        refine ⟨?_, ?_⟩
        · rintro (c | c)
          · exact a c
          · obtain ⟨C, c1, c2, c3, c4, c5⟩ := hy
            have hCx : C ≠ x := by
              rintro rfl
              omega
            apply hCx
            apply h.static.row_distinct C x c1.1 hxN _ (c1.2.1.trans hx.2.1.symm)
            rw [← c4.2, c.1.2]
        · rw [in_index_congr f1 t1 t2, f1.header]; exact b
      obtain ⟨m', e, hc', f', t1', t2', hup', hrt⟩ :=
        ih m1 _ (m1.down.getD x 0) hc1 (by rw [f1.header, hS1]; exact hs)
          (by rw [f1.header, hS1]; exact hq.1) (by omega) hrest' fuel0 k hf0 (by omega)
      have hup1s : m1.up.getD s 0 = m.up.getD s 0 := by
        have a := hcol1.up_pred s (hS1 ▸ hs)
        have a' := hcol1.up_mem s (hS1 ▸ hs)
        rw [hS1] at a a'
        have b := (h.col _ (h.static.header_lt s hs.1)).up_pred s hs
        have b' := (h.col _ (h.static.header_lt s hs.1)).up_mem s hs
        exact CycSucc.unique_pred a' b' a b
      have hup1x : m1.up.getD (m1.down.getD x 0) 0 = x := by
        have a := hcol1.up_pred _ (hS1 ▸ hq.1)
        have a' := hcol1.up_mem _ (hS1 ▸ hq.1)
        rw [hS1] at a a'
        exact CycSucc.unique_pred a' hx a hq
      refine ⟨m', ?_, ?_, f1.trans f', t1'.trans t1, t2'.trans t2, hup'.trans hup1s, ?_⟩
      · rw [remove_column_loop]
        simp only [hxs, if_false, e1]
        exact e
      · have : (fun y => hid y ∨ col_rest m N hid s x y) =
            (fun y => (hid y ∨ row_rest m N x (m.right.getD x 0) y) ∨
              col_rest m1 N (fun y => hid y ∨ row_rest m N x (m.right.getD x 0) y) s
                (m1.down.getD x 0) y) := by
          funext y; apply propext
          rw [hrest_eq, col_rest_step hs hx hxs hq y, row_rest_first h.static hxN y]
          tauto
        rw [this]; exact hc'
      · intro F f2 v hF hv
        have hinner : restore_column_row x F m1 (m1.left.getD x 0) = Except.ok m := by
          have := hrt1 1 m (by
            rw [h.static.left_right hxN]
            simp [restore_column_row])
          rw [f1.left]
          exact restore_column_row_mono this (by omega)
        have hstep : restore_column_loop F s (f2 + 1) m1 x = Except.ok v := by
          rw [restore_column_loop]
          simp only [hxs, if_false, hinner]
          exact hv
        have := hrt F (f2 + 1) v hF (by rw [hup1x]; exact hstep)
        rw [hup1s] at this
        rw [show f2 + (n + 1) = f2 + 1 + n by omega]; exact this

/-- `remove_column` on a linked node `s` unlinks exactly the other nodes of
the rows of the other linked nodes of its column, and `restore_column` brings
the mesh back. -/
theorem remove_column_spec {N s : Nat} {m : dlx_matrix} {hid : Nat → Prop}
    (h : ColInv m N hid) (hs : s < N) (hns : ¬ hid s)
    (hrows : ∀ y, col_others m N hid s y → ¬ hid y ∧ in_index m (m.header.getD y 0))
    (fuel : Nat) (hf : N < fuel) :
    ∃ m', remove_column fuel m s = Except.ok m' ∧
      ColInv m' N (fun y => hid y ∨ col_others m N hid s y) ∧ SameFrame m m' ∧
      m'.header_tree = m.header_tree ∧ m'.optional_header_tree = m.optional_header_tree ∧
      ∀ F, N < F → restore_column F m' s = Except.ok m := by
  have hS : col_set m N hid (m.header.getD s 0) s := ⟨hs, rfl, hns⟩
  have hc0 := h.col _ (h.static.header_lt s hs)
  have hq := hc0.down_succ s hS
  have hfirst : col_rest m N hid s (m.down.getD s 0) = col_others m N hid s :=
    funext fun y => propext (col_rest_first hS hq y)
  obtain ⟨m', e, hc', f', t1, t2, hup, hrt⟩ :=
    remove_column_loop_spec (N - 1) m hid (m.down.getD s 0) h hS hq.1
      (by have := cdist_lt hq.1.1 hs (n := N); omega)
      (by rw [hfirst]; exact hrows) fuel fuel (by omega) (by omega)
  rw [hfirst] at hc'
  refine ⟨m', e, hc', f', t1, t2, fun F hF => ?_⟩
  have hud : m.up.getD (m.down.getD s 0) 0 = s :=
    CycSucc.unique_pred (hc0.up_mem _ hq.1) hS (hc0.up_pred _ hq.1) hq
  have := hrt F 1 m hF (by rw [hud]; simp [restore_column_loop])
  unfold restore_column
  rw [hup]
  exact restore_column_loop_mono this le_rfl (by omega)

/-! ## Covering one column of a chosen row -/

theorem MeshEq.refl_mesh (m : dlx_matrix) : MeshEq m m :=
  ⟨SameFrame.refl m, rfl, rfl, rfl, rfl, rfl⟩

theorem MeshEq.symm_mesh {a b : dlx_matrix} (h : MeshEq a b) : MeshEq b a :=
  ⟨h.frame.symm, h.up.symm, h.down.symm, h.count.symm, h.top.symm, h.bottom.symm⟩

theorem MeshEq.trans_mesh {a b c : dlx_matrix} (h1 : MeshEq a b) (h2 : MeshEq b c) : MeshEq a c :=
  ⟨h1.frame.trans h2.frame, h2.up.trans h1.up, h2.down.trans h1.down,
    h2.count.trans h1.count, h2.top.trans h1.top, h2.bottom.trans h1.bottom⟩

theorem header_tree_erase_mesh (m : dlx_matrix) (c : Nat) : MeshEq m (header_tree_erase m c) :=
  ⟨⟨rfl, rfl, rfl, rfl, rfl, rfl, rfl, rfl, rfl⟩, rfl, rfl, rfl, rfl, rfl⟩

theorem header_tree_insert_mesh (m : dlx_matrix) (c : Nat) :
    MeshEq m (header_tree_insert m c) :=
  ⟨⟨rfl, rfl, rfl, rfl, rfl, rfl, rfl, rfl, rfl⟩, rfl, rfl, rfl, rfl, rfl⟩

theorem optional_header_tree_erase_mesh (m : dlx_matrix) (c : Nat) :
    MeshEq m (optional_header_tree_erase m c) :=
  ⟨⟨rfl, rfl, rfl, rfl, rfl, rfl, rfl, rfl, rfl⟩, rfl, rfl, rfl, rfl, rfl⟩

theorem optional_header_tree_insert_mesh (m : dlx_matrix) (c : Nat) :
    MeshEq m (optional_header_tree_insert m c) :=
  ⟨⟨rfl, rfl, rfl, rfl, rfl, rfl, rfl, rfl, rfl⟩, rfl, rfl, rfl, rfl, rfl⟩

theorem col_set_frame {m m' : dlx_matrix} (f : SameFrame m m') (N : Nat) (hid : Nat → Prop)
    (c : Nat) : col_set m' N hid c = col_set m N hid c := by
  unfold col_set; rw [f.header]

/-- Well-linkedness of the columns does not depend on the header indices. -/
theorem ColInv.of_mesh_eq {m m' : dlx_matrix} {N : Nat} {hid : Nat → Prop} (h : ColInv m N hid)
    (e : MeshEq m m')
    (t1 : ∀ c, c < m.array_width → m'.header_tree.inb c = true)
    (t2 : ∀ c, c < m.array_width → m'.optional_header_tree.inb c = true) :
    ColInv m' N hid := by
  have f := e.frame
  refine ⟨?_, h.static.of_frame f, h.hid_lt, ?_⟩
  · constructor
    · rw [f.left]; exact h.shape.left
    · rw [f.right]; exact h.shape.right
    · rw [e.up]; exact h.shape.up
    · rw [e.down]; exact h.shape.down
    · rw [f.header]; exact h.shape.header
    · rw [f.matrix_row]; exact h.shape.matrix_row
    · rw [e.count, f.array_width]; exact h.shape.count
    · rw [f.matrix_column, f.array_width]; exact h.shape.matrix_column
    · rw [e.top, f.array_width]; exact h.shape.top
    · rw [e.bottom, f.array_width]; exact h.shape.bottom
    · rw [f.array_width]; exact t1
    · rw [f.array_width]; exact t2
  · intro c hc
    rw [f.array_width] at hc
    apply (h.col c hc).transfer
    · intro x; rw [col_set_frame f]
    · rw [e.count]
    · rw [e.top]
    · rw [e.bottom]
    · intro p _; rw [e.down]
    · intro p _; rw [e.up]

theorem ColInv.erase_mand {m : dlx_matrix} {N : Nat} {hid : Nat → Prop}
    (h : ColInv m N hid) (c : Nat) : ColInv (header_tree_erase m c) N hid :=
  h.of_mesh_eq (header_tree_erase_mesh m c)
    (fun c' hc' => by simp [DLX.header_tree_erase, h.shape.header_tree c' hc'])
    (fun c' hc' => h.shape.optional_header_tree c' hc')

theorem ColInv.erase_opt {m : dlx_matrix} {N : Nat} {hid : Nat → Prop}
    (h : ColInv m N hid) (c : Nat) : ColInv (optional_header_tree_erase m c) N hid :=
  h.of_mesh_eq (optional_header_tree_erase_mesh m c)
    (fun c' hc' => h.shape.header_tree c' hc')
    (fun c' hc' => by simp [DLX.optional_header_tree_erase, h.shape.optional_header_tree c' hc'])

theorem TreeOK.erase_mand_tree {m : dlx_matrix} {N : Nat} {hid cov : Nat → Prop}
    (hc : ColInv m N hid) (h : TreeOK m cov) (c : Nat) (hcW : c < m.array_width) :
    TreeOK (header_tree_erase m c) (fun c' => cov c' ∨ c' = c) := by
  constructor
  · intro c' hc' hm
    show (m.header_tree.set_bool c false).getD c' false = true ↔ _
    rw [Vec.set_bool_eq, Vec.getD_set]
    by_cases e : c = c'
    · subst e; simp [hc.shape.header_tree c hcW]
    · simp only [e, false_and, if_false]
      rw [h.mand c' hc' hm]
      constructor
      · rintro a (b | b)
        · exact a b
        · exact e b.symm
      · exact fun a b => a (Or.inl b)
  · intro c' hc' hm hn
    exact h.opt c' hc' hm (fun b => hn (Or.inl b))
  · intro c' hc' hm
    show (m.header_tree.set_bool c false).getD c' false = false
    rw [Vec.set_bool_eq, Vec.getD_set]
    split_ifs
    · rfl
    · exact h.only_mand c' hc' hm

theorem TreeOK.erase_opt_tree {m : dlx_matrix} {cov : Nat → Prop}
    (h : TreeOK m cov) (c : Nat) (hopt : m.optional_constraint_start_column ≤ c) :
    TreeOK (optional_header_tree_erase m c) (fun c' => cov c' ∨ c' = c) := by
  constructor
  · intro c' hc' hm
    show m.header_tree.getD c' false = true ↔ _
    rw [h.mand c' hc' hm]
    constructor
    · rintro a (b | b)
      · exact a b
      · have : m.optional_constraint_start_column ≤ c' := b ▸ hopt
        have : c' < m.optional_constraint_start_column := hm
        omega
    · exact fun a b => a (Or.inl b)
  · intro c' hc' hm hn
    show (m.optional_header_tree.set_bool c false).getD c' false = true
    rw [Vec.set_bool_eq, Vec.getD_set_ne]
    · exact h.opt c' hc' hm (fun b => hn (Or.inl b))
    · rintro rfl; exact hn (Or.inr rfl)
  · intro c' hc' hm
    exact h.only_mand c' hc' hm

theorem col_others_frame {m m' : dlx_matrix} (f : SameFrame m m') (N : Nat) (hid : Nat → Prop)
    (s : Nat) : col_others m' N hid s = col_others m N hid s := by
  unfold col_others
  rw [f.header]
  simp only [col_set_frame f, row_set_frame f]

/-- In a consistent mesh, the rows that cross an uncovered column at a linked
node are fully linked and meet uncovered columns only. -/
theorem Cons.col_others_free {m : dlx_matrix} {N : Nat} {hid cov : Nat → Prop}
    {cur : Option Nat} {B : Nat} (h : Cons m N hid cov cur) (hB : B < N)
    (hcov : ¬ cov (m.header.getD B 0))
    (hcur : cur = Option.none ∨ cur = some (m.matrix_row.getD B 0)) (y : Nat)
    (hy : col_others m N hid B y) :
    ¬ hid y ∧ ¬ cov (m.header.getD y 0) ∧ m.header.getD y 0 ≠ m.header.getD B 0 := by
  obtain ⟨C, hC, hCB, hyC, hne⟩ := hy
  have hrowCB : m.matrix_row.getD C 0 ≠ m.matrix_row.getD B 0 := fun e =>
    hCB (h.col.static.row_distinct C B hC.1 hB e hC.2.1)
  have hny : ¬ hid y := fun hh =>
    hcov (hC.2.1 ▸ h.dismissed C y hC.1 hyC.1 hyC.2.symm hC.2.2 hh)
  refine ⟨hny, ?_, ?_⟩
  · intro hc
    rcases h.chosen y C hyC.1 hC.1 hyC.2 hny hC.2.2 hc with a | a
    · exact hcov (hC.2.1 ▸ a)
    · rcases hcur with b | b
      · rw [b] at a; exact absurd a (by simp)
      · rw [b] at a
        have : m.matrix_row.getD B 0 = m.matrix_row.getD y 0 := by simpa using a
        exact hrowCB (hyC.2.symm.trans this.symm)
  · intro e
    exact hne (h.col.static.row_distinct y C hyC.1 hC.1 hyC.2 (e.trans hC.2.1.symm))

theorem TreeOK.in_index {m : dlx_matrix} {N : Nat} {cov : Nat → Prop} (hs : Static m N)
    (h : TreeOK m cov) {c : Nat} (hc : c < m.array_width) (hn : ¬ cov c) : in_index m c := by
  unfold DLX.in_index
  rw [hs.column_id c hc]
  split_ifs with hm
  · exact (h.mand c hc hm).2 hn
  · exact h.opt c hc (by omega) hn

/-- Covering the column of a linked node `B` of an available row: the mesh
stays consistent with the column added to the covered ones, and
`restore_column` brings the mesh back. -/
theorem cover_column_cons {m me : dlx_matrix} {N : Nat} {hid cov : Nat → Prop}
    {cur : Option Nat} {B : Nat} (h : Cons m N hid cov cur) (hB : B < N) (hnB : ¬ hid B)
    (hcov : ¬ cov (m.header.getD B 0))
    (hcur : cur = Option.none ∨ cur = some (m.matrix_row.getD B 0))
    (hce : ColInv me N hid) (hme : MeshEq m me)
    (hte : TreeOK me (fun c => cov c ∨ c = m.header.getD B 0))
    (fuel : Nat) (hf : N < fuel) :
    ∃ m', remove_column fuel me B = Except.ok m' ∧
      Cons m' N (fun y => hid y ∨ col_others m N hid B y)
        (fun c => cov c ∨ c = m.header.getD B 0) (some (m.matrix_row.getD B 0)) ∧
      SameFrame m m' ∧ m'.header_tree = me.header_tree ∧
      m'.optional_header_tree = me.optional_header_tree ∧
      ∀ F, N < F → restore_column F m' B = Except.ok me := by
  have fe := hme.frame
  have hst := h.col.static
  have hfree := fun y hy => h.col_others_free hB hcov hcur y hy
  have hrows : ∀ y, col_others me N hid B y → ¬ hid y ∧ in_index me (me.header.getD y 0) := by
    intro y hy
    rw [col_others_frame fe] at hy
    obtain ⟨a, b, c⟩ := hfree y hy
    refine ⟨a, ?_⟩
    obtain ⟨C, _, _, hyC, _⟩ := hy
    rw [fe.header]
    apply hte.in_index hce.static
    · rw [fe.array_width]; exact hst.header_lt y hyC.1
    · rintro (d | d)
      · exact b d
      · exact c d
  obtain ⟨m', e, hc', f', t1, t2, hrt⟩ := remove_column_spec hce hB hnB hrows fuel hf
  rw [col_others_frame fe] at hc'
  have f := fe.trans f'
  refine ⟨m', e, ?_, f, t1, t2, hrt⟩
  constructor
  · exact hc'
  · rintro c (hc | rfl)
    · rw [f.array_width]; exact h.cov_lt c hc
    · rw [f.array_width]; exact hst.header_lt B hB
  · -- rows with an unlinked node
    intro p q hp hq hrow hnp hq'
    rw [f.matrix_row] at hrow
    rw [f.header]
    rcases hq' with hq' | ⟨C, hC, hCB, hqC, hne⟩
    · exact Or.inl (h.dismissed p q hp hq hrow (fun a => hnp (Or.inl a)) hq')
    · right
      have hpC : p = C := by
        by_contra hpC
        exact hnp (Or.inr ⟨C, hC, hCB, ⟨hp, hrow.trans hqC.2⟩, hpC⟩)
      rw [hpC]; exact hC.2.1
  · -- fully linked rows
    intro p q hp hq hrow hnp hnq hcp
    rw [f.matrix_row] at hrow ⊢
    rw [f.header] at hcp ⊢
    rcases hcp with hcp | hcp
    · rcases h.chosen p q hp hq hrow (fun a => hnp (Or.inl a)) (fun a => hnq (Or.inl a)) hcp
        with a | a
      · exact Or.inl (Or.inl a)
      · right
        rcases hcur with b | b
        · rw [b] at a; exact absurd a (by simp)
        · rw [b] at a; rw [a]
    · by_cases hpB : p = B
      · right; rw [hpB]
      · left
        have hqp : q = p := by
          by_contra hqp
          exact hnq (Or.inr ⟨p, ⟨hp, hcp, fun a => hnp (Or.inl a)⟩, hpB, ⟨hq, hrow.symm⟩, hqp⟩)
        rw [hqp]; exact Or.inr hcp
  · -- every unlinked node has a linked node of its row in a covered column
    intro q hq'
    rw [f.matrix_row, f.header]
    rcases hq' with hq' | ⟨C, hC, hCB, hqC, hne⟩
    · obtain ⟨p, hp, hrow, hnp, hcp⟩ := h.witness q hq'
      refine ⟨p, hp, hrow, ?_, Or.inl hcp⟩
      rintro (a | a)
      · exact hnp a
      · exact (hfree p a).2.1 hcp
    · refine ⟨C, hC.1, hqC.2.symm, ?_, Or.inr hC.2.1⟩
      rintro (a | ⟨C', hC', _, hCC', hne'⟩)
      · exact hC.2.2 a
      · exact hne' (hst.row_distinct C C' hC.1 hC'.1 hCC'.2 (hC.2.1.trans hC'.2.1.symm))
  · constructor
    · intro c hc hm
      rw [t1]
      rw [f'.array_width] at hc
      rw [f'.optional_start] at hm
      exact hte.mand c hc hm
    · intro c hc hm
      rw [t2]
      rw [f'.array_width] at hc
      rw [f'.optional_start] at hm
      exact hte.opt c hc hm
    · intro c hc hm
      rw [t1]
      rw [f'.array_width] at hc
      rw [f'.optional_start] at hm
      exact hte.only_mand c hc hm

/-! ## Covering the other columns of a chosen row -/

theorem restore_row_loop_mono {g : Nat} {fuel0 fuel fuel' : Nat} {m v : dlx_matrix}
    {x : Nat} (h : restore_row_loop fuel0 g fuel m x = Except.ok v) (hle : fuel ≤ fuel') :
    restore_row_loop fuel0 g fuel' m x = Except.ok v := by
  induction fuel generalizing fuel' m x with
  | zero => simp [restore_row_loop] at h
  | succ n ih =>
    obtain ⟨k, rfl⟩ : ∃ k, fuel' = k + 1 := ⟨fuel' - 1, by omega⟩
    unfold restore_row_loop at h ⊢
    split_ifs at h ⊢ with hx
    · exact h
    · cases hr : restore_column fuel0 m x with
      | error e => rw [hr] at h; simp at h
      | ok m1 =>
        rw [hr] at h
        simp only [] at h ⊢
        exact ih h (by omega)

/-- The header that `remove_row` takes out of its index before removing the
column of a node. -/
theorem index_erase_cons {m : dlx_matrix} {N : Nat} {hid cov : Nat → Prop} {cur : Option Nat}
    {B : Nat} (h : Cons m N hid cov cur) (hB : B < N) (hcov : ¬ cov (m.header.getD B 0)) :
    ∃ me, me = (if m.matrix_column.getD (m.header.getD B 0) 0 <
          m.optional_constraint_start_column then header_tree_erase m (m.header.getD B 0)
        else optional_header_tree_erase m (m.header.getD B 0)) ∧
      ColInv me N hid ∧ MeshEq m me ∧ TreeOK me (fun c => cov c ∨ c = m.header.getD B 0) ∧
      (if me.matrix_column.getD (me.header.getD B 0) 0 < me.optional_constraint_start_column
        then header_tree_insert me (me.header.getD B 0)
        else optional_header_tree_insert me (me.header.getD B 0)) = m := by
  have hW := h.col.static.header_lt B hB
  have hid := h.col.static.column_id _ hW
  by_cases hm : m.matrix_column.getD (m.header.getD B 0) 0 < m.optional_constraint_start_column
  · refine ⟨header_tree_erase m (m.header.getD B 0), by rw [if_pos hm],
      h.col.erase_mand _, header_tree_erase_mesh _ _,
      h.tree.erase_mand_tree h.col _ hW, ?_⟩
    have hm' : (header_tree_erase m (m.header.getD B 0)).matrix_column.getD
        ((header_tree_erase m (m.header.getD B 0)).header.getD B 0) 0 <
        (header_tree_erase m (m.header.getD B 0)).optional_constraint_start_column := hm
    rw [if_pos hm']
    refine dlx_matrix.ext_fields (a := m) ⟨rfl, rfl, rfl, rfl, rfl, rfl, rfl, rfl, rfl⟩ rfl rfl
      rfl rfl rfl ?_ rfl
    show ((m.header_tree.set_bool (m.header.getD B 0) false).set_bool (m.header.getD B 0) true)
      = m.header_tree
    rw [Vec.set_bool_eq, Vec.set_bool_eq, Vec.set_set]
    rw [hid] at hm
    exact Vec.set_eq_self _ _ _ false ((h.tree.mand _ hW hm).2 hcov)
  · have hm2 := hm
    rw [hid] at hm2
    refine ⟨optional_header_tree_erase m (m.header.getD B 0), by rw [if_neg hm],
      h.col.erase_opt _, optional_header_tree_erase_mesh _ _,
      h.tree.erase_opt_tree _ (by omega), ?_⟩
    have hm' : ¬ (optional_header_tree_erase m (m.header.getD B 0)).matrix_column.getD
        ((optional_header_tree_erase m (m.header.getD B 0)).header.getD B 0) 0 <
        (optional_header_tree_erase m (m.header.getD B 0)).optional_constraint_start_column := hm
    rw [if_neg hm']
    refine dlx_matrix.ext_fields (a := m) ⟨rfl, rfl, rfl, rfl, rfl, rfl, rfl, rfl, rfl⟩ rfl rfl
      rfl rfl rfl rfl ?_
    show ((m.optional_header_tree.set_bool (m.header.getD B 0) false).set_bool
      (m.header.getD B 0) true) = m.optional_header_tree
    rw [Vec.set_bool_eq, Vec.set_bool_eq, Vec.set_set]
    exact Vec.set_eq_self _ _ _ false (h.tree.opt _ hW (by omega) hcov)

theorem col_others_not_same_row {m : dlx_matrix} {N : Nat} {hid : Nat → Prop} {x p : Nat}
    (hst : Static m N) (hx : x < N) (hp : row_set m N x p) : ¬ col_others m N hid x p := by
  rintro ⟨C, hC, hCx, hpC, _⟩
  exact hCx (hst.row_distinct C x hC.1 hx (hpC.2.symm.trans hp.2) hC.2.1)

/-- The loop of `remove_row` from `x` onwards covers the columns of the nodes
of the row between `x` and the given node, and the loop of `restore_row` run
over the same stretch undoes it. -/
theorem remove_row_loop_spec {N g : Nat} (n : Nat) :
    ∀ (m : dlx_matrix) (hid cov : Nat → Prop) (x : Nat),
      Cons m N hid cov (some (m.matrix_row.getD g 0)) → g < N → row_set m N g x →
      cdist N x g ≤ n →
      (∀ B, row_rest m N g x B → ¬ hid B ∧ ¬ cov (m.header.getD B 0)) →
      ∀ fuel0 fuel, N < fuel0 → n < fuel →
      ∃ m' hid' cov', remove_row_loop fuel0 g fuel m x = Except.ok m' ∧
        Cons m' N hid' cov' (some (m.matrix_row.getD g 0)) ∧ SameFrame m m' ∧
        (∀ y, hid y → hid' y) ∧
        (∀ c, cov' c ↔ (cov c ∨ ∃ B, row_rest m N g x B ∧ m.header.getD B 0 = c)) ∧
        (∀ p, row_set m N g p → ¬ hid p → ¬ hid' p) ∧
        (∀ y, hid' y → hid y ∨ ¬ cov (m.header.getD y 0)) ∧
        ∀ F f2 v, N < F → restore_row_loop F g f2 m (m.left.getD x 0) = Except.ok v →
          restore_row_loop F g (f2 + n) m' (m.left.getD g 0) = Except.ok v := by
  induction n with
  | zero =>
    intro m hid cov x h hg hx hd _ fuel0 fuel _ hf
    have hxg : x = g := by
      by_contra hne
      have := cdist_pos hx.1 hg hne
      omega
    subst hxg
    obtain ⟨k, rfl⟩ : ∃ k, fuel = k + 1 := ⟨fuel - 1, by omega⟩
    refine ⟨m, hid, cov, by simp [remove_row_loop], h, SameFrame.refl m, fun _ a => a, ?_,
      fun _ _ a => a, fun _ a => Or.inl a, fun F f2 v _ hv => hv⟩
    intro c
    constructor
    · exact Or.inl
    · rintro (a | ⟨B, hB, _⟩)
      · exact a
      · exact absurd hB (row_rest_base B hg)
  | succ n ih =>
    intro m hid cov x h hg hx hd havail fuel0 fuel hf0 hf
    obtain ⟨k, rfl⟩ : ∃ k, fuel = k + 1 := ⟨fuel - 1, by omega⟩
    have hst := h.col.static
    by_cases hxg : x = g
    · subst hxg
      refine ⟨m, hid, cov, by simp [remove_row_loop], h, SameFrame.refl m, fun _ a => a, ?_,
        fun _ _ a => a, fun _ a => Or.inl a,
        fun F f2 v _ hv => restore_row_loop_mono hv (by omega)⟩
      intro c
      constructor
      · exact Or.inl
      · rintro (a | ⟨B, hB, _⟩)
        · exact a
        · exact absurd hB (row_rest_base B hg)
    · have hxx : row_rest m N g x x := ⟨hx, hxg, le_rfl⟩
      obtain ⟨hnx, hcx⟩ := havail x hxx
      obtain ⟨me, eme, hce, hme, hte, hins⟩ := index_erase_cons h hx.1 hcx
      obtain ⟨m1, e1, hc1, f1, _, _, hrt1⟩ :=
        cover_column_cons h hx.1 hnx hcx (Or.inr (by rw [hx.2])) hce hme hte fuel0 hf0
      rw [hx.2] at hc1
      have hs := hst.right_succ x hx.1
      rw [row_set_eq hx] at hs
      have hlt := CycSucc.cdist_succ_lt (fun y hy => row_set_lt hy) (row_set_self hg) hx hxg hs
      have hrow1 : m1.matrix_row.getD g 0 = m.matrix_row.getD g 0 := by rw [f1.matrix_row]
      have havail' : ∀ B, row_rest m1 N g (m.right.getD x 0) B →
          ¬ (hid B ∨ col_others m N hid x B) ∧
            ¬ (cov (m1.header.getD B 0) ∨ m1.header.getD B 0 = m.header.getD x 0) := by
        intro B hB
        rw [row_rest_frame f1] at hB
        have hB' := (row_rest_step hst hg hx hxg B).2 (Or.inr hB)
        obtain ⟨a, b⟩ := havail B hB'
        have hBx : B ≠ x := by
          rintro rfl
          have := hB.2.2
          omega
        have hrowBx : row_set m N x B := ⟨hB.1.1, hB.1.2.trans hx.2.symm⟩
        rw [f1.header]
        refine ⟨?_, ?_⟩
        · rintro (c | c)
          · exact a c
          · exact col_others_not_same_row hst hx.1 hrowBx c
        · rintro (c | c)
          · exact b c
          · exact hBx (hst.row_distinct B x hB.1.1 hx.1 hrowBx.2 c)
      obtain ⟨m', hid', cov', e, hc', f', hsub, hcov', hrowg, hnew, hrt⟩ :=
        ih m1 _ _ (m.right.getD x 0) (hrow1 ▸ hc1) hg
          (by rw [row_set_frame f1]; exact hst.right_mem hx) (by omega) havail' fuel0 k hf0
          (by omega)
      refine ⟨m', hid', cov', ?_, hrow1 ▸ hc', f1.trans f', fun y hy => hsub y (Or.inl hy), ?_,
        ?_, ?_, ?_⟩
      · rw [remove_row_loop]
        simp only [hxg, if_false]
        rw [← eme, e1]
        simp only [f1.right]
        exact e
      · intro c
        rw [hcov']
        simp only [row_rest_frame f1, f1.header]
        constructor
        · rintro ((a | a) | ⟨B, hB, a⟩)
          · exact Or.inl a
          · exact Or.inr ⟨x, hxx, a.symm⟩
          · exact Or.inr ⟨B, (row_rest_step hst hg hx hxg B).2 (Or.inr hB), a⟩
        · rintro (a | ⟨B, hB, a⟩)
          · exact Or.inl (Or.inl a)
          · rcases (row_rest_step hst hg hx hxg B).1 hB with b | b
            · subst b; exact Or.inl (Or.inr a.symm)
            · exact Or.inr ⟨B, b, a⟩
      · intro p hp hnp
        apply hrowg p (by rw [row_set_frame f1]; exact hp)
        rintro (a | a)
        · exact hnp a
        · exact col_others_not_same_row hst hx.1 ⟨hp.1, hp.2.trans hx.2.symm⟩ a
      · intro y hy
        rcases hnew y hy with (a | a) | a
        · exact Or.inl a
        · exact Or.inr (h.col_others_free hx.1 hcx (Or.inr (by rw [hx.2])) y a).2.1
        · rw [f1.header] at a
          exact Or.inr (fun b => a (Or.inl b))
      · intro F f2 v hF hv
        have hstep : restore_row_loop F g (f2 + 1) m1 x = Except.ok v := by
          rw [restore_row_loop]
          simp only [hxg, if_false, hrt1 F hF, hins]
          exact hv
        have := hrt F (f2 + 1) v hF (by
          rw [f1.left, hst.left_right hx.1]; exact hstep)
        rw [f1.left] at this
        rw [show f2 + (n + 1) = f2 + 1 + n by omega]; exact this

/-! ## Covering and uncovering a chosen row -/

theorem Cons.start {m : dlx_matrix} {N : Nat} {hid cov : Nat → Prop}
    (h : Cons m N hid cov Option.none) (r : Nat) : Cons m N hid cov (some r) :=
  ⟨h.col, h.cov_lt, h.dismissed,
    fun p q hp hq hrow hnp hnq hc =>
      (h.chosen p q hp hq hrow hnp hnq hc).elim Or.inl (fun a => absurd a (by simp)),
    h.witness, h.tree⟩

theorem Cons.finish {m : dlx_matrix} {N : Nat} {hid cov : Nat → Prop} {r : Nat}
    (h : Cons m N hid cov (some r))
    (hall : ∀ p, p < N → m.matrix_row.getD p 0 = r → cov (m.header.getD p 0)) :
    Cons m N hid cov Option.none :=
  ⟨h.col, h.cov_lt, h.dismissed,
    fun p q hp hq hrow hnp hnq hc =>
      (h.chosen p q hp hq hrow hnp hnq hc).elim Or.inl (fun a => by
        left
        apply hall q hq
        rw [← hrow]
        simpa using a.symm),
    h.witness, h.tree⟩

/-- A linked node of an uncovered column lies in a row that is fully linked
and meets uncovered columns only. -/
theorem Cons.available {m : dlx_matrix} {N : Nat} {hid cov : Nat → Prop}
    (h : Cons m N hid cov Option.none) {r : Nat} (hr : r < N) (hnr : ¬ hid r)
    (hcr : ¬ cov (m.header.getD r 0)) (p : Nat) (hp : row_set m N r p) :
    ¬ hid p ∧ ¬ cov (m.header.getD p 0) := by
  have hnp : ¬ hid p := fun a => hcr (h.dismissed r p hr hp.1 hp.2.symm hnr a)
  refine ⟨hnp, fun a => ?_⟩
  rcases h.chosen p r hp.1 hr hp.2 hnp hnr a with b | b
  · exact hcr b
  · exact absurd b (by simp)

/-- The body of the descend step on a linked node `r` of an uncovered
mandatory column: its header leaves the index, then `remove_column` and
`remove_row` cover the row.  The mesh stays consistent, the covered columns
grow by the columns of the row, and the uncover sequence of the backtrack step
brings the mesh back. -/
theorem cover_row_spec {m : dlx_matrix} {N : Nat} {hid cov : Nat → Prop} {r : Nat}
    (h : Cons m N hid cov Option.none) (hr : r < N) (hnr : ¬ hid r)
    (hcr : ¬ cov (m.header.getD r 0)) (fuel : Nat) (hf : N < fuel) :
    ∃ m1 m2 hid2 cov2,
      remove_column fuel (header_tree_erase m (m.header.getD r 0)) r = Except.ok m1 ∧
      remove_row fuel m1 r = Except.ok m2 ∧
      Cons m2 N hid2 cov2 Option.none ∧ SameFrame m m2 ∧
      (∀ y, hid y → hid2 y) ∧
      (∀ c, cov2 c ↔ (cov c ∨ ∃ p, row_set m N r p ∧ m.header.getD p 0 = c)) ∧
      (∀ p, row_set m N r p → ¬ hid2 p) ∧
      (∀ y, hid2 y → hid y ∨ (¬ cov (m.header.getD y 0) ∧
        m.header.getD y 0 ≠ m.header.getD r 0)) ∧
      (∀ F, N < F → restore_row F m2 r = Except.ok m1) ∧
      (∀ F, N < F → restore_column F m1 r =
        Except.ok (header_tree_erase m (m.header.getD r 0))) := by
  have hst := h.col.static
  have hW := hst.header_lt r hr
  have havail := h.available hr hnr hcr
  obtain ⟨m1, e1, hc1, f1, _, _, hrt1⟩ :=
    cover_column_cons (h.start (m.matrix_row.getD r 0)) hr hnr hcr (Or.inr rfl)
      (h.col.erase_mand _) (header_tree_erase_mesh _ _)
      (h.tree.erase_mand_tree h.col _ hW) fuel hf
  have hrow1 : m1.matrix_row.getD r 0 = m.matrix_row.getD r 0 := by rw [f1.matrix_row]
  have hst1 := hc1.col.static
  have havail1 : ∀ B, row_rest m1 N r (m1.right.getD r 0) B →
      ¬ (hid B ∨ col_others m N hid r B) ∧
        ¬ (cov (m1.header.getD B 0) ∨ m1.header.getD B 0 = m.header.getD r 0) := by
    intro B hB
    have hB' := (row_rest_first hst1 hr B).1 hB
    rw [row_set_frame f1] at hB'
    obtain ⟨a, b⟩ := havail B hB'.1
    rw [f1.header]
    refine ⟨?_, ?_⟩
    · rintro (c | c)
      · exact a c
      · exact col_others_not_same_row hst hr hB'.1 c
    · rintro (c | c)
      · exact b c
      · exact hB'.2 (hst.row_distinct B r hB'.1.1 hr hB'.1.2 c)
  obtain ⟨m2, hid2, cov2, e2, hc2, f2, hsub, hcov2, hrowr, hnew, hrt2⟩ :=
    remove_row_loop_spec (N - 1) m1 _ _ (m1.right.getD r 0) (hrow1 ▸ hc1) hr
      (hst1.right_mem (row_set_self hr))
      (by have := cdist_lt (hst1.right_mem (row_set_self hr)).1 hr (n := N); omega)
      havail1 fuel fuel hf (by omega)
  have hcov2' : ∀ c, cov2 c ↔ (cov c ∨ ∃ p, row_set m N r p ∧ m.header.getD p 0 = c) := by
    intro c
    rw [hcov2]
    simp only [row_rest_first hst1 hr, row_set_frame f1, f1.header]
    constructor
    · rintro ((a | a) | ⟨B, hB, a⟩)
      · exact Or.inl a
      · exact Or.inr ⟨r, row_set_self hr, a.symm⟩
      · exact Or.inr ⟨B, hB.1, a⟩
    · rintro (a | ⟨B, hB, a⟩)
      · exact Or.inl (Or.inl a)
      · by_cases hBr : B = r
        · subst hBr; exact Or.inl (Or.inr a.symm)
        · exact Or.inr ⟨B, ⟨hB, hBr⟩, a⟩
  have hrow2 : ∀ p, row_set m N r p → ¬ hid2 p := by
    intro p hp
    apply hrowr p (by rw [row_set_frame f1]; exact hp)
    rintro (a | a)
    · exact (havail p hp).1 a
    · exact col_others_not_same_row hst hr hp a
  refine ⟨m1, m2, hid2, cov2, e1, e2, ?_, f1.trans f2, fun y hy => hsub y (Or.inl hy), hcov2',
    hrow2, ?_, ?_, hrt1⟩
  · rw [hrow1] at hc2
    apply Cons.finish hc2
    intro p hp hrow
    rw [(f1.trans f2).matrix_row] at hrow
    rw [(f1.trans f2).header, hcov2']
    exact Or.inr ⟨p, ⟨hp, hrow⟩, rfl⟩
  · intro y hy
    rcases hnew y hy with (a | a) | a
    · exact Or.inl a
    · obtain ⟨_, b, c⟩ := (h.start (m.matrix_row.getD r 0)).col_others_free hr hcr (Or.inr rfl) y a
      exact Or.inr ⟨b, c⟩
    · rw [f1.header] at a
      exact Or.inr ⟨fun b => a (Or.inl b), fun b => a (Or.inr b)⟩
  · intro F hF
    have := hrt2 F 1 m1 hF (by
      rw [hst1.left_right hr]
      simp [restore_row_loop])
    unfold restore_row
    rw [f2.left]
    exact restore_row_loop_mono this (by omega)

/-! ## The generic builder -/

theorem CycSucc.append_keep {S : Nat → Prop} {P x q b : Nat} (hS : ∀ y, S y → y < P)
    (h : CycSucc S x q) (hx : S x) (hb : ∀ y, S y → y ≤ b) (hxb : x ≠ b) (hbS : S b) :
    CycSucc (fun y => S y ∨ y = P) x q := by
  obtain ⟨hq, h1 | h2⟩ := h
  · refine ⟨Or.inl hq, Or.inl ⟨h1.1, ?_⟩⟩
    rintro y (hy | rfl)
    · exact h1.2 y hy
    · have := hS q hq
      omega
  · have := h2.2.1 b hbS
    have := hb x hx
    omega

theorem CycSucc.append_last {S : Nat → Prop} {P b : Nat} (hS : ∀ y, S y → y < P)
    (hb : ∀ y, S y → y ≤ b) (hbS : S b) : CycSucc (fun y => S y ∨ y = P) b P := by
  refine ⟨Or.inr rfl, Or.inl ⟨hS b hbS, ?_⟩⟩
  rintro y (hy | rfl)
  · have := hb y hy
    omega
  · omega

theorem CycSucc.append_wrap {S : Nat → Prop} {P t : Nat} (hS : ∀ y, S y → y < P)
    (ht : ∀ y, S y → t ≤ y) (htS : S t) : CycSucc (fun y => S y ∨ y = P) P t := by
  refine ⟨Or.inl htS, Or.inr ⟨(hS t htS).le, ?_, ?_⟩⟩
  · rintro y (hy | rfl)
    · exact (hS y hy).le
    · exact le_refl _
  · rintro y (hy | rfl)
    · exact ht y hy
    · exact (hS t htS).le

theorem CycSucc.append_keep_pred {S : Nat → Prop} {P u x t : Nat} (hS : ∀ y, S y → y < P)
    (h : CycSucc S u x) (hu : S u) (ht : ∀ y, S y → t ≤ y) (hxt : x ≠ t) (htS : S t) :
    CycSucc (fun y => S y ∨ y = P) u x := by
  obtain ⟨hq, h1 | h2⟩ := h
  · refine ⟨Or.inl hq, Or.inl ⟨h1.1, ?_⟩⟩
    rintro y (hy | rfl)
    · exact h1.2 y hy
    · have := hS x hq
      omega
  · have := h2.2.2 t htS
    have := ht x hq
    omega

theorem foldl_range_induct {σ : Type} (f : σ → Nat → σ) (Q : Nat → σ → Prop) :
    ∀ (n : Nat) (init : σ), Q 0 init → (∀ i s, i < n → Q i s → Q (i + 1) (f s i)) →
      Q n ((List.range n).foldl f init)
  | 0, init, h0, _ => by simpa using h0
  | n + 1, init, h0, hstep => by
    rw [List.range_succ, List.foldl_append]
    simp only [List.foldl_cons, List.foldl_nil]
    exact hstep n _ (Nat.lt_succ_self n)
      (foldl_range_induct f Q n init h0 (fun i s hi => hstep i s (Nat.lt_succ_of_lt hi)))

theorem Vec.foldl_set_inb {α : Type} (f : Nat → α) (n : Nat) (v : Vec α) (j : Nat) :
    ((List.range n).foldl (fun v i => v.set i (f i)) v).inb j = v.inb j :=
  foldl_range_induct (fun v i => Vec.set v i (f i)) (fun _ w => w.inb j = v.inb j) n v rfl
    (fun i s _ h => by simp [h])

theorem Vec.foldl_set_getD {α : Type} (f : Nat → α) (d : α) (n : Nat) (v : Vec α)
    (hv : ∀ i, i < n → v.inb i = true) (c : Nat) (hc : c < n) :
    ((List.range n).foldl (fun v i => v.set i (f i)) v).getD c d = f c := by
  have key := foldl_range_induct (fun v i => Vec.set v i (f i))
    (fun k w => (∀ j, w.inb j = v.inb j) ∧ ∀ c, c < k → w.getD c d = f c) n v
    ⟨fun _ => rfl, fun c hc => absurd hc (Nat.not_lt_zero c)⟩
    (fun i s hi h => by
      refine ⟨fun j => by simp [h.1], fun c hc => ?_⟩
      by_cases hci : i = c
      · subst hci
        rw [Vec.getD_set_eq]
        rw [h.1]
        exact hv i hi
      · rw [Vec.getD_set_ne _ _ _ _ _ hci]
        exact h.2 c (by omega))
  exact key.2 c hc

theorem RingOK.congr_mesh {m m' : dlx_matrix} {S : Nat → Prop} {c : Nat} (h : RingOK m S c)
    (ht : m'.top.getD c Option.none = m.top.getD c Option.none)
    (hb : m'.bottom.getD c Option.none = m.bottom.getD c Option.none)
    (hd : ∀ x, S x → m'.down.getD x 0 = m.down.getD x 0)
    (hu : ∀ x, S x → m'.up.getD x 0 = m.up.getD x 0) : RingOK m' S c where
  top_none := fun e => h.top_none (ht ▸ e)
  top_some := fun t e => h.top_some t (ht ▸ e)
  bottom_none := fun e => h.bottom_none (hb ▸ e)
  bottom_some := fun b e => h.bottom_some b (hb ▸ e)
  down_succ := fun p hp => (hd p hp) ▸ h.down_succ p hp
  up_pred := fun p hp => (hu p hp) ▸ h.up_pred p hp
  up_mem := fun p hp => (hu p hp) ▸ h.up_mem p hp
  both := by rw [ht, hb]; exact h.both

theorem RingOK.append_first {m m' : dlx_matrix} {S : Nat → Prop} {P c : Nat} (h : RingOK m S c)
    (ht : m.top.getD c Option.none = Option.none)
    (ht' : m'.top.getD c Option.none = some P) (hb' : m'.bottom.getD c Option.none = some P)
    (hd : m'.down.getD P 0 = P) (hu : m'.up.getD P 0 = P) :
    RingOK m' (fun y => S y ∨ y = P) c := by
  have hS : ∀ y, (S y ∨ y = P) → y = P := by
    rintro y (hy | rfl)
    · exact absurd hy (h.top_none ht y)
    · rfl
  refine ⟨fun e => by simp [ht'] at e, fun t e => ?_, fun e => by simp [hb'] at e, fun b e => ?_,
    fun p hp => ?_, fun p hp => ?_, fun p hp => ?_, by simp [ht', hb']⟩
  · rw [ht'] at e
    cases e
    exact ⟨Or.inr rfl, fun x hx => (hS x hx).ge⟩
  · rw [hb'] at e
    cases e
    exact ⟨Or.inr rfl, fun x hx => (hS x hx).le⟩
  · rw [hS p hp, hd]
    exact CycSucc.of_singleton (Or.inr rfl) hS
  · rw [hS p hp, hu]
    exact CycSucc.of_singleton (Or.inr rfl) hS
  · rw [hS p hp, hu]
    exact Or.inr rfl

theorem RingOK.append_more {m m' : dlx_matrix} {S : Nat → Prop} {P c t b : Nat}
    (h : RingOK m S c) (hS : ∀ y, S y → y < P)
    (ht : m.top.getD c Option.none = some t) (hb : m.bottom.getD c Option.none = some b)
    (ht' : m'.top.getD c Option.none = some t) (hb' : m'.bottom.getD c Option.none = some P)
    (hdP : m'.down.getD P 0 = t) (hdb : m'.down.getD b 0 = P)
    (hd : ∀ x, S x → x ≠ b → m'.down.getD x 0 = m.down.getD x 0)
    (huP : m'.up.getD P 0 = b) (hut : m'.up.getD t 0 = P)
    (hu : ∀ x, S x → x ≠ t → m'.up.getD x 0 = m.up.getD x 0) :
    RingOK m' (fun y => S y ∨ y = P) c := by
  obtain ⟨htS, htmin⟩ := h.top_some t ht
  obtain ⟨hbS, hbmax⟩ := h.bottom_some b hb
  have htP : t ≠ P := fun e => absurd (hS t htS) (by omega)
  have hbP : b ≠ P := fun e => absurd (hS b hbS) (by omega)
  refine ⟨fun e => by simp [ht'] at e, fun t1 e => ?_, fun e => by simp [hb'] at e, fun b1 e => ?_,
    fun p hp => ?_, fun p hp => ?_, fun p hp => ?_, by simp [ht', hb']⟩
  · rw [ht'] at e
    cases e
    refine ⟨Or.inl htS, ?_⟩
    rintro x (hx | rfl)
    · exact htmin x hx
    · exact (hS t htS).le
  · rw [hb'] at e
    cases e
    refine ⟨Or.inr rfl, ?_⟩
    rintro x (hx | rfl)
    · exact (hS x hx).le
    · exact le_refl _
  · rcases hp with hp | rfl
    · by_cases hpb : p = b
      · subst hpb
        rw [hdb]
        exact CycSucc.append_last hS hbmax hbS
      · rw [hd p hp hpb]
        exact CycSucc.append_keep hS (h.down_succ p hp) hp hbmax hpb hbS
    · rw [hdP]
      exact CycSucc.append_wrap hS htmin htS
  · rcases hp with hp | rfl
    · by_cases hpt : p = t
      · subst hpt
        rw [hut]
        exact CycSucc.append_wrap hS htmin hp
      · rw [hu p hp hpt]
        exact CycSucc.append_keep_pred hS (h.up_pred p hp) (h.up_mem p hp) htmin hpt htS
    · rw [huP]
      exact CycSucc.append_last hS hbmax hbS
  · rcases hp with hp | rfl
    · by_cases hpt : p = t
      · subst hpt
        rw [hut]
        exact Or.inr rfl
      · rw [hu p hp hpt]
        exact Or.inl (h.up_mem p hp)
    · rw [huP]
      exact Or.inl hbS

theorem generate_node_first (K : Nat) (col : Nat → Nat → Int) (m : dlx_matrix) (r i : Nat)
    (ht : m.top.getD (col r i).toNat Option.none = Option.none) :
    generate_node K col m r i =
      { m with
        header := m.header.set (r * K + i) (col r i).toNat,
        right := m.right.set (r * K + i) (r * K + (if i ≠ K - 1 then i + 1 else 0)),
        left := m.left.set (r * K + i) (r * K + (if i ≠ 0 then i - 1 else K - 1)),
        matrix_row := m.matrix_row.set (r * K + i) r,
        top := m.top.set (col r i).toNat (some (r * K + i)),
        bottom := m.bottom.set (col r i).toNat (some (r * K + i)),
        up := m.up.set (r * K + i) (r * K + i),
        down := m.down.set (r * K + i) (r * K + i) } := by
  simp [generate_node, ht]

theorem generate_node_more (K : Nat) (col : Nat → Nat → Int) (m : dlx_matrix) (r i t b : Nat)
    (ht : m.top.getD (col r i).toNat Option.none = some t)
    (hb : m.bottom.getD (col r i).toNat Option.none = some b) :
    generate_node K col m r i =
      { m with
        header := m.header.set (r * K + i) (col r i).toNat,
        right := m.right.set (r * K + i) (r * K + (if i ≠ K - 1 then i + 1 else 0)),
        left := m.left.set (r * K + i) (r * K + (if i ≠ 0 then i - 1 else K - 1)),
        matrix_row := m.matrix_row.set (r * K + i) r,
        bottom := m.bottom.set (col r i).toNat (some (r * K + i)),
        up := ((m.up.set (r * K + i) b).set t (r * K + i)),
        down := ((m.down.set (r * K + i) t).set b (r * K + i)) } := by
  simp [generate_node, ht, hb]

theorem node_header_at (K : Nat) (col : Nat → Nat → Int) {r i : Nat} (hi : i < K) :
    node_header K col (r * K + i) = (col r i).toNat := by
  have h1 : (r * K + i) / K = r := by
    rw [Nat.add_comm, Nat.add_mul_div_right _ _ (by omega), Nat.div_eq_of_lt hi, Nat.zero_add]
  have h2 : (r * K + i) % K = i := by
    rw [Nat.add_comm, Nat.add_mul_mod_self_right, Nat.mod_eq_of_lt hi]
  simp [node_header, h1, h2]

theorem generate_node_inv {L W K : Nat} {gc : Nat → Int} {col : Nat → Nat → Int} {ocs : Nat}
    {m : dlx_matrix} {r i : Nat} (hg : GenShape L W K col)
    (h : GenInv L W K gc col ocs m (r * K + i)) (hr : r < L) (hi : i < K) :
    GenInv L W K gc col ocs (generate_node K col m r i) (r * K + i + 1) := by
  have h1 : (r * K + i) / K = r := by
    rw [Nat.add_comm, Nat.add_mul_div_right _ _ (by omega), Nat.div_eq_of_lt hi, Nat.zero_add]
  have h2 : (r * K + i) % K = i := by
    rw [Nat.add_comm, Nat.add_mul_mod_self_right, Nat.mod_eq_of_lt hi]
  have hpN : r * K + i < L * K := by
    have : (r + 1) * K ≤ L * K := Nat.mul_le_mul_right K hr
    rw [Nat.succ_mul] at this
    omega
  have hnh : node_header K col (r * K + i) = (col r i).toNat := node_header_at K col hi
  have hW : (col r i).toNat < W := by
    have := hg.in_range r i hr hi
    omega
  have hS : ∀ c y, (y < r * K + i ∧ node_header K col y = c) → y < r * K + i := fun _ _ hy => hy.1
  have hset : ∀ c, (fun y => y < r * K + i + 1 ∧ node_header K col y = c) =
      if c = (col r i).toNat then
        (fun y => (y < r * K + i ∧ node_header K col y = c) ∨ y = r * K + i)
      else (fun y => y < r * K + i ∧ node_header K col y = c) := by
    intro c
    by_cases hc : c = (col r i).toNat
    · rw [if_pos hc]
      funext y
      apply propext
      constructor
      · rintro ⟨a, b⟩
        by_cases hy : y = r * K + i
        · exact Or.inr hy
        · exact Or.inl ⟨by omega, b⟩
      · rintro (⟨a, b⟩ | rfl)
        · exact ⟨by omega, b⟩
        · exact ⟨by omega, by rw [hnh, hc]⟩
    · rw [if_neg hc]
      funext y
      apply propext
      constructor
      · rintro ⟨a, b⟩
        refine ⟨?_, b⟩
        by_cases hy : y = r * K + i
        · rw [hy, hnh] at b
          exact absurd b.symm hc
        · omega
      · rintro ⟨a, b⟩
        exact ⟨by omega, b⟩
  have hstatic : ∀ (m' : dlx_matrix),
      m'.array_width = m.array_width →
      m'.optional_constraint_start_column = m.optional_constraint_start_column →
      m'.count = m.count → m'.matrix_column = m.matrix_column → Shape m' (L * K) →
      m'.header = m.header.set (r * K + i) (col r i).toNat →
      m'.right = m.right.set (r * K + i) (r * K + (if i ≠ K - 1 then i + 1 else 0)) →
      m'.left = m.left.set (r * K + i) (r * K + (if i ≠ 0 then i - 1 else K - 1)) →
      m'.matrix_row = m.matrix_row.set (r * K + i) r →
      (∀ c, c < W → RingOK m' (fun x => x < r * K + i + 1 ∧ node_header K col x = c) c) →
      GenInv L W K gc col ocs m' (r * K + i + 1) := by
    intro m' e1 e2 e3 e4 e5 e6 e7 e8 e9 e10
    refine ⟨e1 ▸ h.array_width, e2 ▸ h.optional_start, fun c hc => e3 ▸ h.count c hc,
      fun c hc => e4 ▸ h.matrix_column c hc, e5, ?_, ?_, ?_, ?_, e10⟩
    · intro q hq
      rw [e6]
      by_cases hqp : r * K + i = q
      · rw [← hqp, Vec.getD_set_eq _ _ _ _ (h.shape.header _ hpN), hnh]
      · rw [Vec.getD_set_ne _ _ _ _ _ hqp]
        exact h.header q (by omega)
    · intro q hq
      rw [e7]
      by_cases hqp : r * K + i = q
      · rw [← hqp, Vec.getD_set_eq _ _ _ _ (h.shape.right _ hpN), h1, h2]
      · rw [Vec.getD_set_ne _ _ _ _ _ hqp]
        exact h.right q (by omega)
    · intro q hq
      rw [e8]
      by_cases hqp : r * K + i = q
      · rw [← hqp, Vec.getD_set_eq _ _ _ _ (h.shape.left _ hpN), h1, h2]
      · rw [Vec.getD_set_ne _ _ _ _ _ hqp]
        exact h.left q (by omega)
    · intro q hq
      rw [e9]
      by_cases hqp : r * K + i = q
      · rw [← hqp, Vec.getD_set_eq _ _ _ _ (h.shape.matrix_row _ hpN), h1]
      · rw [Vec.getD_set_ne _ _ _ _ _ hqp]
        exact h.matrix_row q (by omega)
  have hsh := h.shape
  rcases ht : m.top.getD (col r i).toNat Option.none with _ | t
  · rw [generate_node_first K col m r i ht]
    refine hstatic _ rfl rfl rfl rfl ?_ rfl rfl rfl rfl ?_
    · constructor <;> intro q hq <;> simp only [Vec.inb_set]
      exacts [hsh.left q hq, hsh.right q hq, hsh.up q hq, hsh.down q hq, hsh.header q hq,
        hsh.matrix_row q hq, hsh.count q hq, hsh.matrix_column q hq, hsh.top q hq,
        hsh.bottom q hq, hsh.header_tree q hq, hsh.optional_header_tree q hq]
    · intro c hc
      rw [hset c]
      by_cases hch : c = (col r i).toNat
      · rw [if_pos hch]
        subst hch
        refine RingOK.append_first (h.ring _ hc) ht ?_ ?_ ?_ ?_
        · exact Vec.getD_set_eq _ _ _ _ (hsh.top _ (h.array_width ▸ hc))
        · exact Vec.getD_set_eq _ _ _ _ (hsh.bottom _ (h.array_width ▸ hc))
        · exact Vec.getD_set_eq _ _ _ _ (hsh.down _ hpN)
        · exact Vec.getD_set_eq _ _ _ _ (hsh.up _ hpN)
      · rw [if_neg hch]
        refine RingOK.congr_mesh (h.ring c hc) ?_ ?_ ?_ ?_
        · exact Vec.getD_set_ne _ _ _ _ _ (fun e => hch e.symm)
        · exact Vec.getD_set_ne _ _ _ _ _ (fun e => hch e.symm)
        · intro x hx
          exact Vec.getD_set_ne _ _ _ _ _ (by have := hx.1; omega)
        · intro x hx
          exact Vec.getD_set_ne _ _ _ _ _ (by have := hx.1; omega)
  · rcases hb : m.bottom.getD (col r i).toNat Option.none with _ | b
    · have := (h.ring _ hW).both.mpr hb
      rw [ht] at this
      cases this
    rw [generate_node_more K col m r i t b ht hb]
    obtain ⟨htS, htmin⟩ := (h.ring _ hW).top_some t ht
    obtain ⟨hbS, hbmax⟩ := (h.ring _ hW).bottom_some b hb
    have htN : t < L * K := by have := htS.1; omega
    have hbN : b < L * K := by have := hbS.1; omega
    refine hstatic _ rfl rfl rfl rfl ?_ rfl rfl rfl rfl ?_
    · constructor <;> intro q hq <;> simp only [Vec.inb_set]
      exacts [hsh.left q hq, hsh.right q hq, hsh.up q hq, hsh.down q hq, hsh.header q hq,
        hsh.matrix_row q hq, hsh.count q hq, hsh.matrix_column q hq, hsh.top q hq,
        hsh.bottom q hq, hsh.header_tree q hq, hsh.optional_header_tree q hq]
    · intro c hc
      rw [hset c]
      by_cases hch : c = (col r i).toNat
      · rw [if_pos hch]
        subst hch
        refine RingOK.append_more (h.ring _ hc) (hS _) ht hb ht ?_ ?_ ?_ ?_ ?_ ?_ ?_
        · exact Vec.getD_set_eq _ _ _ _ (hsh.bottom _ (h.array_width ▸ hc))
        · show ((m.down.set (r * K + i) t).set b (r * K + i)).getD (r * K + i) 0 = t
          rw [Vec.getD_set_ne _ _ _ _ _ (by have := hbS.1; omega),
            Vec.getD_set_eq _ _ _ _ (hsh.down _ hpN)]
        · show ((m.down.set (r * K + i) t).set b (r * K + i)).getD b 0 = r * K + i
          rw [Vec.getD_set_eq _ _ _ _ (by simp [hsh.down _ hbN])]
        · intro x hx hxb
          show ((m.down.set (r * K + i) t).set b (r * K + i)).getD x 0 = m.down.getD x 0
          rw [Vec.getD_set_ne _ _ _ _ _ (fun e => hxb e.symm),
            Vec.getD_set_ne _ _ _ _ _ (by have := hx.1; omega)]
        · show ((m.up.set (r * K + i) b).set t (r * K + i)).getD (r * K + i) 0 = b
          rw [Vec.getD_set_ne _ _ _ _ _ (by have := htS.1; omega),
            Vec.getD_set_eq _ _ _ _ (hsh.up _ hpN)]
        · show ((m.up.set (r * K + i) b).set t (r * K + i)).getD t 0 = r * K + i
          rw [Vec.getD_set_eq _ _ _ _ (by simp [hsh.up _ htN])]
        · intro x hx hxt
          show ((m.up.set (r * K + i) b).set t (r * K + i)).getD x 0 = m.up.getD x 0
          rw [Vec.getD_set_ne _ _ _ _ _ (fun e => hxt e.symm),
            Vec.getD_set_ne _ _ _ _ _ (by have := hx.1; omega)]
      · rw [if_neg hch]
        refine RingOK.congr_mesh (h.ring c hc) rfl ?_ ?_ ?_
        · exact Vec.getD_set_ne _ _ _ _ _ (fun e => hch e.symm)
        · intro x hx
          show ((m.down.set (r * K + i) t).set b (r * K + i)).getD x 0 = m.down.getD x 0
          rw [Vec.getD_set_ne _ _ _ _ _ (fun e => hch (by rw [← hx.2, ← e]; exact hbS.2)),
            Vec.getD_set_ne _ _ _ _ _ (by have := hx.1; omega)]
        · intro x hx
          show ((m.up.set (r * K + i) b).set t (r * K + i)).getD x 0 = m.up.getD x 0
          rw [Vec.getD_set_ne _ _ _ _ _ (fun e => hch (by rw [← hx.2, ← e]; exact htS.2)),
            Vec.getD_set_ne _ _ _ _ _ (by have := hx.1; omega)]

theorem generate_inv {L W K : Nat} (gc : Nat → Int) {col : Nat → Nat → Int} (ocs : Nat)
    (hg : GenShape L W K col) :
    GenInv L W K gc col ocs (generate L W K gc col ocs) (L * K) := by
  unfold generate
  simp only [Vec.set_int_eq, Vec.set_nat_eq]
  refine foldl_range_induct _ (fun r m => GenInv L W K gc col ocs m (r * K)) L _ ?_ ?_
  · refine ⟨rfl, rfl, ?_, ?_, ?_, ?_, ?_, ?_, ?_, ?_⟩
    · intro c hc
      exact Vec.foldl_set_getD gc 0 W _ (fun i hi => Vec.inb_replicate W 0 i hi) c hc
    · intro c hc
      exact Vec.foldl_set_getD (fun i => i) 0 W _ (fun i hi => Vec.inb_replicate W 0 i hi) c hc
    · constructor
      · exact fun p hp => Vec.inb_replicate _ _ p hp
      · exact fun p hp => Vec.inb_replicate _ _ p hp
      · exact fun p hp => Vec.inb_replicate _ _ p hp
      · exact fun p hp => Vec.inb_replicate _ _ p hp
      · exact fun p hp => Vec.inb_replicate _ _ p hp
      · exact fun p hp => Vec.inb_replicate _ _ p hp
      · intro c hc
        show (List.foldl (fun v i => Vec.set v i (gc i)) _ _).inb c = true
        rw [Vec.foldl_set_inb]
        exact Vec.inb_replicate _ _ c hc
      · intro c hc
        show (List.foldl (fun v i => Vec.set v i i) _ _).inb c = true
        rw [Vec.foldl_set_inb (fun i => i)]
        exact Vec.inb_replicate _ _ c hc
      · exact fun p hp => Vec.inb_replicate _ _ p hp
      · exact fun p hp => Vec.inb_replicate _ _ p hp
      · exact fun p hp => Vec.inb_replicate _ _ p hp
      · exact fun p hp => Vec.inb_replicate _ _ p hp
    · intro p hp; simp at hp
    · intro p hp; simp at hp
    · intro p hp; simp at hp
    · intro p hp; simp at hp
    · intro c hc
      have e : ∀ (W : Nat), (Vec.replicate W (Option.none : Option Nat)).getD c Option.none =
          Option.none := fun W => Vec.getD_replicate W _ c
      refine ⟨fun _ x hx => ?_, fun t ht => ?_, fun _ x hx => ?_, fun b hb => ?_,
        fun p hp => ?_, fun p hp => ?_, fun p hp => ?_, ?_⟩
      · simp at hx
      · simp only [e] at ht; cases ht
      · simp at hx
      · simp only [e] at hb; cases hb
      · simp at hp
      · simp at hp
      · simp at hp
      · simp only [e]
  · intro r m hr h
    have := foldl_range_induct (fun m1 i => generate_node K col m1 r i)
      (fun i m1 => GenInv L W K gc col ocs m1 (r * K + i)) K m (by simpa using h)
      (fun i s hi hs => generate_node_inv hg hs hr hi)
    rw [Nat.succ_mul]
    exact this

theorem row_block_div (K a j : Nat) (hj : j < K) : (a * K + j) / K = a := by
  rw [Nat.add_comm, Nat.add_mul_div_right _ _ (by omega), Nat.div_eq_of_lt hj, Nat.zero_add]

theorem GenInv.static_ok {L W K : Nat} {gc : Nat → Int} {col : Nat → Nat → Int} {ocs : Nat}
    {m : dlx_matrix} (hg : GenShape L W K col) (h : GenInv L W K gc col ocs m (L * K)) :
    Static m (L * K) := by
  have hK := hg.K_pos
  have hdiv : ∀ p, p < L * K → p / K < L := fun p hp =>
    Nat.div_lt_of_lt_mul (by rw [Nat.mul_comm]; exact hp)
  have hlt : ∀ x, x / K < L → x < L * K := fun x hx => Nat.lt_mul_of_div_lt hx hK
  have hsplit : ∀ x, x / K * K + x % K = x := fun x => Nat.div_add_mod' x K
  have hmod : ∀ x, x % K < K := fun x => Nat.mod_lt x hK
  have hrow : ∀ p x, p < L * K → (row_set m (L * K) p x ↔ (x < L * K ∧ x / K = p / K)) := by
    intro p x hp
    unfold row_set
    constructor
    · rintro ⟨a, b⟩
      rw [h.matrix_row x a, h.matrix_row p hp] at b
      exact ⟨a, b⟩
    · rintro ⟨a, b⟩
      exact ⟨a, by rw [h.matrix_row x a, h.matrix_row p hp, b]⟩
  refine ⟨fun c hc => h.matrix_column c (h.array_width ▸ hc), ?_, ?_, ?_, ?_, ?_, ?_⟩
  · intro p hp
    rw [h.header p hp, h.array_width]
    have := hg.in_range (p / K) (p % K) (hdiv p hp) (hmod p)
    unfold node_header
    omega
  · intro p q hp hq hpq
    rw [h.matrix_row p hp, h.matrix_row q hq]
    exact Nat.div_le_div_right hpq
  · intro p q hp hq e1 e2
    rw [h.matrix_row p hp, h.matrix_row q hq] at e1
    rw [h.header p hp, h.header q hq] at e2
    unfold node_header at e2
    have r1 := hg.in_range (p / K) (p % K) (hdiv p hp) (hmod p)
    have r2 := hg.in_range (q / K) (q % K) (hdiv q hq) (hmod q)
    have e3 : col (p / K) (p % K) = col (p / K) (q % K) := by
      rw [e1] at r1 e2 ⊢
      omega
    have := hg.distinct (p / K) (p % K) (q % K) (hdiv p hp) (hmod p) (hmod q) e3
    have s1 := hsplit p
    have s2 := hsplit q
    rw [e1, this] at s1
    omega
  · intro p hp
    rw [h.right p hp]
    have s1 := hsplit p
    have m1 := hmod p
    by_cases hc : p % K ≠ K - 1
    · rw [if_pos hc]
      have hq : (p / K * K + (p % K + 1)) / K = p / K := row_block_div K _ _ (by omega)
      refine ⟨(hrow p _ hp).mpr ⟨hlt _ (by rw [hq]; exact hdiv p hp), hq⟩, Or.inl ⟨by omega, ?_⟩⟩
      intro x _
      omega
    · rw [if_neg hc]
      have hq : (p / K * K + 0) / K = p / K := row_block_div K _ _ hK
      refine ⟨(hrow p _ hp).mpr ⟨hlt _ (by rw [hq]; exact hdiv p hp), hq⟩, Or.inr ⟨by omega, ?_, ?_⟩⟩
      · intro x hx
        have hx' := ((hrow p x hp).mp hx).2
        have s2 := hsplit x
        have m2 := hmod x
        rw [hx'] at s2
        omega
      · intro x hx
        have hx' := ((hrow p x hp).mp hx).2
        have s2 := hsplit x
        rw [hx'] at s2
        omega
  · intro p hp
    rw [h.left p hp]
    have s1 := hsplit p
    have m1 := hmod p
    refine ⟨(hrow p p hp).mpr ⟨hp, rfl⟩, ?_⟩
    by_cases hc : p % K ≠ 0
    · rw [if_pos hc]
      refine Or.inl ⟨by omega, ?_⟩
      intro x _
      omega
    · rw [if_neg hc]
      refine Or.inr ⟨by omega, ?_, ?_⟩
      · intro x hx
        have hx' := ((hrow p x hp).mp hx).2
        have s2 := hsplit x
        have m2 := hmod x
        rw [hx'] at s2
        omega
      · intro x hx
        have hx' := ((hrow p x hp).mp hx).2
        have s2 := hsplit x
        rw [hx'] at s2
        omega
  · intro p hp
    rw [h.left p hp]
    have m1 := hmod p
    have hq : (p / K * K + (if p % K ≠ 0 then p % K - 1 else K - 1)) / K = p / K :=
      row_block_div K _ _ (by split_ifs <;> omega)
    exact (hrow p _ hp).mpr ⟨hlt _ (by rw [hq]; exact hdiv p hp), hq⟩

theorem GenInv.colinv {L W K : Nat} {gc : Nat → Int} {col : Nat → Nat → Int} {ocs : Nat}
    {m : dlx_matrix} (hg : GenOK L W K gc col) (h : GenInv L W K gc col ocs m (L * K)) :
    ColInv m (L * K) (fun _ => False) := by
  refine ⟨h.shape, h.static_ok hg.toGenShape, fun x hx => hx.elim, ?_⟩
  intro c hc
  rw [h.array_width] at hc
  have hs : col_set m (L * K) (fun _ => False) c =
      (fun x => x < L * K ∧ node_header K col x = c) := by
    funext x
    apply propext
    unfold col_set
    constructor
    · rintro ⟨a, b, _⟩
      exact ⟨a, by rw [← h.header x a]; exact b⟩
    · rintro ⟨a, b⟩
      exact ⟨a, by rw [h.header x a]; exact b, fun f => f⟩
  have hr := h.ring c hc
  constructor
  · rw [hs, h.count c hc, hg.count c hc]
  · rw [hs]; exact hr.top_none
  · rw [hs]; exact hr.top_some
  · rw [hs]; exact hr.bottom_none
  · rw [hs]; exact hr.bottom_some
  · rw [hs]; exact hr.down_succ
  · rw [hs]; exact hr.up_pred
  · rw [hs]; exact hr.up_mem

theorem Vec.foldl_set_getD_ge {α : Type} (f : Nat → α) (d : α) (n : Nat) (v : Vec α)
    (c : Nat) (hc : n ≤ c) :
    ((List.range n).foldl (fun v i => v.set i (f i)) v).getD c d = v.getD c d :=
  foldl_range_induct (fun v i => Vec.set v i (f i))
    (fun k w => k ≤ c → w.getD c d = v.getD c d) n v (fun _ => rfl)
    (fun i s _ h hi => by
      rw [Vec.getD_set_ne _ _ _ _ _ (by omega)]
      exact h (by omega)) hc

theorem Vec.foldl_setif {α : Type} (g : Nat → Prop) [DecidablePred g] (a d : α) (n : Nat)
    (v : Vec α) (hv : ∀ i, i < n → v.inb i = true) :
    (∀ j, ((List.range n).foldl (fun t i => if g i then t.set i a else t) v).inb j = v.inb j) ∧
    ∀ c, c < n → g c →
      ((List.range n).foldl (fun t i => if g i then t.set i a else t) v).getD c d = a :=
  foldl_range_induct (fun t i => if g i then Vec.set t i a else t)
    (fun k w => (∀ j, w.inb j = v.inb j) ∧ ∀ c, c < k → g c → w.getD c d = a) n v
    ⟨fun _ => rfl, fun c hc => absurd hc (Nat.not_lt_zero c)⟩
    (fun i s hi h => by
      refine ⟨fun j => ?_, fun c hc hg => ?_⟩
      · by_cases hgi : g i
        · simp only [if_pos hgi, Vec.inb_set, h.1]
        · simp only [if_neg hgi, h.1]
      · by_cases hci : i = c
        · subst hci
          simp only [if_pos hg]
          rw [Vec.getD_set_eq]
          rw [h.1]
          exact hv i hi
        · by_cases hgi : g i
          · simp only [if_pos hgi]
            rw [Vec.getD_set_ne _ _ _ _ _ hci]
            exact h.2 c (by omega) hg
          · simp only [if_neg hgi]
            exact h.2 c (by omega) hg)

theorem populate_trees_mesh (m : dlx_matrix) : MeshEq m (populate_trees m) :=
  ⟨⟨rfl, rfl, rfl, rfl, rfl, rfl, rfl, rfl, rfl⟩, rfl, rfl, rfl, rfl, rfl⟩

theorem populate_trees_tree (m : dlx_matrix)
    (hocs : m.optional_constraint_start_column ≤ m.array_width) :
    (∀ c, c < m.array_width → (populate_trees m).header_tree.inb c = true) ∧
    (∀ c, c < m.array_width → (populate_trees m).optional_header_tree.inb c = true) ∧
    TreeOK (populate_trees m) (fun _ => False) := by
  have hrep : ∀ i, i < m.array_width → (Vec.replicate m.array_width false).inb i = true :=
    fun i hi => Vec.inb_replicate _ _ i hi
  have hopt := Vec.foldl_setif (fun i => m.optional_constraint_start_column ≤ i) true false
    m.array_width (Vec.replicate m.array_width false) hrep
  refine ⟨?_, ?_, ?_, ?_, ?_⟩
  · intro c hc
    simp only [populate_trees, Vec.set_bool_eq]
    rw [Vec.foldl_set_inb (fun _ => true)]
    exact hrep c hc
  · intro c hc
    simp only [populate_trees, Vec.set_bool_eq]
    rw [hopt.1]
    exact hrep c hc
  · intro c hc hm
    simp only [populate_trees, Vec.set_bool_eq, not_false_eq_true, iff_true]
    exact Vec.foldl_set_getD (fun _ => true) false _ _ (fun i hi => hrep i (by omega)) c hm
  · intro c hc hm _
    simp only [populate_trees, Vec.set_bool_eq]
    exact hopt.2 c hc hm
  · intro c hc hm
    simp only [populate_trees, Vec.set_bool_eq]
    have hm' : m.optional_constraint_start_column ≤ c := hm
    rw [Vec.foldl_set_getD_ge (fun _ => true) false _ _ c hm']
    exact Vec.getD_replicate _ _ c

/-- The mesh `solve` starts from, the matrix built by `generate` with the
header indices filled, is consistent with nothing covered and nothing
unlinked. -/
theorem generate_cons {L W K : Nat} {gc : Nat → Int} {col : Nat → Nat → Int} (ocs : Nat)
    (hg : GenOK L W K gc col) (hocs : ocs ≤ W) :
    Cons (populate_trees (generate L W K gc col ocs)) (L * K) (fun _ => False)
      (fun _ => False) Option.none := by
  have h := generate_inv gc ocs hg.toGenShape
  have hw : (generate L W K gc col ocs).optional_constraint_start_column ≤
      (generate L W K gc col ocs).array_width := by
    rw [h.array_width, h.optional_start]
    exact hocs
  obtain ⟨t1, t2, t3⟩ := populate_trees_tree _ hw
  exact ⟨(h.colinv hg).of_mesh_eq (populate_trees_mesh _) t1 t2, fun c hc => hc.elim,
    fun _ q _ _ _ _ hq => hq.elim, fun _ _ _ _ _ _ _ hc => hc.elim, fun q hq => hq.elim, t3⟩


/-! ## Counting the rows of a column -/

theorem ncard_eq_of_enum {S : Set Nat} (n : Nat) (e : Nat → Nat)
    (hinj : ∀ i j, i < n → j < n → e i = e j → i = j) (hmem : ∀ i, i < n → e i ∈ S)
    (hsurj : ∀ x, x ∈ S → ∃ i, i < n ∧ e i = x) : S.ncard = n := by
  have hS : S = e '' (Set.Iio n) := by
    ext x
    constructor
    · intro hx
      obtain ⟨i, hi, rfl⟩ := hsurj x hx
      exact ⟨i, hi, rfl⟩
    · rintro ⟨i, hi, rfl⟩
      exact hmem i hi
  have hinj' : Set.InjOn e (Set.Iio n) := fun i hi j hj h => hinj i j hi hj h
  rw [hS, Set.ncard_image_of_injOn hinj', ← Finset.coe_range,
    Set.ncard_coe_Finset, Finset.card_range]

theorem filter_range_length (p : Nat → Bool) (L : Nat) :
    ((List.range L).filter p).length = Set.ncard {r | r < L ∧ p r = true} := by
  induction L with
  | zero => simp
  | succ L ih =>
    rw [List.range_succ, List.filter_append, List.length_append, ih]
    by_cases hp : p L = true
    · have hs : {r | r < L + 1 ∧ p r = true} = insert L {r | r < L ∧ p r = true} := by
        ext x
        simp only [Set.mem_setOf_eq, Set.mem_insert_iff]
        constructor
        · rintro ⟨a, b⟩
          by_cases hx : x = L
          · exact Or.inl hx
          · exact Or.inr ⟨by omega, b⟩
        · rintro (rfl | ⟨a, b⟩)
          · exact ⟨by omega, hp⟩
          · exact ⟨by omega, b⟩
      have hfin : ({r | r < L ∧ p r = true} : Set Nat).Finite :=
        Set.Finite.subset (Set.finite_Iio L) (fun x hx => hx.1)
      rw [hs, Set.ncard_insert_of_not_mem (fun h => by simp at h) hfin]
      simp [hp]
    · have hs : {r | r < L + 1 ∧ p r = true} = {r | r < L ∧ p r = true} := by
        ext x
        simp only [Set.mem_setOf_eq]
        constructor
        · rintro ⟨a, b⟩
          refine ⟨?_, b⟩
          by_cases hx : x = L
          · rw [hx] at b
            exact absurd b hp
          · omega
        · rintro ⟨a, b⟩
          exact ⟨by omega, b⟩
      rw [hs]
      simp [hp]

theorem touches_iff (K : Nat) (col : Nat → Nat → Int) (r c : Nat) :
    touches K col r c = true ↔ ∃ k, k < K ∧ col r k = (c : Int) := by
  simp [touches]

/-- With in-range headers and rows that meet a column at most once, a column
has as many nodes as there are rows touching it. -/
theorem node_count_eq_row_count {L W K : Nat} {col : Nat → Nat → Int} (hK : 0 < K)
    (hin : ∀ r i, r < L → i < K → 0 ≤ col r i ∧ col r i < W)
    (hd : ∀ r i j, r < L → i < K → j < K → col r i = col r j → i = j) (c : Nat) :
    Set.ncard {p | p < L * K ∧ node_header K col p = c} = row_count L K col c := by
  rw [row_count, filter_range_length]
  have hdiv : ∀ p, p < L * K → p / K < L := fun p hp =>
    Nat.div_lt_of_lt_mul (by rw [Nat.mul_comm]; exact hp)
  have himg : {r | r < L ∧ touches K col r c = true} =
      (fun p => p / K) '' {p | p < L * K ∧ node_header K col p = c} := by
    ext r
    simp only [Set.mem_setOf_eq, Set.mem_image, touches_iff]
    constructor
    · rintro ⟨hr, k, hk, e⟩
      have hp : r * K + k < L * K := by
        have : (r + 1) * K ≤ L * K := Nat.mul_le_mul_right K hr
        rw [Nat.succ_mul] at this
        omega
      refine ⟨r * K + k, ⟨hp, ?_⟩, row_block_div K r k hk⟩
      rw [node_header_at K col hk, e]
      simp
    · rintro ⟨p, ⟨hp, e⟩, rfl⟩
      refine ⟨hdiv p hp, p % K, Nat.mod_lt p hK, ?_⟩
      have := hin (p / K) (p % K) (hdiv p hp) (Nat.mod_lt p hK)
      unfold node_header at e
      omega
  rw [himg, Set.ncard_image_of_injOn]
  rintro p ⟨hp, e1⟩ q ⟨hq, e2⟩ (hpq : p / K = q / K)
  have r1 := hin (p / K) (p % K) (hdiv p hp) (Nat.mod_lt p hK)
  have r2 := hin (q / K) (q % K) (hdiv q hq) (Nat.mod_lt q hK)
  unfold node_header at e1 e2
  have e3 : col (p / K) (p % K) = col (p / K) (q % K) := by
    rw [hpq] at r1 e1 ⊢
    omega
  have := hd (p / K) (p % K) (q % K) (hdiv p hp) (Nat.mod_lt p hK) (Nat.mod_lt q hK) e3
  have s1 := Nat.div_add_mod' p K
  have s2 := Nat.div_add_mod' q K
  rw [hpq, this] at s1
  omega

theorem row_block_mod (K a j : Nat) (hj : j < K) : (a * K + j) % K = j := by
  rw [Nat.add_comm, Nat.add_mul_mod_self_right, Nat.mod_eq_of_lt hj]

/-- Counting the cells of a `w × w` grid that satisfy a relation between their
row and column, through an enumeration of the cells. -/
theorem grid_ncard (w n : Nat) (R : Nat → Nat → Prop) (a b : Nat → Nat)
    (hab : ∀ k, k < n → a k < w ∧ b k < w ∧ R (a k) (b k))
    (hinj : ∀ k k', k < n → k' < n → a k = a k' → b k = b k' → k = k')
    (hsurj : ∀ i j, i < w → j < w → R i j → ∃ k, k < n ∧ a k = i ∧ b k = j) :
    Set.ncard {r | r < w * w ∧ R (r / w) (r % w)} = n := by
  refine ncard_eq_of_enum n (fun k => a k * w + b k) ?_ ?_ ?_
  · intro k k' hk hk' e
    obtain ⟨h1, h2, _⟩ := hab k hk
    obtain ⟨h3, h4, _⟩ := hab k' hk'
    have e1 := congrArg (fun x => x / w) e
    have e2 := congrArg (fun x => x % w) e
    simp only [row_block_div w _ _ h2, row_block_div w _ _ h4, row_block_mod w _ _ h2,
      row_block_mod w _ _ h4] at e1 e2
    exact hinj k k' hk hk' e1 e2
  · intro k hk
    obtain ⟨h1, h2, h3⟩ := hab k hk
    refine ⟨?_, ?_⟩
    · show a k * w + b k < w * w
      have : (a k + 1) * w ≤ w * w := Nat.mul_le_mul_right w h1
      rw [Nat.succ_mul] at this
      omega
    · show R ((a k * w + b k) / w) ((a k * w + b k) % w)
      rw [row_block_div w _ _ h2, row_block_mod w _ _ h2]
      exact h3
  · rintro r ⟨hr, hR⟩
    have hw : 0 < w := by
      rcases Nat.eq_zero_or_pos w with h | h
      · rw [h] at hr
        simp at hr
      · exact h
    obtain ⟨k, hk, e1, e2⟩ := hsurj (r / w) (r % w) (Nat.div_lt_of_lt_mul hr) (Nat.mod_lt r hw) hR
    refine ⟨k, hk, ?_⟩
    show a k * w + b k = r
    rw [e1, e2]
    exact Nat.div_add_mod' r w

theorem n_queens_touches (w r c : Nat) (hr : r < w * w) :
    touches 4 (n_queens_get_column w) r c = true ↔
      (c = r / w ∨ c = r % w + w ∨ c = r % w + r / w + 2 * w ∨ c + r / w = r % w + 5 * w - 2) := by
  have hi : r / w < w := Nat.div_lt_of_lt_mul hr
  rw [touches_iff]
  simp only [n_queens_get_column]
  generalize r / w = i at *
  generalize r % w = j at *
  constructor
  · rintro ⟨k, hk, e⟩
    interval_cases k
    · simp only at e
      omega
    · simp only at e
      omega
    · simp only at e
      omega
    · simp only at e
      omega
  · rintro (e | e | e | e)
    · exact ⟨0, by omega, by simp only; omega⟩
    · exact ⟨1, by omega, by simp only; omega⟩
    · exact ⟨2, by omega, by simp only; omega⟩
    · exact ⟨3, by omega, by simp only; omega⟩

theorem n_queens_row_count (w c : Nat) (hc : c < 6 * w - 2) :
    (row_count (w * w) 4 (n_queens_get_column w) c : Int) = n_queens_get_count w c := by
  have hw : 0 < w := by omega
  rw [row_count, filter_range_length]
  have key : ∀ (n : Nat) (a b : Nat → Nat),
      (∀ k, k < n → a k < w ∧ b k < w ∧ (c = a k ∨ c = b k + w ∨ c = b k + a k + 2 * w ∨
        c + a k = b k + 5 * w - 2)) →
      (∀ k k', k < n → k' < n → a k = a k' → b k = b k' → k = k') →
      (∀ i j, i < w → j < w → (c = i ∨ c = j + w ∨ c = j + i + 2 * w ∨
        c + i = j + 5 * w - 2) → ∃ k, k < n ∧ a k = i ∧ b k = j) →
      Set.ncard {r | r < w * w ∧ touches 4 (n_queens_get_column w) r c = true} = n := by
    intro n a b h1 h2 h3
    have hset : {r | r < w * w ∧ touches 4 (n_queens_get_column w) r c = true} =
        {r | r < w * w ∧ (fun i j => c = i ∨ c = j + w ∨ c = j + i + 2 * w ∨
          c + i = j + 5 * w - 2) (r / w) (r % w)} := by
      ext r
      simp only [Set.mem_setOf_eq]
      constructor
      · rintro ⟨a, b⟩
        exact ⟨a, (n_queens_touches w r c a).mp b⟩
      · rintro ⟨a, b⟩
        exact ⟨a, (n_queens_touches w r c a).mpr b⟩
    rw [hset]
    exact grid_ncard w n _ a b h1 h2 h3
  unfold n_queens_get_count
  by_cases h1 : c < w
  · rw [key w (fun _ => c) (fun k => k) (by intro k hk; dsimp only; omega)
      (by intro k k' _ _ e1 e2; dsimp only at e1 e2; omega)
      (by intro i j hi hj hR; exact ⟨j, by dsimp only; omega⟩)]
    rw [if_pos (by omega)]
  by_cases h2 : c < 2 * w
  · rw [key w (fun k => k) (fun _ => c - w) (by intro k hk; dsimp only; omega)
      (by intro k k' _ _ e1 e2; dsimp only at e1 e2; omega)
      (by intro i j hi hj hR; exact ⟨i, by dsimp only; omega⟩)]
    rw [if_pos (by omega)]
  rw [if_neg (by omega)]
  by_cases h3 : c < 4 * w - 1
  · rw [if_pos (by omega)]
    by_cases h4 : c - 2 * w ≤ w - 1
    · rw [key (c - 2 * w + 1) (fun k => k) (fun k => c - 2 * w - k)
        (by intro k hk; dsimp only; omega)
        (by intro k k' _ _ e1 e2; dsimp only at e1 e2; omega)
        (by intro i j hi hj hR; exact ⟨i, by dsimp only; omega⟩)]
      rw [abs_of_nonneg (by omega)]
      omega
    · rw [key (4 * w - 1 - c) (fun k => c - 2 * w - (w - 1) + k) (fun k => w - 1 - k)
        (by intro k hk; dsimp only; omega)
        (by intro k k' _ _ e1 e2; dsimp only at e1 e2; omega)
        (by intro i j hi hj hR; exact ⟨w - 1 - j, by dsimp only; omega⟩)]
      rw [abs_of_nonpos (by omega)]
      omega
  · rw [if_neg (by omega)]
    by_cases h4 : c - (4 * w - 1) ≤ w - 1
    · rw [key (c - (4 * w - 1) + 1) (fun k => w - 1 - (c - (4 * w - 1)) + k)
        (fun k => k) (by intro k hk; dsimp only; omega)
        (by intro k k' _ _ e1 e2; dsimp only at e1 e2; omega)
        (by intro i j hi hj hR; exact ⟨j, by dsimp only; omega⟩)]
      rw [abs_of_nonneg (by omega)]
      omega
    · rw [key (6 * w - 2 - c) (fun k => k) (fun k => c - (4 * w - 1) - (w - 1) + k)
        (by intro k hk; dsimp only; omega)
        (by intro k k' _ _ e1 e2; dsimp only at e1 e2; omega)
        (by intro i j hi hj hR; exact ⟨i, by dsimp only; omega⟩)]
      rw [abs_of_nonpos (by omega)]
      omega

theorem n_queens_genok (w : Nat) (hw : 1 ≤ w) :
    GenOK (w * w) (w * 2 + (w * 2 - 1) * 2) 4 (n_queens_get_count w) (n_queens_get_column w) := by
  have hin : ∀ r i, r < w * w → i < 4 →
      0 ≤ n_queens_get_column w r i ∧
        n_queens_get_column w r i < ((w * 2 + (w * 2 - 1) * 2 : Nat) : Int) := by
    intro r i hr hi
    have h1 : r / w < w := Nat.div_lt_of_lt_mul hr
    have h2 : r % w < w := Nat.mod_lt r (by omega)
    simp only [n_queens_get_column]
    generalize r / w = a at *
    generalize r % w = b at *
    interval_cases i <;> simp only <;> omega
  have hd : ∀ r i j, r < w * w → i < 4 → j < 4 →
      n_queens_get_column w r i = n_queens_get_column w r j → i = j := by
    intro r i j hr hi hj
    have h1 : r / w < w := Nat.div_lt_of_lt_mul hr
    have h2 : r % w < w := Nat.mod_lt r (by omega)
    simp only [n_queens_get_column]
    generalize r / w = a at *
    generalize r % w = b at *
    interval_cases i <;> interval_cases j <;> simp only <;> intro e <;>
      first | trivial | omega
  refine ⟨⟨by omega, hin, hd⟩, fun c hc => ?_⟩
  rw [node_count_eq_row_count (by omega) hin hd c, n_queens_row_count w c (by omega)]

theorem generate_right_iterate {L W K : Nat} {gc : Nat → Int} {col : Nat → Nat → Int}
    {ocs : Nat} {m : dlx_matrix} (hK : 0 < K) (h : GenInv L W K gc col ocs m (L * K))
    (p : Nat) (hp : p < L * K) :
    ∀ k, (fun x => m.right.getD x 0)^[k] p = p / K * K + (p % K + k) % K
  | 0 => by
    simp only [Function.iterate_zero, id_eq, Nat.add_zero, Nat.mod_mod]
    exact (Nat.div_add_mod' p K).symm
  | k + 1 => by
    rw [Function.iterate_succ_apply', generate_right_iterate hK h p hp k]
    have hm : (p % K + k) % K < K := Nat.mod_lt _ hK
    have hq : p / K * K + (p % K + k) % K < L * K := by
      have : p / K < L := Nat.div_lt_of_lt_mul (by rw [Nat.mul_comm]; exact hp)
      have : (p / K + 1) * K ≤ L * K := Nat.mul_le_mul_right K this
      rw [Nat.succ_mul] at this
      omega
    show m.right.getD (p / K * K + (p % K + k) % K) 0 = _
    rw [h.right _ hq, row_block_div K _ _ hm, row_block_mod K _ _ hm]
    have e : (p % K + (k + 1)) % K = ((p % K + k) % K + 1) % K := by
      rw [← Nat.add_assoc, Nat.add_mod (p % K + k) 1 K, Nat.add_mod ((p % K + k) % K) 1 K,
        Nat.mod_mod]
    have key : (if (p % K + k) % K ≠ K - 1 then (p % K + k) % K + 1 else 0) =
        (p % K + (k + 1)) % K := by
      rw [e]
      generalize (p % K + k) % K = a at hm ⊢
      by_cases hc : a ≠ K - 1
      · rw [if_pos hc, Nat.mod_eq_of_lt (by omega)]
      · rw [if_neg hc]
        have : a + 1 = K := by omega
        rw [this, Nat.mod_self]
    rw [key]


/-! ## The search loop on consistent states -/

theorem tree_begin_some {m : dlx_matrix} {H : Nat} (h : tree_begin m = some H) :
    H < m.array_width ∧ m.header_tree.getD H false = true := by
  unfold tree_begin at h
  have key := foldl_range_induct (tree_begin_step m)
    (fun k best => ∀ H, best = some H → H < k ∧ m.header_tree.getD H false = true)
    m.array_width Option.none (fun H e => by cases e)
    (fun i s _ hs H e => by
      unfold tree_begin_step at e
      by_cases hi : m.header_tree.getD i false = true
      · rw [if_pos hi] at e
        rcases s with _ | j
        · simp only [Option.some.injEq] at e
          subst e
          exact ⟨Nat.lt_succ_self _, hi⟩
        · simp only at e
          split_ifs at e
          · simp only [Option.some.injEq] at e
            subst e
            exact ⟨Nat.lt_succ_self _, hi⟩
          · obtain ⟨a, b⟩ := hs H e
            exact ⟨Nat.lt_succ_of_lt a, b⟩
      · rw [if_neg hi] at e
        obtain ⟨a, b⟩ := hs H e
        exact ⟨Nat.lt_succ_of_lt a, b⟩)
  exact key H h

theorem tree_empty_iff (m : dlx_matrix) :
    tree_empty m = true ↔ ∀ c, c < m.array_width → m.header_tree.getD c false = false := by
  simp [tree_empty]

theorem terminal_check_false {m : dlx_matrix} (h : terminal_check m = false) :
    ∃ H, tree_begin m = some H ∧ 0 < m.count.getD H 0 := by
  unfold terminal_check at h
  simp only [Bool.or_eq_false_iff] at h
  rcases hb : tree_begin m with _ | H
  · rw [hb] at h
    simp at h
  · rw [hb] at h
    refine ⟨H, rfl, ?_⟩
    have := h.2
    simp only [decide_eq_false_iff_not, not_le] at this
    exact this

theorem header_tree_insert_erase (m : dlx_matrix) (H : Nat)
    (h : m.header_tree.getD H false = true) :
    header_tree_insert (header_tree_erase m H) H = m := by
  unfold header_tree_insert header_tree_erase
  simp only [Vec.set_bool_eq, Vec.set_set]
  have : m.header_tree.set H true = m.header_tree := Vec.set_eq_self _ _ _ false h
  rw [this]

/-- Facts about the state above a stack entry: it is consistent, the row of
the entry stays linked, no node of the entry's column was unlinked, and the two
restores of the backtrack step undo the cover. -/
theorem cover_row_facts {mp m1 m : dlx_matrix} {N fuel0 : Nat} {hidp covp cov : Nat → Prop}
    {nd : Nat} (h : Cons mp N hidp covp Option.none) (hnd : nd < N) (hh : ¬ hidp nd)
    (hc : ¬ covp (mp.header.getD nd 0)) (hf : N < fuel0)
    (e1 : remove_column fuel0 (header_tree_erase mp (mp.header.getD nd 0)) nd = Except.ok m1)
    (e2 : remove_row fuel0 m1 nd = Except.ok m)
    (hcov : ∀ c, cov c ↔ (covp c ∨ ∃ p, row_set mp N nd p ∧ mp.header.getD p 0 = c)) :
    (∃ hid, Cons m N hid cov Option.none ∧ (∀ y, hidp y → hid y) ∧
      (∀ p, row_set mp N nd p → ¬ hid p) ∧
      (∀ y, hid y → hidp y ∨ mp.header.getD y 0 ≠ mp.header.getD nd 0)) ∧
    SameFrame mp m ∧ restore_row fuel0 m nd = Except.ok m1 ∧
    restore_column fuel0 m1 nd = Except.ok (header_tree_erase mp (mp.header.getD nd 0)) := by
  obtain ⟨m1', m2', hid2, cov2, e1', e2', hc2, f, hsub, hcov2, hrow, hnew, hrt1, hrt2⟩ :=
    cover_row_spec h hnd hh hc fuel0 hf
  rw [e1] at e1'
  cases e1'
  rw [e2] at e2'
  cases e2'
  have hcc : cov2 = cov := funext fun c => propext ((hcov2 c).trans (hcov c).symm)
  rw [hcc] at hc2
  refine ⟨⟨hid2, hc2, hsub, hrow, fun y hy => ?_⟩, f, hrt1 fuel0 hf, hrt2 fuel0 hf⟩
  rcases hnew y hy with a | a
  · exact Or.inl a
  · exact Or.inr a.2

/-- Covering the row of a stack entry leaves the ring of the entry's own
column as it was. -/
theorem cover_row_column_stable {mp m1 m : dlx_matrix} {N fuel0 : Nat}
    {hidp covp cov : Nat → Prop} {nd : Nat} (h : Cons mp N hidp covp Option.none)
    (hnd : nd < N) (hh : ¬ hidp nd) (hc : ¬ covp (mp.header.getD nd 0)) (hf : N < fuel0)
    (e1 : remove_column fuel0 (header_tree_erase mp (mp.header.getD nd 0)) nd = Except.ok m1)
    (e2 : remove_row fuel0 m1 nd = Except.ok m)
    (hcov : ∀ c, cov c ↔ (covp c ∨ ∃ p, row_set mp N nd p ∧ mp.header.getD p 0 = c)) :
    m.down.getD nd 0 = mp.down.getD nd 0 ∧
    m.bottom.getD (mp.header.getD nd 0) Option.none =
      mp.bottom.getD (mp.header.getD nd 0) Option.none ∧
    col_set mp N hidp (mp.header.getD nd 0) (mp.down.getD nd 0) := by
  obtain ⟨⟨hid, hc2, hsub, hrow, hnew⟩, f, _, _⟩ := cover_row_facts h hnd hh hc hf e1 e2 hcov
  have hW := h.col.static.header_lt nd hnd
  have hset : col_set m N hid (mp.header.getD nd 0) = col_set mp N hidp (mp.header.getD nd 0) := by
    funext y
    apply propext
    unfold col_set
    rw [f.header]
    constructor
    · rintro ⟨a, b, c⟩
      exact ⟨a, b, fun d => c (hsub y d)⟩
    · rintro ⟨a, b, c⟩
      refine ⟨a, b, fun d => ?_⟩
      rcases hnew y d with d1 | d1
      · exact c d1
      · exact d1 b
  have hp := h.col.col _ hW
  have hm := hc2.col.col (mp.header.getD nd 0) (by rw [f.array_width]; exact hW)
  have hndS : col_set mp N hidp (mp.header.getD nd 0) nd := ⟨hnd, rfl, hh⟩
  have hd1 := hp.down_succ nd hndS
  have hd2 := hm.down_succ nd (hset ▸ hndS)
  rw [hset] at hd2
  refine ⟨hd2.unique_succ hd1, ?_, hd1.1⟩
  rcases hb : mp.bottom.getD (mp.header.getD nd 0) Option.none with _ | b
  · exact absurd hndS (hp.bottom_none hb nd)
  · obtain ⟨b1, b2⟩ := hp.bottom_some b hb
    rcases hb' : m.bottom.getD (mp.header.getD nd 0) Option.none with _ | b'
    · exact absurd (hset ▸ hndS) (hm.bottom_none hb' nd)
    · obtain ⟨b1', b2'⟩ := hm.bottom_some b' hb'
      rw [hset] at b1' b2'
      have := b2 b' b1'
      have := b2' b b1
      congr 1
      omega

theorem Reach.consistent {N fuel0 : Nat} {m0 : dlx_matrix} {cov0 : Nat → Prop}
    {stack : List (Nat × Nat)} {m : dlx_matrix} {cov : Nat → Prop} (hf : N < fuel0)
    (h : Reach N fuel0 m0 cov0 stack m cov) (h0 : ∃ hid, Cons m0 N hid cov0 Option.none) :
    ∃ hid, Cons m N hid cov Option.none := by
  cases h with
  | base => exact h0
  | push stack mp covp hidp nd m1 m cov hR hC hnd hh hc hm e1 e2 hcov =>
    obtain ⟨⟨hid, hc2, _⟩, _⟩ := cover_row_facts hC hnd hh hc hf e1 e2 hcov
    exact ⟨hid, hc2⟩

/-- The backtracking `while` loop pops entries, each time giving back the
state below the entry, and stops at the first entry whose node is not the
bottom of its header. -/
theorem backtrack_loop_reach {N fuel0 : Nat} {m0 : dlx_matrix} {cov0 : Nat → Prop}
    (hf : N < fuel0) {stack : List (Nat × Nat)} {m : dlx_matrix} {cov : Nat → Prop}
    (h : Reach N fuel0 m0 cov0 stack m cov) :
    ∃ m2 stack2 cov2, backtrack_loop fuel0 m stack = Except.ok (m2, stack2) ∧
      Reach N fuel0 m0 cov0 stack2 m2 cov2 ∧ (∃ pre, stack = pre ++ stack2) ∧
      (∀ H nd rest, stack2 = (H, nd) :: rest →
        m2.bottom.getD H Option.none ≠ some nd) := by
  induction h with
  | base => exact ⟨m0, [], cov0, rfl, Reach.base, ⟨[], rfl⟩, fun _ _ _ e => by cases e⟩
  | push stack mp covp hidp nd m1 m cov hR hC hnd hh hc hm e1 e2 hcov ih =>
    obtain ⟨_, _, hrr, hrc⟩ := cover_row_facts hC hnd hh hc hf e1 e2 hcov
    rw [backtrack_loop]
    by_cases hb : m.bottom.getD (mp.header.getD nd 0) Option.none = some nd
    · rw [if_pos hb, hrr]
      simp only
      rw [hrc]
      simp only
      have hW := hC.col.static.header_lt nd hnd
      rw [header_tree_insert_erase mp _ ((hC.tree.mand _ hW hm).mpr hc)]
      obtain ⟨m2, stack2, cov2, e, hR2, ⟨pre, hpre⟩, hstop⟩ := ih
      exact ⟨m2, stack2, cov2, e, hR2, ⟨(mp.header.getD nd 0, nd) :: pre, by rw [hpre]; rfl⟩,
        hstop⟩
    · rw [if_neg hb]
      refine ⟨m, _, cov, rfl, Reach.push stack mp covp hidp nd m1 m cov hR hC hnd hh hc hm e1 e2
        hcov, ⟨[], rfl⟩, fun H nd' rest e => ?_⟩
      simp only [List.cons.injEq, Prod.mk.injEq] at e
      obtain ⟨⟨rfl, rfl⟩, _⟩ := e
      exact hb

/-! ## Sets of cells and sets of shapes -/

theorem pair_lt_iff {a b : Int × Int} :
    pair_lt a b = true ↔ a.1 < b.1 ∨ (a.1 = b.1 ∧ a.2 < b.2) := by
  simp [pair_lt]

theorem pair_lt_irrefl (a : Int × Int) : pair_lt a a = false := by
  rw [Bool.eq_false_iff]; intro h; rw [pair_lt_iff] at h; omega

theorem pair_lt_trans {a b c : Int × Int} (h1 : pair_lt a b = true) (h2 : pair_lt b c = true) :
    pair_lt a c = true := by
  rw [pair_lt_iff] at *; omega

theorem pair_lt_total {a b : Int × Int} (h1 : pair_lt a b = false) (h2 : pair_lt b a = false) :
    a = b := by
  rw [Bool.eq_false_iff, ne_eq, pair_lt_iff] at h1 h2
  apply Prod.ext <;> omega

theorem mem_cell_set_insert {c p : Int × Int} {s : List (Int × Int)} :
    c ∈ cell_set_insert p s ↔ c = p ∨ c ∈ s := by
  induction s with
  | nil => simp [cell_set_insert]
  | cons q rest ih =>
    unfold cell_set_insert
    by_cases h1 : pair_lt p q = true
    · simp [h1]
    · have h1' : pair_lt p q = false := by simpa using h1
      by_cases h2 : pair_lt q p = true
      · simp only [h1', h2, Bool.false_eq_true, if_false, if_true, List.mem_cons, ih]
        tauto
      · have h2' : pair_lt q p = false := by simpa using h2
        have e : p = q := pair_lt_total h1' h2'
        simp only [h1', h2', Bool.false_eq_true, if_false, List.mem_cons]
        rw [e]
        tauto

theorem cell_set_insert_sorted {p : Int × Int} {s : List (Int × Int)}
    (h : s.Pairwise (fun a b => pair_lt a b = true)) :
    (cell_set_insert p s).Pairwise (fun a b => pair_lt a b = true) := by
  induction s with
  | nil => simp [cell_set_insert]
  | cons q rest ih =>
    unfold cell_set_insert
    rw [List.pairwise_cons] at h
    by_cases h1 : pair_lt p q = true
    · simp only [h1, if_true]
      refine List.Pairwise.cons ?_ (List.Pairwise.cons h.1 h.2)
      intro b hb
      rcases List.mem_cons.1 hb with e | hb
      · rw [e]; exact h1
      · exact pair_lt_trans h1 (h.1 b hb)
    · have h1' : pair_lt p q = false := by simpa using h1
      by_cases h2 : pair_lt q p = true
      · simp only [h1', h2, Bool.false_eq_true, if_false, if_true]
        refine List.Pairwise.cons ?_ (ih h.2)
        intro b hb
        rcases mem_cell_set_insert.1 hb with e | hb
        · rw [e]; exact h2
        · exact h.1 b hb
      · have h2' : pair_lt q p = false := by simpa using h2
        simp only [h1', h2', Bool.false_eq_true, if_false]
        exact List.Pairwise.cons h.1 h.2

theorem cell_set_fold_mem {c : Int × Int} (l : List (Int × Int)) (acc : List (Int × Int)) :
    c ∈ l.foldl (fun s p => cell_set_insert p s) acc ↔ c ∈ acc ∨ c ∈ l := by
  induction l generalizing acc with
  | nil => simp
  | cons p rest ih =>
    rw [List.foldl_cons, ih, mem_cell_set_insert, List.mem_cons]
    tauto

theorem cell_set_fold_sorted (l : List (Int × Int)) (acc : List (Int × Int))
    (h : acc.Pairwise (fun a b => pair_lt a b = true)) :
    (l.foldl (fun s p => cell_set_insert p s) acc).Pairwise (fun a b => pair_lt a b = true) := by
  induction l generalizing acc with
  | nil => simpa using h
  | cons p rest ih =>
    rw [List.foldl_cons]
    exact ih _ (cell_set_insert_sorted h)

theorem mem_cell_set_of {c : Int × Int} {l : List (Int × Int)} :
    c ∈ cell_set_of l ↔ c ∈ l := by
  unfold cell_set_of
  rw [cell_set_fold_mem]
  simp

theorem cell_set_of_sorted (l : List (Int × Int)) :
    (cell_set_of l).Pairwise (fun a b => pair_lt a b = true) :=
  cell_set_fold_sorted l [] List.Pairwise.nil

theorem sorted_cells_nodup {s : List (Int × Int)}
    (h : s.Pairwise (fun a b => pair_lt a b = true)) : s.Nodup := by
  refine List.Pairwise.imp ?_ h
  intro a b hab e
  rw [e, pair_lt_irrefl] at hab
  exact Bool.noConfusion hab

theorem cell_set_of_nodup (l : List (Int × Int)) : (cell_set_of l).Nodup :=
  sorted_cells_nodup (cell_set_of_sorted l)

theorem cell_set_of_length {l : List (Int × Int)} (h : l.Nodup) :
    (cell_set_of l).length = l.length := by
  have hp : (cell_set_of l).Perm l :=
    (List.perm_ext_iff_of_nodup (cell_set_of_nodup l) h).2 (fun _ => mem_cell_set_of)
  exact hp.length_eq

theorem sorted_cells_ext {s t : List (Int × Int)}
    (hs : s.Pairwise (fun a b => pair_lt a b = true))
    (ht : t.Pairwise (fun a b => pair_lt a b = true))
    (h : ∀ c, c ∈ s ↔ c ∈ t) : s = t := by
  have hp : s.Perm t :=
    (List.perm_ext_iff_of_nodup (sorted_cells_nodup hs) (sorted_cells_nodup ht)).2 h
  haveI : IsAntisymm (Int × Int) (fun a b => pair_lt a b = true) :=
    ⟨fun a b h1 h2 => by rw [pair_lt_iff] at h1 h2; omega⟩
  exact List.eq_of_perm_of_sorted hp hs ht

theorem compare_loop_irrefl (l : List (Int × Int)) : set_polyomino_compare_loop l l = false := by
  induction l with
  | nil => rfl
  | cons a l ih => simp [set_polyomino_compare_loop, ih]

theorem compare_loop_total : ∀ (l r : List (Int × Int)), l.length = r.length →
    set_polyomino_compare_loop l r = false → set_polyomino_compare_loop r l = false → l = r
  | [], [], _, _, _ => rfl
  | [], _ :: _, h, _, _ => by simp at h
  | _ :: _, [], h, _, _ => by simp at h
  | a :: l, b :: r, h, h1, h2 => by
    by_cases e : a = b
    · subst e
      simp only [set_polyomino_compare_loop, ne_eq, not_true_eq_false, if_false] at h1 h2
      rw [compare_loop_total l r (by simpa using h) h1 h2]
    · have e' : ¬ b = a := fun h => e h.symm
      simp only [set_polyomino_compare_loop, ne_eq, e, e', not_false_eq_true, if_true] at h1 h2
      exact absurd (pair_lt_total h1 h2) e

theorem compare_loop_trans : ∀ (a b c : List (Int × Int)),
    set_polyomino_compare_loop a b = true → set_polyomino_compare_loop b c = true →
    set_polyomino_compare_loop a c = true
  | [], _, _, h, _ => by simp [set_polyomino_compare_loop] at h
  | _ :: _, [], _, h, _ => by simp [set_polyomino_compare_loop] at h
  | _ :: _, _ :: _, [], _, h => by simp [set_polyomino_compare_loop] at h
  | x :: a, y :: b, z :: c, h1, h2 => by
    simp only [set_polyomino_compare_loop, ne_eq] at h1 h2 ⊢
    by_cases e1 : x = y
    · subst e1
      simp only [not_true_eq_false, if_false] at h1
      by_cases e2 : x = z
      · subst e2
        simp only [not_true_eq_false, if_false] at h2 ⊢
        exact compare_loop_trans a b c h1 h2
      · simp only [e2, not_false_eq_true, if_true] at h2 ⊢
        exact h2
    · simp only [e1, not_false_eq_true, if_true] at h1
      by_cases e2 : y = z
      · subst e2
        simp only [e1, not_false_eq_true, if_true]
        exact h1
      · simp only [e2, not_false_eq_true, if_true] at h2
        have h3 := pair_lt_trans h1 h2
        have e3 : ¬ x = z := by
          intro e; rw [e, pair_lt_irrefl] at h3; exact Bool.noConfusion h3
        simp only [e3, not_false_eq_true, if_true]
        exact h3


theorem compare_irrefl (s : List (Int × Int)) : set_polyomino_compare s s = false := by
  simp [set_polyomino_compare, compare_loop_irrefl]

theorem compare_total {s t : List (Int × Int)} (h1 : set_polyomino_compare s t = false)
    (h2 : set_polyomino_compare t s = false) : s = t := by
  unfold set_polyomino_compare at h1 h2
  by_cases e : s.length = t.length
  · have e' : t.length = s.length := e.symm
    rw [if_neg (not_not.2 e)] at h1
    rw [if_neg (not_not.2 e')] at h2
    exact compare_loop_total s t e h1 h2
  · have e' : ¬ t.length = s.length := fun h => e h.symm
    rw [if_pos e, decide_eq_false_iff_not] at h1
    rw [if_pos e', decide_eq_false_iff_not] at h2
    omega

theorem compare_trans {a b c : List (Int × Int)} (h1 : set_polyomino_compare a b = true)
    (h2 : set_polyomino_compare b c = true) : set_polyomino_compare a c = true := by
  unfold set_polyomino_compare at h1 h2 ⊢
  by_cases e1 : a.length = b.length
  · simp only [ne_eq, e1, not_true_eq_false, if_false] at h1
    by_cases e2 : b.length = c.length
    · simp only [ne_eq, e2, not_true_eq_false, if_false] at h2
      simp only [ne_eq, e1.trans e2, not_true_eq_false, if_false]
      exact compare_loop_trans a b c h1 h2
    · simp only [ne_eq, e2, not_false_eq_true, if_true, decide_eq_true_eq] at h2
      have e3 : ¬ a.length = c.length := by omega
      simp only [ne_eq, e3, not_false_eq_true, if_true, decide_eq_true_eq]
      omega
  · simp only [ne_eq, e1, not_false_eq_true, if_true, decide_eq_true_eq] at h1
    by_cases e2 : b.length = c.length
    · have e3 : ¬ a.length = c.length := by omega
      simp only [ne_eq, e3, not_false_eq_true, if_true, decide_eq_true_eq]
      omega
    · simp only [ne_eq, e2, not_false_eq_true, if_true, decide_eq_true_eq] at h2
      have e3 : ¬ a.length = c.length := by omega
      simp only [ne_eq, e3, not_false_eq_true, if_true, decide_eq_true_eq]
      omega

theorem mem_shape_set_insert {s x : List (Int × Int)} {S : List (List (Int × Int))} :
    s ∈ shape_set_insert x S ↔ s = x ∨ s ∈ S := by
  induction S with
  | nil => simp [shape_set_insert]
  | cons t rest ih =>
    unfold shape_set_insert
    by_cases h1 : set_polyomino_compare x t = true
    · simp [h1]
    · have h1' : set_polyomino_compare x t = false := by simpa using h1
      by_cases h2 : set_polyomino_compare t x = true
      · simp only [h1', h2, Bool.false_eq_true, if_false, if_true, List.mem_cons, ih]
        tauto
      · have h2' : set_polyomino_compare t x = false := by simpa using h2
        have e : x = t := compare_total h1' h2'
        simp only [h1', h2', Bool.false_eq_true, if_false, List.mem_cons]
        rw [e]
        tauto

theorem shape_set_insert_sorted {x : List (Int × Int)} {S : List (List (Int × Int))}
    (h : S.Pairwise (fun a b => set_polyomino_compare a b = true)) :
    (shape_set_insert x S).Pairwise (fun a b => set_polyomino_compare a b = true) := by
  induction S with
  | nil => simp [shape_set_insert]
  | cons q rest ih =>
    unfold shape_set_insert
    rw [List.pairwise_cons] at h
    by_cases h1 : set_polyomino_compare x q = true
    · simp only [h1, if_true]
      refine List.Pairwise.cons ?_ (List.Pairwise.cons h.1 h.2)
      intro b hb
      rcases List.mem_cons.1 hb with e | hb
      · rw [e]; exact h1
      · exact compare_trans h1 (h.1 b hb)
    · have h1' : set_polyomino_compare x q = false := by simpa using h1
      by_cases h2 : set_polyomino_compare q x = true
      · simp only [h1', h2, Bool.false_eq_true, if_false, if_true]
        refine List.Pairwise.cons ?_ (ih h.2)
        intro b hb
        rcases mem_shape_set_insert.1 hb with e | hb
        · rw [e]; exact h2
        · exact h.1 b hb
      · have h2' : set_polyomino_compare q x = false := by simpa using h2
        simp only [h1', h2', Bool.false_eq_true, if_false]
        exact List.Pairwise.cons h.1 h.2

theorem shape_set_insert_length (x : List (Int × Int)) (S : List (List (Int × Int))) :
    S.length ≤ (shape_set_insert x S).length ∧ (shape_set_insert x S).length ≤ S.length + 1 ∧
      1 ≤ (shape_set_insert x S).length := by
  induction S with
  | nil => simp [shape_set_insert]
  | cons t rest ih =>
    unfold shape_set_insert
    by_cases h1 : set_polyomino_compare x t = true
    · simp [h1]
    · have h1' : set_polyomino_compare x t = false := by simpa using h1
      by_cases h2 : set_polyomino_compare t x = true
      · simp only [h1', h2, Bool.false_eq_true, if_false, if_true, List.length_cons]
        omega
      · have h2' : set_polyomino_compare t x = false := by simpa using h2
        simp [h1', h2']

theorem sorted_shapes_nodup {S : List (List (Int × Int))}
    (h : S.Pairwise (fun a b => set_polyomino_compare a b = true)) : S.Nodup := by
  refine List.Pairwise.imp ?_ h
  intro a b hab e
  rw [e, compare_irrefl] at hab
  exact Bool.noConfusion hab

/-! ## The constructor of `polyomino` -/

theorem fold_max_spec (f : Int × Int → Int) (l : List (Int × Int)) (a : Int) :
    a ≤ l.foldl (fun a p => max a (f p)) a ∧
    (∀ p ∈ l, f p ≤ l.foldl (fun a p => max a (f p)) a) ∧
    (l.foldl (fun a p => max a (f p)) a = a ∨ ∃ p ∈ l, f p = l.foldl (fun a p => max a (f p)) a) := by
  induction l generalizing a with
  | nil => simp
  | cons q rest ih =>
    rw [List.foldl_cons]
    obtain ⟨h1, h2, h3⟩ := ih (max a (f q))
    refine ⟨le_trans (le_max_left _ _) h1, ?_, ?_⟩
    · intro p hp
      rcases List.mem_cons.1 hp with e | hp
      · rw [e]; exact le_trans (le_max_right _ _) h1
      · exact h2 p hp
    · rcases h3 with h3 | ⟨p, hp, h3⟩
      · rcases max_choice a (f q) with e | e
        · left; rw [h3, e]
        · right; exact ⟨q, List.mem_cons_self _ _, by rw [h3, e]⟩
      · right; exact ⟨p, List.mem_cons_of_mem _ hp, h3⟩

theorem largest_x_spec (s : List (Int × Int)) :
    0 ≤ largest_x s ∧ (∀ p ∈ s, p.1 ≤ largest_x s) ∧
      (largest_x s = 0 ∨ ∃ p ∈ s, p.1 = largest_x s) :=
  fold_max_spec (fun p => p.1) s 0

theorem largest_y_spec (s : List (Int × Int)) :
    0 ≤ largest_y s ∧ (∀ p ∈ s, p.2 ≤ largest_y s) ∧
      (largest_y s = 0 ∨ ∃ p ∈ s, p.2 = largest_y s) :=
  fold_max_spec (fun p => p.2) s 0

theorem polyomino_extent_none_iff (bp : List (Int × Int)) (x y : Int) :
    polyomino_extent bp x y = Option.none ↔ ∃ p ∈ bp, p.1 < 0 ∨ p.2 < 0 := by
  induction bp generalizing x y with
  | nil => simp [polyomino_extent]
  | cons q rest ih =>
    unfold polyomino_extent
    by_cases h : q.1 < 0 ∨ q.2 < 0
    · simp only [h, if_true, true_iff]
      exact ⟨q, List.mem_cons_self _ _, h⟩
    · simp only [h, if_false, ih, List.mem_cons, exists_eq_or_imp, false_or]

theorem polyomino_extent_some (bp : List (Int × Int)) (x y : Int)
    (h : ∀ p ∈ bp, 0 ≤ p.1 ∧ 0 ≤ p.2) :
    polyomino_extent bp x y =
      some (bp.foldl (fun a p => max a p.1) x, bp.foldl (fun a p => max a p.2) y) := by
  induction bp generalizing x y with
  | nil => simp [polyomino_extent]
  | cons q rest ih =>
    unfold polyomino_extent
    have hq := h q (List.mem_cons_self _ _)
    have hn : ¬ (q.1 < 0 ∨ q.2 < 0) := by omega
    rw [if_neg hn, ih _ _ (fun p hp => h p (List.mem_cons_of_mem _ hp)), List.foldl_cons,
      List.foldl_cons]
    have e1 : (if q.1 > x then q.1 else x) = max x q.1 := by
      rcases le_total x q.1 with h1 | h1
      · rw [max_eq_right h1]; split <;> omega
      · rw [max_eq_left h1]; split <;> omega
    have e2 : (if q.2 > y then q.2 else y) = max y q.2 := by
      rcases le_total y q.2 with h1 | h1
      · rw [max_eq_right h1]; split <;> omega
      · rw [max_eq_left h1]; split <;> omega
    rw [e1, e2]

theorem mem_rotate_cells {c : Int × Int} {len : Int} {s : List (Int × Int)} :
    c ∈ rotate_cells len s ↔ ∃ p ∈ s, c = (p.2, len - p.1) := by
  unfold rotate_cells
  rw [mem_cell_set_of, List.mem_map]
  constructor
  · rintro ⟨p, hp, e⟩; exact ⟨p, hp, e.symm⟩
  · rintro ⟨p, hp, e⟩; exact ⟨p, hp, e.symm⟩

/-- The value of the constructor on non-negative offsets, with the two
rotation loops unrolled. -/
theorem polyomino_new_eq (bp : List (Int × Int)) (h : ∀ p ∈ bp, 0 ≤ p.1 ∧ 0 ≤ p.2) :
    polyomino_new bp = Except.ok
      { x_len := int_wrap (largest_x bp + 1),
        y_len := int_wrap (largest_y bp + 1),
        size := bp.length,
        orientations :=
          ((constructor_images (largest_x bp) (largest_y bp) bp).foldl
            (fun S x => shape_set_insert x S) []).length,
        shapes :=
          ((constructor_images (largest_x bp) (largest_y bp) bp).foldl
            (fun S x => shape_set_insert x S) []).map
              (fun s => s ++ List.replicate (bp.length - s.length) (0, 0)),
        flipped :=
          ((constructor_images (largest_x bp) (largest_y bp) bp).foldl
            (fun S x => shape_set_insert x S) []).map
              (fun s => decide (s ∈ flipped_images (largest_x bp) (largest_y bp) bp)) } := by
  unfold polyomino_new
  rw [polyomino_extent_some bp 0 0 h]
  rfl

theorem shape_fold_mem {s : List (Int × Int)} (L : List (List (Int × Int)))
    (acc : List (List (Int × Int))) :
    s ∈ L.foldl (fun S x => shape_set_insert x S) acc ↔ s ∈ acc ∨ s ∈ L := by
  induction L generalizing acc with
  | nil => simp
  | cons x rest ih =>
    rw [List.foldl_cons, ih, mem_shape_set_insert, List.mem_cons]
    tauto

theorem shape_fold_sorted (L : List (List (Int × Int))) (acc : List (List (Int × Int)))
    (h : acc.Pairwise (fun a b => set_polyomino_compare a b = true)) :
    (L.foldl (fun S x => shape_set_insert x S) acc).Pairwise
      (fun a b => set_polyomino_compare a b = true) := by
  induction L generalizing acc with
  | nil => simpa using h
  | cons x rest ih =>
    rw [List.foldl_cons]
    exact ih _ (shape_set_insert_sorted h)

theorem shape_fold_length (L : List (List (Int × Int))) (acc : List (List (Int × Int))) :
    acc.length ≤ (L.foldl (fun S x => shape_set_insert x S) acc).length ∧
      (L.foldl (fun S x => shape_set_insert x S) acc).length ≤ acc.length + L.length := by
  induction L generalizing acc with
  | nil => simp
  | cons x rest ih =>
    rw [List.foldl_cons, List.length_cons]
    have h1 := ih (shape_set_insert x acc)
    have h2 := shape_set_insert_length x acc
    omega

theorem rotate_cells_sorted (len : Int) (s : List (Int × Int)) :
    (rotate_cells len s).Pairwise (fun a b => pair_lt a b = true) :=
  cell_set_of_sorted _

theorem rotate_cells_length (len : Int) {s : List (Int × Int)} (h : s.Nodup) :
    (rotate_cells len s).length = s.length := by
  unfold rotate_cells
  rw [cell_set_of_length, List.length_map]
  refine List.Nodup.map ?_ h
  intro a b e
  simp only [Prod.mk.injEq] at e
  apply Prod.ext <;> omega

theorem Spans.congr_mem {s t : List (Int × Int)} {X Y : Int} (h : Spans s X Y)
    (e : ∀ c, c ∈ t ↔ c ∈ s) : Spans t X Y := by
  obtain ⟨h1, ⟨a, ha, ha'⟩, ⟨b, hb, hb'⟩, ⟨c, hc, hc'⟩, ⟨d, hd, hd'⟩⟩ := h
  exact ⟨fun p hp => h1 p ((e p).1 hp), ⟨a, (e a).2 ha, ha'⟩, ⟨b, (e b).2 hb, hb'⟩,
    ⟨c, (e c).2 hc, hc'⟩, ⟨d, (e d).2 hd, hd'⟩⟩

theorem Spans.rotate {s : List (Int × Int)} {X Y : Int} (h : Spans s X Y) :
    Spans (rotate_cells X s) Y X := by
  obtain ⟨h1, ⟨a, ha, ha'⟩, ⟨b, hb, hb'⟩, ⟨c, hc, hc'⟩, ⟨d, hd, hd'⟩⟩ := h
  refine ⟨?_, ⟨(c.2, X - c.1), mem_rotate_cells.2 ⟨c, hc, rfl⟩, hc'⟩,
    ⟨(d.2, X - d.1), mem_rotate_cells.2 ⟨d, hd, rfl⟩, hd'⟩,
    ⟨(b.2, X - b.1), mem_rotate_cells.2 ⟨b, hb, rfl⟩, by simp only; omega⟩,
    ⟨(a.2, X - a.1), mem_rotate_cells.2 ⟨a, ha, rfl⟩, by simp only; omega⟩⟩
  intro p hp
  obtain ⟨q, hq, e⟩ := mem_rotate_cells.1 hp
  have := h1 q hq
  rw [e]
  simp only
  omega

theorem Spans.mirror {bp : List (Int × Int)} {X Y : Int} (h : Spans bp X Y) :
    Spans (cell_set_of (bp.map (fun p => (p.1, Y - p.2)))) X Y := by
  obtain ⟨h1, ⟨a, ha, ha'⟩, ⟨b, hb, hb'⟩, ⟨c, hc, hc'⟩, ⟨d, hd, hd'⟩⟩ := h
  have hm : ∀ q ∈ bp, (q.1, Y - q.2) ∈ cell_set_of (bp.map (fun p => (p.1, Y - p.2))) :=
    fun q hq => mem_cell_set_of.2 (List.mem_map.2 ⟨q, hq, rfl⟩)
  refine ⟨?_, ⟨_, hm a ha, ha'⟩, ⟨_, hm b hb, hb'⟩, ⟨_, hm d hd, by simp only; omega⟩,
    ⟨_, hm c hc, by simp only; omega⟩⟩
  intro p hp
  obtain ⟨q, hq, e⟩ := List.mem_map.1 (mem_cell_set_of.1 hp)
  have := h1 q hq
  rw [← e]
  simp only
  omega

theorem Spans.of_piece {bp : List (Int × Int)} (hnn : ∀ p ∈ bp, 0 ≤ p.1 ∧ 0 ≤ p.2)
    (hx : ∃ p ∈ bp, p.1 = 0) (hy : ∃ p ∈ bp, p.2 = 0) :
    Spans bp (largest_x bp) (largest_y bp) := by
  obtain ⟨x0, x1, x2⟩ := largest_x_spec bp
  obtain ⟨y0, y1, y2⟩ := largest_y_spec bp
  refine ⟨fun p hp => ⟨(hnn p hp).1, x1 p hp, (hnn p hp).2, y1 p hp⟩, hx, ?_, hy, ?_⟩
  · rcases x2 with e | h
    · rw [e]; exact hx
    · exact h
  · rcases y2 with e | h
    · rw [e]; exact hy
    · exact h

/-- The eight cell sets inserted by the constructor alternate between the box
of the piece and the transposed box. -/
theorem constructor_images_span {bp : List (Int × Int)} {X Y : Int} (h : Spans bp X Y) :
    ∃ s0 s1 s2 s3 t0 t1 t2 t3,
      constructor_images X Y bp = [s0, s1, s2, s3, t0, t1, t2, t3] ∧
      Spans s0 X Y ∧ Spans s1 Y X ∧ Spans s2 X Y ∧ Spans s3 Y X ∧
      Spans t0 X Y ∧ Spans t1 Y X ∧ Spans t2 X Y ∧ Spans t3 Y X := by
  have a0 : Spans (cell_set_of bp) X Y := h.congr_mem (fun _ => mem_cell_set_of)
  have b0 := h.mirror
  exact ⟨_, _, _, _, _, _, _, _, rfl, a0, a0.rotate, a0.rotate.rotate, a0.rotate.rotate.rotate,
    b0, b0.rotate, b0.rotate.rotate, b0.rotate.rotate.rotate⟩

theorem constructor_images_sorted (X Y : Int) (bp : List (Int × Int)) :
    ∀ s ∈ constructor_images X Y bp, s.Pairwise (fun a b => pair_lt a b = true) := by
  intro s hs
  simp only [constructor_images, List.mem_cons, List.mem_singleton, List.not_mem_nil,
    or_false] at hs
  rcases hs with e | e | e | e | e | e | e | e <;> rw [e] <;>
    first | exact cell_set_of_sorted _ | exact rotate_cells_sorted _ _

theorem constructor_images_length (X Y : Int) {bp : List (Int × Int)} (hn : bp.Nodup) :
    ∀ s ∈ constructor_images X Y bp, s.length = bp.length := by
  have a0 : (cell_set_of bp).length = bp.length := cell_set_of_length hn
  have hm : (bp.map (fun p => (p.1, Y - p.2))).Nodup := by
    refine List.Nodup.map ?_ hn
    intro a b e
    simp only [Prod.mk.injEq] at e
    apply Prod.ext <;> omega
  have b0 : (cell_set_of (bp.map (fun p => (p.1, Y - p.2)))).length = bp.length := by
    rw [cell_set_of_length hm, List.length_map]
  have n0 := cell_set_of_nodup bp
  have m0 := cell_set_of_nodup (bp.map (fun p => (p.1, Y - p.2)))
  have nr : ∀ len s, (rotate_cells len s).Nodup := fun len s => cell_set_of_nodup _
  intro s hs
  simp only [constructor_images, List.mem_cons, List.mem_singleton, List.not_mem_nil,
    or_false] at hs
  rcases hs with e | e | e | e | e | e | e | e <;> rw [e]
  · exact a0
  · rw [rotate_cells_length _ n0, a0]
  · rw [rotate_cells_length _ (nr _ _), rotate_cells_length _ n0, a0]
  · rw [rotate_cells_length _ (nr _ _), rotate_cells_length _ (nr _ _),
      rotate_cells_length _ n0, a0]
  · exact b0
  · rw [rotate_cells_length _ m0, b0]
  · rw [rotate_cells_length _ (nr _ _), rotate_cells_length _ m0, b0]
  · rw [rotate_cells_length _ (nr _ _), rotate_cells_length _ (nr _ _),
      rotate_cells_length _ m0, b0]

theorem rotate_image {s bp : List (Int × Int)} {f : Int × Int → Int × Int} (len : Int)
    (h : ∀ c, c ∈ s ↔ ∃ p ∈ bp, c = f p) :
    ∀ c, c ∈ rotate_cells len s ↔ ∃ p ∈ bp, c = ((f p).2, len - (f p).1) := by
  intro c
  rw [mem_rotate_cells]
  constructor
  · rintro ⟨q, hq, e⟩
    obtain ⟨p, hp, e2⟩ := (h q).1 hq
    exact ⟨p, hp, by rw [e, e2]⟩
  · rintro ⟨p, hp, e⟩
    exact ⟨f p, (h _).2 ⟨p, hp, rfl⟩, e⟩

theorem image_map {s bp : List (Int × Int)} {f g : Int × Int → Int × Int}
    (h : ∀ c, c ∈ s ↔ ∃ p ∈ bp, c = f p) (e : ∀ p, f p = g p) :
    ∀ c, c ∈ s ↔ c ∈ bp.map g := by
  intro c
  rw [h, List.mem_map]
  constructor
  · rintro ⟨p, hp, e2⟩; exact ⟨p, hp, by rw [e2, e]⟩
  · rintro ⟨p, hp, e2⟩; exact ⟨p, hp, by rw [← e2, e]⟩

/-- Membership in the eight inserted cell sets, against the eight dihedral
images of the piece. -/
theorem constructor_images_dihedral (bp : List (Int × Int)) :
    List.Forall₂ (fun s d => ∀ c, c ∈ s ↔ c ∈ d)
      (constructor_images (largest_x bp) (largest_y bp) bp) (dihedral_images bp) := by
  have a0 : ∀ c, c ∈ cell_set_of bp ↔ ∃ p ∈ bp, c = id p := by
    intro c; rw [mem_cell_set_of]; simp
  have b0 : ∀ c, c ∈ cell_set_of (bp.map (fun p => (p.1, largest_y bp - p.2))) ↔
      ∃ p ∈ bp, c = (fun p : Int × Int => (p.1, largest_y bp - p.2)) p := by
    intro c; rw [mem_cell_set_of, List.mem_map]
    constructor
    · rintro ⟨p, hp, e⟩; exact ⟨p, hp, e.symm⟩
    · rintro ⟨p, hp, e⟩; exact ⟨p, hp, e.symm⟩
  have a1 := rotate_image (largest_x bp) a0
  have a2 := rotate_image (largest_y bp) a1
  have a3 := rotate_image (largest_x bp) a2
  have b1 := rotate_image (largest_x bp) b0
  have b2 := rotate_image (largest_y bp) b1
  have b3 := rotate_image (largest_x bp) b2
  unfold constructor_images dihedral_images
  refine List.Forall₂.cons ?_ (List.Forall₂.cons ?_ (List.Forall₂.cons ?_ (List.Forall₂.cons ?_
    (List.Forall₂.cons ?_ (List.Forall₂.cons ?_ (List.Forall₂.cons ?_ (List.Forall₂.cons ?_
      List.Forall₂.nil)))))))
  · intro c; rw [mem_cell_set_of]
  · exact image_map a1 (fun p => rfl)
  · exact image_map a2 (fun p => by apply Prod.ext <;> dsimp only [id] <;> omega)
  · exact image_map a3 (fun p => by apply Prod.ext <;> dsimp only [id] <;> omega)
  · exact image_map b0 (fun p => rfl)
  · exact image_map b1 (fun p => rfl)
  · exact image_map b2 (fun p => by apply Prod.ext <;> dsimp only [id] <;> omega)
  · exact image_map b3 (fun p => by apply Prod.ext <;> dsimp only [id] <;> omega)

theorem flipped_images_span {bp : List (Int × Int)} {X Y : Int} (h : Spans bp X Y) :
    (∀ s ∈ flipped_images X Y bp, Spans s Y X) ∧
    (∀ s ∈ constructor_images X Y bp, s ∉ flipped_images X Y bp → Spans s X Y) := by
  obtain ⟨s0, s1, s2, s3, t0, t1, t2, t3, e, h0, h1, h2, h3, g0, g1, g2, g3⟩ :=
    constructor_images_span h
  have ef : flipped_images X Y bp = [s1, s3, t1, t3] := by
    simp only [constructor_images, List.cons.injEq, and_true] at e
    obtain ⟨-, e1, -, e3, -, f1, -, f3⟩ := e
    unfold flipped_images
    rw [← e1, ← e3, ← f1, ← f3]
  rw [e, ef]
  constructor
  · intro s hs
    simp only [List.mem_cons, List.mem_singleton, List.not_mem_nil, or_false] at hs
    rcases hs with e | e | e | e <;> rw [e] <;> assumption
  · intro s hs hn
    simp only [List.mem_cons, List.mem_singleton, List.not_mem_nil, or_false, not_or] at hs hn
    rcases hs with e | e | e | e | e | e | e | e
    · rw [e]; exact h0
    · exact absurd e hn.1
    · rw [e]; exact h2
    · exact absurd e hn.2.1
    · rw [e]; exact g0
    · exact absurd e hn.2.2.1
    · rw [e]; exact g2
    · exact absurd e hn.2.2.2

/-- What the constructor stores for a piece given as distinct non-negative
offsets: the shapes are the sorted set `S` of the eight inserted cell sets. -/
theorem polyomino_new_shapes (bp : List (Int × Int)) (hn : bp.Nodup)
    (hnn : ∀ p ∈ bp, 0 ≤ p.1 ∧ 0 ≤ p.2) :
    ∃ P S, polyomino_new bp = Except.ok P ∧
      P.x_len = int_wrap (largest_x bp + 1) ∧ P.y_len = int_wrap (largest_y bp + 1) ∧
      P.size = bp.length ∧
      P.orientations = S.length ∧ P.shapes = S ∧
      P.flipped = S.map (fun s => decide (s ∈ flipped_images (largest_x bp) (largest_y bp) bp)) ∧
      S.Pairwise (fun a b => set_polyomino_compare a b = true) ∧
      (∀ s, s ∈ S ↔ s ∈ constructor_images (largest_x bp) (largest_y bp) bp) ∧
      1 ≤ S.length ∧ S.length ≤ 8 := by
  have hmem : ∀ s, s ∈ (constructor_images (largest_x bp) (largest_y bp) bp).foldl
      (fun S x => shape_set_insert x S) [] ↔
      s ∈ constructor_images (largest_x bp) (largest_y bp) bp := by
    intro s; rw [shape_fold_mem]; simp
  refine ⟨_, _, polyomino_new_eq bp hnn, rfl, rfl, rfl, rfl, ?_, rfl,
    shape_fold_sorted _ _ List.Pairwise.nil, hmem, ?_, ?_⟩
  · show List.map _ _ = _
    conv_rhs => rw [← List.map_id ((constructor_images (largest_x bp) (largest_y bp) bp).foldl
      (fun S x => shape_set_insert x S) [])]
    refine List.map_congr_left ?_
    intro s hs
    rw [constructor_images_length _ _ hn s ((hmem s).1 hs)]
    simp
  · have h1 : 1 ≤ (shape_set_insert (cell_set_of bp) []).length := by simp [shape_set_insert]
    have h2 := (shape_fold_length
      (constructor_images (largest_x bp) (largest_y bp) bp).tail
      (shape_set_insert (cell_set_of bp) [])).1
    exact le_trans h1 h2
  · have h2 := (shape_fold_length (constructor_images (largest_x bp) (largest_y bp) bp) []).2
    simpa [constructor_images] using h2

theorem orientation_cells_eq {P : polyomino} {s : List (Int × Int)} {k : Nat}
    (hs : P.shapes.getD k [] = s) (hl : s.length = P.size) : orientation_cells P k = s := by
  unfold orientation_cells getBlock getSize
  rw [hs]
  apply List.ext_getElem
  · simp [hl]
  · intro i h1 h2
    simp only [List.getElem_map, List.getElem_range]
    exact List.getD_eq_getElem _ _ h2

theorem mem_orientation_cells {P : polyomino} {k : Nat} {c : Int × Int} :
    c ∈ orientation_cells P k ↔ ∃ i, i < getSize P ∧ getBlock P k i = c := by
  unfold orientation_cells
  simp only [List.mem_map, List.mem_range]

/-- Everything the constructor guarantees for a piece given as distinct
non-negative offsets, in terms of the accessors of `polyomino`. -/
theorem polyomino_new_spec (bp : List (Int × Int)) (hn : bp.Nodup)
    (hnn : ∀ p ∈ bp, 0 ≤ p.1 ∧ 0 ≤ p.2) :
    ∃ P, polyomino_new bp = Except.ok P ∧ getSize P = bp.length ∧
      1 ≤ getOrientations P ∧ getOrientations P ≤ 8 ∧
      (∀ k, k < getOrientations P →
        orientation_cells P k ∈ constructor_images (largest_x bp) (largest_y bp) bp ∧
        getXLength P k =
          (if orientation_cells P k ∈ flipped_images (largest_x bp) (largest_y bp) bp
            then int_wrap (largest_y bp + 1) else int_wrap (largest_x bp + 1)) ∧
        getYLength P k =
          (if orientation_cells P k ∈ flipped_images (largest_x bp) (largest_y bp) bp
            then int_wrap (largest_x bp + 1) else int_wrap (largest_y bp + 1))) ∧
      (∀ s, s ∈ constructor_images (largest_x bp) (largest_y bp) bp →
        ∃ k, k < getOrientations P ∧ orientation_cells P k = s) ∧
      (∀ k1 k2, k1 < getOrientations P → k2 < getOrientations P →
        orientation_cells P k1 = orientation_cells P k2 → k1 = k2) := by
  obtain ⟨P, S, hP, hx, hy, hsz, ho, hsh, hfl, hsort, hmem, h1, h8⟩ :=
    polyomino_new_shapes bp hn hnn
  have hcell : ∀ k (hk : k < S.length), orientation_cells P k = S[k] := by
    intro k hk
    refine orientation_cells_eq ?_ ?_
    · rw [hsh]; exact List.getD_eq_getElem _ _ hk
    · rw [hsz]
      exact constructor_images_length _ _ hn _ ((hmem _).1 (List.getElem_mem hk))
  refine ⟨P, hP, hsz, by rw [getOrientations, ho]; exact h1,
    by rw [getOrientations, ho]; exact h8, ?_, ?_, ?_⟩
  · intro k hk
    rw [getOrientations, ho] at hk
    have hf : P.flipped.getD k false =
        decide (S[k] ∈ flipped_images (largest_x bp) (largest_y bp) bp) := by
      rw [hfl, List.getD_eq_getElem _ _ (by simpa using hk)]
      simp
    rw [hcell k hk]
    refine ⟨(hmem _).1 (List.getElem_mem hk), ?_, ?_⟩
    · unfold getXLength
      rw [hf, hx, hy]
      by_cases hm : S[k] ∈ flipped_images (largest_x bp) (largest_y bp) bp <;> simp [hm]
    · unfold getYLength
      rw [hf, hx, hy]
      by_cases hm : S[k] ∈ flipped_images (largest_x bp) (largest_y bp) bp <;> simp [hm]
  · intro s hs
    obtain ⟨k, hk, e⟩ := List.getElem_of_mem ((hmem s).2 hs)
    exact ⟨k, by rw [getOrientations, ho]; exact hk, by rw [hcell k hk, e]⟩
  · intro k1 k2 hk1 hk2 e
    rw [getOrientations, ho] at hk1 hk2
    rw [hcell k1 hk1, hcell k2 hk2] at e
    exact (List.Nodup.getElem_inj_iff (sorted_shapes_nodup hsort)).1 e

theorem constructor_shapes_length (X Y : Int) (bp : List (Int × Int)) :
    1 ≤ ((constructor_images X Y bp).foldl (fun S x => shape_set_insert x S) []).length ∧
    ((constructor_images X Y bp).foldl (fun S x => shape_set_insert x S) []).length ≤ 8 := by
  constructor
  · have h1 : 1 ≤ (shape_set_insert (cell_set_of bp) []).length := by simp [shape_set_insert]
    have h2 := (shape_fold_length (constructor_images X Y bp).tail
      (shape_set_insert (cell_set_of bp) [])).1
    exact le_trans h1 h2
  · have h2 := (shape_fold_length (constructor_images X Y bp) []).2
    simpa [constructor_images] using h2

theorem forall2_mem_left {α β : Type} {R : α → β → Prop} {l1 : List α} {l2 : List β}
    (h : List.Forall₂ R l1 l2) : ∀ a ∈ l1, ∃ b ∈ l2, R a b := by
  induction h with
  | nil => intro a ha; simp at ha
  | cons hab _ ih =>
    intro a ha
    rcases List.mem_cons.1 ha with e | ha
    · exact ⟨_, List.mem_cons_self _ _, e ▸ hab⟩
    · obtain ⟨b, hb, hr⟩ := ih a ha
      exact ⟨b, List.mem_cons_of_mem _ hb, hr⟩

theorem forall2_mem_right {α β : Type} {R : α → β → Prop} {l1 : List α} {l2 : List β}
    (h : List.Forall₂ R l1 l2) : ∀ b ∈ l2, ∃ a ∈ l1, R a b := by
  induction h with
  | nil => intro a ha; simp at ha
  | cons hab _ ih =>
    intro b hb
    rcases List.mem_cons.1 hb with e | hb
    · exact ⟨_, List.mem_cons_self _ _, e ▸ hab⟩
    · obtain ⟨a, ha, hr⟩ := ih b hb
      exact ⟨a, List.mem_cons_of_mem _ ha, hr⟩

theorem Spans.largest_x_eq {s : List (Int × Int)} {X Y : Int} (h : Spans s X Y) :
    largest_x s = X := by
  obtain ⟨h1, -, ⟨b, hb, hb'⟩, -, -⟩ := h
  obtain ⟨x0, x1, x2⟩ := largest_x_spec s
  have := x1 b hb
  rcases x2 with e | ⟨p, hp, e⟩
  · have := (h1 b hb).1
    omega
  · have := (h1 p hp).2.1
    omega

theorem polyomino_extent_eq {bp : List (Int × Int)} {x_len y_len : Int}
    (h : polyomino_extent bp 0 0 = some (x_len, y_len)) :
    (∀ p ∈ bp, 0 ≤ p.1 ∧ 0 ≤ p.2) ∧ x_len = largest_x bp ∧ y_len = largest_y bp := by
  have hnn : ∀ p ∈ bp, 0 ≤ p.1 ∧ 0 ≤ p.2 := by
    intro p hp
    by_contra hc
    have : polyomino_extent bp 0 0 = Option.none :=
      (polyomino_extent_none_iff bp 0 0).2 ⟨p, hp, by omega⟩
    rw [this] at h
    exact Option.noConfusion h
  rw [polyomino_extent_some bp 0 0 hnn] at h
  simp only [Option.some.injEq, Prod.mk.injEq] at h
  exact ⟨hnn, h.1.symm, h.2.symm⟩

theorem Within.turn {s : List (Int × Int)} {X Y : Int} (h : Within s X Y) :
    Within (rotate_cells X s) Y X := by
  intro p hp
  obtain ⟨q, hq, e⟩ := mem_rotate_cells.1 hp
  have := h q hq
  rw [e]
  simp only
  omega

theorem Within.flip {bp : List (Int × Int)} {X Y : Int} (h : Within bp X Y) :
    Within (cell_set_of (bp.map (fun p => (p.1, Y - p.2)))) X Y := by
  intro p hp
  obtain ⟨q, hq, e⟩ := List.mem_map.1 (mem_cell_set_of.1 hp)
  have := h q hq
  rw [← e]
  simp only
  omega

theorem Within.of_nonneg {bp : List (Int × Int)} (hnn : ∀ p ∈ bp, 0 ≤ p.1 ∧ 0 ≤ p.2) :
    Within bp (largest_x bp) (largest_y bp) := by
  intro p hp
  exact ⟨(hnn p hp).1, (largest_x_spec bp).2.1 p hp, (hnn p hp).2, (largest_y_spec bp).2.1 p hp⟩

theorem flipped_images_within {bp : List (Int × Int)} {X Y : Int} (h : Within bp X Y) :
    (∀ s ∈ flipped_images X Y bp, Within s Y X) ∧
    (∀ s ∈ constructor_images X Y bp, s ∉ flipped_images X Y bp → Within s X Y) := by
  have a0 : Within (cell_set_of bp) X Y := fun p hp => h p (mem_cell_set_of.1 hp)
  have b0 := h.flip
  constructor
  · intro s hs
    simp only [flipped_images, List.mem_cons, List.mem_singleton, List.not_mem_nil,
      or_false] at hs
    rcases hs with e | e | e | e <;> rw [e]
    · exact a0.turn
    · exact a0.turn.turn.turn
    · exact b0.turn
    · exact b0.turn.turn.turn
  · intro s hs hn
    simp only [flipped_images, constructor_images, List.mem_cons, List.mem_singleton,
      List.not_mem_nil, or_false, not_or] at hs hn
    rcases hs with e | e | e | e | e | e | e | e
    · rw [e]; exact a0
    · exact absurd e hn.1
    · rw [e]; exact a0.turn.turn
    · exact absurd e hn.2.1
    · rw [e]; exact b0
    · exact absurd e hn.2.2.1
    · rw [e]; exact b0.turn.turn
    · exact absurd e hn.2.2.2

theorem int_wrap_eq {x : Int} (h1 : -2147483648 ≤ x) (h2 : x ≤ 2147483647) : int_wrap x = x := by
  unfold int_wrap
  omega

theorem largest_x_le {bp : List (Int × Int)} {B : Int} (h0 : 0 ≤ B) (h : ∀ p ∈ bp, p.1 ≤ B) :
    largest_x bp ≤ B := by
  rcases (largest_x_spec bp).2.2 with e | ⟨p, hp, e⟩
  · omega
  · rw [← e]; exact h p hp

theorem largest_y_le {bp : List (Int × Int)} {B : Int} (h0 : 0 ≤ B) (h : ∀ p ∈ bp, p.2 ≤ B) :
    largest_y bp ≤ B := by
  rcases (largest_y_spec bp).2.2 with e | ⟨p, hp, e⟩
  · omega
  · rw [← e]; exact h p hp

/-- The stored lengths of a piece whose offsets lie below `B < 2147483647`:
the increments do not overflow. -/
theorem polyomino_new_lengths {bp : List (Int × Int)} {B : Int} (h0 : 0 ≤ B)
    (hB : B < 2147483647) (hb : ∀ p ∈ bp, p.1 ≤ B ∧ p.2 ≤ B) :
    int_wrap (largest_x bp + 1) = largest_x bp + 1 ∧
    int_wrap (largest_y bp + 1) = largest_y bp + 1 ∧
    largest_x bp ≤ B ∧ largest_y bp ≤ B := by
  have hx := largest_x_le h0 (fun p hp => (hb p hp).1)
  have hy := largest_y_le h0 (fun p hp => (hb p hp).2)
  have x0 := (largest_x_spec bp).1
  have y0 := (largest_y_spec bp).1
  exact ⟨int_wrap_eq (by omega) (by omega), int_wrap_eq (by omega) (by omega), hx, hy⟩

/-- A piece built by the constructor from a list of distinct offsets that lie
below `B < 2147483647` is well formed, and its lengths are at most `B + 1`. -/
theorem polyomino_new_piece_ok {bp : List (Int × Int)} {P : polyomino} {B : Int}
    (hn : bp.Nodup) (h0 : 0 ≤ B) (hB : B < 2147483647) (hb : ∀ p ∈ bp, p.1 ≤ B ∧ p.2 ≤ B)
    (hP : polyomino_new bp = Except.ok P) :
    PieceOK P ∧ ∀ k, k < getOrientations P → getXLength P k ≤ B + 1 ∧ getYLength P k ≤ B + 1 := by
  obtain ⟨wx, wy, lx, ly⟩ := polyomino_new_lengths h0 hB hb
  have hnn : ∀ p ∈ bp, 0 ≤ p.1 ∧ 0 ≤ p.2 := by
    intro p hp
    by_contra hc
    have e : polyomino_new bp = Except.error Err.exit_failure := by
      unfold polyomino_new
      rw [(polyomino_extent_none_iff bp 0 0).2 ⟨p, hp, by omega⟩]
    rw [e] at hP
    exact Except.noConfusion hP
  obtain ⟨P2, hP2, hsz, -, -, hk, -, -⟩ := polyomino_new_spec bp hn hnn
  have eP : P2 = P := by
    rw [hP2] at hP
    exact Except.ok.inj hP
  subst eP
  obtain ⟨hf, hnf⟩ := flipped_images_within (Within.of_nonneg hnn)
  have hsorted := constructor_images_sorted (largest_x bp) (largest_y bp) bp
  have x0 := (largest_x_spec bp).1
  have y0 := (largest_y_spec bp).1
  refine ⟨?_, ?_⟩
  · intro k hlt
    obtain ⟨hmem, hxl, hyl⟩ := hk k hlt
    refine ⟨?_, sorted_cells_nodup (hsorted _ hmem), ?_⟩
    · rw [hxl, hyl, wx, wy]
      constructor <;> split <;> omega
    intro i hi
    have hc : getBlock P2 k i ∈ orientation_cells P2 k := mem_orientation_cells.2 ⟨i, hi, rfl⟩
    by_cases hm : orientation_cells P2 k ∈ flipped_images (largest_x bp) (largest_y bp) bp
    · rw [hxl, hyl, if_pos hm, if_pos hm, wx, wy]
      have := hf _ hm _ hc
      omega
    · rw [hxl, hyl, if_neg hm, if_neg hm, wx, wy]
      have := hnf _ hmem hm _ hc
      omega
  · intro k hlt
    obtain ⟨-, hxl, hyl⟩ := hk k hlt
    rw [hxl, hyl, wx, wy]
    constructor <;> split <;> omega

/-! ## The rows built by `polyomino_generate` -/

theorem polyomino_link_ok (m : dlx_matrix) (p h : Nat) (hh : h < m.array_width)
    (htb : ∀ h, m.top.getD h Option.none = Option.none ↔
      m.bottom.getD h Option.none = Option.none)
    (hin : m.top.inb h = true ∧ m.bottom.inb h = true) :
    ∃ m2, polyomino_link m p h = Except.ok m2 ∧
      m2.header = m.header ∧ m2.matrix_row = m.matrix_row ∧
      m2.array_width = m.array_width ∧ m2.array_len = m.array_len ∧
      m2.matrix_column = m.matrix_column ∧
      m2.optional_constraint_start_column = m.optional_constraint_start_column ∧
      m2.count = m.count.set h (m.count.getD h 0 + 1) ∧
      (∀ i, m2.top.inb i = m.top.inb i ∧ m2.bottom.inb i = m.bottom.inb i) ∧
      (∀ h, m2.top.getD h Option.none = Option.none ↔
        m2.bottom.getD h Option.none = Option.none) := by
  unfold polyomino_link
  rw [if_neg (by omega)]
  cases ht : m.top.getD h Option.none with
  | none =>
    refine ⟨_, rfl, rfl, rfl, rfl, rfl, rfl, rfl, by simp, by simp, ?_⟩
    intro h'
    simp only [Vec.set_opt_eq, Vec.getD_set, hin.1, hin.2, and_true]
    by_cases e : h = h'
    · simp [e]
    · simp only [e, if_false]; exact htb h'
  | some t =>
    cases hb : m.bottom.getD h Option.none with
    | none => rw [(htb h).2 hb] at ht; exact Option.noConfusion ht
    | some b =>
      refine ⟨_, rfl, rfl, rfl, rfl, rfl, rfl, rfl, by simp, by simp, ?_⟩
      intro h'
      simp only [Vec.set_opt_eq, Vec.getD_set, hin.2, and_true]
      by_cases e : h = h'
      · subst e; simp [ht]
      · simp only [e, if_false]; exact htb h'

/-- One node more: the field writes for node `cols.length`, then the linking. -/
theorem polyomino_add_node {m : dlx_matrix} {n : Nat} {cols rows : List Nat}
    (hok : NodesOK m n cols rows) (hn : cols.length < n) (h r : Nat) (hh : h < m.array_width)
    (rt lt : Nat) :
    ∃ m2, polyomino_link
        { m with
          matrix_row := m.matrix_row.set_nat cols.length r,
          header := m.header.set_nat cols.length h,
          right := m.right.set_nat cols.length rt,
          left := m.left.set_nat cols.length lt } cols.length h = Except.ok m2 ∧
      NodesOK m2 n (cols ++ [h]) (rows ++ [r]) ∧
      m2.array_width = m.array_width ∧ m2.array_len = m.array_len ∧
      m2.matrix_column = m.matrix_column ∧
      m2.optional_constraint_start_column = m.optional_constraint_start_column := by
  obtain ⟨m2, e, h1, h2, h3, h4, h5, h6, h7, h8, h9⟩ := polyomino_link_ok
    { m with
      matrix_row := m.matrix_row.set_nat cols.length r,
      header := m.header.set_nat cols.length h,
      right := m.right.set_nat cols.length rt,
      left := m.left.set_nat cols.length lt } cols.length h hh hok.tb
    ⟨(hok.head_inb h hh).2.1, (hok.head_inb h hh).2.2⟩
  refine ⟨m2, e, ?_, h3, h4, h5, h6⟩
  have hl := hok.len
  constructor
  · intro i hi
    rw [h1, h2]
    simpa using hok.node_inb i hi
  · intro h' hh'
    rw [h3] at hh'
    rw [h7, (h8 h').1, (h8 h').2]
    simpa using hok.head_inb h' hh'
  · simp [hl]
  · intro j hj
    rw [h1]
    simp only [Vec.set_nat_eq, Vec.getD_set, (hok.node_inb _ hn).1, and_true]
    simp only [List.length_append, List.length_singleton] at hj
    by_cases e : cols.length = j
    · subst e; simp [List.getD_eq_getElem?_getD]
    · simp only [e, if_false]
      have hj' : j < cols.length := by omega
      rw [hok.hdr j hj']
      simp [List.getD_eq_getElem?_getD, List.getElem?_append_left hj']
  · intro j hj
    rw [h2]
    simp only [Vec.set_nat_eq, Vec.getD_set, (hok.node_inb _ hn).2, and_true]
    simp only [List.length_append, List.length_singleton] at hj
    by_cases e : cols.length = j
    · subst e; simp [List.getD_eq_getElem?_getD, ← hl]
    · simp only [e, if_false]
      have hj' : j < cols.length := by omega
      rw [hok.mrow j hj']
      simp [List.getD_eq_getElem?_getD, List.getElem?_append_left (hl ▸ hj')]
  · intro h' hh'
    rw [h3] at hh'
    rw [h7]
    simp only [Vec.getD_set, (hok.head_inb h hh).1, and_true, List.count_append]
    by_cases e : h = h'
    · subst e
      simp only [if_true]
      rw [hok.cnt h hh]
      simp
    · simp only [e, if_false]
      rw [hok.cnt h' hh']
      have : List.count h' [h] = 0 := by
        simp [List.count_singleton]; exact e
      simp [this]
  · exact h9

/-- The index of a cell on the board, computed in `int`, when `b * b` is an
`int`: nothing overflows. -/
theorem cell_index_wrap {b : Nat} {u v : Int} (hbb : b * b ≤ 2147483647)
    (hu : 0 ≤ u ∧ u < b) (hv : 0 ≤ v ∧ v < b) :
    int_wrap (int_wrap u + int_wrap (int_wrap v * b)) = u + v * b ∧
    int_wrap ((b : Int) * b) = (b : Int) * b ∧
    0 ≤ u + v * b ∧ u + v * b < (b : Int) * b := by
  have hb0 : (0 : Int) ≤ b := Int.ofNat_nonneg _
  have hbb' : (b : Int) * b ≤ 2147483647 := by exact_mod_cast hbb
  have h4 : 0 ≤ v * (b : Int) := mul_nonneg hv.1 hb0
  have h5 : (v + 1) * (b : Int) ≤ b * b := mul_le_mul_of_nonneg_right (by omega) hb0
  have h6 : (v + 1) * (b : Int) = v * b + b := by ring
  have hble : (b : Int) ≤ b * b := by
    rcases Nat.eq_zero_or_pos b with e | e
    · subst e; simp
    · exact_mod_cast Nat.le_mul_of_pos_left b e
  have w3 : 0 ≤ u + v * b := by omega
  have w4 : u + v * b < (b : Int) * b := by omega
  have e1 : int_wrap u = u := int_wrap_eq (by omega) (by omega)
  have e2 : int_wrap v = v := int_wrap_eq (by omega) (by omega)
  have e3 : int_wrap (v * b) = v * b := int_wrap_eq (by omega) (by omega)
  have e4 : int_wrap (u + v * b) = u + v * b := int_wrap_eq (by omega) (by omega)
  have e5 : int_wrap ((b : Int) * b) = (b : Int) * b :=
    int_wrap_eq (by have := mul_nonneg hb0 hb0; omega) hbb'
  refine ⟨?_, e5, w3, w4⟩
  rw [e1, e2, e3, e4]

theorem polyomino_cells_ok (P : polyomino) (b row col orient r base n : Nat)
    (hbb : b * b ≤ 2147483647)
    (hfit : ∀ i, i < getSize P →
      0 ≤ (getBlock P orient i).1 + col ∧ (getBlock P orient i).1 + col < (b : Int) ∧
      0 ≤ (getBlock P orient i).2 + row ∧ (getBlock P orient i).2 + row < (b : Int)) :
    ∀ (todo i : Nat) (m : dlx_matrix) (cols rows : List Nat), NodesOK m n cols rows →
      cols.length = base + i → base + i + todo ≤ n → i + todo ≤ getSize P →
      b * b ≤ m.array_width →
      ∃ m2, polyomino_cells P b row col orient r base todo i m = Except.ok m2 ∧
        NodesOK m2 n
          (cols ++ (List.range' i todo).map (fun j =>
            ((getBlock P orient j).1 + col + ((getBlock P orient j).2 + row) * b).toNat))
          (rows ++ List.replicate todo r) ∧
        m2.array_width = m.array_width ∧ m2.array_len = m.array_len ∧
        m2.matrix_column = m.matrix_column ∧
        m2.optional_constraint_start_column = m.optional_constraint_start_column := by
  intro todo
  induction todo with
  | zero =>
    intro i m cols rows hok _ _ _ _
    exact ⟨m, rfl, by simpa using hok, rfl, rfl, rfl, rfl⟩
  | succ todo ih =>
    intro i m cols rows hok hlen hn hsz hw
    have hi0 := hfit i (by omega)
    obtain ⟨w1, w2, w3, w4⟩ := cell_index_wrap hbb ⟨hi0.1, hi0.2.1⟩ ⟨hi0.2.2.1, hi0.2.2.2⟩
    have hi : 0 ≤ (getBlock P orient i).1 + col + ((getBlock P orient i).2 + row) * b ∧
        (getBlock P orient i).1 + col + ((getBlock P orient i).2 + row) * b < (b : Int) * b :=
      ⟨w3, w4⟩
    unfold polyomino_cells
    simp only [w1, w2]
    clear w1 w2
    rw [if_neg (by omega)]
    have hlt : ((getBlock P orient i).1 + col + ((getBlock P orient i).2 + row) * b).toNat
        < m.array_width := by
      have : (((getBlock P orient i).1 + col + ((getBlock P orient i).2 + row) * b).toNat : Int)
          < ((b * b : Nat) : Int) := by
        rw [Int.toNat_of_nonneg hi.1]; push_cast; exact hi.2
      omega
    obtain ⟨m1, e1, hok1, f1, f2, f3, f4⟩ := polyomino_add_node hok (by omega)
      ((getBlock P orient i).1 + col + ((getBlock P orient i).2 + row) * b).toNat r hlt
      (base + i + 1) (base + (if i > 0 then i - 1 else getSize P))
    rw [hlen] at e1
    rw [e1]
    obtain ⟨m2, e2, hok2, g1, g2, g3, g4⟩ := ih (i + 1) m1 _ _ hok1
      (by simp [hlen]; omega) (by omega) (by omega) (by rw [f1]; exact hw)
    refine ⟨m2, e2, ?_, g1.trans f1, g2.trans f2, g3.trans f3, g4.trans f4⟩
    simpa [List.range'_succ, List.replicate_succ] using hok2

theorem NodesOK.set_array_len {m : dlx_matrix} {n : Nat} {cols rows : List Nat}
    (h : NodesOK m n cols rows) (k : Nat) : NodesOK { m with array_len := k } n cols rows :=
  ⟨h.node_inb, h.head_inb, h.len, h.hdr, h.mrow, h.cnt, h.tb⟩

theorem foldl_last_append (l : List Nat) (x : Nat) :
    (l ++ [x]).foldl (fun _ s => s) 0 = x := by
  simp [List.foldl_append]

theorem getD_append_lt {α : Type} (l1 l2 : List α) (i : Nat) (d : α) (h : i < l1.length) :
    (l1 ++ l2).getD i d = l1.getD i d := by
  simp [List.getD_eq_getElem?_getD, List.getElem?_append_left h]

theorem getD_append_ge {α : Type} (l1 l2 : List α) (j : Nat) (d : α) :
    (l1 ++ l2).getD (l1.length + j) d = l2.getD j d := by
  simp [List.getD_eq_getElem?_getD, List.getElem?_append_right]

/-- The row of one placement whose cells lie on the board. -/
theorem polyomino_row_ok {polyomino_list : List polyomino} {b n : Nat}
    {done : List (Nat × Nat × Nat × Nat)} {a : polyomino_adapter} {cols rows : List Nat}
    (inv : PolyInv polyomino_list b n done a cols rows) (pl : Nat × Nat × Nat × Nat)
    (hbb : b * b + polyomino_list.length ≤ 2147483647)
    (P : polyomino) (hP : polyomino_list.get? pl.2.2.1 = some P)
    (hfit : ∀ i, i < getSize P →
      0 ≤ (getBlock P pl.2.2.2 i).1 + pl.2.1 ∧ (getBlock P pl.2.2.2 i).1 + pl.2.1 < (b : Int) ∧
      0 ≤ (getBlock P pl.2.2.2 i).2 + pl.1 ∧ (getBlock P pl.2.2.2 i).2 + pl.1 < (b : Int))
    (hnd : (placement_columns polyomino_list b pl).Nodup)
    (hroom : cols.length + (getSize P + 1) ≤ n) :
    ∃ a2, polyomino_row polyomino_list a pl = Except.ok a2 ∧
      PolyInv polyomino_list b n (done ++ [pl]) a2
        (cols ++ placement_columns polyomino_list b pl)
        (rows ++ List.replicate (getSize P + 1) done.length) := by
  have hpc : placement_columns polyomino_list b pl =
      (List.range' 0 (getSize P)).map (fun i => ((getBlock P pl.2.2.2 i).1 + pl.2.1 +
        ((getBlock P pl.2.2.2 i).2 + pl.1) * b).toNat) ++ [pl.2.2.1 + b * b] := by
    unfold placement_columns
    rw [hP]
    simp only [List.range_eq_range']
  have hpl : (placement_columns polyomino_list b pl).length = getSize P + 1 := by
    rw [hpc]; simp
  have hlt : pl.2.2.1 < polyomino_list.length := by
    rw [List.get?_eq_getElem?] at hP
    exact (List.getElem?_eq_some_iff.1 hP).1
  unfold polyomino_row
  rw [hP]
  simp only [inv.next, inv.width, inv.start_len]
  obtain ⟨m1, e1, hok1, f1, f2, f3, f4⟩ := polyomino_cells_ok P b pl.1 pl.2.1 pl.2.2.2
    done.length cols.length n (by omega) hfit (getSize P) 0 a.m cols rows inv.nodes rfl (by omega)
    (by omega) (by rw [inv.aw]; omega)
  rw [e1]
  have hwu : int_wrap ((pl.2.2.1 : Int) + int_wrap ((b : Int) * b)) =
      ((pl.2.2.1 + b * b : Nat) : Int) := by
    have hbb' : ((b * b + polyomino_list.length : Nat) : Int) ≤ 2147483647 := by
      exact_mod_cast hbb
    have hlt' : (pl.2.2.1 : Int) < (polyomino_list.length : Int) := by exact_mod_cast hlt
    have h0 : (0 : Int) ≤ (b : Int) * b := mul_nonneg (Int.ofNat_nonneg _) (Int.ofNat_nonneg _)
    have h1 : (0 : Int) ≤ (pl.2.2.1 : Int) := Int.ofNat_nonneg _
    push_cast at hbb' ⊢
    rw [int_wrap_eq (x := (b : Int) * b) (by omega) (by omega)]
    exact int_wrap_eq (by omega) (by omega)
  simp only [hwu, Int.toNat_ofNat]
  clear hwu
  rw [if_neg (by omega)]
  have hlen1 : (cols ++ (List.range' 0 (getSize P)).map (fun i =>
      ((getBlock P pl.2.2.2 i).1 + pl.2.1 + ((getBlock P pl.2.2.2 i).2 + pl.1) * b).toNat)).length
      = cols.length + getSize P := by simp
  obtain ⟨m3, e3, hok3, g1, g2, g3, g4⟩ := polyomino_add_node hok1 (by rw [hlen1]; omega)
    (pl.2.2.1 + b * b) done.length (by rw [f1, inv.aw]; omega) cols.length
    (cols.length + getSize P - 1)
  rw [hlen1] at e3
  rw [e3]
  refine ⟨_, rfl, ?_⟩
  have hcols : cols ++ (List.range' 0 (getSize P)).map (fun i =>
      ((getBlock P pl.2.2.2 i).1 + pl.2.1 + ((getBlock P pl.2.2.2 i).2 + pl.1) * b).toNat) ++
      [pl.2.2.1 + b * b] = cols ++ placement_columns polyomino_list b pl := by
    rw [hpc, List.append_assoc]
  have hrows : rows ++ List.replicate (getSize P) done.length ++ [done.length] =
      rows ++ List.replicate (getSize P + 1) done.length := by
    rw [List.append_assoc, List.replicate_succ']
  rw [hcols, hrows] at hok3
  have hrl := inv.nodes.len
  constructor
  · rfl
  · show m3.array_width = _
    rw [g1, f1, inv.aw]
  · simp
  · exact hok3.set_array_len _
  · simp [inv.start_len]
  · simp [inv.size_len]
  · show (a.row_start ++ [cols.length]).foldl (fun _ s => s) 0 +
      (a.row_size ++ [getSize P + 1]).foldl (fun _ s => s) 0 = _
    rw [foldl_last_append, foldl_last_append, List.length_append, hpl]
  · intro h
    rw [List.count_append, inv.count h, List.length_append, List.length_singleton,
      List.range_succ, List.filter_append, List.length_append]
    congr 1
    · congr 1
      apply List.filter_congr
      intro r hr
      rw [getD_append_lt _ _ _ _ (List.mem_range.1 hr)]
    · have e : (done ++ [pl]).getD done.length (0, 0, 0, 0) = pl := by
        have := getD_append_ge done [pl] 0 (0, 0, 0, 0)
        simpa using this
      simp only [List.filter_cons, List.filter_nil, e]
      by_cases hm : h ∈ placement_columns polyomino_list b pl
      · simp [hm, List.count_eq_one_of_mem hnd hm]
      · simp [hm, List.count_eq_zero_of_not_mem hm]
  · intro r hr
    rw [List.length_append, List.length_singleton] at hr
    show (a.row_size ++ [getSize P + 1]).getD r 0 = _ ∧
      (a.row_start ++ [cols.length]).getD r 0 + _ ≤ _ ∧ ∀ j, _ →
        _ = _ ∧ _ = _
    by_cases hlt' : r < done.length
    · obtain ⟨r1, r2, r3⟩ := inv.row r hlt'
      rw [getD_append_lt _ _ _ _ hlt', getD_append_lt _ _ _ _ (by rw [inv.size_len]; exact hlt'),
        getD_append_lt _ _ _ _ (by rw [inv.start_len]; exact hlt')]
      refine ⟨r1, by rw [List.length_append]; omega, ?_⟩
      intro j hj
      obtain ⟨c1, c2⟩ := r3 j hj
      rw [getD_append_lt _ _ _ _ (by omega), getD_append_lt _ _ _ _ (by omega)]
      exact ⟨c1, c2⟩
    · have er : r = done.length := by omega
      subst er
      have e : (done ++ [pl]).getD done.length (0, 0, 0, 0) = pl := by
        have := getD_append_ge done [pl] 0 (0, 0, 0, 0)
        simpa using this
      have e1 : (a.row_size ++ [getSize P + 1]).getD done.length 0 = getSize P + 1 := by
        have := getD_append_ge a.row_size [getSize P + 1] 0 0
        rw [inv.size_len] at this
        simpa using this
      have e2 : (a.row_start ++ [cols.length]).getD done.length 0 = cols.length := by
        have := getD_append_ge a.row_start [cols.length] 0 0
        rw [inv.start_len] at this
        simpa using this
      rw [e, e1, e2, hpl]
      refine ⟨rfl, by rw [List.length_append, hpl], ?_⟩
      intro j hj
      rw [getD_append_ge, ← hrl, getD_append_ge]
      refine ⟨rfl, ?_⟩
      simp [List.getD_eq_getElem?_getD, List.getElem?_replicate, hj]
  · intro c hc
    show m3.matrix_column.getD c 0 = c
    rw [g3, f3]
    have hc' : c < a.m.array_width := by
      have : m3.array_width = a.m.array_width := g1.trans f1
      exact this ▸ hc
    exact inv.mcol c hc'

theorem mem_polyomino_placements {polyomino_list : List polyomino} {b : Nat}
    {row col p k : Nat} :
    (row, col, p, k) ∈ polyomino_placements polyomino_list b ↔
      row < b ∧ col < b ∧ ∃ P, polyomino_list.get? p = some P ∧ k < getOrientations P ∧
        int_wrap ((row : Int) + getYLength P k) ≤ b ∧
        int_wrap ((col : Int) + getXLength P k) ≤ b := by
  unfold polyomino_placements
  simp only [List.mem_flatMap, List.mem_range]
  constructor
  · rintro ⟨row', hrow, col', hcol, p', hp, h⟩
    cases hg : polyomino_list.get? p' with
    | none => rw [hg] at h; simp at h
    | some P =>
      rw [hg] at h
      simp only [List.mem_flatMap, List.mem_range] at h
      obtain ⟨k', hk, h⟩ := h
      split at h
      · rename_i hc
        simp only [List.mem_singleton, Prod.mk.injEq] at h
        obtain ⟨e1, e2, e3, e4⟩ := h
        subst e1 e2 e3 e4
        exact ⟨hrow, hcol, P, hg, hk, hc.1, hc.2⟩
      · simp at h
  · rintro ⟨hrow, hcol, P, hg, hk, h1, h2⟩
    refine ⟨row, hrow, col, hcol, p, ?_, ?_⟩
    · rw [List.get?_eq_getElem?] at hg
      exact (List.getElem?_eq_some_iff.1 hg).1
    · rw [hg]
      simp only [List.mem_flatMap, List.mem_range]
      exact ⟨k, hk, by rw [if_pos ⟨h1, h2⟩]; exact List.mem_singleton.2 rfl⟩

theorem polyomino_placements_nodup (polyomino_list : List polyomino) (b : Nat) :
    (polyomino_placements polyomino_list b).Nodup := by
  unfold polyomino_placements
  refine nodup_flatMap_tag _ _ (fun pl => pl.1) (List.nodup_range b) ?_ ?_
  · intro row _
    refine nodup_flatMap_tag _ _ (fun pl => pl.2.1) (List.nodup_range b) ?_ ?_
    · intro col _
      refine nodup_flatMap_tag _ _ (fun pl => pl.2.2.1) (List.nodup_range _) ?_ ?_
      · intro p _
        cases polyomino_list.get? p with
        | none => exact List.nodup_nil
        | some P =>
          refine nodup_flatMap_tag _ _ (fun pl => pl.2.2.2) (List.nodup_range _) ?_ ?_
          · intro k _
            split
            · exact List.nodup_singleton _
            · exact List.nodup_nil
          · intro k _ x hx
            split at hx
            · rw [List.mem_singleton.1 hx]
            · simp at hx
      · intro p _ x hx
        cases hg : polyomino_list.get? p with
        | none => rw [hg] at hx; simp at hx
        | some P =>
          rw [hg] at hx
          simp only [List.mem_flatMap] at hx
          obtain ⟨k, _, hx⟩ := hx
          split at hx
          · rw [List.mem_singleton.1 hx]
          · simp at hx
    · intro col _ x hx
      simp only [List.mem_flatMap] at hx
      obtain ⟨p, _, hx⟩ := hx
      cases hg : polyomino_list.get? p with
      | none => rw [hg] at hx; simp at hx
      | some P =>
        rw [hg] at hx
        simp only [List.mem_flatMap] at hx
        obtain ⟨k, _, hx⟩ := hx
        split at hx
        · rw [List.mem_singleton.1 hx]
        · simp at hx
  · intro row _ x hx
    simp only [List.mem_flatMap] at hx
    obtain ⟨col, _, p, _, hx⟩ := hx
    cases hg : polyomino_list.get? p with
    | none => rw [hg] at hx; simp at hx
    | some P =>
      rw [hg] at hx
      simp only [List.mem_flatMap] at hx
      obtain ⟨k, _, hx⟩ := hx
      split at hx
      · rw [List.mem_singleton.1 hx]
      · simp at hx

theorem cell_index_bound {b : Nat} {x y xl yl : Int} {row col : Nat}
    (hx : 0 ≤ x ∧ x < xl) (hy : 0 ≤ y ∧ y < yl)
    (hr : (row : Int) + yl ≤ b) (hc : (col : Int) + xl ≤ b) :
    0 ≤ x + col + (y + row) * b ∧ x + col + (y + row) * b < (b : Int) * b := by
  have h1 : (0 : Int) ≤ col := Int.ofNat_nonneg _
  have h2 : (0 : Int) ≤ row := Int.ofNat_nonneg _
  have h3 : (0 : Int) ≤ b := Int.ofNat_nonneg _
  have h4 : 0 ≤ (y + row) * (b : Int) := mul_nonneg (by omega) h3
  have h5 : (y + row + 1) * (b : Int) ≤ b * b := mul_le_mul_of_nonneg_right (by omega) h3
  constructor
  · omega
  · have : (y + row + 1) * (b : Int) = (y + row) * b + b := by ring
    omega

theorem cell_index_inj {b : Int} {u v u2 v2 : Int} (hu : 0 ≤ u ∧ u < b) (hu2 : 0 ≤ u2 ∧ u2 < b)
    (e : u + v * b = u2 + v2 * b) : u = u2 ∧ v = v2 := by
  have hb : 0 ≤ b := by omega
  rcases lt_trichotomy v v2 with h | h | h
  · have : (v + 1) * b ≤ v2 * b := mul_le_mul_of_nonneg_right (by omega) hb
    have e2 : (v + 1) * b = v * b + b := by ring
    omega
  · subst h; exact ⟨by omega, rfl⟩
  · have : (v2 + 1) * b ≤ v * b := mul_le_mul_of_nonneg_right (by omega) hb
    have e2 : (v2 + 1) * b = v2 * b + b := by ring
    omega

/-- The test of `polyomino_generate` on a well-formed piece whose lengths,
added to a position on the board, are `int`s: the sums do not overflow. -/
theorem fit_test_exact {P : polyomino} {b k row col : Nat} (hP : PieceOK P)
    (hk : k < getOrientations P)
    (hl : getXLength P k + b ≤ 2147483648 ∧ getYLength P k + b ≤ 2147483648)
    (hrow : row < b) (hcol : col < b) :
    int_wrap ((row : Int) + getYLength P k) = (row : Int) + getYLength P k ∧
    int_wrap ((col : Int) + getXLength P k) = (col : Int) + getXLength P k := by
  have hbox := (hP k hk).1
  have h1 : (0 : Int) ≤ col := Int.ofNat_nonneg _
  have h2 : (0 : Int) ≤ row := Int.ofNat_nonneg _
  have h3 : (row : Int) < b := by exact_mod_cast hrow
  have h4 : (col : Int) < b := by exact_mod_cast hcol
  exact ⟨int_wrap_eq (by omega) (by omega), int_wrap_eq (by omega) (by omega)⟩

theorem placement_ok_of_piece {polyomino_list : List polyomino} {b : Nat}
    (hp : ∀ P ∈ polyomino_list, PieceOK P)
    (hl : ∀ P ∈ polyomino_list, ∀ k, k < getOrientations P →
      getXLength P k + b ≤ 2147483648 ∧ getYLength P k + b ≤ 2147483648)
    {pl : Nat × Nat × Nat × Nat}
    (hpl : pl ∈ polyomino_placements polyomino_list b) : PlacementOK polyomino_list b pl := by
  obtain ⟨row, col, p, k⟩ := pl
  obtain ⟨hrow, hcol, P, hg, hk, h1, h2⟩ := mem_polyomino_placements.1 hpl
  have hPm : P ∈ polyomino_list := List.get?_mem hg
  obtain ⟨w1, w2⟩ := fit_test_exact (hp P hPm) hk (hl P hPm k hk) hrow hcol
  rw [w1] at h1
  rw [w2] at h2
  clear w1 w2
  obtain ⟨-, hnd, hbox⟩ := hp P hPm k hk
  have hcomp : ∀ i, i < getSize P →
      0 ≤ (getBlock P k i).1 + (col : Int) ∧ (getBlock P k i).1 + (col : Int) < (b : Int) ∧
      0 ≤ (getBlock P k i).2 + (row : Int) ∧ (getBlock P k i).2 + (row : Int) < (b : Int) := by
    intro i hi
    have := hbox i hi
    have h3 : (0 : Int) ≤ col := Int.ofNat_nonneg _
    have h4 : (0 : Int) ≤ row := Int.ofNat_nonneg _
    omega
  have hfit : ∀ i, i < getSize P →
      0 ≤ (getBlock P k i).1 + (col : Int) + ((getBlock P k i).2 + row) * b ∧
      (getBlock P k i).1 + (col : Int) + ((getBlock P k i).2 + row) * b < (b : Int) * b := by
    intro i hi
    have := hbox i hi
    exact cell_index_bound ⟨this.1, this.2.1⟩ ⟨this.2.2.1, this.2.2.2⟩ h1 h2
  refine ⟨P, hg, hcomp, ?_⟩
  unfold placement_columns
  simp only [hg]
  rw [List.nodup_append]
  refine ⟨?_, List.nodup_singleton _, ?_⟩
  · refine List.Nodup.map_on ?_ (List.nodup_range _)
    intro i hi j hj e
    have hi' := List.mem_range.1 hi
    have hj' := List.mem_range.1 hj
    have e2 : (getBlock P k i).1 + (col : Int) + ((getBlock P k i).2 + row) * b =
        (getBlock P k j).1 + (col : Int) + ((getBlock P k j).2 + row) * b := by
      have := congrArg (fun n : Nat => (n : Int)) e
      simp only at this
      rwa [Int.toNat_of_nonneg (hfit i hi').1, Int.toNat_of_nonneg (hfit j hj').1] at this
    have bi := hbox i hi'
    have bj := hbox j hj'
    obtain ⟨e3, e4⟩ := @cell_index_inj (b : Int) ((getBlock P k i).1 + col)
      ((getBlock P k i).2 + row) ((getBlock P k j).1 + col) ((getBlock P k j).2 + row)
      (by omega) (by omega) e2
    have e5 : getBlock P k i = getBlock P k j := Prod.ext (by omega) (by omega)
    have hnd' : ((List.range (getSize P)).map (getBlock P k)).Nodup := hnd
    exact List.inj_on_of_nodup_map hnd' hi hj e5
  · intro x hx1 hx2
    rw [List.mem_singleton] at hx2
    obtain ⟨i, hi, e⟩ := List.mem_map.1 hx1
    have hi' := List.mem_range.1 hi
    have h3 := (hfit i hi').2
    have h4 : (((getBlock P k i).1 + (col : Int) + ((getBlock P k i).2 + row) * b).toNat : Int)
        < ((b * b : Nat) : Int) := by
      rw [Int.toNat_of_nonneg (hfit i hi').1]; push_cast; exact h3
    have h5 : ((getBlock P k i).1 + (col : Int) + ((getBlock P k i).2 + row) * b).toNat
        < b * b := by exact_mod_cast h4
    rw [← e] at hx2
    omega

theorem placement_columns_length {polyomino_list : List polyomino} {b : Nat}
    {pl : Nat × Nat × Nat × Nat} {P : polyomino} (hg : polyomino_list.get? pl.2.2.1 = some P) :
    (placement_columns polyomino_list b pl).length = getSize P + 1 := by
  unfold placement_columns
  rw [hg]
  simp

theorem polyomino_fold_ok {polyomino_list : List polyomino} {b n : Nat}
    (hbb : b * b + polyomino_list.length ≤ 2147483647) :
    ∀ (todo done : List (Nat × Nat × Nat × Nat)) (a : polyomino_adapter) (cols rows : List Nat),
      PolyInv polyomino_list b n done a cols rows →
      (∀ pl ∈ todo, PlacementOK polyomino_list b pl) →
      cols.length + (todo.map (fun pl => (placement_columns polyomino_list b pl).length)).sum
        ≤ n →
      ∃ a2 cols2 rows2,
        todo.foldl (fun r pl =>
          match r with
          | Except.error e => Except.error e
          | Except.ok a => polyomino_row polyomino_list a pl) (Except.ok a) = Except.ok a2 ∧
        PolyInv polyomino_list b n (done ++ todo) a2 cols2 rows2 := by
  intro todo
  induction todo with
  | nil =>
    intro done a cols rows inv _ _
    exact ⟨a, cols, rows, rfl, by simpa using inv⟩
  | cons pl rest ih =>
    intro done a cols rows inv hok hroom
    obtain ⟨P, hg, hfit, hnd⟩ := hok pl (List.mem_cons_self _ _)
    have hl := placement_columns_length (b := b) hg
    simp only [List.map_cons, List.sum_cons] at hroom
    obtain ⟨a1, e1, inv1⟩ := polyomino_row_ok inv pl hbb P hg hfit hnd (by omega)
    obtain ⟨a2, cols2, rows2, e2, inv2⟩ := ih (done ++ [pl]) a1 _ _ inv1
      (fun q hq => hok q (List.mem_cons_of_mem _ hq))
      (by rw [List.length_append]; omega)
    refine ⟨a2, cols2, rows2, ?_, ?_⟩
    · rw [List.foldl_cons]
      simp only [e1]
      exact e2
    · rw [List.append_assoc] at inv2
      exact inv2

theorem row_columns_eq {polyomino_list : List polyomino} {b n : Nat}
    {done : List (Nat × Nat × Nat × Nat)} {a : polyomino_adapter} {cols rows : List Nat}
    (inv : PolyInv polyomino_list b n done a cols rows) {r : Nat} (hr : r < done.length) :
    polyomino_row_columns a r = placement_columns polyomino_list b (done.getD r (0, 0, 0, 0)) := by
  obtain ⟨r1, r2, r3⟩ := inv.row r hr
  unfold polyomino_row_columns
  apply List.ext_getElem
  · rw [List.length_map, List.length_range, r1]
  · intro j h1 h2
    simp only [List.getElem_map, List.getElem_range]
    rw [inv.nodes.hdr _ (by omega), (r3 j h2).1]
    exact List.getD_eq_getElem _ _ h2

/-- The constructor of `dlx_matrix_polyomino` on well-formed pieces, when no
`int` computed from the lengths and the board width overflows: it completes,
and the state it ends in describes the rows of all placements. -/
theorem polyomino_generate_ok (polyomino_list : List polyomino) (b : Nat)
    (hp : ∀ P ∈ polyomino_list, PieceOK P)
    (hl : ∀ P ∈ polyomino_list, ∀ k, k < getOrientations P →
      getXLength P k + b ≤ 2147483648 ∧ getYLength P k + b ≤ 2147483648)
    (hbb : b * b + polyomino_list.length ≤ 2147483647) :
    ∃ a cols rows, dlx_matrix_polyomino polyomino_list b = Except.ok a ∧
      PolyInv polyomino_list b (polyomino_node_count polyomino_list b)
        (polyomino_placements polyomino_list b) a cols rows := by
  have hok : ∀ pl ∈ polyomino_placements polyomino_list b, PlacementOK polyomino_list b pl :=
    fun pl h => placement_ok_of_piece hp hl h
  have hroom : ([] : List Nat).length +
      ((polyomino_placements polyomino_list b).map
        (fun pl => (placement_columns polyomino_list b pl).length)).sum
      ≤ polyomino_node_count polyomino_list b := by
    unfold polyomino_node_count
    rw [List.length_nil, Nat.zero_add]
    apply le_of_eq
    refine congrArg List.sum ?_
    apply List.map_congr_left
    intro pl hpl
    obtain ⟨P, hg, -, -⟩ := hok pl hpl
    rw [placement_columns_length hg, hg]
    rfl
  have haw : int_wrap (int_wrap ((b : Int) * b) + (polyomino_list.length : Int)) =
      ((b * b + polyomino_list.length : Nat) : Int) := by
    have hbb' : ((b * b + polyomino_list.length : Nat) : Int) ≤ 2147483647 := by
      exact_mod_cast hbb
    have h0 : (0 : Int) ≤ (b : Int) * b := mul_nonneg (Int.ofNat_nonneg _) (Int.ofNat_nonneg _)
    have h1 : (0 : Int) ≤ (polyomino_list.length : Int) := Int.ofNat_nonneg _
    push_cast at hbb' ⊢
    rw [int_wrap_eq (x := (b : Int) * b) (by omega) (by omega)]
    exact int_wrap_eq (by omega) (by omega)
  unfold dlx_matrix_polyomino
  simp only [haw, Int.toNat_ofNat]
  clear haw
  rw [if_neg (by omega)]
  have key := @polyomino_fold_ok polyomino_list b (polyomino_node_count polyomino_list b) hbb
    (polyomino_placements polyomino_list b) []
    { m :=
        { array_len := 0,
          array_width := b * b + polyomino_list.length,
          num_constraints := 0,
          left := Vec.replicate (polyomino_node_count polyomino_list b) 0,
          right := Vec.replicate (polyomino_node_count polyomino_list b) 0,
          up := Vec.replicate (polyomino_node_count polyomino_list b) 0,
          down := Vec.replicate (polyomino_node_count polyomino_list b) 0,
          header := Vec.replicate (polyomino_node_count polyomino_list b) 0,
          matrix_row := Vec.replicate (polyomino_node_count polyomino_list b) 0,
          count := Vec.replicate (b * b + polyomino_list.length) 0,
          matrix_column :=
            (List.range (b * b + polyomino_list.length)).foldl (fun v i => v.set_nat i i)
              (Vec.replicate (b * b + polyomino_list.length) 0),
          top := Vec.replicate (b * b + polyomino_list.length) Option.none,
          bottom := Vec.replicate (b * b + polyomino_list.length) Option.none,
          optional_constraint_start_column := b * b + polyomino_list.length,
          header_tree := Vec.replicate (b * b + polyomino_list.length) false,
          optional_header_tree := Vec.replicate (b * b + polyomino_list.length) false },
      board_width := b, row_start := [], row_size := [] } [] []
  have inv0 := key ?_ hok hroom
  · obtain ⟨a2, cols2, rows2, e, inv⟩ := inv0
    exact ⟨a2, cols2, rows2, e, by simpa using inv⟩
  · constructor
    · rfl
    · rfl
    · rfl
    · constructor
      · intro i hi
        exact ⟨Vec.inb_replicate _ _ _ hi, Vec.inb_replicate _ _ _ hi⟩
      · intro h hh
        exact ⟨Vec.inb_replicate _ _ _ hh, Vec.inb_replicate _ _ _ hh,
          Vec.inb_replicate _ _ _ hh⟩
      · rfl
      · intro j hj; simp at hj
      · intro j hj; simp at hj
      · intro h _
        show (Vec.replicate _ 0).getD h 0 = _
        rw [Vec.getD_replicate]
        simp
      · intro h
        show (Vec.replicate _ Option.none).getD h Option.none = Option.none ↔
          (Vec.replicate _ Option.none).getD h Option.none = Option.none
        exact Iff.rfl
    · rfl
    · rfl
    · rfl
    · intro h; simp
    · intro r hr; simp at hr
    · intro c hc
      show ((List.range (b * b + polyomino_list.length)).foldl (fun v i => v.set_nat i i)
        (Vec.replicate (b * b + polyomino_list.length) 0)).getD c 0 = c
      simp only [Vec.set_nat_eq]
      exact Vec.foldl_set_getD (fun i => i) 0 (b * b + polyomino_list.length) _
        (fun i hi => Vec.inb_replicate _ 0 i hi) c hc

/-! ## Boards read from a stream -/

theorem getBoardFromStream_row_first : ∀ (values row : List Int) (max : Int),
    (∀ v ∈ row, v = -1 ∨ (1 ≤ v ∧ v ≤ max)) → 0 ≤ max →
    ∃ max1, getBoardFromStream_row (-1) values row max =
        some (row ++ values.map (fun v => if v < 1 then -1 else v), max1) ∧
      max ≤ max1 ∧
      ∀ v ∈ row ++ values.map (fun v => if v < 1 then -1 else v), v = -1 ∨ (1 ≤ v ∧ v ≤ max1)
  | [], row, max, h, _ => ⟨max, by simp [getBoardFromStream_row], le_refl _, by simpa using h⟩
  | value :: rest, row, max, h, h0 => by
    unfold getBoardFromStream_row
    simp only [if_true]
    obtain ⟨max1, e, hle, hv⟩ := getBoardFromStream_row_first rest
      (row ++ [if value < 1 then -1 else value]) (if value > max then value else max)
      (by
        intro v hv
        rcases List.mem_append.1 hv with hv | hv
        · have := h v hv
          split <;> omega
        · rw [List.mem_singleton] at hv
          rw [hv]
          split <;> split <;> omega)
      (by split <;> omega)
    refine ⟨max1, ?_, ?_, ?_⟩
    · rw [e]; simp
    · have : max ≤ (if value > max then value else max) := by split <;> omega
      omega
    · simpa using hv

theorem getBoardFromStream_row_later (size : Int) (hs : size ≠ -1) :
    ∀ (values row : List Int) (max : Int) (r : List Int) (max1 : Int),
    (∀ v ∈ row, v = -1 ∨ (1 ≤ v ∧ v ≤ size)) →
    getBoardFromStream_row size values row max = some (r, max1) →
    r = row ++ values.map (fun v => if v < 1 then -1 else v) ∧
      ∀ v ∈ r, v = -1 ∨ (1 ≤ v ∧ v ≤ size)
  | [], row, max, r, max1, h, e => by
    simp only [getBoardFromStream_row, Option.some.injEq, Prod.mk.injEq] at e
    rw [← e.1]
    exact ⟨by simp, h⟩
  | value :: rest, row, max, r, max1, h, e => by
    unfold getBoardFromStream_row at e
    rw [if_neg hs] at e
    by_cases hv : value > size
    · rw [if_pos hv] at e; exact Option.noConfusion e
    · rw [if_neg hv] at e
      obtain ⟨e1, e2⟩ := getBoardFromStream_row_later size hs rest _ max r max1
        (by
          intro v hv'
          rcases List.mem_append.1 hv' with hv' | hv'
          · exact h v hv'
          · rw [List.mem_singleton] at hv'
            rw [hv']
            split <;> omega) e
      exact ⟨by rw [e1]; simp, e2⟩

theorem getBoardFromStream_loop_spec (extract : List Char → List Int) (square_ok : Nat → Bool) :
    ∀ (lines : List (List Char)) (to_return : List (List Int)) (size max : Int),
      ((to_return = [] ∧ size = -1 ∧ 0 ≤ max) ∨
        (size ≠ -1 ∧ ∀ row ∈ to_return, (row.length : Int) = size ∧
          ∀ v ∈ row, v = -1 ∨ (1 ≤ v ∧ v ≤ size))) →
      getBoardFromStream_loop extract square_ok lines to_return size max ≠ [] →
      getBoardFromStream_loop extract square_ok lines to_return size max =
        to_return ++ (lines.takeWhile (fun l => decide (l ≠ []))).map
          (fun l => (extract l).map (fun v => if v < 1 then -1 else v)) ∧
      ∀ row ∈ getBoardFromStream_loop extract square_ok lines to_return size max,
        row.length = (getBoardFromStream_loop extract square_ok lines to_return size max).length ∧
        ∀ v ∈ row, v = -1 ∨ (1 ≤ v ∧
          v ≤ ((getBoardFromStream_loop extract square_ok lines to_return size max).length : Int))
  := by
  have hend : ∀ (to_return : List (List Int)) (size : Int),
      ((to_return = [] ∧ size = -1) ∨
        (size ≠ -1 ∧ ∀ row ∈ to_return, (row.length : Int) = size ∧
          ∀ v ∈ row, v = -1 ∨ (1 ≤ v ∧ v ≤ size))) →
      (if size ≠ (to_return.length : Int) then [] else to_return) ≠ [] →
      (if size ≠ (to_return.length : Int) then [] else to_return) = to_return ∧
      ∀ row ∈ (if size ≠ (to_return.length : Int) then [] else to_return),
        row.length = (if size ≠ (to_return.length : Int) then [] else to_return).length ∧
        ∀ v ∈ row, v = -1 ∨ (1 ≤ v ∧
          v ≤ ((if size ≠ (to_return.length : Int) then [] else to_return).length : Int)) := by
    intro to_return size hinv hne
    by_cases hs : size ≠ (to_return.length : Int)
    · rw [if_pos hs] at hne; exact absurd rfl hne
    · rw [if_neg hs]
      have hs' : size = (to_return.length : Int) := not_not.1 hs
      refine ⟨rfl, ?_⟩
      rcases hinv with ⟨e, _⟩ | ⟨_, h⟩
      · rw [e]; intro row hr; simp at hr
      · intro row hr
        obtain ⟨h1, h2⟩ := h row hr
        rw [hs'] at h1 h2
        exact ⟨by exact_mod_cast h1, h2⟩
  intro lines
  induction lines with
  | nil =>
    intro to_return size max hinv hne
    simp only [getBoardFromStream_loop] at hne ⊢
    obtain ⟨e, h⟩ := hend to_return size
      (by rcases hinv with ⟨a, b, _⟩ | h; exact Or.inl ⟨a, b⟩; exact Or.inr h) hne
    exact ⟨by rw [e]; simp, h⟩
  | cons line rest ih =>
    intro to_return size max hinv hne
    rw [getBoardFromStream_loop] at hne ⊢
    by_cases hl : line = []
    · rw [if_pos hl] at hne ⊢
      obtain ⟨e, h⟩ := hend to_return size
        (by rcases hinv with ⟨a, b, _⟩ | h; exact Or.inl ⟨a, b⟩; exact Or.inr h) hne
      exact ⟨by rw [e, hl]; simp, h⟩
    · rw [if_neg hl] at hne ⊢
      have htw : (List.takeWhile (fun l => decide (l ≠ [])) (line :: rest)) =
          line :: List.takeWhile (fun l => decide (l ≠ [])) rest := by
        simp [List.takeWhile, hl]
      rw [htw, List.map_cons]
      rcases hinv with ⟨e0, es, hmax⟩ | ⟨hs, hrows⟩
      · subst e0 es
        obtain ⟨max1, e1, _, hv⟩ := getBoardFromStream_row_first (extract line) [] max
          (by intro v hv; simp at hv) hmax
        simp only [List.nil_append] at e1 hv
        rw [e1] at hne ⊢
        simp only [if_true] at hne ⊢
        by_cases hsq : square_ok ((extract line).map (fun v => if v < 1 then -1 else v)).length
            = false
        · rw [if_pos hsq] at hne; exact absurd rfl hne
        · rw [if_neg hsq] at hne ⊢
          by_cases hm : max1 >
              ((List.map (fun v => if v < 1 then -1 else v) (extract line)).length : Int)
          · rw [if_pos hm] at hne; exact absurd rfl hne
          · rw [if_neg hm] at hne ⊢
            obtain ⟨e2, h2⟩ := ih _ _ max1 (Or.inr ⟨by omega, by
              intro row hr
              simp only [List.nil_append, List.mem_singleton] at hr
              rw [hr]
              refine ⟨rfl, fun v hvm => ?_⟩
              have := hv v hvm
              omega⟩) hne
            exact ⟨by rw [e2]; simp, h2⟩
      · cases hrow : getBoardFromStream_row size (extract line) [] max with
        | none => rw [hrow] at hne; exact absurd rfl hne
        | some p =>
          obtain ⟨row, max1⟩ := p
          try rw [hrow] at hne
          try rw [hrow]
          simp only [if_neg hs] at hne ⊢
          obtain ⟨er, hv⟩ := getBoardFromStream_row_later size hs (extract line) [] max row max1
            (by intro v hv; simp at hv) hrow
          by_cases hlen : size ≠ (row.length : Int)
          · rw [if_pos hlen] at hne; exact absurd rfl hne
          · rw [if_neg hlen] at hne ⊢
            obtain ⟨e2, h2⟩ := ih _ _ max1 (Or.inr ⟨hs, by
              intro r hr
              rcases List.mem_append.1 hr with hr | hr
              · exact hrows r hr
              · rw [List.mem_singleton] at hr
                rw [hr]
                exact ⟨(not_not.1 hlen).symm, hv⟩⟩) hne
            refine ⟨?_, h2⟩
            rw [e2, er]
            simp

/-! ## Candidate rows of the Sudoku adapter -/

theorem generate_node_static (K : Nat) (col : Nat → Nat → Int) (m : dlx_matrix) (r i : Nat) :
    (generate_node K col m r i).header = m.header.set (r * K + i) (col r i).toNat ∧
    (generate_node K col m r i).matrix_row = m.matrix_row.set (r * K + i) r ∧
    (generate_node K col m r i).matrix_column = m.matrix_column ∧
    (generate_node K col m r i).array_width = m.array_width := by
  unfold generate_node
  simp only [Vec.set_nat_eq, Vec.set_opt_eq]
  split <;> exact ⟨rfl, rfl, rfl, rfl⟩

/-- The fields of the generated mesh that do not depend on the columns being
in range: the header and the matrix row of each node, and the column numbers. -/
theorem generate_static (L W K : Nat) (gc : Nat → Int) (col : Nat → Nat → Int) (ocs : Nat) :
    (∀ p, p < L * K →
      (generate L W K gc col ocs).header.getD p 0 = node_header K col p ∧
      (generate L W K gc col ocs).matrix_row.getD p 0 = p / K) ∧
    (∀ c, c < W → (generate L W K gc col ocs).matrix_column.getD c 0 = c) := by
  unfold generate
  simp only [Vec.set_int_eq, Vec.set_nat_eq]
  have key := foldl_range_induct
    (fun m matrix_row => (List.range K).foldl
      (fun m1 i => generate_node K col m1 matrix_row i) m)
    (fun r (m : dlx_matrix) =>
      (∀ p, p < L * K → m.header.inb p = true ∧ m.matrix_row.inb p = true) ∧
      (∀ p, p < r * K → m.header.getD p 0 = node_header K col p ∧
        m.matrix_row.getD p 0 = p / K) ∧
      (∀ c, c < W → m.matrix_column.getD c 0 = c)) L
    { array_len := L, array_width := W, num_constraints := K,
      left := Vec.replicate (L * K) 0, right := Vec.replicate (L * K) 0,
      up := Vec.replicate (L * K) 0, down := Vec.replicate (L * K) 0,
      header := Vec.replicate (L * K) 0, matrix_row := Vec.replicate (L * K) 0,
      count := (List.range W).foldl (fun v i => v.set i (gc i)) (Vec.replicate W 0),
      matrix_column := (List.range W).foldl (fun v i => v.set i i) (Vec.replicate W 0),
      top := Vec.replicate W Option.none, bottom := Vec.replicate W Option.none,
      optional_constraint_start_column := ocs,
      header_tree := Vec.replicate W false, optional_header_tree := Vec.replicate W false }
    ⟨fun p hp => ⟨Vec.inb_replicate _ _ p hp, Vec.inb_replicate _ _ p hp⟩,
      fun p hp => by simp at hp,
      fun c hc => Vec.foldl_set_getD (fun i => i) 0 W _
        (fun i hi => Vec.inb_replicate W 0 i hi) c hc⟩
    (fun r m hr hm => by
      have inner := foldl_range_induct (fun m1 i => generate_node K col m1 r i)
        (fun i (m1 : dlx_matrix) =>
          (∀ p, p < L * K → m1.header.inb p = true ∧ m1.matrix_row.inb p = true) ∧
          (∀ p, p < r * K + i → m1.header.getD p 0 = node_header K col p ∧
            m1.matrix_row.getD p 0 = p / K) ∧
          (∀ c, c < W → m1.matrix_column.getD c 0 = c)) K m
        ⟨hm.1, by simpa using hm.2.1, hm.2.2⟩
        (fun i m1 hi h1 => by
          obtain ⟨e1, e2, e3, _⟩ := generate_node_static K col m1 r i
          have hpN : r * K + i < L * K := by
            have : (r + 1) * K ≤ L * K := Nat.mul_le_mul_right K hr
            rw [Nat.succ_mul] at this
            omega
          refine ⟨fun p hp => ?_, fun p hp => ?_, fun c hc => ?_⟩
          · rw [e1, e2]; simpa using h1.1 p hp
          · rw [e1, e2]
            by_cases hpe : r * K + i = p
            · subst hpe
              rw [Vec.getD_set_eq _ _ _ _ (h1.1 _ hpN).1, Vec.getD_set_eq _ _ _ _ (h1.1 _ hpN).2]
              refine ⟨(node_header_at K col hi).symm, ?_⟩
              rw [Nat.add_comm, Nat.add_mul_div_right _ _ (by omega), Nat.div_eq_of_lt hi,
                Nat.zero_add]
            · rw [Vec.getD_set_ne _ _ _ _ _ hpe, Vec.getD_set_ne _ _ _ _ _ hpe]
              exact h1.2.1 p (by omega)
          · rw [e3]; exact h1.2.2 c hc)
      refine ⟨inner.1, fun p hp => inner.2.1 p (by rw [Nat.succ_mul] at hp; exact hp), inner.2.2⟩)
  exact ⟨fun p hp => key.2.1 p hp, key.2.2⟩

theorem div_mod_of_lt {n i j : Nat} (hj : j < n) :
    (i * n + j) / n = i ∧ (i * n + j) % n = j := by
  have hn : 0 < n := by omega
  constructor
  · rw [Nat.add_comm, Nat.add_mul_div_right _ _ hn, Nat.div_eq_of_lt hj, Nat.zero_add]
  · rw [Nat.add_comm, Nat.add_mul_mod_self_right, Nat.mod_eq_of_lt hj]

theorem cell_index_lt {n i j : Nat} (hi : i < n) (hj : j < n) : i * n + j < n * n := by
  have : (i + 1) * n ≤ n * n := Nat.mul_le_mul_right n hi
  rw [Nat.succ_mul] at this
  omega

/-- One step of the interpretation loop of the Sudoku adapter on a node of
candidate row `r`: the digit `r % n + 1` is written at the cell
`(r / n / n, r / n % n)`. -/
theorem sudoku_decode_step (n : Nat) (m : dlx_matrix) (hm : SameFrame (dlx_matrix_sudoku n) m)
    (H nd : Nat) (hnd : nd < n * n * n * 4) (rest : List (Nat × Nat)) (board : List (List Int)) :
    interpret_result_sudoku_loop n m ((H, nd) :: rest) board =
      interpret_result_sudoku_loop n m rest
        (board_set board (nd / 4 / n / n) (nd / 4 / n % n) ((nd / 4 % n + 1 : Nat) : Int)) := by
  have hn : 0 < n := by
    rcases Nat.eq_zero_or_pos n with h | h
    · subst h; simp at hnd
    · exact h
  obtain ⟨hnode, hcol⟩ := generate_static (n * n * n) (n * n * 4) 4 (sudoku_get_count n)
    (sudoku_get_column n (isqrt n)) (n * n * 4)
  have hr : nd / 4 < n * n * n := by omega
  have hrow : m.matrix_row.getD nd 0 = nd / 4 := by
    rw [hm.matrix_row]; exact (hnode nd hnd).2
  have hr4 : nd / 4 * 4 < n * n * n * 4 := by omega
  have hq : nd / 4 / n / n < n := by
    rw [Nat.div_div_eq_div_mul, Nat.div_lt_iff_lt_mul (Nat.mul_pos hn hn)]
    calc nd / 4 < n * n * n := hr
      _ = n * (n * n) := by ring
  have hq2 : nd / 4 / n % n < n := Nat.mod_lt _ hn
  have hhead : m.header.getD (nd / 4 * 4) 0 = nd / 4 / n / n * n + nd / 4 / n % n := by
    rw [hm.header]
    unfold dlx_matrix_sudoku
    rw [(hnode _ hr4).1]
    have := node_header_at 4 (sudoku_get_column n (isqrt n)) (r := nd / 4) (i := 0) (by omega)
    rw [Nat.add_zero] at this
    rw [this]
    simp only [sudoku_get_column]
    exact Int.toNat_ofNat _
  have hlt := cell_index_lt hq hq2
  have hmc : m.matrix_column.getD (nd / 4 / n / n * n + nd / 4 / n % n) 0 =
      nd / 4 / n / n * n + nd / 4 / n % n := by
    rw [hm.matrix_column]; exact hcol _ (by omega)
  rw [interpret_result_sudoku_loop]
  simp only [hrow, hhead, hmc]
  rw [Nat.mod_eq_of_lt hlt, (div_mod_of_lt hq2).1, (div_mod_of_lt hq2).2]

theorem board_set_cell_ne (b : List (List Int)) (i j : Nat) (v : Int) (a c : Nat)
    (h : ¬ (i = a ∧ j = c)) : cell (board_set b i j v) a c = cell b a c := by
  unfold cell board_set
  by_cases hia : i = a
  · subst hia
    have hjc : j ≠ c := fun e => h ⟨rfl, e⟩
    by_cases hi : i < b.length
    · simp [List.getD_eq_getElem?_getD, List.getElem?_set, hi, hjc]
    · rw [List.set_eq_of_length_le (by omega)]
  · simp [List.getD_eq_getElem?_getD, List.getElem?_set, hia]

theorem sudoku_untouched_cell (n : Nat) (m : dlx_matrix)
    (hm : SameFrame (dlx_matrix_sudoku n) m) (a c : Nat) :
    ∀ (stack : List (Nat × Nat)) (board : List (List Int)),
      (∀ e ∈ stack, e.2 < n * n * n * 4 ∧ ¬ (e.2 / 4 / n / n = a ∧ e.2 / 4 / n % n = c)) →
      cell (interpret_result_sudoku_loop n m stack board) a c = cell board a c
  | [], board, _ => by simp [interpret_result_sudoku_loop]
  | (H, nd) :: rest, board, h => by
    have h0 := h (H, nd) (List.mem_cons_self _ _)
    rw [sudoku_decode_step n m hm H nd h0.1,
      sudoku_untouched_cell n m hm a c rest _ (fun e he => h e (List.mem_cons_of_mem _ he)),
      board_set_cell_ne _ _ _ _ _ _ h0.2]

/-! ## What the constructor of `dlx_matrix_polyomino` builds, whatever the pieces -/

theorem int_wrap_le (x : Int) : int_wrap x ≤ 2147483647 := by
  unfold int_wrap
  omega

theorem int_wrap_le_self {x : Int} (h : 0 ≤ x) : int_wrap x ≤ x := by
  unfold int_wrap
  omega

theorem polyomino_link_frame {m m2 : dlx_matrix} {p h : Nat}
    (e : polyomino_link m p h = Except.ok m2) :
    h < m.array_width ∧ m2.header = m.header ∧ m2.matrix_column = m.matrix_column ∧
      m2.array_width = m.array_width := by
  unfold polyomino_link at e
  by_cases hh : m.array_width ≤ h
  · rw [if_pos hh] at e
    cases e
  rw [if_neg hh] at e
  refine ⟨by omega, ?_⟩
  rcases ht : m.top.getD h Option.none with _ | t
  · simp only [ht, Except.ok.injEq] at e
    subst e
    exact ⟨rfl, rfl, rfl⟩
  · simp only [ht] at e
    rcases hb : m.bottom.getD h Option.none with _ | b
    · simp [hb] at e
    · simp only [hb, Except.ok.injEq] at e
      subst e
      exact ⟨rfl, rfl, rfl⟩

/-- The cell nodes of one row, when the loop building them completes: the
headers they receive are columns below `board_width*board_width` and inside
`matrix_header`, and no other header field is written. -/
theorem polyomino_cells_frame (P : polyomino) (b row col orient r base : Nat) :
    ∀ (todo i : Nat) (m m2 : dlx_matrix),
      polyomino_cells P b row col orient r base todo i m = Except.ok m2 →
      m2.matrix_column = m.matrix_column ∧ m2.array_width = m.array_width ∧
      (0 < todo → 0 < int_wrap ((b : Int) * b) ∧ 0 < m.array_width) ∧
      ∀ j, m2.header.getD j 0 = m.header.getD j 0 ∨
        (base + i ≤ j ∧ j < base + i + todo ∧
          ((m2.header.getD j 0 : Nat) : Int) < int_wrap ((b : Int) * b) ∧
          m2.header.getD j 0 < m.array_width) := by
  intro todo
  induction todo with
  | zero =>
    intro i m m2 e
    rw [polyomino_cells] at e
    cases e
    exact ⟨rfl, rfl, fun h => absurd h (lt_irrefl 0), fun j => Or.inl rfl⟩
  | succ todo ih =>
    intro i m m2 e
    rw [polyomino_cells] at e
    simp only [] at e
    generalize int_wrap (int_wrap ((getBlock P orient i).1 + (col : Int)) +
      int_wrap (int_wrap ((getBlock P orient i).2 + (row : Int)) * (b : Int))) = idx at e
    by_cases hc : idx ≥ int_wrap ((b : Int) * b) ∨ idx < 0
    · rw [if_pos hc] at e
      cases e
    rw [if_neg hc] at e
    split at e
    · cases e
    rename_i m1 hl
    obtain ⟨l0, l1, l2, l3⟩ := polyomino_link_frame hl
    have l0' : idx.toNat < m.array_width := l0
    have l1' : m1.header = m.header.set (base + i) idx.toNat := by
      rw [l1]
      exact Vec.set_nat_eq _ _ _
    have l2' : m1.matrix_column = m.matrix_column := l2
    have l3' : m1.array_width = m.array_width := l3
    obtain ⟨g1, g2, -, g4⟩ := ih (i + 1) m1 m2 e
    have hidx : ((idx.toNat : Nat) : Int) = idx := Int.toNat_of_nonneg (by omega)
    refine ⟨g1.trans l2', g2.trans l3', fun _ => ⟨by omega, by omega⟩, ?_⟩
    intro j
    rcases g4 j with h | ⟨a, c, d, f⟩
    · have h' : m2.header.getD j 0 =
          if base + i = j ∧ m.header.inb (base + i) = true then idx.toNat
          else m.header.getD j 0 := by
        rw [h, l1', Vec.getD_set]
      by_cases hj : base + i = j ∧ m.header.inb (base + i) = true
      · rw [if_pos hj] at h'
        right
        rw [h']
        exact ⟨by omega, by omega, by omega, l0'⟩
      · rw [if_neg hj] at h'
        exact Or.inl h'
    · right
      exact ⟨by omega, by omega, d, l3' ▸ f⟩

theorem getD_append_far (l : List Nat) (x r : Nat) (h : l.length < r) :
    (l ++ [x]).getD r 0 = 0 := by
  rw [List.getD_eq_default]
  simp
  omega

/-- One more row keeps the frame. -/
theorem polyomino_row_frame {polyomino_list : List polyomino} {b : Nat}
    {a a2 : polyomino_adapter} {pl : Nat × Nat × Nat × Nat} (inv : PolyFrame b a)
    (e : polyomino_row polyomino_list a pl = Except.ok a2) : PolyFrame b a2 := by
  unfold polyomino_row at e
  rcases hP : polyomino_list.get? pl.2.2.1 with _ | P
  · rw [hP] at e
    cases e
  rw [hP] at e
  simp only [] at e
  split at e
  · cases e
  rename_i m1 hc
  split at e
  · cases e
  split at e
  · cases e
  rename_i m3 hl
  simp only [Except.ok.injEq] at e
  subst e
  obtain ⟨c1, c2, c3, c4⟩ := polyomino_cells_frame _ _ _ _ _ _ _ _ _ _ _ hc
  obtain ⟨-, l1, l2, l3⟩ := polyomino_link_frame hl
  have l1' : m3.header = m1.header.set
      (a.row_start.foldl (fun _ s => s) 0 + a.row_size.foldl (fun _ s => s) 0 + getSize P)
      (int_wrap ((pl.2.2.1 : Int) + int_wrap ((a.board_width : Int) * a.board_width))).toNat := by
    rw [l1]
    exact Vec.set_nat_eq _ _ _
  have l2' : m3.matrix_column = m1.matrix_column := l2
  have l3' : m3.array_width = m1.array_width := l3
  rw [inv.width] at c3
  have hnext : (a.row_start ++ [a.row_start.foldl (fun _ s => s) 0 +
      a.row_size.foldl (fun _ s => s) 0]).foldl (fun _ s => s) 0 +
      (a.row_size ++ [getSize P + 1]).foldl (fun _ s => s) 0 =
      a.row_start.foldl (fun _ s => s) 0 + a.row_size.foldl (fun _ s => s) 0 +
        (getSize P + 1) := by
    rw [foldl_last_append, foldl_last_append]
  have hlens := inv.lens
  have hhdr : ∀ j, j ≠ a.row_start.foldl (fun _ s => s) 0 +
      a.row_size.foldl (fun _ s => s) 0 + getSize P →
      m3.header.getD j 0 = m1.header.getD j 0 := by
    intro j hj
    rw [l1', Vec.getD_set_ne _ _ _ _ _ (fun h => hj h.symm)]
  constructor
  · exact inv.width
  · dsimp only
    rw [List.length_append, List.length_append, hlens]
    rfl
  · intro r hr
    have hr' : r < a.row_start.length + 1 := by simpa using hr
    dsimp only
    rw [hnext]
    by_cases hlt : r < a.row_start.length
    · rw [getD_append_lt _ _ _ _ hlt, getD_append_lt _ _ _ _ (by omega)]
      have := inv.below r hlt
      omega
    · have er : r = a.row_start.length := by omega
      have e1 := getD_append_ge a.row_start [a.row_start.foldl (fun _ s => s) 0 +
        a.row_size.foldl (fun _ s => s) 0] 0 0
      have e2 := getD_append_ge a.row_size [getSize P + 1] 0 0
      rw [hlens] at e2
      simp only [Nat.add_zero] at e1 e2
      rw [er, e1, e2]
      simp
  · intro j hj
    show m3.header.getD j 0 = 0
    have hj' : a.row_start.foldl (fun _ s => s) 0 + a.row_size.foldl (fun _ s => s) 0 +
        (getSize P + 1) ≤ j := by
      have : (a.row_start ++ [a.row_start.foldl (fun _ s => s) 0 +
          a.row_size.foldl (fun _ s => s) 0]).foldl (fun _ s => s) 0 +
          (a.row_size ++ [getSize P + 1]).foldl (fun _ s => s) 0 ≤ j := hj
      rw [hnext] at this
      exact this
    rw [hhdr j (by omega)]
    rcases c4 j with h | ⟨_, h, _⟩
    · rw [h]
      exact inv.fresh j (by omega)
    · omega
  · intro r i hi
    have hi' : i + 1 < (a.row_size ++ [getSize P + 1]).getD r 0 := hi
    dsimp only
    rw [l3', c2]
    rcases Nat.lt_trichotomy r a.row_start.length with hlt | er | hgt
    · rw [getD_append_lt _ _ _ _ (by omega)] at hi'
      rw [getD_append_lt _ _ _ _ hlt]
      have hb := inv.below r hlt
      rw [hhdr _ (by omega)]
      rcases c4 (a.row_start.getD r 0 + i) with h | ⟨h, _⟩
      · rw [h]
        exact inv.cells r i hi'
      · omega
    · have e1 := getD_append_ge a.row_start [a.row_start.foldl (fun _ s => s) 0 +
        a.row_size.foldl (fun _ s => s) 0] 0 0
      have e2 := getD_append_ge a.row_size [getSize P + 1] 0 0
      rw [hlens] at e2
      simp only [Nat.add_zero, List.getD_cons_zero] at e1 e2
      rw [er, e2] at hi'
      rw [er, e1]
      rw [hhdr _ (by omega)]
      rcases c4 (a.row_start.foldl (fun _ s => s) 0 + a.row_size.foldl (fun _ s => s) 0 + i)
        with h | ⟨_, _, h1, h2⟩
      · rw [h, inv.fresh _ (by omega)]
        have c3' := c3 (by omega)
        exact ⟨by simpa using c3'.1, c3'.2⟩
      · exact ⟨inv.width ▸ h1, h2⟩
    · rw [getD_append_far _ _ _ (by omega)] at hi'
      omega
  · intro c hc
    show m3.matrix_column.getD c 0 = c
    have hc' : c < m3.array_width := hc
    rw [l3', c2] at hc'
    rw [l2', c1]
    exact inv.mcol c hc'
  · intro c
    show m3.matrix_column.getD c 0 ≤ 2147483647
    rw [l2', c1]
    exact inv.mcol_le c

theorem polyomino_fold_error (polyomino_list : List polyomino) (er : Err) :
    ∀ todo : List (Nat × Nat × Nat × Nat),
      todo.foldl (fun r pl =>
        match r with
        | Except.error e => Except.error e
        | Except.ok a => polyomino_row polyomino_list a pl) (Except.error er) =
        Except.error er
  | [] => rfl
  | _ :: rest => by
    rw [List.foldl_cons]
    exact polyomino_fold_error polyomino_list er rest

theorem polyomino_fold_frame {polyomino_list : List polyomino} {b : Nat} :
    ∀ (todo : List (Nat × Nat × Nat × Nat)) (a a2 : polyomino_adapter), PolyFrame b a →
      todo.foldl (fun r pl =>
        match r with
        | Except.error e => Except.error e
        | Except.ok a => polyomino_row polyomino_list a pl) (Except.ok a) = Except.ok a2 →
      PolyFrame b a2
  | [], a, a2, inv, e => by
    simp only [List.foldl_nil, Except.ok.injEq] at e
    exact e ▸ inv
  | pl :: rest, a, a2, inv, e => by
    rw [List.foldl_cons] at e
    simp only [] at e
    rcases hr : polyomino_row polyomino_list a pl with er | a1
    · rw [hr, polyomino_fold_error] at e
      cases e
    · rw [hr] at e
      exact polyomino_fold_frame rest a1 a2 (polyomino_row_frame inv hr) e

/-- Every object the constructor of `dlx_matrix_polyomino` returns has the
frame, whatever the pieces and the board width. -/
theorem polyomino_generate_frame {polyomino_list : List polyomino} {b : Nat}
    {a : polyomino_adapter} (e : dlx_matrix_polyomino polyomino_list b = Except.ok a) :
    PolyFrame b a := by
  unfold dlx_matrix_polyomino at e
  split at e
  · cases e
  have hW : (int_wrap (int_wrap ((b : Int) * b) + (polyomino_list.length : Int))).toNat ≤
      2147483647 := by
    have hle := int_wrap_le (int_wrap ((b : Int) * b) + (polyomino_list.length : Int))
    generalize int_wrap (int_wrap ((b : Int) * b) + (polyomino_list.length : Int)) = x at hle
    omega
  generalize (int_wrap (int_wrap ((b : Int) * b) + (polyomino_list.length : Int))).toNat = W
    at e hW
  refine polyomino_fold_frame _ _ a ?_ e
  constructor
  · rfl
  · rfl
  · intro r hr
    exact absurd hr (Nat.not_lt_zero r)
  · intro j _
    exact Vec.getD_replicate _ _ _
  · intro r i hi
    exact absurd hi (Nat.not_lt_zero _)
  · intro c hc
    dsimp only
    simp only [Vec.set_nat_eq]
    exact Vec.foldl_set_getD (fun i => i) 0 W _ (fun i hi => Vec.inb_replicate _ 0 i hi) c hc
  · intro c
    dsimp only
    simp only [Vec.set_nat_eq]
    by_cases hc : c < W
    · rw [Vec.foldl_set_getD (fun i => i) 0 W _ (fun i hi => Vec.inb_replicate _ 0 i hi) c hc]
      omega
    · rw [Vec.foldl_set_getD_ge (fun i => i) 0 W _ c (by omega), Vec.getD_replicate]
      exact Nat.zero_le _

/-! ## Save settings -/

theorem record_solution_core {β : Type} (i : dlx_matrix → List (Nat × Nat) → β)
    (s : dlx_save_setting) (st : solve_state β) :
    (record_solution i s st).core = (st.m, st.backtrack_stack, st.solution_count + 1) := rfl

/-- The body of the loop acts on mesh, stack and count in the same way
whatever is saved. -/
theorem solve_body_core {β γ : Type} (i1 : dlx_matrix → List (Nat × Nat) → β)
    (i2 : dlx_matrix → List (Nat × Nat) → γ) (fuel0 : Nat) (s1 s2 : dlx_save_setting)
    (a : solve_state β) (b : solve_state γ) (h : a.core = b.core) :
    (∃ e, solve_body i1 fuel0 s1 a = Except.error e ∧ solve_body i2 fuel0 s2 b = Except.error e) ∨
    (∃ f a1 b1, solve_body i1 fuel0 s1 a = Except.ok (f, a1) ∧
      solve_body i2 fuel0 s2 b = Except.ok (f, b1) ∧ a1.core = b1.core) := by
  obtain ⟨m, stk, sa, c⟩ := a
  obtain ⟨m', stk', sb, c'⟩ := b
  simp only [solve_state.core, Prod.mk.injEq] at h
  obtain ⟨rfl, rfl, rfl⟩ := h
  unfold solve_body
  simp only
  by_cases ht : terminal_check m = true
  · simp only [ht, if_true]
    by_cases he : tree_empty m = true
    · simp only [he, if_true, record_solution]
      rcases hb : backtrack_loop fuel0 m stk with e | ⟨m2, _ | ⟨⟨H, nd⟩, rest⟩⟩
      · exact Or.inl ⟨e, rfl, rfl⟩
      · refine Or.inr ?_
        by_cases h1 : c + 1 < 1
        · simp only [h1, if_true]; exact ⟨_, _, _, rfl, rfl, rfl⟩
        · simp only [h1, if_false]; exact ⟨_, _, _, rfl, rfl, rfl⟩
      · simp only
        rcases restore_row fuel0 m2 nd with e | m3
        · exact Or.inl ⟨e, rfl, rfl⟩
        simp only
        rcases restore_column fuel0 m3 nd with e | m4
        · exact Or.inl ⟨e, rfl, rfl⟩
        simp only
        rcases remove_column fuel0 m4 (m2.down.getD nd 0) with e | m5
        · exact Or.inl ⟨e, rfl, rfl⟩
        simp only
        rcases remove_row fuel0 m5 (m2.down.getD nd 0) with e | m6
        · exact Or.inl ⟨e, rfl, rfl⟩
        exact Or.inr ⟨_, _, _, rfl, rfl, rfl⟩
    · have he' : tree_empty m = false := by simpa using he
      simp only [he', Bool.false_eq_true, if_false]
      rcases hb : backtrack_loop fuel0 m stk with e | ⟨m2, _ | ⟨⟨H, nd⟩, rest⟩⟩
      · exact Or.inl ⟨e, rfl, rfl⟩
      · refine Or.inr ?_
        by_cases h1 : c < 1
        · simp only [h1, if_true]; exact ⟨_, _, _, rfl, rfl, rfl⟩
        · simp only [h1, if_false]; exact ⟨_, _, _, rfl, rfl, rfl⟩
      · simp only
        rcases restore_row fuel0 m2 nd with e | m3
        · exact Or.inl ⟨e, rfl, rfl⟩
        simp only
        rcases restore_column fuel0 m3 nd with e | m4
        · exact Or.inl ⟨e, rfl, rfl⟩
        simp only
        rcases remove_column fuel0 m4 (m2.down.getD nd 0) with e | m5
        · exact Or.inl ⟨e, rfl, rfl⟩
        simp only
        rcases remove_row fuel0 m5 (m2.down.getD nd 0) with e | m6
        · exact Or.inl ⟨e, rfl, rfl⟩
        exact Or.inr ⟨_, _, _, rfl, rfl, rfl⟩
  · have ht' : terminal_check m = false := by simpa using ht
    simp only [ht', Bool.false_eq_true, if_false]
    rcases tree_begin m with _ | H
    · exact Or.inl ⟨_, rfl, rfl⟩
    simp only
    rcases m.top.getD H Option.none with _ | nd
    · exact Or.inl ⟨_, rfl, rfl⟩
    simp only
    rcases remove_column fuel0 (header_tree_erase m H) nd with e | m2
    · exact Or.inl ⟨e, rfl, rfl⟩
    simp only
    rcases remove_row fuel0 m2 nd with e | m3
    · exact Or.inl ⟨e, rfl, rfl⟩
    exact Or.inr ⟨_, _, _, rfl, rfl, rfl⟩

/-- What the body of the loop does to `solutions` and `solution_count`: the
solution is recorded when the index is empty, and then either the stack
empties and the body returns, or one move is recorded. -/
theorem solve_body_shape {β : Type} (i : dlx_matrix → List (Nat × Nat) → β) (fuel0 : Nat)
    (s : dlx_save_setting) (st : solve_state β) (f : Bool) (st1 : solve_state β)
    (h : solve_body i fuel0 s st = Except.ok (f, st1)) :
    ∃ st', (st' = st ∨ (terminal_check st.m = true ∧ tree_empty st.m = true ∧
        st' = record_solution i s st)) ∧
      st1.solution_count = st'.solution_count ∧
      ((f = true ∧ st1.backtrack_stack = [] ∧ terminal_check st.m = true ∧
          st1.solutions = if st'.solution_count < 1 then [] else st'.solutions) ∨
        (f = false ∧
          st1.solutions = record_move i s st'.solutions st1.m st1.backtrack_stack)) := by
  unfold solve_body at h
  by_cases ht : terminal_check st.m = true
  · simp only [ht, if_true] at h
    refine ⟨if tree_empty st.m then record_solution i s st else st, ?_, ?_⟩
    · by_cases he : tree_empty st.m = true
      · exact Or.inr ⟨ht, he, by simp [he]⟩
      · exact Or.inl (by simp [he])
    generalize (if tree_empty st.m then record_solution i s st else st) = st' at h
    rcases hb : backtrack_loop fuel0 st'.m st'.backtrack_stack with e | ⟨m2, _ | ⟨⟨H, nd⟩, rest⟩⟩
    · simp [hb] at h
    · simp only [hb] at h
      by_cases h1 : st'.solution_count < 1
      · simp only [h1, if_true, Except.ok.injEq, Prod.mk.injEq] at h
        obtain ⟨rfl, rfl⟩ := h
        exact ⟨rfl, Or.inl ⟨rfl, rfl, ht, by simp [h1]⟩⟩
      · simp only [h1, if_false, Except.ok.injEq, Prod.mk.injEq] at h
        obtain ⟨rfl, rfl⟩ := h
        exact ⟨rfl, Or.inl ⟨rfl, rfl, ht, by simp [h1]⟩⟩
    · simp only [hb] at h
      rcases h3 : restore_row fuel0 m2 nd with e | m3
      · simp [h3] at h
      simp only [h3] at h
      rcases h4 : restore_column fuel0 m3 nd with e | m4
      · simp [h4] at h
      simp only [h4] at h
      rcases h5 : remove_column fuel0 m4 (m2.down.getD nd 0) with e | m5
      · simp [h5] at h
      simp only [h5] at h
      rcases h6 : remove_row fuel0 m5 (m2.down.getD nd 0) with e | m6
      · simp [h6] at h
      simp only [h6, Except.ok.injEq, Prod.mk.injEq] at h
      obtain ⟨rfl, rfl⟩ := h
      exact ⟨rfl, Or.inr ⟨rfl, rfl⟩⟩
  · have ht' : terminal_check st.m = false := by simpa using ht
    simp only [ht', Bool.false_eq_true, if_false] at h
    refine ⟨st, Or.inl rfl, ?_⟩
    rcases hb : tree_begin st.m with _ | H
    · simp [hb] at h
    simp only [hb] at h
    rcases htop : st.m.top.getD H Option.none with _ | nd
    · simp [htop] at h
    simp only [htop] at h
    rcases h5 : remove_column fuel0 (header_tree_erase st.m H) nd with e | m5
    · simp [h5] at h
    simp only [h5] at h
    rcases h6 : remove_row fuel0 m5 nd with e | m6
    · simp [h6] at h
    simp only [h6, Except.ok.injEq, Prod.mk.injEq] at h
    obtain ⟨rfl, rfl⟩ := h
    exact ⟨rfl, Or.inr ⟨rfl, rfl⟩⟩

theorem solve_loop_core {β γ : Type} (i1 : dlx_matrix → List (Nat × Nat) → β)
    (i2 : dlx_matrix → List (Nat × Nat) → γ) (fuel0 : Nat) (cap : Int)
    (s1 s2 : dlx_save_setting) :
    ∀ (fuel : Nat) (a : solve_state β) (b : solve_state γ), a.core = b.core →
      (∃ e, solve_loop i1 fuel0 cap s1 fuel a = Except.error e ∧
        solve_loop i2 fuel0 cap s2 fuel b = Except.error e) ∨
      (∃ a1 b1, solve_loop i1 fuel0 cap s1 fuel a = Except.ok a1 ∧
        solve_loop i2 fuel0 cap s2 fuel b = Except.ok b1 ∧ a1.core = b1.core)
  | 0, _, _, _ => Or.inl ⟨_, rfl, rfl⟩
  | fuel + 1, a, b, h => by
    have hc : a.solution_count = b.solution_count := by
      simp only [solve_state.core, Prod.mk.injEq] at h
      exact h.2.2
    rw [solve_loop, solve_loop, ← hc]
    by_cases hcap : a.solution_count < cap
    · simp only [hcap, if_true]
      rcases solve_body_core i1 i2 fuel0 s1 s2 a b h with ⟨e, e1, e2⟩ | ⟨f, a1, b1, e1, e2, h1⟩
      · rw [e1, e2]; exact Or.inl ⟨e, rfl, rfl⟩
      · rw [e1, e2]
        cases f
        · exact solve_loop_core i1 i2 fuel0 cap s1 s2 fuel a1 b1 h1
        · exact Or.inr ⟨a1, b1, rfl, rfl, h1⟩
    · simp only [hcap, if_false]
      exact Or.inr ⟨a, b, rfl, rfl, h⟩

/-- In `solutions` mode one pass of the body keeps `solutions.size()` equal to
`solution_count`, adds at most one solution, and keeps the solutions found so
far at the front of the vector. -/
theorem solve_body_solutions {β : Type} (i : dlx_matrix → List (Nat × Nat) → β) (fuel0 : Nat)
    (st : solve_state β) (f : Bool) (st1 : solve_state β)
    (h : solve_body i fuel0 dlx_save_setting.solutions st = Except.ok (f, st1))
    (hinv : (st.solutions.length : Int) = st.solution_count) :
    (st1.solutions.length : Int) = st1.solution_count ∧
      st.solution_count ≤ st1.solution_count ∧ st1.solution_count ≤ st.solution_count + 1 ∧
      (∃ l, st1.solutions = st.solutions ++ l) := by
  obtain ⟨st', hst', hcount, hsol⟩ := solve_body_shape i fuel0 _ st f st1 h
  have h' : (st'.solutions.length : Int) = st'.solution_count ∧
      st.solution_count ≤ st'.solution_count ∧ st'.solution_count ≤ st.solution_count + 1 ∧
      ∃ l, st'.solutions = st.solutions ++ l := by
    rcases hst' with rfl | ⟨_, _, rfl⟩
    · exact ⟨hinv, le_refl _, by omega, [], by simp⟩
    · refine ⟨?_, ?_, ?_, [i st.m st.backtrack_stack], rfl⟩
      · simp only [record_solution, List.length_append, List.length_singleton]
        push_cast
        omega
      · simp [record_solution]
      · simp [record_solution]
  obtain ⟨h1, h2, h3, l, h4⟩ := h'
  rcases hsol with ⟨_, _, _, hs⟩ | ⟨_, hs⟩
  · by_cases hz : st'.solution_count < 1
    · rw [if_pos hz] at hs
      have hl : st'.solutions.length = 0 := by omega
      have hl0 : st.solutions.length = 0 := by
        rw [h4, List.length_append] at hl
        omega
      refine ⟨by rw [hs, hcount]; simp; omega, by omega, by omega, [], ?_⟩
      rw [hs, List.length_eq_zero.mp hl0]
      rfl
    · rw [if_neg hz] at hs
      exact ⟨by rw [hs, hcount]; exact h1, by omega, by omega, l, by rw [hs, h4]⟩
  · have hs' : st1.solutions = st'.solutions := by
      rw [hs]
      simp [record_move]
    exact ⟨by rw [hs', hcount]; exact h1, by omega, by omega, l, by rw [hs', h4]⟩

theorem solve_loop_solutions {β : Type} (i : dlx_matrix → List (Nat × Nat) → β) (fuel0 : Nat)
    (cap : Int) :
    ∀ (fuel : Nat) (st st1 : solve_state β),
      solve_loop i fuel0 cap dlx_save_setting.solutions fuel st = Except.ok st1 →
      (st.solutions.length : Int) = st.solution_count →
      (st1.solutions.length : Int) = st1.solution_count ∧
        st.solution_count ≤ st1.solution_count ∧
        (st.solution_count ≤ cap → st1.solution_count ≤ cap) ∧
        (∃ l, st1.solutions = st.solutions ++ l)
  | 0, _, _, h, _ => by simp [solve_loop] at h
  | fuel + 1, st, st1, h, hinv => by
    rw [solve_loop] at h
    by_cases hcap : st.solution_count < cap
    · simp only [hcap, if_true] at h
      rcases hb : solve_body i fuel0 dlx_save_setting.solutions st with e | ⟨f, st2⟩
      · simp [hb] at h
      obtain ⟨h1, h2, h3, l, h4⟩ := solve_body_solutions i fuel0 st f st2 hb hinv
      cases f
      · simp only [hb] at h
        obtain ⟨g1, g2, g3, l', g4⟩ := solve_loop_solutions i fuel0 cap fuel st2 st1 h h1
        exact ⟨g1, by omega, fun _ => g3 (by omega), l ++ l', by rw [g4, h4, List.append_assoc]⟩
      · simp only [hb, Except.ok.injEq] at h
        subst h
        exact ⟨h1, h2, fun _ => by omega, l, h4⟩
    · simp only [hcap, if_false, Except.ok.injEq] at h
      subst h
      exact ⟨hinv, le_refl _, fun h => h, [], by simp⟩

theorem solve_loop_exhausted {β : Type} (i : dlx_matrix → List (Nat × Nat) → β) (fuel0 : Nat)
    (cap : Int) (s : dlx_save_setting) :
    ∀ (fuel : Nat) (st st1 : solve_state β),
      solve_loop i fuel0 cap s fuel st = Except.ok st1 →
      st1.solution_count < cap → st1.backtrack_stack = []
  | 0, _, _, h, _ => by simp [solve_loop] at h
  | fuel + 1, st, st1, h, hlt => by
    rw [solve_loop] at h
    by_cases hcap : st.solution_count < cap
    · simp only [hcap, if_true] at h
      rcases hb : solve_body i fuel0 s st with e | ⟨f, st2⟩
      · simp [hb] at h
      cases f
      · simp only [hb] at h
        exact solve_loop_exhausted i fuel0 cap s fuel st2 st1 h hlt
      · simp only [hb, Except.ok.injEq] at h
        subst h
        obtain ⟨_, _, _, hs⟩ := solve_body_shape i fuel0 s st true st2 hb
        rcases hs with ⟨_, h2, _⟩ | ⟨h2, _⟩
        · exact h2
        · simp at h2
    · simp only [hcap, if_false, Except.ok.injEq] at h
      subst h
      exact absurd hlt hcap

theorem solve_loop_cap {β : Type} (i : dlx_matrix → List (Nat × Nat) → β) (fuel0 : Nat)
    (K M : Int) (hK : 1 ≤ K) (hKM : K ≤ M) :
    ∀ (fuel : Nat) (st b : solve_state β),
      solve_loop i fuel0 M dlx_save_setting.solutions fuel st = Except.ok b →
      (st.solutions.length : Int) = st.solution_count → st.solution_count ≤ K →
      ∃ a, solve_loop i fuel0 K dlx_save_setting.solutions fuel st = Except.ok a ∧
        a.solutions = b.solutions.take K.toNat
  | 0, _, _, h, _, _ => by simp [solve_loop] at h
  | fuel + 1, st, b, h, hinv, hle => by
    by_cases hcap : st.solution_count < K
    · have hcapM : st.solution_count < M := by omega
      rw [solve_loop] at h ⊢
      simp only [hcap, hcapM, if_true] at h ⊢
      rcases hb : solve_body i fuel0 dlx_save_setting.solutions st with e | ⟨f, st2⟩
      · simp [hb] at h
      obtain ⟨h1, h2, h3, l, h4⟩ := solve_body_solutions i fuel0 st f st2 hb hinv
      cases f
      · simp only [hb] at h ⊢
        exact solve_loop_cap i fuel0 K M hK hKM fuel st2 b h h1 (by omega)
      · simp only [hb, Except.ok.injEq] at h ⊢
        subst h
        refine ⟨st2, rfl, ?_⟩
        rw [List.take_of_length_le]
        omega
    · refine ⟨st, by rw [solve_loop]; simp [hcap], ?_⟩
      obtain ⟨_, _, _, l, h4⟩ := solve_loop_solutions i fuel0 M (fuel + 1) st b h hinv
      rw [h4, List.take_left']
      omega

theorem returned_eq_some {β : Type} {r : Except Err (solve_state β)} {l : List β}
    (h : returned r = some l) : ∃ st, r = Except.ok st ∧ st.solutions = l := by
  cases r with
  | error e => simp [returned] at h
  | ok st => exact ⟨st, rfl, by simpa [returned] using h⟩

/-- On a state of the search the body of the main loop never fails, and it
leads to a state of the search again. -/
theorem solve_body_reach {β : Type} (i : dlx_matrix → List (Nat × Nat) → β)
    (s : dlx_save_setting) {N fuel0 : Nat} {m0 : dlx_matrix} {cov0 : Nat → Prop}
    (hf : N < fuel0) (h0 : ∃ hid, Cons m0 N hid cov0 Option.none) (st : solve_state β)
    {cov : Nat → Prop} (hR : Reach N fuel0 m0 cov0 st.backtrack_stack st.m cov) :
    ∃ f st1 cov1, solve_body i fuel0 s st = Except.ok (f, st1) ∧
      Reach N fuel0 m0 cov0 st1.backtrack_stack st1.m cov1 := by
  obtain ⟨hid, hC⟩ := hR.consistent hf h0
  unfold solve_body
  by_cases ht : terminal_check st.m = true
  · simp only [ht, if_true]
    have hm' : (if tree_empty st.m = true then record_solution i s st else st).m = st.m := by
      split_ifs <;> rfl
    have hs' : (if tree_empty st.m = true then record_solution i s st else st).backtrack_stack =
        st.backtrack_stack := by
      split_ifs <;> rfl
    generalize (if tree_empty st.m = true then record_solution i s st else st) = st' at hm' hs' ⊢
    rw [hm', hs']
    obtain ⟨m2, stack2, cov2, e, hR2, _, hstop⟩ := backtrack_loop_reach hf hR
    rw [e]
    cases hR2 with
    | base =>
      by_cases h1 : st'.solution_count < 1
      · simp only [h1, if_true]
        exact ⟨_, _, cov0, rfl, Reach.base⟩
      · simp only [h1, if_false]
        exact ⟨_, _, cov0, rfl, Reach.base⟩
    | push stack mp covp hidp nd m1 m cov hRp hCp hnd hh hc hm e1 e2 hcov =>
      obtain ⟨_, _, hrr, hrc⟩ := cover_row_facts hCp hnd hh hc hf e1 e2 hcov
      obtain ⟨hdown, _, hcur⟩ := cover_row_column_stable hCp hnd hh hc hf e1 e2 hcov
      simp only
      rw [hrr]
      simp only
      rw [hrc]
      simp only
      rw [hdown]
      obtain ⟨m5, m6, hid6, cov6, e5, e6, hC6, f6, _, hcov6, _⟩ :=
        cover_row_spec hCp hcur.1 hcur.2.2 (by rw [hcur.2.1]; exact hc) fuel0 hf
      rw [hcur.2.1] at e5
      rw [e5]
      simp only
      rw [e6]
      simp only
      refine ⟨_, _, cov6, rfl, ?_⟩
      have := Reach.push stack mp covp hidp (mp.down.getD nd 0) m5 m6 cov6 hRp hCp hcur.1
        hcur.2.2 (by rw [hcur.2.1]; exact hc) (by rw [hcur.2.1]; exact hm)
        (by rw [hcur.2.1]; exact e5) e6 hcov6
      rw [hcur.2.1] at this
      exact this
  · have ht' : terminal_check st.m = false := by simpa using ht
    simp only [ht', Bool.false_eq_true, if_false]
    obtain ⟨H, hb, hcount⟩ := terminal_check_false ht'
    obtain ⟨hHW, hbit⟩ := tree_begin_some hb
    have hHm : H < st.m.optional_constraint_start_column := by
      rcases Nat.lt_or_ge H st.m.optional_constraint_start_column with a | a
      · exact a
      · have := hC.tree.only_mand H hHW a
        rw [hbit] at this
        cases this
    have hncov : ¬ cov H := (hC.tree.mand H hHW hHm).mp hbit
    have hcol := hC.col.col H hHW
    rw [hb]
    simp only
    rcases htop : st.m.top.getD H Option.none with _ | nd
    · exfalso
      have hempty := hcol.top_none htop
      have : Set.ncard {x | col_set st.m N hid H x} = 0 := by
        have : {x | col_set st.m N hid H x} = ∅ := by
          ext x
          simp only [Set.mem_setOf_eq, Set.mem_empty_iff_false, iff_false]
          exact hempty x
        rw [this, Set.ncard_empty]
      have := hcol.count_eq
      omega
    · simp only
      obtain ⟨hndS, _⟩ := hcol.top_some nd htop
      obtain ⟨m5, m6, hid6, cov6, e5, e6, hC6, f6, _, hcov6, _⟩ :=
        cover_row_spec hC hndS.1 hndS.2.2 (by rw [hndS.2.1]; exact hncov) fuel0 hf
      rw [hndS.2.1] at e5
      rw [e5]
      simp only
      rw [e6]
      simp only
      refine ⟨_, _, cov6, rfl, ?_⟩
      have := Reach.push st.backtrack_stack st.m cov hid nd m5 m6 cov6 hR hC hndS.1
        hndS.2.2 (by rw [hndS.2.1]; exact hncov) (by rw [hndS.2.1]; exact hHm)
        (by rw [hndS.2.1]; exact e5) e6 hcov6
      rw [hndS.2.1] at this
      exact this

theorem solve_body_sound {β : Type} (i : dlx_matrix → List (Nat × Nat) → β)
    {N fuel0 : Nat} {m0 : dlx_matrix} {cov0 : Nat → Prop}
    (hf : N < fuel0) (h0 : ∃ hid, Cons m0 N hid cov0 Option.none) (st : solve_state β)
    {cov : Nat → Prop} (hR : Reach N fuel0 m0 cov0 st.backtrack_stack st.m cov)
    (hsol : ∀ o, o ∈ st.solutions → SolOut i N fuel0 m0 cov0 o) (f : Bool)
    (st1 : solve_state β)
    (h : solve_body i fuel0 dlx_save_setting.solutions st = Except.ok (f, st1)) :
    ∀ o, o ∈ st1.solutions → SolOut i N fuel0 m0 cov0 o := by
  obtain ⟨hid, hC⟩ := hR.consistent hf h0
  obtain ⟨st', hst', _, hs⟩ := solve_body_shape i fuel0 _ st f st1 h
  have h' : ∀ o, o ∈ st'.solutions → SolOut i N fuel0 m0 cov0 o := by
    rcases hst' with rfl | ⟨_, he, rfl⟩
    · exact hsol
    · intro o ho
      simp only [record_solution, List.mem_append, List.mem_singleton] at ho
      rcases ho with ho | rfl
      · exact hsol o ho
      · refine ⟨st.m, st.backtrack_stack, cov, hR, fun c hc hm => ?_, rfl⟩
        by_contra hn
        have := (hC.tree.mand c hc hm).mpr hn
        rw [(tree_empty_iff st.m).mp he c hc] at this
        cases this
  rcases hs with ⟨_, _, _, hs⟩ | ⟨_, hs⟩
  · intro o ho
    rw [hs] at ho
    split_ifs at ho
    · simp at ho
    · exact h' o ho
  · intro o ho
    rw [hs] at ho
    simp only [record_move] at ho
    exact h' o (by simpa using ho)

/-- Every output `solve` holds in `solutions` mode when its loop returns comes
from a state of the search with all mandatory columns covered; the state the
loop returns in is a state of the search. -/
theorem solve_loop_sound {β : Type} (i : dlx_matrix → List (Nat × Nat) → β)
    {N fuel0 : Nat} {m0 : dlx_matrix} {cov0 : Nat → Prop} (cap : Int)
    (hf : N < fuel0) (h0 : ∃ hid, Cons m0 N hid cov0 Option.none) :
    ∀ (fuel : Nat) (st st1 : solve_state β) (cov : Nat → Prop),
      Reach N fuel0 m0 cov0 st.backtrack_stack st.m cov →
      (∀ o, o ∈ st.solutions → SolOut i N fuel0 m0 cov0 o) →
      solve_loop i fuel0 cap dlx_save_setting.solutions fuel st = Except.ok st1 →
      (∀ o, o ∈ st1.solutions → SolOut i N fuel0 m0 cov0 o) ∧
        ∃ cov1, Reach N fuel0 m0 cov0 st1.backtrack_stack st1.m cov1
  | 0, _, _, _, _, _, h => by simp [solve_loop] at h
  | fuel + 1, st, st1, cov, hR, hsol, h => by
    rw [solve_loop] at h
    by_cases hcap : st.solution_count < cap
    · simp only [hcap, if_true] at h
      obtain ⟨f, st2, cov2, hb, hR2⟩ := solve_body_reach i dlx_save_setting.solutions hf h0 st hR
      have hsol2 := solve_body_sound i hf h0 st hR hsol f st2 hb
      rw [hb] at h
      cases f
      · exact solve_loop_sound i cap hf h0 fuel st2 st1 cov2 hR2 hsol2 h
      · simp only [Except.ok.injEq] at h
        subst h
        exact ⟨hsol2, cov2, hR2⟩
    · simp only [hcap, if_false, Except.ok.injEq] at h
      subst h
      exact ⟨hsol, cov, hR⟩

theorem Reach.frame {N fuel0 : Nat} {m0 : dlx_matrix} {cov0 : Nat → Prop}
    {stack : List (Nat × Nat)} {m : dlx_matrix} {cov : Nat → Prop} (hf : N < fuel0)
    (h : Reach N fuel0 m0 cov0 stack m cov) : SameFrame m0 m := by
  induction h with
  | base => exact SameFrame.refl m0
  | push stack mp covp hidp nd m1 m cov hR hC hnd hh hc hm e1 e2 hcov ih =>
    obtain ⟨_, f, _, _⟩ := cover_row_facts hC hnd hh hc hf e1 e2 hcov
    exact ih.trans f

/-- The rows on the stack of a state of the search are pairwise disjoint,
avoid the columns covered at the start, and the covered columns are those
covered at the start together with the columns of the rows on the stack. -/
theorem Reach.rows {N fuel0 : Nat} {m0 : dlx_matrix} {cov0 : Nat → Prop}
    {stack : List (Nat × Nat)} {m : dlx_matrix} {cov : Nat → Prop} (hf : N < fuel0)
    (h : Reach N fuel0 m0 cov0 stack m cov) :
    (∀ c, cov c ↔ (cov0 c ∨ ∃ e, e ∈ stack ∧
      row_touches m0 N (m0.matrix_row.getD e.2 0) c)) ∧
    (stack.map (fun e => m0.matrix_row.getD e.2 0)).Pairwise
      (fun a b => ∀ c, ¬ (row_touches m0 N a c ∧ row_touches m0 N b c)) ∧
    (∀ e, e ∈ stack → ∀ c, row_touches m0 N (m0.matrix_row.getD e.2 0) c → ¬ cov0 c) ∧
    (∀ e, e ∈ stack → e.2 < N) := by
  induction h with
  | base => exact ⟨fun c => by simp, by simp, fun e he => by simp at he,
      fun e he => by simp at he⟩
  | push stack mp covp hidp nd m1 m cov hR hC hnd hh hc hm e1 e2 hcov ih =>
    obtain ⟨ih1, ih2, ih3, ih4⟩ := ih
    have f := hR.frame hf
    have hrow : ∀ c, (∃ p, row_set mp N nd p ∧ mp.header.getD p 0 = c) ↔
        row_touches m0 N (m0.matrix_row.getD nd 0) c := by
      intro c
      unfold row_set row_touches
      rw [f.matrix_row, f.header]
      constructor
      · rintro ⟨p, ⟨a, b⟩, d⟩
        exact ⟨p, a, b, d⟩
      · rintro ⟨p, a, b, d⟩
        exact ⟨p, ⟨a, b⟩, d⟩
    have hfree : ∀ c, row_touches m0 N (m0.matrix_row.getD nd 0) c → ¬ covp c := by
      intro c hc'
      obtain ⟨p, hp, rfl⟩ := (hrow c).mpr hc'
      exact (hC.available hnd hh hc p hp).2
    refine ⟨fun c => ?_, ?_, ?_, ?_⟩
    · rw [hcov c, ih1 c, hrow c]
      constructor
      · rintro ((a | ⟨e, he, a⟩) | a)
        · exact Or.inl a
        · exact Or.inr ⟨e, List.mem_cons_of_mem _ he, a⟩
        · exact Or.inr ⟨_, List.mem_cons_self _ _, a⟩
      · rintro (a | ⟨e, he, a⟩)
        · exact Or.inl (Or.inl a)
        · rcases List.mem_cons.mp he with rfl | he
          · exact Or.inr a
          · exact Or.inl (Or.inr ⟨e, he, a⟩)
    · rw [List.map_cons, List.pairwise_cons]
      refine ⟨fun b hb c hbc => ?_, ih2⟩
      obtain ⟨e, he, rfl⟩ := List.mem_map.mp hb
      exact hfree c hbc.1 ((ih1 c).mpr (Or.inr ⟨e, he, hbc.2⟩))
    · intro e he c hc' h0
      rcases List.mem_cons.mp he with rfl | he
      · exact hfree c hc' ((ih1 c).mpr (Or.inl h0))
      · exact ih3 e he c hc' h0
    · intro e he
      rcases List.mem_cons.mp he with rfl | he
      · exact hnd
      · exact ih4 e he

theorem SolOut.exact_cover {β : Type} {i : dlx_matrix → List (Nat × Nat) → β}
    {N fuel0 : Nat} {m0 : dlx_matrix} {cov0 : Nat → Prop} {o : β} (hf : N < fuel0)
    (h : SolOut i N fuel0 m0 cov0 o) (pre : List Nat)
    (hpre : pre.Pairwise (fun a b => ∀ c, ¬ (row_touches m0 N a c ∧ row_touches m0 N b c)))
    (hcov0 : ∀ c, cov0 c ↔ ∃ r, r ∈ pre ∧ row_touches m0 N r c) :
    ∃ m stack, SameFrame m0 m ∧ o = i m stack ∧
      ExactCover m0 N (pre ++ stack.map (fun e => m0.matrix_row.getD e.2 0)) ∧
      ∀ e, e ∈ stack → e.2 < N := by
  obtain ⟨m, stack, cov, hR, hall, rfl⟩ := h
  obtain ⟨h1, h2, h3, h4⟩ := hR.rows hf
  have f := hR.frame hf
  refine ⟨m, stack, f, rfl, ⟨?_, ?_⟩, h4⟩
  · rw [List.pairwise_append]
    refine ⟨hpre, h2, fun a ha b hb c hc => ?_⟩
    obtain ⟨e, he, rfl⟩ := List.mem_map.mp hb
    exact h3 e he c hc.2 ((hcov0 c).mpr ⟨a, ha, hc.1⟩)
  · intro c hc hm
    rcases (h1 c).mp (hall c (by rw [f.array_width]; exact hc)
        (by rw [f.optional_start]; exact hm)) with a | ⟨e, he, a⟩
    · obtain ⟨r, hr, hr'⟩ := (hcov0 c).mp a
      exact ⟨r, List.mem_append_left _ hr, hr'⟩
    · exact ⟨_, List.mem_append_right _ (List.mem_map.mpr ⟨e, he, rfl⟩), a⟩

theorem row_touches_frame {a b : dlx_matrix} (f : SameFrame a b) (N r c : Nat) :
    row_touches b N r c ↔ row_touches a N r c := by
  unfold row_touches
  rw [f.matrix_row, f.header]

theorem ExactCover.transfer_frame {a b : dlx_matrix} (f : SameFrame a b) {N : Nat} {rows : List Nat}
    (h : ExactCover b N rows) : ExactCover a N rows := by
  constructor
  · exact h.disjoint.imp (fun hab c hc => hab c
      ⟨(row_touches_frame f N _ c).mpr hc.1, (row_touches_frame f N _ c).mpr hc.2⟩)
  · intro c hc hm
    obtain ⟨r, hr, ht⟩ := h.mandatory c (by rw [f.array_width]; exact hc)
      (by rw [f.optional_start]; exact hm)
    exact ⟨r, hr, (row_touches_frame f N r c).mp ht⟩

/-- Every output of `solve` in `solutions` mode, started on a consistent mesh
`m1` left by `initialize`, is the interpretation of a choice stack whose rows
together with the rows `pre` covered by `initialize` form an exact cover. -/
theorem solve_loop_exact_cover {β : Type} (i : dlx_matrix → List (Nat × Nat) → β)
    {N fuel : Nat} {m1 : dlx_matrix} {cov0 : Nat → Prop} (cap : Int) (hf : N < fuel)
    (h0 : ∃ hid, Cons m1 N hid cov0 Option.none) (pre : List Nat)
    (hpre : pre.Pairwise (fun a b => ∀ c, ¬ (row_touches m1 N a c ∧ row_touches m1 N b c)))
    (hcov0 : ∀ c, cov0 c ↔ ∃ r, r ∈ pre ∧ row_touches m1 N r c) (st : solve_state β)
    (h : solve_loop i fuel cap dlx_save_setting.solutions fuel
      { m := m1, backtrack_stack := [], solutions := [], solution_count := 0 } = Except.ok st) :
    ∀ o, o ∈ st.solutions → ∃ m stack, SameFrame m1 m ∧ o = i m stack ∧
      ExactCover m1 N (pre ++ stack.map (fun e => m1.matrix_row.getD e.2 0)) ∧
      ∀ e, e ∈ stack → e.2 < N := by
  intro o ho
  obtain ⟨hs, _⟩ := solve_loop_sound i cap hf h0 fuel _ st cov0 Reach.base
    (fun o ho => by simp at ho) h
  exact (hs o ho).exact_cover hf pre hpre hcov0

/-- Soundness of `solve` on a matrix built by `generate`: with an `initialize`
that leaves the mesh consistent with the rows `pre` covered, every returned
output is the interpretation of a stack whose rows form, with `pre`, an exact
cover. -/
theorem solve_sound {β : Type} (L W K : Nat) (gc : Nat → Int)
    (col : Nat → Nat → Int) (ocs : Nat)
    (initialize_fn : Nat → dlx_matrix → Except Err (Bool × dlx_matrix))
    (interpret_result : dlx_matrix → List (Nat × Nat) → β) (fuel : Nat) (max_solutions : Int)
    (pre : List Nat) (outs : List β)
    (hf : L * K < fuel)
    (hinit : ∀ m1, initialize_fn fuel (populate_trees (generate L W K gc col ocs)) =
        Except.ok (true, m1) →
      SameFrame (generate L W K gc col ocs) m1 ∧
      ∃ hid cov0, Cons m1 (L * K) hid cov0 Option.none ∧
        pre.Pairwise (fun a b => ∀ c, ¬ (row_touches (generate L W K gc col ocs) (L * K) a c ∧
          row_touches (generate L W K gc col ocs) (L * K) b c)) ∧
        ∀ c, cov0 c ↔ ∃ r, r ∈ pre ∧ row_touches (generate L W K gc col ocs) (L * K) r c)
    (h : returned (solve initialize_fn interpret_result fuel (generate L W K gc col ocs)
      max_solutions dlx_save_setting.solutions) = some outs) :
    ∀ o, o ∈ outs → ∃ m stack, SameFrame (generate L W K gc col ocs) m ∧
      o = interpret_result m stack ∧
      ExactCover (generate L W K gc col ocs) (L * K)
        (pre ++ stack.map (fun e => (generate L W K gc col ocs).matrix_row.getD e.2 0)) ∧
      ∀ e, e ∈ stack → e.2 < L * K := by
  obtain ⟨st, hst, rfl⟩ := returned_eq_some h
  unfold solve at hst
  simp only at hst
  by_cases hw : (generate L W K gc col ocs).array_width <
      (generate L W K gc col ocs).optional_constraint_start_column
  · simp [hw] at hst
  simp only [hw, if_false] at hst
  rcases hi : initialize_fn fuel (populate_trees (generate L W K gc col ocs)) with
    e | ⟨_ | _, m1⟩
  · simp [hi] at hst
  · simp only [hi, Except.ok.injEq] at hst
    subst hst
    intro o ho
    simp at ho
  · simp only [hi] at hst
    obtain ⟨f, hid, cov0, hC, hpre, hcov0⟩ := hinit m1 hi
    intro o ho
    obtain ⟨m, stack, f1, e, hec, hlt⟩ := solve_loop_exact_cover interpret_result _ hf ⟨hid, hC⟩ pre
      (hpre.imp (fun hab c hc => hab c
        ⟨(row_touches_frame f _ _ c).mp hc.1, (row_touches_frame f _ _ c).mp hc.2⟩))
      (fun c => (hcov0 c).trans ⟨fun ⟨r, a, b⟩ => ⟨r, a, (row_touches_frame f _ r c).mpr b⟩,
        fun ⟨r, a, b⟩ => ⟨r, a, (row_touches_frame f _ r c).mp b⟩⟩) st hst o ho
    refine ⟨m, stack, f.trans f1, e, ?_, hlt⟩
    rw [f.matrix_row] at hec
    exact hec.transfer_frame f


/-! ## The n-queens adapter -/

theorem initialize_n_queens_loop_skip (w fuel : Nat) (board : List (List Int)) :
    ∀ (positions : List (Nat × Nat)) (m : dlx_matrix),
      (∀ pos, pos ∈ positions → (board.getD pos.1 []).get? pos.2 = some 0) →
      initialize_n_queens_loop w fuel board positions m = Except.ok (true, m)
  | [], m, _ => rfl
  | (row, col) :: rest, m, h => by
    rw [initialize_n_queens_loop, h (row, col) (List.mem_cons_self _ _)]
    simp only [ne_eq, not_true_eq_false, if_false]
    exact initialize_n_queens_loop_skip w fuel board rest m
      (fun pos hp => h pos (List.mem_cons_of_mem _ hp))

theorem zero_board_positions (w : Nat) (pos : Nat × Nat)
    (h : pos ∈ board_positions (List.replicate w (List.replicate w (0 : Int)))) :
    pos.1 < w ∧ pos.2 < w := by
  unfold board_positions at h
  simp only [List.length_replicate, List.mem_flatMap, List.mem_range, List.mem_map] at h
  obtain ⟨row, hrow, col, hcol, rfl⟩ := h
  refine ⟨hrow, ?_⟩
  have : (List.replicate w (List.replicate w (0 : Int))).getD 0 [] = List.replicate w 0 := by
    cases w with
    | zero => simp at hrow
    | succ n => simp [List.replicate_succ]
  rw [this, List.length_replicate] at hcol
  exact hcol

theorem initialize_n_queens_zero (w fuel : Nat) (m : dlx_matrix) :
    initialize_n_queens w (List.replicate w (List.replicate w 0)) fuel m =
      Except.ok (true, m) := by
  unfold initialize_n_queens
  apply initialize_n_queens_loop_skip
  intro pos hp
  obtain ⟨h1, h2⟩ := zero_board_positions w pos hp
  simp [List.getD_eq_getElem?_getD, List.getElem?_replicate, h1, h2]

theorem board_set_dims (w : Nat) (b : List (List Int)) (i j : Nat) (v : Int)
    (h : board_dims w b) : board_dims w (board_set b i j v) := by
  obtain ⟨h1, h2⟩ := h
  unfold board_set
  refine ⟨by simp [h1], fun k hk => ?_⟩
  by_cases hik : i = k
  · subst hik
    have hi' : i < b.length := by omega
    have := h2 i hk
    simp only [List.getD_eq_getElem?_getD, List.getElem?_eq_getElem hi', Option.getD_some]
      at this
    simp [List.getD_eq_getElem?_getD, List.getElem?_set, hi', this]
  · have := h2 k hk
    simp [List.getD_eq_getElem?_getD, List.getElem?_set, hik] at this ⊢
    exact this

theorem board_set_cell (w : Nat) (b : List (List Int)) (i j : Nat) (v : Int)
    (h : board_dims w b) (hi : i < w) (hj : j < w) (i' j' : Nat) :
    cell (board_set b i j v) i' j' = if i = i' ∧ j = j' then v else cell b i' j' := by
  obtain ⟨h1, h2⟩ := h
  have hlen := h2 i hi
  unfold cell board_set
  by_cases hik : i = i'
  · subst hik
    simp only [List.getD_eq_getElem?_getD, List.getElem?_set, h1, hi, if_true, true_and,
      Option.getD_some] at hlen ⊢
    by_cases hjk : j = j'
    · subst hjk
      simp [hlen, hj]
    · simp [hjk]
  · simp [List.getD_eq_getElem?_getD, List.getElem?_set, hik]

theorem interpret_n_queens_loop_cell (w : Nat) (m : dlx_matrix) :
    ∀ (stack : List (Nat × Nat)) (b : List (List Int)), board_dims w b →
      (∀ e, e ∈ stack → m.matrix_row.getD e.2 0 < w * w) →
      board_dims w (interpret_result_n_queens_loop w m stack b) ∧
      ∀ i j, i < w → j < w →
        cell (interpret_result_n_queens_loop w m stack b) i j =
          if ∃ e, e ∈ stack ∧ m.matrix_row.getD e.2 0 / w = i ∧
              m.matrix_row.getD e.2 0 % w = j then 1
          else cell b i j
  | [], b, hb, _ => ⟨hb, fun i j _ _ => by simp [interpret_result_n_queens_loop]⟩
  | (H, nd) :: rest, b, hb, hr => by
    have hlt := hr (H, nd) (List.mem_cons_self _ _)
    have hw : 0 < w := by
      rcases Nat.eq_zero_or_pos w with h | h
      · rw [h] at hlt
        simp at hlt
      · exact h
    have h1 : m.matrix_row.getD nd 0 / w < w := Nat.div_lt_of_lt_mul hlt
    have h2 : m.matrix_row.getD nd 0 % w < w := Nat.mod_lt _ hw
    obtain ⟨d, c⟩ := interpret_n_queens_loop_cell w m rest
      (board_set b (m.matrix_row.getD nd 0 / w) (m.matrix_row.getD nd 0 % w) 1)
      (board_set_dims w b _ _ 1 hb) (fun e he => hr e (List.mem_cons_of_mem _ he))
    rw [interpret_result_n_queens_loop]
    refine ⟨d, fun i j hi hj => ?_⟩
    rw [c i j hi hj, board_set_cell w b _ _ 1 hb h1 h2]
    by_cases hrest : ∃ e, e ∈ rest ∧ m.matrix_row.getD e.2 0 / w = i ∧
        m.matrix_row.getD e.2 0 % w = j
    · rw [if_pos hrest, if_pos]
      obtain ⟨e, he, h⟩ := hrest
      exact ⟨e, List.mem_cons_of_mem _ he, h⟩
    · rw [if_neg hrest]
      by_cases hnd : m.matrix_row.getD nd 0 / w = i ∧ m.matrix_row.getD nd 0 % w = j
      · rw [if_pos hnd, if_pos]
        exact ⟨(H, nd), List.mem_cons_self _ _, hnd⟩
      · rw [if_neg hnd, if_neg]
        rintro ⟨e, he, h⟩
        rcases List.mem_cons.mp he with rfl | he
        · exact hnd h
        · exact hrest ⟨e, he, h⟩

theorem row_touches_generate {L W K : Nat} {col : Nat → Nat → Int} (hg : GenShape L W K col)
    (gc : Nat → Int) (ocs r c : Nat) :
    row_touches (generate L W K gc col ocs) (L * K) r c ↔ (r < L ∧ touches K col r c = true) := by
  have h := generate_inv gc ocs hg
  have hK := hg.K_pos
  have hdiv : ∀ p, p < L * K → p / K < L := fun p hp =>
    Nat.div_lt_of_lt_mul (by rw [Nat.mul_comm]; exact hp)
  rw [touches_iff]
  unfold row_touches
  constructor
  · rintro ⟨p, hp, e1, e2⟩
    rw [h.matrix_row p hp] at e1
    rw [h.header p hp] at e2
    subst e1
    refine ⟨hdiv p hp, p % K, Nat.mod_lt p hK, ?_⟩
    have := hg.in_range (p / K) (p % K) (hdiv p hp) (Nat.mod_lt p hK)
    unfold node_header at e2
    omega
  · rintro ⟨hr, k, hk, e⟩
    have hp : r * K + k < L * K := by
      have : (r + 1) * K ≤ L * K := Nat.mul_le_mul_right K hr
      rw [Nat.succ_mul] at this
      omega
    refine ⟨r * K + k, hp, ?_, ?_⟩
    · rw [h.matrix_row _ hp, row_block_div K r k hk]
    · rw [h.header _ hp, node_header_at K col hk, e]
      simp

/-- An exact cover of the n-queens matrix, read as a board with a 1 on the
squares of its rows, is a valid placement. -/
theorem n_queens_cover_valid (w : Nat) (hw : 1 ≤ w) (R : List Nat)
    (hR : ∀ r, r ∈ R → r < w * w)
    (hec : ExactCover (generate (w * w) (w * 2 + (w * 2 - 1) * 2) 4 (n_queens_get_count w)
      (n_queens_get_column w) (w * 2)) (w * w * 4) R)
    (o : List (List Int)) (hdims : board_dims w o)
    (hcell : ∀ i j, i < w → j < w → cell o i j = if i * w + j ∈ R then 1 else 0) :
    n_queens_valid w o := by
  have hg := (n_queens_genok w hw).toGenShape
  have hgi := generate_inv (n_queens_get_count w) (w * 2) hg
  have hT : ∀ r c, r < w * w →
      (row_touches (generate (w * w) (w * 2 + (w * 2 - 1) * 2) 4 (n_queens_get_count w)
        (n_queens_get_column w) (w * 2)) (w * w * 4) r c ↔
      (c = r / w ∨ c = r % w + w ∨ c = r % w + r / w + 2 * w ∨
        c + r / w = r % w + 5 * w - 2)) := by
    intro r c hr
    rw [row_touches_generate hg, n_queens_touches w r c hr]
    exact ⟨fun a => a.2, fun a => ⟨hr, a⟩⟩
  have hdis : ∀ a b, a ∈ R → b ∈ R → a ≠ b → ∀ c,
      ¬ (row_touches (generate (w * w) (w * 2 + (w * 2 - 1) * 2) 4 (n_queens_get_count w)
        (n_queens_get_column w) (w * 2)) (w * w * 4) a c ∧
      row_touches (generate (w * w) (w * 2 + (w * 2 - 1) * 2) 4 (n_queens_get_count w)
        (n_queens_get_column w) (w * 2)) (w * w * 4) b c) := by
    intro a b ha hb hab
    have hsym : Symmetric (fun a b : Nat => ∀ c,
        ¬ (row_touches (generate (w * w) (w * 2 + (w * 2 - 1) * 2) 4 (n_queens_get_count w)
          (n_queens_get_column w) (w * 2)) (w * w * 4) a c ∧
        row_touches (generate (w * w) (w * 2 + (w * 2 - 1) * 2) 4 (n_queens_get_count w)
          (n_queens_get_column w) (w * 2)) (w * w * 4) b c)) :=
      fun x y hxy c hc => hxy c ⟨hc.2, hc.1⟩
    exact List.Pairwise.forall hsym hec.disjoint ha hb hab
  have hman := hec.mandatory
  rw [hgi.array_width, hgi.optional_start] at hman
  have hdm : ∀ r, r < w * w → r / w < w ∧ r % w < w ∧ r / w * w + r % w = r := fun r hr =>
    ⟨Nat.div_lt_of_lt_mul hr, Nat.mod_lt r (by omega), Nat.div_add_mod' r w⟩
  have hsame : ∀ a b, a < w * w → b < w * w → a / w = b / w → a % w = b % w → a = b := by
    intro a b ha hb e1 e2
    have := (hdm a ha).2.2
    have := (hdm b hb).2.2
    rw [e1, e2] at *
    omega
  have hrow : ∀ i, i < w → ∃ r, r ∈ R ∧ r / w = i := by
    intro i hi
    obtain ⟨r, hr, ht⟩ := hman i (by omega) (by omega)
    have h1 := (hT r i (hR r hr)).mp ht
    obtain ⟨h2, h3, _⟩ := hdm r (hR r hr)
    refine ⟨r, hr, ?_⟩
    generalize r / w = x at *
    generalize r % w = y at *
    omega
  have hcol : ∀ j, j < w → ∃ r, r ∈ R ∧ r % w = j := by
    intro j hj
    obtain ⟨r, hr, ht⟩ := hman (j + w) (by omega) (by omega)
    have h1 := (hT r (j + w) (hR r hr)).mp ht
    obtain ⟨h2, h3, _⟩ := hdm r (hR r hr)
    refine ⟨r, hr, ?_⟩
    generalize r / w = x at *
    generalize r % w = y at *
    omega
  have hurow : ∀ a b, a ∈ R → b ∈ R → a / w = b / w → a = b := by
    intro a b ha hb e
    by_contra hab
    exact hdis a b ha hb hab (a / w)
      ⟨(hT a _ (hR a ha)).mpr (Or.inl rfl), (hT b _ (hR b hb)).mpr (Or.inl e)⟩
  have hucol : ∀ a b, a ∈ R → b ∈ R → a % w = b % w → a = b := by
    intro a b ha hb e
    by_contra hab
    exact hdis a b ha hb hab (a % w + w)
      ⟨(hT a _ (hR a ha)).mpr (Or.inr (Or.inl rfl)),
        (hT b _ (hR b hb)).mpr (Or.inr (Or.inl (by rw [e])))⟩
  have hud1 : ∀ a b, a ∈ R → b ∈ R → a / w + a % w = b / w + b % w → a = b := by
    intro a b ha hb e
    by_contra hab
    exact hdis a b ha hb hab (a % w + a / w + 2 * w)
      ⟨(hT a _ (hR a ha)).mpr (Or.inr (Or.inr (Or.inl rfl))),
        (hT b _ (hR b hb)).mpr (Or.inr (Or.inr (Or.inl (by omega))))⟩
  have hud2 : ∀ a b, a ∈ R → b ∈ R → a % w + (w - 1) - a / w = b % w + (w - 1) - b / w →
      a = b := by
    intro a b ha hb e
    by_contra hab
    obtain ⟨ha1, ha2, _⟩ := hdm a (hR a ha)
    obtain ⟨hb1, hb2, _⟩ := hdm b (hR b hb)
    refine hdis a b ha hb hab (a % w + 5 * w - 2 - a / w)
      ⟨(hT a _ (hR a ha)).mpr (Or.inr (Or.inr (Or.inr ?_))),
        (hT b _ (hR b hb)).mpr (Or.inr (Or.inr (Or.inr ?_)))⟩
    · generalize a / w = x at *
      generalize a % w = y at *
      omega
    · generalize a / w = x at *
      generalize a % w = y at *
      generalize b / w = x' at *
      generalize b % w = y' at *
      omega
  have hone : ∀ i j, i < w → j < w → ((cell o i j == 1) = true ↔ i * w + j ∈ R) := by
    intro i j hi hj
    rw [hcell i j hi hj]
    by_cases h : i * w + j ∈ R <;> simp [h]
  have hsq : ∀ r, r < w * w → ((cell o (r / w) (r % w) == 1) = true ↔ r ∈ R) := by
    intro r hr
    obtain ⟨a, b, c⟩ := hdm r hr
    rw [hone _ _ a b, c]
  refine ⟨hdims, fun i j hi hj => ?_, fun i hi => ?_, fun j hj => ?_, fun d _ => ?_,
    fun d _ => ?_⟩
  · rw [hcell i j hi hj]
    by_cases h : i * w + j ∈ R <;> simp [h]
  · rw [filter_range_length, Set.ncard_eq_one]
    obtain ⟨r, hr, e⟩ := hrow i hi
    obtain ⟨a, b, c⟩ := hdm r (hR r hr)
    refine ⟨r % w, ?_⟩
    ext j
    simp only [Set.mem_setOf_eq, Set.mem_singleton_iff]
    constructor
    · rintro ⟨hj, h1⟩
      have hm := (hone i j hi hj).mp h1
      have := hurow _ _ hm hr (by rw [row_block_div w i j hj, e])
      rw [← this, row_block_mod w i j hj]
    · rintro rfl
      refine ⟨b, (hone i _ hi b).mpr ?_⟩
      rw [← e, c]
      exact hr
  · rw [filter_range_length, Set.ncard_eq_one]
    obtain ⟨r, hr, e⟩ := hcol j hj
    obtain ⟨a, b, c⟩ := hdm r (hR r hr)
    refine ⟨r / w, ?_⟩
    ext i
    simp only [Set.mem_setOf_eq, Set.mem_singleton_iff]
    constructor
    · rintro ⟨hi, h1⟩
      have hm := (hone i j hi hj).mp h1
      have := hucol _ _ hm hr (by rw [row_block_mod w i j hj, e])
      rw [← this, row_block_div w i j hj]
    · rintro rfl
      refine ⟨a, (hone _ j a hj).mpr ?_⟩
      rw [← e, c]
      exact hr
  · rw [filter_range_length, Set.ncard_le_one (Set.Finite.subset (Set.finite_Iio (w * w))
      (fun x hx => hx.1))]
    rintro a ⟨ha, ha'⟩ b ⟨hb, hb'⟩
    simp only [Bool.and_eq_true, beq_iff_eq] at ha' hb'
    exact hud1 a b ((hsq a ha).mp (by simpa using ha'.2)) ((hsq b hb).mp (by simpa using hb'.2))
      (by omega)
  · rw [filter_range_length, Set.ncard_le_one (Set.Finite.subset (Set.finite_Iio (w * w))
      (fun x hx => hx.1))]
    rintro a ⟨ha, ha'⟩ b ⟨hb, hb'⟩
    simp only [Bool.and_eq_true, beq_iff_eq] at ha' hb'
    exact hud2 a b ((hsq a ha).mp (by simpa using ha'.2)) ((hsq b hb).mp (by simpa using hb'.2))
      (by omega)

theorem zero_board_dims (w : Nat) : board_dims w (List.replicate w (List.replicate w 0)) := by
  refine ⟨by simp, fun i hi => ?_⟩
  simp [List.getD_eq_getElem?_getD, List.getElem?_replicate, hi]

theorem zero_board_cell (w i j : Nat) : cell (List.replicate w (List.replicate w 0)) i j = 0 := by
  unfold cell
  by_cases hi : i < w
  · by_cases hj : j < w
    · simp [List.getD_eq_getElem?_getD, List.getElem?_replicate, hi, hj]
    · simp [List.getD_eq_getElem?_getD, List.getElem?_replicate, hi, hj]
  · simp [List.getD_eq_getElem?_getD, List.getElem?_replicate, hi]


theorem ColInv.header_shape {m : dlx_matrix} {N : Nat} {hid : Nat → Prop} (h : ColInv m N hid) :
    HeaderShape m N hid := by
  intro c hc
  have hcol := h.col c hc
  have hempty : (∀ x, ¬ col_set m N hid c x) → m.count.getD c 0 = 0 := by
    intro he
    have : {x | col_set m N hid c x} = ∅ := by
      ext x
      simp only [Set.mem_setOf_eq, Set.mem_empty_iff_false, iff_false]
      exact he x
    rw [hcol.count_eq, this, Set.ncard_empty]
    rfl
  constructor
  · intro h0
    constructor
    · rcases ht : m.top.getD c Option.none with _ | t
      · rfl
      · have := hcol.count_pos (hcol.top_some t ht).1
        omega
    · rcases hb : m.bottom.getD c Option.none with _ | b
      · rfl
      · have := hcol.count_pos (hcol.bottom_some b hb).1
        omega
  · intro hpos
    rcases ht : m.top.getD c Option.none with _ | t
    · have := hempty (hcol.top_none ht)
      omega
    rcases hb : m.bottom.getD c Option.none with _ | b
    · have := hempty (hcol.bottom_none hb)
      omega
    obtain ⟨t1, t2⟩ := hcol.top_some t ht
    obtain ⟨b1, b2⟩ := hcol.bottom_some b hb
    refine ⟨t, b, rfl, rfl, t1, b1, fun x hx => ⟨t2 x hx, b2 x hx, ?_, ?_⟩⟩
    · exact h.static.row_mono t x t1.1 hx.1 (t2 x hx)
    · exact h.static.row_mono x b hx.1 b1.1 (b2 x hx)

/-! ## Interpretation of a choice stack by the polyomino adapter -/

theorem polyomino_row_untouched (b : Nat) (m : dlx_matrix) (base : Nat) (v : Int) (X Y : Nat) :
    ∀ (cells : List Nat) (result : List (List Int)),
      (∀ i ∈ cells, ¬ (m.matrix_column.getD (m.header.getD (base + i) 0) 0 / b = X ∧
        m.matrix_column.getD (m.header.getD (base + i) 0) 0 % b = Y)) →
      cell (interpret_result_polyomino_row b m base v cells result) X Y = cell result X Y
  | [], result, _ => rfl
  | i :: rest, result, h => by
    rw [interpret_result_polyomino_row]
    rw [polyomino_row_untouched b m base v X Y rest _
      (fun k hk => h k (List.mem_cons_of_mem _ hk)),
      board_set_cell_ne _ _ _ _ _ _ (h i (List.mem_cons_self _ _))]

theorem polyomino_row_dims (b : Nat) (m : dlx_matrix) (base : Nat) (v : Int) (w : Nat) :
    ∀ (cells : List Nat) (result : List (List Int)), board_dims w result →
      board_dims w (interpret_result_polyomino_row b m base v cells result)
  | [], _, h => h
  | i :: rest, result, h => by
    rw [interpret_result_polyomino_row]
    exact polyomino_row_dims b m base v w rest _ (board_set_dims w _ _ _ _ h)

theorem polyomino_row_written (b : Nat) (m : dlx_matrix) (base : Nat) (v : Int) (X Y : Nat)
    (hX : X < b) (hY : Y < b) :
    ∀ (cells : List Nat) (result : List (List Int)), board_dims b result →
      (∃ i ∈ cells, m.matrix_column.getD (m.header.getD (base + i) 0) 0 / b = X ∧
        m.matrix_column.getD (m.header.getD (base + i) 0) 0 % b = Y) →
      cell (interpret_result_polyomino_row b m base v cells result) X Y = v
  | [], _, _, h => by obtain ⟨i, hi, _⟩ := h; simp at hi
  | i :: rest, result, hd, h => by
    rw [interpret_result_polyomino_row]
    by_cases hr : ∃ k ∈ rest, m.matrix_column.getD (m.header.getD (base + k) 0) 0 / b = X ∧
        m.matrix_column.getD (m.header.getD (base + k) 0) 0 % b = Y
    · exact polyomino_row_written b m base v X Y hX hY rest _ (board_set_dims b _ _ _ _ hd) hr
    · have hi : m.matrix_column.getD (m.header.getD (base + i) 0) 0 / b = X ∧
          m.matrix_column.getD (m.header.getD (base + i) 0) 0 % b = Y := by
        obtain ⟨k, hk, hk2⟩ := h
        rcases List.mem_cons.1 hk with e | hk
        · rw [← e]; exact hk2
        · exact absurd ⟨k, hk, hk2⟩ hr
      rw [polyomino_row_untouched b m base v X Y rest _
        (fun k hk hc => hr ⟨k, hk, hc⟩), hi.1, hi.2,
        board_set_cell b _ X Y v hd hX hY X Y]
      simp

theorem polyomino_loop_step (a : polyomino_adapter) (m : dlx_matrix) (e : Nat × Nat)
    (rest : List (Nat × Nat)) (result : List (List Int)) :
    interpret_result_polyomino_loop a m (e :: rest) result =
      interpret_result_polyomino_loop a m rest
        (interpret_result_polyomino_row a.board_width m
          (a.row_start.getD (m.matrix_row.getD e.2 0) 0)
          (int_wrap ((m.matrix_column.getD (m.header.getD (a.row_start.getD (m.matrix_row.getD e.2 0) 0 +
            (a.row_size.getD (m.matrix_row.getD e.2 0) 0 - 1)) 0) 0 : Int) -
            int_wrap ((a.board_width : Int) * a.board_width)))
          (List.range (a.row_size.getD (m.matrix_row.getD e.2 0) 0 - 1)) result) := by
  obtain ⟨H, nd⟩ := e
  rw [interpret_result_polyomino_loop]

theorem mem_polyomino_entry_cells {a : polyomino_adapter} {m : dlx_matrix} {e : Nat × Nat}
    {X Y : Nat} :
    (X, Y) ∈ polyomino_entry_cells a m e ↔
      ∃ i ∈ List.range (a.row_size.getD (m.matrix_row.getD e.2 0) 0 - 1),
        m.matrix_column.getD
            (m.header.getD (a.row_start.getD (m.matrix_row.getD e.2 0) 0 + i) 0) 0 /
            a.board_width = X ∧
          m.matrix_column.getD
            (m.header.getD (a.row_start.getD (m.matrix_row.getD e.2 0) 0 + i) 0) 0 %
            a.board_width = Y := by
  unfold polyomino_entry_cells
  simp only [List.mem_map, Prod.mk.injEq]

theorem polyomino_loop_untouched (a : polyomino_adapter) (m : dlx_matrix) (X Y : Nat) :
    ∀ (stack : List (Nat × Nat)) (result : List (List Int)),
      (∀ e ∈ stack, (X, Y) ∉ polyomino_entry_cells a m e) →
      cell (interpret_result_polyomino_loop a m stack result) X Y = cell result X Y
  | [], _, _ => by rw [interpret_result_polyomino_loop]
  | e :: rest, result, h => by
    rw [polyomino_loop_step, polyomino_loop_untouched a m X Y rest _
      (fun k hk => h k (List.mem_cons_of_mem _ hk))]
    apply polyomino_row_untouched
    intro i hi hc
    exact h e (List.mem_cons_self _ _) (mem_polyomino_entry_cells.2 ⟨i, hi, hc⟩)

theorem polyomino_loop_dims (a : polyomino_adapter) (m : dlx_matrix) (w : Nat) :
    ∀ (stack : List (Nat × Nat)) (result : List (List Int)), board_dims w result →
      board_dims w (interpret_result_polyomino_loop a m stack result)
  | [], _, h => by rw [interpret_result_polyomino_loop]; exact h
  | e :: rest, result, h => by
    rw [polyomino_loop_step]
    exact polyomino_loop_dims a m w rest _ (polyomino_row_dims _ m _ _ w _ _ h)

theorem polyomino_loop_append (a : polyomino_adapter) (m : dlx_matrix) :
    ∀ (pre post : List (Nat × Nat)) (result : List (List Int)),
      interpret_result_polyomino_loop a m (pre ++ post) result =
        interpret_result_polyomino_loop a m post (interpret_result_polyomino_loop a m pre result)
  | [], post, result => by rw [List.nil_append, interpret_result_polyomino_loop]
  | e :: pre, post, result => by
    rw [List.cons_append, polyomino_loop_step, polyomino_loop_step,
      polyomino_loop_append a m pre post]

/-- The value a chosen row leaves in one of its cells when no entry deeper in
the stack has that cell. -/
theorem polyomino_loop_written (a : polyomino_adapter) (m : dlx_matrix) (X Y : Nat)
    (hX : X < a.board_width) (hY : Y < a.board_width) (pre post : List (Nat × Nat))
    (e : Nat × Nat) (result : List (List Int)) (hd : board_dims a.board_width result)
    (he : (X, Y) ∈ polyomino_entry_cells a m e)
    (hpost : ∀ k ∈ post, (X, Y) ∉ polyomino_entry_cells a m k) :
    cell (interpret_result_polyomino_loop a m (pre ++ e :: post) result) X Y =
      int_wrap ((m.matrix_column.getD (m.header.getD (a.row_start.getD (m.matrix_row.getD e.2 0) 0 +
        (a.row_size.getD (m.matrix_row.getD e.2 0) 0 - 1)) 0) 0 : Int) -
        int_wrap ((a.board_width : Int) * a.board_width)) := by
  rw [polyomino_loop_append, polyomino_loop_step, polyomino_loop_untouched a m X Y post _ hpost]
  exact polyomino_row_written _ m _ _ X Y hX hY _ _
    (polyomino_loop_dims a m _ pre _ hd) (mem_polyomino_entry_cells.1 he)

/-! ## The descend step -/

/-- The header `*header_tree.begin()` is a least member of the index for the
key (count, matrix_column). -/
theorem tree_begin_least {m : dlx_matrix} {H : Nat} (h : tree_begin m = some H) :
    ∀ c, c < m.array_width → m.header_tree.getD c false = true →
      m.count.getD H 0 < m.count.getD c 0 ∨
        (m.count.getD H 0 = m.count.getD c 0 ∧
          m.matrix_column.getD H 0 ≤ m.matrix_column.getD c 0) := by
  unfold tree_begin at h
  have key := foldl_range_induct (tree_begin_step m)
    (fun k best =>
      (best = Option.none → ∀ c, c < k → ¬ m.header_tree.getD c false = true) ∧
      ∀ H, best = some H → ∀ c, c < k → m.header_tree.getD c false = true →
        m.count.getD H 0 < m.count.getD c 0 ∨
          (m.count.getD H 0 = m.count.getD c 0 ∧
            m.matrix_column.getD H 0 ≤ m.matrix_column.getD c 0))
    m.array_width Option.none
    ⟨fun _ c hc => absurd hc (Nat.not_lt_zero c), fun H e => by cases e⟩
    (fun i s _ hs => by
      unfold tree_begin_step
      by_cases hi : m.header_tree.getD i false = true
      · rw [if_pos hi]
        rcases s with _ | j
        · refine ⟨fun e => Option.noConfusion e, fun H e c hc hmem => ?_⟩
          simp only [Option.some.injEq] at e
          subst e
          rcases Nat.lt_succ_iff_lt_or_eq.1 hc with hlt | heq
          · exact absurd hmem (hs.1 rfl c hlt)
          · subst heq; exact Or.inr ⟨rfl, le_refl _⟩
        · simp only
          by_cases hcmp : header_compare m i j = true
          · rw [if_pos hcmp]
            refine ⟨fun e => Option.noConfusion e, fun H e c hc hmem => ?_⟩
            simp only [Option.some.injEq] at e
            subst e
            unfold header_compare at hcmp
            simp only [Bool.or_eq_true, Bool.and_eq_true, decide_eq_true_eq] at hcmp
            rcases Nat.lt_succ_iff_lt_or_eq.1 hc with hlt | heq
            · have := hs.2 j rfl c hlt hmem
              omega
            · subst heq; exact Or.inr ⟨rfl, le_refl _⟩
          · rw [if_neg hcmp]
            refine ⟨fun e => Option.noConfusion e, fun H e c hc hmem => ?_⟩
            simp only [Option.some.injEq] at e
            subst e
            unfold header_compare at hcmp
            simp only [Bool.or_eq_true, Bool.and_eq_true, decide_eq_true_eq, not_or, not_and,
              not_lt] at hcmp
            rcases Nat.lt_succ_iff_lt_or_eq.1 hc with hlt | heq
            · exact hs.2 j rfl c hlt hmem
            · subst heq
              have h1 := hcmp.1
              have h2 := hcmp.2
              omega
      · rw [if_neg hi]
        refine ⟨fun e c hc => ?_, fun H e c hc hmem => ?_⟩
        · rcases Nat.lt_succ_iff_lt_or_eq.1 hc with hlt | heq
          · exact hs.1 e c hlt
          · subst heq; exact hi
        · rcases Nat.lt_succ_iff_lt_or_eq.1 hc with hlt | heq
          · exact hs.2 H e c hlt hmem
          · subst heq; exact absurd hmem hi)
  exact key.2 H h

/-! ## The column of the given node of `remove_column` -/

theorem ColKeep.refl_keep (c N : Nat) (m : dlx_matrix) : ColKeep c N m m :=
  ⟨rfl, rfl, rfl, fun _ _ _ => rfl, fun _ _ _ => rfl⟩

theorem ColKeep.trans_keep {c N : Nat} {m1 m2 m3 : dlx_matrix} (f : SameFrame m1 m2)
    (h1 : ColKeep c N m1 m2) (h2 : ColKeep c N m2 m3) : ColKeep c N m1 m3 :=
  ⟨h2.count.trans h1.count, h2.top.trans h1.top, h2.bottom.trans h1.bottom,
    fun p hp e => (h2.up p hp (by rw [f.header]; exact e)).trans (h1.up p hp e),
    fun p hp e => (h2.down p hp (by rw [f.header]; exact e)).trans (h1.down p hp e)⟩

/-- Unlinking a linked node writes nothing in a column other than its own. -/
theorem remove_node_keep {m : dlx_matrix} {N : Nat} {hid : Nat → Prop} {r c : Nat}
    (h : ColInv m N hid) (hr : r < N) (hnr : ¬ hid r) (hne : c ≠ m.header.getD r 0) :
    ColKeep c N m (remove_node m r) := by
  have hW : m.header.getD r 0 < m.array_width := h.static.header_lt r hr
  have hS : col_set m N hid (m.header.getD r 0) r := ⟨hr, rfl, hnr⟩
  have hc0 := h.col _ hW
  constructor
  · rw [remove_node_count, Vec.getD_set_ne _ _ _ _ _ (Ne.symm hne)]
  · rw [remove_node_top]
    split_ifs <;> first | rfl | rw [Vec.getD_set_ne _ _ _ _ _ (Ne.symm hne)]
  · rw [remove_node_bottom]
    split_ifs <;> first | rfl | rw [Vec.getD_set_ne _ _ _ _ _ (Ne.symm hne)]
  · intro p hp e
    rw [remove_node_up]
    split_ifs with h1
    · rfl
    · rw [Vec.getD_set_ne _ _ _ _ _ (hc0.neighbours hS h1).2, Vec.getD_set_ne]
      rintro rfl
      exact hne ((hc0.down_succ r hS).1.2.1 ▸ e.symm)
  · intro p hp e
    rw [remove_node_down]
    split_ifs with h1
    · rfl
    · rw [Vec.getD_set_ne]
      rintro rfl
      exact hne ((hc0.up_mem r hS).2.1 ▸ e.symm)

/-- The inner loop of `remove_column` writes nothing in a column that the
rest of the row does not meet. -/
theorem remove_column_row_keep {N C c : Nat} (fuel : Nat) :
    ∀ (m : dlx_matrix) (hid : Nat → Prop) (x : Nat), ColInv m N hid → C < N →
      row_set m N C x →
      (∀ y, row_rest m N C x y → ¬ hid y ∧ m.header.getD y 0 ≠ c) →
      ∀ m', remove_column_row C fuel m x = Except.ok m' → ColKeep c N m m' := by
  induction fuel with
  | zero =>
    intro m hid x _ _ _ _ m' e
    simp [remove_column_row] at e
  | succ k ih =>
    intro m hid x h hC hx hrest m' e
    by_cases hxC : x = C
    · subst hxC
      simp only [remove_column_row, if_true, Except.ok.injEq] at e
      subst e
      exact ColKeep.refl_keep c N m
    · have hxx : row_rest m N C x x := ⟨hx, hxC, le_rfl⟩
      obtain ⟨hnx, hcx⟩ := hrest x hxx
      have f1 := remove_node_frame m x
      have h1 := remove_node_colinv h hx.1 hnx
      have k1 := remove_node_keep h hx.1 hnx (Ne.symm hcx)
      have hx' : row_set (remove_node m x) N C (m.right.getD x 0) := by
        rw [row_set_frame f1]; exact h.static.right_mem hx
      have hrest' : ∀ y, row_rest (remove_node m x) N C (m.right.getD x 0) y →
          ¬ (hid y ∨ y = x) ∧ (remove_node m x).header.getD y 0 ≠ c := by
        intro y hy
        rw [row_rest_frame f1] at hy
        have hy' := (row_rest_step h.static hC hx hxC y).2 (Or.inr hy)
        obtain ⟨a, b⟩ := hrest y hy'
        refine ⟨?_, ?_⟩
        · rintro (c | rfl)
          · exact a c
          · have hs := h.static.right_succ y hx.1
            rw [row_set_eq hx] at hs
            have hlt := CycSucc.cdist_succ_lt (fun y hy => row_set_lt hy) (row_set_self hC)
              hx hxC hs
            have := hy.2.2
            omega
        · rw [f1.header]; exact b
      rw [remove_column_row] at e
      simp only [hxC, if_false, f1.right] at e
      exact ColKeep.trans_keep f1 k1 (ih (remove_node m x) _ _ h1 hC hx' hrest' m' e)

/-- The outer loop of `remove_column` writes nothing in the column of the
given node. -/
theorem remove_column_loop_keep {N s : Nat} (fuel : Nat) :
    ∀ (m : dlx_matrix) (hid : Nat → Prop) (x : Nat), ColInv m N hid →
      col_set m N hid (m.header.getD s 0) s → col_set m N hid (m.header.getD s 0) x →
      (∀ y, col_rest m N hid s x y → ¬ hid y ∧ in_index m (m.header.getD y 0)) →
      ∀ fuel0, N ≤ fuel0 →
      ∀ m', remove_column_loop fuel0 s fuel m x = Except.ok m' →
        ColKeep (m.header.getD s 0) N m m' := by
  induction fuel with
  | zero =>
    intro m hid x _ _ _ _ fuel0 _ m' e
    simp [remove_column_loop] at e
  | succ k ih =>
    intro m hid x h hs hx hrest fuel0 hf0 m' e
    by_cases hxs : x = s
    · subst hxs
      simp only [remove_column_loop, if_true, Except.ok.injEq] at e
      subst e
      exact ColKeep.refl_keep _ N m
    · have hxN := hx.1
      have hrow_in : ∀ y, row_rest m N x (m.right.getD x 0) y →
          ¬ hid y ∧ in_index m (m.header.getD y 0) := by
        intro y hy
        exact hrest y ⟨x, hx, hxs, le_rfl, hy.1, hy.2.1⟩
      have hrow_ne : ∀ y, row_rest m N x (m.right.getD x 0) y →
          ¬ hid y ∧ m.header.getD y 0 ≠ m.header.getD s 0 := by
        intro y hy
        refine ⟨(hrow_in y hy).1, fun e => hy.2.1 ?_⟩
        exact h.static.row_distinct y x hy.1.1 hxN hy.1.2 (e.trans hx.2.1.symm)
      obtain ⟨m1, e1, hc1, f1, t1, t2, hrt1⟩ :=
        remove_column_row_spec (N - 1) m hid (m.right.getD x 0) h hxN
          (h.static.right_mem (row_set_self hxN))
          (by have := cdist_lt (h.static.right_mem (row_set_self hxN)).1 hxN (n := N); omega)
          hrow_in fuel0 (by omega)
      have k1 := remove_column_row_keep fuel0 m hid (m.right.getD x 0) h hxN
        (h.static.right_mem (row_set_self hxN)) hrow_ne m1 e1
      have hS1 : col_set m1 N (fun y => hid y ∨ row_rest m N x (m.right.getD x 0) y)
          (m.header.getD s 0) = col_set m N hid (m.header.getD s 0) :=
        funext fun y => propext (col_set_hide_row h.static f1 hx _ y)
      have hW : m.header.getD s 0 < m1.array_width := by
        rw [f1.array_width]; exact h.static.header_lt s hs.1
      have hcol1 := hc1.col _ hW
      have hq := hcol1.down_succ x (hS1 ▸ hx)
      rw [hS1] at hq
      have hlt := CycSucc.cdist_succ_lt (fun y hy => hy.1) hs hx hxs hq
      have hrest_eq : col_rest m1 N (fun y => hid y ∨ row_rest m N x (m.right.getD x 0) y) s
          (m1.down.getD x 0) = col_rest m N hid s (m1.down.getD x 0) := by
        unfold col_rest
        rw [f1.header, hS1]
        simp only [row_set_frame f1]
      have hrest' : ∀ y, col_rest m1 N (fun y => hid y ∨ row_rest m N x (m.right.getD x 0) y) s
          (m1.down.getD x 0) y →
          ¬ (hid y ∨ row_rest m N x (m.right.getD x 0) y) ∧
            in_index m1 (m1.header.getD y 0) := by
        intro y hy
        rw [hrest_eq] at hy
        obtain ⟨a, b⟩ := hrest y ((col_rest_step hs hx hxs hq y).2 (Or.inr hy))
        refine ⟨?_, ?_⟩
        · rintro (c | c)
          · exact a c
          · obtain ⟨C, c1, c2, c3, c4, c5⟩ := hy
            have hCx : C ≠ x := by
              rintro rfl
              omega
            apply hCx
            apply h.static.row_distinct C x c1.1 hxN _ (c1.2.1.trans hx.2.1.symm)
            rw [← c4.2, c.1.2]
        · rw [in_index_congr f1 t1 t2, f1.header]; exact b
      rw [remove_column_loop] at e
      simp only [hxs, if_false, e1] at e
      have k2 := ih m1 _ (m1.down.getD x 0) hc1 (by rw [f1.header, hS1]; exact hs)
        (by rw [f1.header, hS1]; exact hq.1) hrest' fuel0 hf0 m' e
      rw [f1.header] at k2
      exact ColKeep.trans_keep f1 k1 k2

/-- The call `remove_column(s)` writes nothing in the column of `s`. -/
theorem remove_column_keep {N s : Nat} {m m' : dlx_matrix} {hid : Nat → Prop}
    (h : ColInv m N hid) (hs : s < N) (hns : ¬ hid s)
    (hrows : ∀ y, col_others m N hid s y → ¬ hid y ∧ in_index m (m.header.getD y 0))
    (fuel : Nat) (hf : N ≤ fuel) (e : remove_column fuel m s = Except.ok m') :
    ColKeep (m.header.getD s 0) N m m' := by
  have hS : col_set m N hid (m.header.getD s 0) s := ⟨hs, rfl, hns⟩
  have hc0 := h.col _ (h.static.header_lt s hs)
  have hq := hc0.down_succ s hS
  have hfirst : col_rest m N hid s (m.down.getD s 0) = col_others m N hid s :=
    funext fun y => propext (col_rest_first hS hq y)
  exact remove_column_loop_keep fuel m hid (m.down.getD s 0) h hS hq.1
    (by rw [hfirst]; exact hrows) fuel hf m' e

/-! ## The mesh when the search is exhausted -/

/-- In every save mode the state the main loop returns in is a state of the
search. -/
theorem solve_loop_reach {β : Type} (i : dlx_matrix → List (Nat × Nat) → β)
    {N fuel0 : Nat} {m0 : dlx_matrix} {cov0 : Nat → Prop} (cap : Int) (s : dlx_save_setting)
    (hf : N < fuel0) (h0 : ∃ hid, Cons m0 N hid cov0 Option.none) :
    ∀ (fuel : Nat) (st st1 : solve_state β) (cov : Nat → Prop),
      Reach N fuel0 m0 cov0 st.backtrack_stack st.m cov →
      solve_loop i fuel0 cap s fuel st = Except.ok st1 →
      ∃ cov1, Reach N fuel0 m0 cov0 st1.backtrack_stack st1.m cov1
  | 0, _, _, _, _, h => by simp [solve_loop] at h
  | fuel + 1, st, st1, cov, hR, h => by
    rw [solve_loop] at h
    by_cases hcap : st.solution_count < cap
    · simp only [hcap, if_true] at h
      obtain ⟨f, st2, cov2, hb, hR2⟩ := solve_body_reach i s hf h0 st hR
      rw [hb] at h
      cases f
      · exact solve_loop_reach i cap s hf h0 fuel st2 st1 cov2 hR2 h
      · simp only [Except.ok.injEq] at h
        subst h
        exact ⟨cov2, hR2⟩
    · simp only [hcap, if_false, Except.ok.injEq] at h
      subst h
      exact ⟨cov, hR⟩

/-- A state of the search with an empty choice stack is the state the search
started from. -/
theorem Reach.of_nil {N fuel0 : Nat} {m0 : dlx_matrix} {cov0 : Nat → Prop}
    {stack : List (Nat × Nat)} {m : dlx_matrix} {cov : Nat → Prop}
    (h : Reach N fuel0 m0 cov0 stack m cov) (hs : stack = []) : m = m0 := by
  cases h with
  | base => rfl
  | push stack mp covp hidp nd m1 m cov hRp hCp hnd hh hc hm e1 e2 hcov => cases hs

/-- In a state of the search `left` and `right` are inverse to each other on
every node: the operations of `solve` never write them. -/
theorem Reach.row_links {N fuel0 : Nat} {m0 : dlx_matrix} {cov0 : Nat → Prop}
    {stack : List (Nat × Nat)} {m : dlx_matrix} {cov : Nat → Prop} (hf : N < fuel0)
    (h0 : ∃ hid, Cons m0 N hid cov0 Option.none) (h : Reach N fuel0 m0 cov0 stack m cov) :
    ∀ a, a < N → m.left.getD (m.right.getD a 0) 0 = a ∧ m.right.getD (m.left.getD a 0) 0 = a := by
  obtain ⟨hid, hC⟩ := h.consistent hf h0
  exact fun a ha => ⟨hC.col.static.left_right ha, hC.col.static.right_left ha⟩

/-! ## Fuel: a run with less fuel either runs out of it or agrees -/

theorem remove_column_row_fuel (C : Nat) :
    ∀ (f f' : Nat) (m : dlx_matrix) (y : Nat), f ≤ f' →
      remove_column_row C f m y = Except.error Err.out_of_fuel ∨
        remove_column_row C f m y = remove_column_row C f' m y
  | 0, _, _, _, _ => Or.inl rfl
  | f + 1, f', m, y, h => by
    obtain ⟨k, rfl⟩ : ∃ k, f' = k + 1 := ⟨f' - 1, by omega⟩
    rw [remove_column_row, remove_column_row]
    by_cases hy : y = C
    · simp only [hy, if_true]
      exact Or.inr trivial
    · simp only [hy, if_false]
      exact remove_column_row_fuel C f k _ _ (by omega)

theorem remove_column_loop_fuel (s : Nat) :
    ∀ (f f' f0 f0' : Nat) (m : dlx_matrix) (x : Nat), f0 ≤ f0' → f ≤ f' →
      remove_column_loop f0 s f m x = Except.error Err.out_of_fuel ∨
        remove_column_loop f0 s f m x = remove_column_loop f0' s f' m x
  | 0, _, _, _, _, _, _, _ => Or.inl rfl
  | f + 1, f', f0, f0', m, x, h0, h => by
    obtain ⟨k, rfl⟩ : ∃ k, f' = k + 1 := ⟨f' - 1, by omega⟩
    rw [remove_column_loop, remove_column_loop]
    by_cases hx : x = s
    · simp only [hx, if_true]
      exact Or.inr trivial
    · simp only [hx, if_false]
      rcases remove_column_row_fuel x f0 f0' m (m.right.getD x 0) h0 with e | e
      · rw [e]
        exact Or.inl rfl
      · rw [e]
        rcases remove_column_row x f0' m (m.right.getD x 0) with e1 | m1
        · exact Or.inr rfl
        · exact remove_column_loop_fuel s f k f0 f0' _ _ h0 (by omega)

theorem remove_column_fuel (f f' : Nat) (m : dlx_matrix) (s : Nat) (h : f ≤ f') :
    remove_column f m s = Except.error Err.out_of_fuel ∨
      remove_column f m s = remove_column f' m s :=
  remove_column_loop_fuel s f f' f f' m _ h h

theorem initialize_walk_fuel (b : Nat) :
    ∀ (f f' f0 f0' : Nat) (m : dlx_matrix) (x : Nat), f0 ≤ f0' → f ≤ f' →
      initialize_walk f0 b f m x = Except.error Err.out_of_fuel ∨
        initialize_walk f0 b f m x = initialize_walk f0' b f' m x
  | 0, _, _, _, _, _, _, _ => Or.inl rfl
  | f + 1, f', f0, f0', m, x, h0, h => by
    obtain ⟨k, rfl⟩ : ∃ k, f' = k + 1 := ⟨f' - 1, by omega⟩
    rw [initialize_walk, initialize_walk]
    rcases tree_begin m with _ | t
    · exact Or.inr rfl
    · simp only
      by_cases hc : m.count.getD t 0 ≤ 0
      · simp only [hc, if_true]
        exact Or.inr trivial
      · simp only [hc, if_false]
        rcases remove_column_fuel f0 f0' (header_tree_erase m (m.header.getD x 0)) x h0 with e | e
        · rw [e]
          exact Or.inl rfl
        · rw [e]
          rcases remove_column f0' (header_tree_erase m (m.header.getD x 0)) x with e1 | m1
          · exact Or.inr rfl
          · simp only
            by_cases hr : m1.right.getD x 0 = b
            · simp only [hr, if_true]
              exact Or.inr trivial
            · simp only [hr, if_false]
              exact initialize_walk_fuel b f k f0 f0' _ _ h0 (by omega)

/-- With any two amounts of fuel, a walk of `initialize` that returns with one
of them runs out of fuel or returns the same with the other. -/
theorem initialize_walk_any_fuel (b f f' : Nat) (m : dlx_matrix) (x : Nat)
    (r : Bool × dlx_matrix) (h : initialize_walk f' b f' m x = Except.ok r) :
    initialize_walk f b f m x = Except.error Err.out_of_fuel ∨
      initialize_walk f b f m x = Except.ok r := by
  rcases Nat.le_total f f' with hle | hle
  · rcases initialize_walk_fuel b f f' f f' m x hle hle with e | e
    · exact Or.inl e
    · exact Or.inr (e.trans h)
  · rcases initialize_walk_fuel b f' f f' f m x hle hle with e | e
    · rw [h] at e
      cases e
    · exact Or.inr (e.symm.trans h)

/-! ## Walking down a column that no longer holds the given node -/

theorem remove_node_stuck {N K s r : Nat} {m : dlx_matrix} (h : Stuck N K s m)
    (hne : m.header.getD r 0 ≠ m.header.getD s 0) (hr : r < N) :
    Stuck N K s (remove_node m r) := by
  obtain ⟨hK, hs, hcl, hJ, hrt, hrd⟩ := h
  have f := remove_node_frame m r
  obtain ⟨r1, r2, r3, r4⟩ := hcl r hr
  have hidx : (m.down.set (m.up.getD r 0) (m.down.getD r 0)).getD r 0 = m.down.getD r 0 := by
    rw [Vec.getD_set]
    split_ifs <;> rfl
  refine ⟨hK, hs, ?_, ?_, ?_, ?_⟩
  · intro p hp
    obtain ⟨p1, p2, p3, p4⟩ := hcl p hp
    rw [f.header, remove_node_down, remove_node_up, hidx]
    split_ifs with h1
    · exact ⟨p1, p2, p3, p4⟩
    · refine ⟨?_, ?_, ?_, ?_⟩
      · rw [Vec.getD_set]
        split_ifs
        · exact r1
        · exact p1
      · rw [Vec.getD_set]
        split_ifs
        · exact r2
        · exact p2
      · rw [Vec.getD_set]
        split_ifs with e
        · rw [r3, ← e.1, r4]
        · exact p3
      · rw [Vec.getD_set]
        split_ifs with e
        · rw [r4, ← e.1, r3]
        · exact p4
  · intro p hp hh
    rw [f.header] at hh
    rw [remove_node_down]
    split_ifs with h1
    · exact hJ p hp hh
    · rw [Vec.getD_set]
      split_ifs with e
      · exfalso
        apply hne
        rw [← r4, e.1, hh]
      · exact hJ p hp hh
  · intro p hp
    rw [f.right]
    exact hrt p hp
  · intro p hp k hk
    rw [f.header]
    exact hrd p hp k hk

theorem remove_column_row_stuck {N K s x : Nat} (hx : x < N) :
    ∀ (f : Nat) (m : dlx_matrix) (y : Nat), Stuck N K s m →
      m.header.getD x 0 = m.header.getD s 0 → y < N → y / K = x / K →
      ∀ m', remove_column_row x f m y = Except.ok m' →
        Stuck N K s m' ∧ m'.header = m.header
  | 0, _, _, _, _, _, _, _, e => by simp [remove_column_row] at e
  | f + 1, m, y, h, hxs, hy, hyx, m', e => by
    rw [remove_column_row] at e
    by_cases hyC : y = x
    · simp only [hyC, if_true, Except.ok.injEq] at e
      subst e
      exact ⟨h, rfl⟩
    · simp only [hyC, if_false] at e
      have hK := h.1
      have hrd := h.2.2.2.2.2 x hx (y % K) (Nat.mod_lt _ hK)
      have hyy : x / K * K + y % K = y := by
        rw [← hyx]
        exact Nat.div_add_mod' y K
      rw [hyy] at hrd
      have hne : m.header.getD y 0 ≠ m.header.getD s 0 := by
        intro e1
        exact hyC (hrd (e1.trans hxs.symm))
      have h1 := remove_node_stuck h hne hy
      have fr := remove_node_frame m y
      obtain ⟨q1, q2⟩ := h.2.2.2.2.1 y hy
      obtain ⟨a, b⟩ := remove_column_row_stuck hx f (remove_node m y) _ h1
        (by rw [fr.header]; exact hxs) (by rw [fr.right]; exact q1)
        (by rw [fr.right, q2]; exact hyx) m' e
      exact ⟨a, b.trans fr.header⟩

theorem remove_column_loop_stuck {N K s : Nat} (f0 : Nat) :
    ∀ (f : Nat) (m : dlx_matrix) (x : Nat), Stuck N K s m → x < N →
      m.header.getD x 0 = m.header.getD s 0 → x ≠ s →
      ∀ m', remove_column_loop f0 s f m x ≠ Except.ok m'
  | 0, _, _, _, _, _, _, _ => by simp [remove_column_loop]
  | f + 1, m, x, h, hx, hxs, hne, m' => by
    rw [remove_column_loop]
    simp only [hne, if_false]
    rcases e1 : remove_column_row x f0 m (m.right.getD x 0) with e | m1
    · simp
    · simp only
      obtain ⟨q1, q2⟩ := h.2.2.2.2.1 x hx
      obtain ⟨h1, hh⟩ := remove_column_row_stuck hx f0 m _ h hxs q1 q2 m1 e1
      obtain ⟨p1, _, p3, _⟩ := h1.2.2.1 x hx
      have hxs1 : m1.header.getD x 0 = m1.header.getD s 0 := by rw [hh]; exact hxs
      exact remove_column_loop_stuck f0 f m1 _ h1 p1 (p3.trans hxs1)
        (h1.2.2.2.1 x hx hxs1) m'

/-- On a mesh in which no node of the column of `s` leads down to `s`,
`remove_column(s)` returns with no amount of fuel. -/
theorem remove_column_stuck {N K s : Nat} {m : dlx_matrix} (h : Stuck N K s m) (f : Nat) :
    ∀ m', remove_column f m s ≠ Except.ok m' := by
  obtain ⟨p1, _, p3, _⟩ := h.2.2.1 s h.2.1
  exact remove_column_loop_stuck f f m _ h p1 p3 (h.2.2.2.1 s h.2.1 rfl)

theorem remove_column_row_error {C : Nat} :
    ∀ (f : Nat) (m : dlx_matrix) (y : Nat) (e : Err),
      remove_column_row C f m y = Except.error e → e = Err.out_of_fuel
  | 0, _, _, _, h => by
    simp only [remove_column_row, Except.error.injEq] at h
    exact h.symm
  | f + 1, m, y, e, h => by
    rw [remove_column_row] at h
    by_cases hy : y = C
    · simp [hy] at h
    · simp only [hy, if_false] at h
      exact remove_column_row_error f _ _ e h

theorem remove_column_loop_error {s f0 : Nat} :
    ∀ (f : Nat) (m : dlx_matrix) (x : Nat) (e : Err),
      remove_column_loop f0 s f m x = Except.error e → e = Err.out_of_fuel
  | 0, _, _, _, h => by
    simp only [remove_column_loop, Except.error.injEq] at h
    exact h.symm
  | f + 1, m, x, e, h => by
    rw [remove_column_loop] at h
    by_cases hx : x = s
    · simp [hx] at h
    · simp only [hx, if_false] at h
      rcases e1 : remove_column_row x f0 m (m.right.getD x 0) with e2 | m1
      · rw [e1] at h
        simp only [Except.error.injEq] at h
        subst h
        exact remove_column_row_error f0 _ _ _ e1
      · rw [e1] at h
        exact remove_column_loop_error f _ _ e h

/-- On such a mesh `remove_column(s)` runs out of any amount of fuel. -/
theorem remove_column_stuck_fuel {N K s : Nat} {m : dlx_matrix} (h : Stuck N K s m) (f : Nat) :
    remove_column f m s = Except.error Err.out_of_fuel := by
  rcases e : remove_column f m s with e1 | m'
  · rw [remove_column_loop_error f _ _ e1 e]
  · exact absurd e (remove_column_stuck h f m')

/-! ## `initialize` on a pre-filled cell -/

theorem initialize_sudoku_loop_filled (w fuel : Nat) (board : List (List Int)) (row col : Nat)
    (rest : List (Nat × Nat)) (m : dlx_matrix) (v : Int) (idx : Nat)
    (hv : (board.getD row []).get? col = some v) (hne : v ≠ -1)
    (hidx : (((row * w + col) * w : Nat) : Int) + v - 1 = (idx : Int)) (hlt : idx < w * w * w) :
    initialize_sudoku_loop w fuel board ((row, col) :: rest) m =
      match initialize_walk fuel (idx * 4) fuel m (idx * 4) with
      | Except.error e => Except.error e
      | Except.ok (false, m1) => Except.ok (false, m1)
      | Except.ok (true, m1) => initialize_sudoku_loop w fuel board rest m1 := by
  have h2 : ¬ ((idx : Int) < 0 ∨ ((w * w * w : Nat) : Int) ≤ (idx : Int)) := by
    rintro (h | h)
    · omega
    · exact absurd (Int.ofNat_le.1 h) (by omega)
  rw [initialize_sudoku_loop, hv]
  simp only [hidx, ne_eq, hne, not_false_eq_true, if_true, Int.toNat_ofNat, if_neg h2]
  all_goals (rcases initialize_walk fuel (idx * 4) fuel m (idx * 4) with e | ⟨_ | _, m1⟩ <;> rfl)

set_option maxRecDepth 100000 in
/-- On the 4x4 board whose first row starts with two 1s, `initialize` of the
Sudoku adapter runs out of any amount of fuel: the walk for the cell (0,0)
returns, and the walk for the cell (0,1) calls `remove_column` on node 16,
which the first walk has unlinked from its column. -/
theorem initialize_sudoku_two_ones (fuel : Nat) :
    initialize_sudoku 4 [[1,1,-1,-1],[-1,-1,-1,-1],[-1,-1,-1,-1],[-1,-1,-1,-1]] fuel
      (populate_trees (dlx_matrix_sudoku 4)) = Except.error Err.out_of_fuel := by
  have h30 : (initialize_walk 30 0 30 (populate_trees (dlx_matrix_sudoku 4)) 0).toOption.map
      (fun r => (r.1, decide (Stuck 256 4 16 r.2),
        (tree_begin r.2).map (fun b => decide (r.2.count.getD b 0 ≤ 0)))) =
      some (true, true, some false) := by
    decide!
  rcases hw : initialize_walk 30 0 30 (populate_trees (dlx_matrix_sudoku 4)) 0 with e | ⟨b, m1⟩
  · rw [hw] at h30
    cases h30
  rw [hw] at h30
  simp only [Except.toOption, Option.map_some', Option.some.injEq, Prod.mk.injEq,
    decide_eq_true_eq] at h30
  obtain ⟨rfl, hst, htb⟩ := h30
  have hpos : board_positions [[1,1,-1,-1],[-1,-1,-1,-1],[-1,-1,-1,-1],[-1,-1,-1,-1]] =
      (0, 0) :: (0, 1) :: [(0, 2), (0, 3), (1, 0), (1, 1), (1, 2), (1, 3), (2, 0), (2, 1),
        (2, 2), (2, 3), (3, 0), (3, 1), (3, 2), (3, 3)] := by
    decide
  unfold initialize_sudoku
  rw [hpos, initialize_sudoku_loop_filled 4 fuel _ 0 0 _ _ 1 0 (by decide) (by decide)
    (by decide) (by decide)]
  rcases initialize_walk_any_fuel 0 fuel 30 _ 0 _ hw with e | e
  · rw [e]
  rw [e]
  simp only
  rw [initialize_sudoku_loop_filled 4 fuel _ 0 1 _ _ 1 4 (by decide) (by decide)
    (by decide) (by decide)]
  cases fuel with
  | zero => rfl
  | succ k =>
    rw [initialize_walk]
    rcases hb : tree_begin m1 with _ | t
    · rw [hb] at htb
      cases htb
    · rw [hb] at htb
      simp only [Option.map_some', Option.some.injEq, decide_eq_false_iff_not] at htb
      simp only [htb, if_false]
      have hst1 : Stuck 256 4 (4 * 4) (header_tree_erase m1 (m1.header.getD (4 * 4) 0)) := hst
      rw [remove_column_stuck_fuel hst1]

/-! ## The measure grows with every step of the search -/

theorem stack_value_lt_pow {B D N : Nat} {stack : List (Nat × Nat)} (hB : 1 < B)
    (hN : N + 1 < B) (hlen : stack.length ≤ D) (hnd : ∀ e, e ∈ stack → e.2 < N) :
    stack_value B D stack < B ^ D := by
  unfold stack_value
  have h1 : Nat.ofDigits B (stack.map (fun e => e.2 + 1)) < B ^ stack.length := by
    have := Nat.ofDigits_lt_base_pow_length hB (l := stack.map (fun e => e.2 + 1))
      (fun x hx => by
        obtain ⟨e, he, rfl⟩ := List.mem_map.mp hx
        have := hnd e he
        omega)
    rwa [List.length_map] at this
  calc Nat.ofDigits B (stack.map (fun e => e.2 + 1)) * B ^ (D - stack.length)
      < B ^ stack.length * B ^ (D - stack.length) :=
        Nat.mul_lt_mul_of_pos_right h1 (pow_pos (by omega) _)
    _ = B ^ D := by rw [← pow_add]; congr 1; omega

theorem stack_value_push {B D : Nat} {stack : List (Nat × Nat)} (H nd : Nat) (hB : 1 < B)
    (hlen : stack.length + 1 ≤ D) :
    stack_value B D stack < stack_value B D ((H, nd) :: stack) := by
  unfold stack_value
  simp only [List.map_cons, List.length_cons, Nat.ofDigits_cons]
  have e : B ^ (D - stack.length) = B * B ^ (D - (stack.length + 1)) := by
    rw [← pow_succ']
    congr 1
    omega
  rw [e]
  have hp : 0 < B ^ (D - (stack.length + 1)) := pow_pos (by omega) _
  nlinarith [Nat.zero_le (Nat.ofDigits B (stack.map (fun e => e.2 + 1))), hp,
    Nat.mul_le_mul_right (B ^ (D - (stack.length + 1))) (Nat.succ_le_succ (Nat.zero_le nd))]

theorem stack_value_replace {B D N : Nat} {pre rest : List (Nat × Nat)} (H nd H' nd' : Nat)
    (hB : 1 < B) (hN : N + 1 < B) (hlen : (pre ++ (H, nd) :: rest).length ≤ D)
    (hpre : ∀ e, e ∈ pre → e.2 < N) (hlt : nd < nd') :
    stack_value B D (pre ++ (H, nd) :: rest) < stack_value B D ((H', nd') :: rest) := by
  unfold stack_value
  simp only [List.map_append, List.map_cons, List.length_append, List.length_cons,
    Nat.ofDigits_append, Nat.ofDigits_cons, List.length_map] at hlen ⊢
  have h1 : Nat.ofDigits B (pre.map (fun e => e.2 + 1)) < B ^ pre.length := by
    have := Nat.ofDigits_lt_base_pow_length hB (l := pre.map (fun e => e.2 + 1))
      (fun x hx => by
        obtain ⟨e, he, rfl⟩ := List.mem_map.mp hx
        have := hpre e he
        omega)
    rwa [List.length_map] at this
  have e : B ^ (D - (rest.length + 1)) =
      B ^ pre.length * B ^ (D - (pre.length + (rest.length + 1))) := by
    rw [← pow_add]
    congr 1
    omega
  rw [e]
  have hp : 0 < B ^ (D - (pre.length + (rest.length + 1))) := pow_pos (by omega) _
  generalize B ^ (D - (pre.length + (rest.length + 1))) = P at hp ⊢
  generalize Nat.ofDigits B (pre.map (fun e => e.2 + 1)) = X at h1 ⊢
  generalize Nat.ofDigits B (rest.map (fun e => e.2 + 1)) = R
  generalize B ^ pre.length = Q at h1 ⊢
  have h2 : X + Q * (nd + 1 + B * R) < Q * (nd' + 1 + B * R) := by
    have : Q * (nd + 1 + B * R) + Q ≤ Q * (nd' + 1 + B * R) := by
      have : nd + 1 + B * R + 1 ≤ nd' + 1 + B * R := by omega
      calc Q * (nd + 1 + B * R) + Q = Q * (nd + 1 + B * R + 1) := by ring
        _ ≤ Q * (nd' + 1 + B * R) := Nat.mul_le_mul_left Q this
    omega
  calc (X + Q * (nd + 1 + B * R)) * P < Q * (nd' + 1 + B * R) * P :=
        Nat.mul_lt_mul_of_pos_right h2 hp
    _ = (nd' + 1 + B * R) * (Q * P) := by ring

theorem nodup_length_le {W : Nat} {l : List Nat} (hn : l.Nodup) (h : ∀ x, x ∈ l → x < W) :
    l.length ≤ W := by
  rw [← List.toFinset_card_of_nodup hn, ← Finset.card_range W]
  apply Finset.card_le_card
  intro x hx
  rw [List.mem_toFinset] at hx
  exact Finset.mem_range.mpr (h x hx)

/-- The headers on the stack of a state of the search are covered, pairwise
different and inside the header array, so that the stack is no longer than the
header array. -/
theorem Reach.stack_depth {N fuel0 : Nat} {m0 : dlx_matrix} {cov0 : Nat → Prop}
    {stack : List (Nat × Nat)} {m : dlx_matrix} {cov : Nat → Prop} (hf : N < fuel0)
    (h : Reach N fuel0 m0 cov0 stack m cov) :
    (∀ e, e ∈ stack → cov e.1 ∧ e.1 < m0.array_width) ∧ (stack.map Prod.fst).Nodup ∧
      stack.length ≤ m0.array_width := by
  have key : (∀ e, e ∈ stack → cov e.1 ∧ e.1 < m0.array_width) ∧
      (stack.map Prod.fst).Nodup := by
    induction h with
    | base => exact ⟨fun e he => by simp at he, by simp⟩
    | push stack mp covp hidp nd m1 m cov hR hC hnd hh hc hm e1 e2 hcov ih =>
      obtain ⟨ih1, ih2⟩ := ih
      have f := hR.frame hf
      refine ⟨fun e he => ?_, ?_⟩
      · rcases List.mem_cons.mp he with rfl | he
        · refine ⟨(hcov _).mpr (Or.inr ⟨nd, ⟨hnd, rfl⟩, rfl⟩), ?_⟩
          rw [← f.array_width]
          exact hC.col.static.header_lt nd hnd
        · exact ⟨(hcov _).mpr (Or.inl (ih1 e he).1), (ih1 e he).2⟩
      · rw [List.map_cons, List.nodup_cons]
        refine ⟨fun hmem => ?_, ih2⟩
        obtain ⟨e, he, heq⟩ := List.mem_map.mp hmem
        apply hc
        have := (ih1 e he).1
        rwa [heq] at this
  refine ⟨key.1, key.2, ?_⟩
  have := nodup_length_le key.2 (fun x hx => by
    obtain ⟨e, he, rfl⟩ := List.mem_map.mp hx
    exact (key.1 e he).2)
  rwa [List.length_map] at this

/-! ## Every step of the search moves the stack forward -/

/-- On a state of the search the body of the main loop returns: either it
ends the search, or it leads to a state of the search whose stack comes next
after the present one. -/
theorem solve_body_step {β : Type} (i : dlx_matrix → List (Nat × Nat) → β)
    (s : dlx_save_setting) {N fuel0 : Nat} {m0 : dlx_matrix} {cov0 : Nat → Prop}
    (hf : N < fuel0) (h0 : ∃ hid, Cons m0 N hid cov0 Option.none) (st : solve_state β)
    {cov : Nat → Prop} (hR : Reach N fuel0 m0 cov0 st.backtrack_stack st.m cov) :
    ∃ f st1 cov1, solve_body i fuel0 s st = Except.ok (f, st1) ∧
      Reach N fuel0 m0 cov0 st1.backtrack_stack st1.m cov1 ∧
      (f = false → StackNext st.backtrack_stack st1.backtrack_stack) := by
  obtain ⟨hid, hC⟩ := hR.consistent hf h0
  unfold solve_body
  by_cases ht : terminal_check st.m = true
  · simp only [ht, if_true]
    have hm' : (if tree_empty st.m = true then record_solution i s st else st).m = st.m := by
      split_ifs <;> rfl
    have hs' : (if tree_empty st.m = true then record_solution i s st else st).backtrack_stack =
        st.backtrack_stack := by
      split_ifs <;> rfl
    generalize (if tree_empty st.m = true then record_solution i s st else st) = st' at hm' hs' ⊢
    rw [hm', hs']
    obtain ⟨m2, stack2, cov2, e, hR2, ⟨pre, hpre⟩, hstop⟩ := backtrack_loop_reach hf hR
    rw [e]
    cases hR2 with
    | base =>
      by_cases h1 : st'.solution_count < 1
      · simp only [h1, if_true]
        exact ⟨_, _, cov0, rfl, Reach.base, fun h => by cases h⟩
      · simp only [h1, if_false]
        exact ⟨_, _, cov0, rfl, Reach.base, fun h => by cases h⟩
    | push stack mp covp hidp nd m1 m cov hRp hCp hnd hh hc hm e1 e2 hcov =>
      obtain ⟨_, _, hrr, hrc⟩ := cover_row_facts hCp hnd hh hc hf e1 e2 hcov
      obtain ⟨hdown, hbot, hcur⟩ := cover_row_column_stable hCp hnd hh hc hf e1 e2 hcov
      have hlt : nd < mp.down.getD nd 0 := by
        have hW := hCp.col.static.header_lt nd hnd
        have hp := hCp.col.col _ hW
        have hndS : col_set mp N hidp (mp.header.getD nd 0) nd := ⟨hnd, rfl, hh⟩
        have hs := hstop _ _ _ rfl
        rw [hbot] at hs
        rcases hp.down_succ nd hndS with ⟨_, a | a⟩
        · exact a.1
        · exfalso
          rcases hb : mp.bottom.getD (mp.header.getD nd 0) Option.none with _ | b
          · exact hp.bottom_none hb nd hndS
          · obtain ⟨b1, b2⟩ := hp.bottom_some b hb
            have := b2 nd hndS
            have := a.2.1 b b1
            apply hs
            rw [hb]
            congr 1
            omega
      simp only
      rw [hrr]
      simp only
      rw [hrc]
      simp only
      rw [hdown]
      obtain ⟨m5, m6, hid6, cov6, e5, e6, hC6, f6, _, hcov6, _⟩ :=
        cover_row_spec hCp hcur.1 hcur.2.2 (by rw [hcur.2.1]; exact hc) fuel0 hf
      rw [hcur.2.1] at e5
      rw [e5]
      simp only
      rw [e6]
      simp only
      refine ⟨_, _, cov6, rfl, ?_, fun _ => Or.inr ⟨pre, _, nd, _, stack, hpre, rfl, hlt⟩⟩
      have := Reach.push stack mp covp hidp (mp.down.getD nd 0) m5 m6 cov6 hRp hCp hcur.1
        hcur.2.2 (by rw [hcur.2.1]; exact hc) (by rw [hcur.2.1]; exact hm)
        (by rw [hcur.2.1]; exact e5) e6 hcov6
      rw [hcur.2.1] at this
      exact this
  · have ht' : terminal_check st.m = false := by simpa using ht
    simp only [ht', Bool.false_eq_true, if_false]
    obtain ⟨H, hb, hcount⟩ := terminal_check_false ht'
    obtain ⟨hHW, hbit⟩ := tree_begin_some hb
    have hHm : H < st.m.optional_constraint_start_column := by
      rcases Nat.lt_or_ge H st.m.optional_constraint_start_column with a | a
      · exact a
      · have := hC.tree.only_mand H hHW a
        rw [hbit] at this
        cases this
    have hncov : ¬ cov H := (hC.tree.mand H hHW hHm).mp hbit
    have hcol := hC.col.col H hHW
    rw [hb]
    simp only
    rcases htop : st.m.top.getD H Option.none with _ | nd
    · exfalso
      have hempty := hcol.top_none htop
      have : Set.ncard {x | col_set st.m N hid H x} = 0 := by
        have : {x | col_set st.m N hid H x} = ∅ := by
          ext x
          simp only [Set.mem_setOf_eq, Set.mem_empty_iff_false, iff_false]
          exact hempty x
        rw [this, Set.ncard_empty]
      have := hcol.count_eq
      omega
    · simp only
      obtain ⟨hndS, _⟩ := hcol.top_some nd htop
      obtain ⟨m5, m6, hid6, cov6, e5, e6, hC6, f6, _, hcov6, _⟩ :=
        cover_row_spec hC hndS.1 hndS.2.2 (by rw [hndS.2.1]; exact hncov) fuel0 hf
      rw [hndS.2.1] at e5
      rw [e5]
      simp only
      rw [e6]
      simp only
      refine ⟨_, _, cov6, rfl, ?_, fun _ => Or.inl ⟨H, nd, rfl⟩⟩
      have := Reach.push st.backtrack_stack st.m cov hid nd m5 m6 cov6 hR hC hndS.1
        hndS.2.2 (by rw [hndS.2.1]; exact hncov) (by rw [hndS.2.1]; exact hHm)
        (by rw [hndS.2.1]; exact e5) e6 hcov6
      rw [hndS.2.1] at this
      exact this

/-- A step of the search makes the measure of the stack grow. -/
theorem StackNext.value_lt {N D : Nat} {old new : List (Nat × Nat)} (h : StackNext old new)
    (hold : ∀ e, e ∈ old → e.2 < N) (hlo : old.length ≤ D) (hln : new.length ≤ D) :
    stack_value (N + 2) D old < stack_value (N + 2) D new := by
  rcases h with ⟨H, nd, rfl⟩ | ⟨pre, H, nd, nd', rest, rfl, rfl, hlt⟩
  · exact stack_value_push H nd (by omega) (by simpa using hln)
  · exact stack_value_replace H nd H nd' (by omega) (show N + 1 < N + 2 by omega) hlo
      (fun e he => hold e (List.mem_append_left _ he)) hlt

/-- From a state of the search the main loop returns as soon as its fuel
exceeds what the measure of the stack leaves below its bound. -/
theorem solve_loop_returns {β : Type} (i : dlx_matrix → List (Nat × Nat) → β)
    {N fuel0 : Nat} {m0 : dlx_matrix} {cov0 : Nat → Prop} (cap : Int) (s : dlx_save_setting)
    (hf : N < fuel0) (h0 : ∃ hid, Cons m0 N hid cov0 Option.none) :
    ∀ (fuel : Nat) (st : solve_state β) (cov : Nat → Prop),
      Reach N fuel0 m0 cov0 st.backtrack_stack st.m cov →
      (N + 2) ^ m0.array_width - stack_value (N + 2) m0.array_width st.backtrack_stack < fuel →
      ∃ st1, solve_loop i fuel0 cap s fuel st = Except.ok st1
  | 0, _, _, _, h => by omega
  | fuel + 1, st, cov, hR, h => by
    rw [solve_loop]
    by_cases hcap : st.solution_count < cap
    · simp only [hcap, if_true]
      obtain ⟨f, st2, cov2, hb, hR2, hnext⟩ := solve_body_step i s hf h0 st hR
      rw [hb]
      cases f
      · simp only
        have hv := (hnext rfl).value_lt (hR.rows hf).2.2.2 (hR.stack_depth hf).2.2
          (hR2.stack_depth hf).2.2
        have hbound := stack_value_lt_pow (B := N + 2) (D := m0.array_width) (N := N)
          (by omega) (by omega) (hR2.stack_depth hf).2.2 (hR2.rows hf).2.2.2
        exact solve_loop_returns i cap s hf h0 fuel st2 cov2 hR2 (by omega)
      · exact ⟨st2, rfl⟩
    · simp only [hcap, if_false]
      exact ⟨st, rfl⟩

/-! ## The columns of the Sudoku matrix -/

theorem tree_begin_none {m : dlx_matrix} (h : tree_begin m = Option.none) :
    ∀ c, c < m.array_width → ¬ m.header_tree.getD c false = true := by
  unfold tree_begin at h
  have key := foldl_range_induct (tree_begin_step m)
    (fun k best => best = Option.none → ∀ c, c < k → ¬ m.header_tree.getD c false = true)
    m.array_width Option.none (fun _ c hc => absurd hc (Nat.not_lt_zero c))
    (fun i s _ hs e c hc => by
      unfold tree_begin_step at e
      by_cases hi : m.header_tree.getD i false = true
      · rw [if_pos hi] at e
        rcases s with _ | j
        · cases e
        · simp only at e
          split_ifs at e
      · rw [if_neg hi] at e
        rcases Nat.lt_succ_iff_lt_or_eq.1 hc with hlt | heq
        · exact hs e c hlt
        · subst heq
          exact hi)
  exact key h

theorem ColOK.exists_of_count_pos {m : dlx_matrix} {N : Nat} {hid : Nat → Prop} {c : Nat}
    (h : ColOK m N hid c) (hpos : 0 < m.count.getD c 0) : ∃ y, col_set m N hid c y := by
  by_contra hne
  have : {x | col_set m N hid c x} = ∅ := by
    ext x
    simp only [Set.mem_setOf_eq, Set.mem_empty_iff_false, iff_false]
    exact fun hx => hne ⟨x, hx⟩
  have hc := h.count_eq
  rw [this, Set.ncard_empty] at hc
  omega

theorem list_length_four {α : Type} (l : List α) (h : l.length = 4) :
    ∃ a b c d, l = [a, b, c, d] := by
  match l, h with
  | [a, b, c, d], _ => exact ⟨a, b, c, d, rfl⟩

theorem digit_of_range (x : Int) (h : 1 ≤ x ∧ x ≤ ((2 * 2 : Nat) : Int)) :
    ∃ k : Nat, k < 4 ∧ x = (k : Int) + 1 := by
  refine ⟨(x - 1).toNat, ?_, ?_⟩ <;> omega

set_option maxRecDepth 100000 in
/-- The search through the boards with the four clues, cut by the rule of a
row, column or block as soon as its four cells are known, ends in one of two
boards. -/
theorem four_clues_search :
    (
    (List.range 4).all fun a : Nat =>
    (List.range 4).all fun b : Nat =>
    !decide (digits_once 4 [1, (a : Int) + 1, (b : Int) + 1, 4]) || (
    (List.range 4).all fun c : Nat =>
    (List.range 4).all fun d : Nat =>
    !decide (digits_once 4 [1, (a : Int) + 1, (c : Int) + 1, (d : Int) + 1]) || (
    (List.range 4).all fun e : Nat =>
    (List.range 4).all fun f : Nat =>
    !decide (digits_once 4 [(b : Int) + 1, 4, (e : Int) + 1, (f : Int) + 1]) || (
    !decide (digits_once 4 [(c : Int) + 1, (d : Int) + 1, (e : Int) + 1, (f : Int) + 1]) || (
    (List.range 4).all fun g : Nat =>
    !decide (digits_once 4 [1, (c : Int) + 1, (g : Int) + 1, 4]) || (
    (List.range 4).all fun h : Nat =>
    (List.range 4).all fun k : Nat =>
    !decide (digits_once 4 [(g : Int) + 1, (h : Int) + 1, 4, (k : Int) + 1]) || (
    !decide (digits_once 4 [(a : Int) + 1, (d : Int) + 1, (h : Int) + 1, (k : Int) + 1]) || (
    (List.range 4).all fun i : Nat =>
    (List.range 4).all fun j : Nat =>
    !decide (digits_once 4 [(g : Int) + 1, (h : Int) + 1, (i : Int) + 1, (j : Int) + 1]) || (
    (List.range 4).all fun l : Nat =>
    !decide (digits_once 4 [4, (k : Int) + 1, (l : Int) + 1, 1]) || (
    !decide (digits_once 4 [(b : Int) + 1, (e : Int) + 1, (i : Int) + 1, (l : Int) + 1]) || (
    !decide (digits_once 4 [4, (f : Int) + 1, (j : Int) + 1, 1]) || (
    !decide (digits_once 4 [(i : Int) + 1, (j : Int) + 1, (l : Int) + 1, 1]) || (
    (decide ([[1, (a : Int) + 1, (b : Int) + 1, 4], [(c : Int) + 1, (d : Int) + 1, (e : Int) + 1, (f : Int) + 1], [(g : Int) + 1, (h : Int) + 1, (i : Int) + 1, (j : Int) + 1], [4, (k : Int) + 1, (l : Int) + 1, 1]] =
        [[1, 2, 3, 4], [3, 4, 1, 2], [2, 1, 4, 3], [4, 3, 2, 1]]) || (
     decide ([[1, (a : Int) + 1, (b : Int) + 1, 4], [(c : Int) + 1, (d : Int) + 1, (e : Int) + 1, (f : Int) + 1], [(g : Int) + 1, (h : Int) + 1, (i : Int) + 1, (j : Int) + 1], [4, (k : Int) + 1, (l : Int) + 1, 1]] =
        [[1, 3, 2, 4], [2, 4, 1, 3], [3, 1, 4, 2], [4, 2, 3, 1]])))))))))))))))) = true := by
  decide!

theorem digits_once_of_cells (f : Nat → Int)
    (h : ∀ d : Nat, d < 2 * 2 →
      ((List.range (2 * 2)).filter (fun j => f j == (d : Int) + 1)).length = 1) :
    digits_once 4 ((List.range 4).map f) := by
  intro d hd
  rw [List.filter_map, List.length_map]
  exact h d hd

/-- A board that satisfies the Sudoku rules and has the clues 1, 4, 4, 1 in its
corners is one of two boards. -/
theorem four_clues_boards (board : List (List Int)) (hv : sudoku_valid 2 board)
    (k1 : cell board 0 0 = 1) (k2 : cell board 0 3 = 4) (k3 : cell board 3 0 = 4)
    (k4 : cell board 3 3 = 1) :
    board = [[1, 2, 3, 4], [3, 4, 1, 2], [2, 1, 4, 3], [4, 3, 2, 1]] ∨
      board = [[1, 3, 2, 4], [2, 4, 1, 3], [3, 1, 4, 2], [4, 2, 3, 1]] := by
  obtain ⟨hd, hr, hrow, hcol, hblk⟩ := hv
  obtain ⟨r0, r1, r2, r3, rfl⟩ := list_length_four board hd.1
  obtain ⟨x00, x01, x02, x03, rfl⟩ := list_length_four r0 (hd.2 0 (by decide))
  obtain ⟨x10, x11, x12, x13, rfl⟩ := list_length_four r1 (hd.2 1 (by decide))
  obtain ⟨x20, x21, x22, x23, rfl⟩ := list_length_four r2 (hd.2 2 (by decide))
  obtain ⟨x30, x31, x32, x33, rfl⟩ := list_length_four r3 (hd.2 3 (by decide))
  have e1 : x00 = 1 := k1
  have e2 : x03 = 4 := k2
  have e3 : x30 = 4 := k3
  have e4 : x33 = 1 := k4
  subst e1 e2 e3 e4
  obtain ⟨a, qa, rfl⟩ := digit_of_range _ (hr 0 (by decide) 1 (by decide))
  obtain ⟨b, qb, rfl⟩ := digit_of_range _ (hr 0 (by decide) 2 (by decide))
  obtain ⟨c, qc, rfl⟩ := digit_of_range _ (hr 1 (by decide) 0 (by decide))
  obtain ⟨d, qd, rfl⟩ := digit_of_range _ (hr 1 (by decide) 1 (by decide))
  obtain ⟨e, qe, rfl⟩ := digit_of_range _ (hr 1 (by decide) 2 (by decide))
  obtain ⟨f, qf, rfl⟩ := digit_of_range _ (hr 1 (by decide) 3 (by decide))
  obtain ⟨g, qg, rfl⟩ := digit_of_range _ (hr 2 (by decide) 0 (by decide))
  obtain ⟨h, qh, rfl⟩ := digit_of_range _ (hr 2 (by decide) 1 (by decide))
  obtain ⟨i, qi, rfl⟩ := digit_of_range _ (hr 2 (by decide) 2 (by decide))
  obtain ⟨j, qj, rfl⟩ := digit_of_range _ (hr 2 (by decide) 3 (by decide))
  obtain ⟨k, qk, rfl⟩ := digit_of_range _ (hr 3 (by decide) 1 (by decide))
  obtain ⟨l, ql, rfl⟩ := digit_of_range _ (hr 3 (by decide) 2 (by decide))
  have ur0 : digits_once 4 [1, (a : Int) + 1, (b : Int) + 1, 4] :=
    digits_once_of_cells _ (hrow 0 (by decide))
  have ub0 : digits_once 4 [1, (a : Int) + 1, (c : Int) + 1, (d : Int) + 1] :=
    digits_once_of_cells _ (hblk 0 (by decide))
  have ub1 : digits_once 4 [(b : Int) + 1, 4, (e : Int) + 1, (f : Int) + 1] :=
    digits_once_of_cells _ (hblk 1 (by decide))
  have ur1 : digits_once 4 [(c : Int) + 1, (d : Int) + 1, (e : Int) + 1, (f : Int) + 1] :=
    digits_once_of_cells _ (hrow 1 (by decide))
  have uc0 : digits_once 4 [1, (c : Int) + 1, (g : Int) + 1, 4] :=
    digits_once_of_cells _ (hcol 0 (by decide))
  have ub2 : digits_once 4 [(g : Int) + 1, (h : Int) + 1, 4, (k : Int) + 1] :=
    digits_once_of_cells _ (hblk 2 (by decide))
  have uc1 : digits_once 4 [(a : Int) + 1, (d : Int) + 1, (h : Int) + 1, (k : Int) + 1] :=
    digits_once_of_cells _ (hcol 1 (by decide))
  have ur2 : digits_once 4 [(g : Int) + 1, (h : Int) + 1, (i : Int) + 1, (j : Int) + 1] :=
    digits_once_of_cells _ (hrow 2 (by decide))
  have ur3 : digits_once 4 [4, (k : Int) + 1, (l : Int) + 1, 1] :=
    digits_once_of_cells _ (hrow 3 (by decide))
  have uc2 : digits_once 4 [(b : Int) + 1, (e : Int) + 1, (i : Int) + 1, (l : Int) + 1] :=
    digits_once_of_cells _ (hcol 2 (by decide))
  have uc3 : digits_once 4 [4, (f : Int) + 1, (j : Int) + 1, 1] :=
    digits_once_of_cells _ (hcol 3 (by decide))
  have ub3 : digits_once 4 [(i : Int) + 1, (j : Int) + 1, (l : Int) + 1, 1] :=
    digits_once_of_cells _ (hblk 3 (by decide))
  have H := four_clues_search
  simp only [List.all_eq_true, List.mem_range, Bool.or_eq_true, Bool.not_eq_true',
    decide_eq_false_iff_not, decide_eq_true_eq] at H
  replace H := H a qa
  replace H := H b qb
  rcases H with hn | H
  · exact absurd ur0 hn
  replace H := H c qc
  replace H := H d qd
  rcases H with hn | H
  · exact absurd ub0 hn
  replace H := H e qe
  replace H := H f qf
  rcases H with hn | H
  · exact absurd ub1 hn
  rcases H with hn | H
  · exact absurd ur1 hn
  replace H := H g qg
  rcases H with hn | H
  · exact absurd uc0 hn
  replace H := H h qh
  replace H := H k qk
  rcases H with hn | H
  · exact absurd ub2 hn
  rcases H with hn | H
  · exact absurd uc1 hn
  replace H := H i qi
  replace H := H j qj
  rcases H with hn | H
  · exact absurd ur2 hn
  replace H := H l ql
  rcases H with hn | H
  · exact absurd ur3 hn
  rcases H with hn | H
  · exact absurd uc2 hn
  rcases H with hn | H
  · exact absurd uc3 hn
  rcases H with hn | H
  · exact absurd ub3 hn
  exact H
/-! ## The linked nodes are determined by the mesh -/

theorem ColOK.linked_unique {m : dlx_matrix} {N : Nat} {hid hid' : Nat → Prop} {c : Nat}
    (h : ColOK m N hid c) (h' : ColOK m N hid' c) :
    ∀ x, col_set m N hid c x → col_set m N hid' c x := by
  intro x
  induction x using Nat.strong_induction_on with
  | _ x ih =>
    intro hx
    rcases ht : m.top.getD c Option.none with _ | t
    · exact absurd hx (h.top_none ht x)
    · obtain ⟨htS, hmin⟩ := h.top_some t ht
      obtain ⟨htS', _⟩ := h'.top_some t ht
      by_cases hxt : x = t
      · rw [hxt]; exact htS'
      · have hp := h.up_pred x hx
        have hm := h.up_mem x hx
        have hlt : m.up.getD x 0 < x := by
          obtain ⟨_, a | ⟨_, _, a⟩⟩ := hp
          · exact a.1
          · have := a t htS
            have := hmin x hx
            omega
        have hu' := ih _ hlt hm
        have e := CycSucc.unique_succ (h.down_succ _ hm) hp
        have := (h'.down_succ _ hu').1
        rw [e] at this
        exact this

theorem ColInv.hid_unique {m : dlx_matrix} {N : Nat} {hid hid' : Nat → Prop}
    (h : ColInv m N hid) (h' : ColInv m N hid') : hid' = hid := by
  funext x
  apply propext
  constructor
  · intro a
    by_contra b
    have hx := h'.hid_lt x a
    have hW := h.static.header_lt x hx
    exact (ColOK.linked_unique (h.col _ hW) (h'.col _ hW) x ⟨hx, rfl, b⟩).2.2 a
  · intro a
    by_contra b
    have hx := h.hid_lt x a
    have hW := h.static.header_lt x hx
    exact (ColOK.linked_unique (h'.col _ hW) (h.col _ hW) x ⟨hx, rfl, b⟩).2.2 a

/-! ## The links of unlinked nodes along a cover -/

theorem initialize_sudoku_loop_blank (w fuel : Nat) (board : List (List Int)) (row col : Nat)
    (rest : List (Nat × Nat)) (m : dlx_matrix)
    (hv : (board.getD row []).get? col = some (-1)) :
    initialize_sudoku_loop w fuel board ((row, col) :: rest) m =
      initialize_sudoku_loop w fuel board rest m := by
  rw [initialize_sudoku_loop, hv]
  simp

theorem initialize_sudoku_loop_filter (sudoku_width fuel : Nat)
    (starting_puzzle : List (List Int)) :
    ∀ (positions : List (Nat × Nat)) (m : dlx_matrix),
      initialize_sudoku_loop sudoku_width fuel starting_puzzle positions m =
        initialize_sudoku_loop sudoku_width fuel starting_puzzle
          (positions.filter
            (fun pos => decide ((starting_puzzle.getD pos.1 []).get? pos.2 ≠ some (-1)))) m
  | [], m => rfl
  | (row, col) :: rest, m => by
    by_cases hv : (starting_puzzle.getD row []).get? col = some (-1)
    · rw [initialize_sudoku_loop_blank _ _ _ _ _ _ _ hv, List.filter_cons_of_neg (by simpa using hv)]
      exact initialize_sudoku_loop_filter sudoku_width fuel starting_puzzle rest m
    · rw [List.filter_cons_of_pos (by simpa using hv), initialize_sudoku_loop,
        initialize_sudoku_loop]
      rcases hg : (starting_puzzle.getD row []).get? col with _ | v
      · rfl
      · simp only []
        by_cases hne : v ≠ -1
        · simp only [if_pos hne]
          split
          · rfl
          · rcases initialize_walk fuel _ fuel m _ with e | ⟨b, m1⟩
            · rfl
            · cases b
              · rfl
              · exact initialize_sudoku_loop_filter sudoku_width fuel starting_puzzle rest m1
        · simp only [if_neg hne]
          exact initialize_sudoku_loop_filter sudoku_width fuel starting_puzzle rest m

theorem record_solution_all_moves {β : Type} (i : dlx_matrix → List (Nat × Nat) → β)
    (st : solve_state β) :
    (record_solution i dlx_save_setting.all_moves st).solutions = st.solutions ∧
    (record_solution i dlx_save_setting.all_moves st).solution_count = st.solution_count + 1 :=
  ⟨rfl, rfl⟩

/-- In `all_moves` mode the loop appends to `solutions` the interpretation of
the state after each pass of the body that does not return, and a return that
has counted a solution keeps them. -/
theorem solve_loop_all_moves {β : Type} (i : dlx_matrix → List (Nat × Nat) → β) (fuel0 : Nat)
    (cap : Int) :
    ∀ (fuel : Nat) (a : solve_state β) (u : solve_state Unit) (a1 : solve_state β),
      a.core = u.core →
      solve_loop i fuel0 cap dlx_save_setting.all_moves fuel a = Except.ok a1 →
      1 ≤ a1.solution_count →
      a1.solutions = a.solutions ++ (search_moves fuel0 cap fuel u).map (fun p => i p.1 p.2)
  | 0, _, _, _, _, h, _ => by simp [solve_loop] at h
  | fuel + 1, a, u, a1, hcore, h, hc => by
    have hcount : a.solution_count = u.solution_count := by
      simp only [solve_state.core, Prod.mk.injEq] at hcore
      exact hcore.2.2
    rw [solve_loop] at h
    rw [search_moves, ← hcount]
    by_cases hcap : a.solution_count < cap
    · simp only [hcap, if_true] at h ⊢
      rcases solve_body_core i (fun _ _ => ()) fuel0 dlx_save_setting.all_moves
        dlx_save_setting.none a u hcore with ⟨e, e1, e2⟩ | ⟨f, a2, u2, e1, e2, h2⟩
      · rw [e1] at h
        cases h
      obtain ⟨st', hst', hcnt, hsh⟩ := solve_body_shape i fuel0 dlx_save_setting.all_moves a f a2 e1
      have hsol : st'.solutions = a.solutions := by
        rcases hst' with e | ⟨_, _, e⟩
        · rw [e]
        · rw [e]
          rfl
      rw [e1] at h
      rw [e2]
      cases f
      · simp only [] at h ⊢
        rcases hsh with ⟨hf, _⟩ | ⟨_, hs⟩
        · cases hf
        have ih := solve_loop_all_moves i fuel0 cap fuel a2 u2 a1 h2 h hc
        have hmu : a2.m = u2.m ∧ a2.backtrack_stack = u2.backtrack_stack := by
          simp only [solve_state.core, Prod.mk.injEq] at h2
          exact ⟨h2.1, h2.2.1⟩
        rw [ih, hs, hsol, List.map_cons, ← hmu.1, ← hmu.2]
        simp [record_move]
      · simp only [Except.ok.injEq] at h
        subst h
        rcases hsh with ⟨_, _, _, hs⟩ | ⟨hf, _⟩
        · rw [hs, if_neg (by omega), hsol]
          simp
        · cases hf
    · simp only [hcap, if_false, Except.ok.injEq] at h ⊢
      subst h
      simp

/-- In `all_moves` mode a run that returns without a counted solution returns
the empty list, unless the loop is left at its first test. -/
theorem solve_loop_all_moves_none {β : Type} (i : dlx_matrix → List (Nat × Nat) → β)
    (fuel0 : Nat) (cap : Int) :
    ∀ (fuel : Nat) (a a1 : solve_state β), 0 ≤ a.solution_count →
      solve_loop i fuel0 cap dlx_save_setting.all_moves fuel a = Except.ok a1 →
      a1.solution_count < 1 →
      a1.solutions = [] ∨ (¬ a.solution_count < cap ∧ a1 = a)
  | 0, _, _, _, h, _ => by simp [solve_loop] at h
  | fuel + 1, a, a1, h0, h, hc => by
    rw [solve_loop] at h
    by_cases hcap : a.solution_count < cap
    · simp only [hcap, if_true] at h
      rcases hb : solve_body i fuel0 dlx_save_setting.all_moves a with e | ⟨f, a2⟩
      · rw [hb] at h
        cases h
      obtain ⟨st', hst', hcnt, hsh⟩ := solve_body_shape i fuel0 dlx_save_setting.all_moves a f a2 hb
      have hge : a.solution_count ≤ st'.solution_count := by
        rcases hst' with e | ⟨_, _, e⟩
        · rw [e]
        · rw [e]
          show a.solution_count ≤ a.solution_count + 1
          omega
      rw [hb] at h
      cases f
      · simp only [] at h
        rcases solve_loop_all_moves_none i fuel0 cap fuel a2 a1 (by omega) h hc with e | ⟨e1, e2⟩
        · exact Or.inl e
        · exfalso
          rw [e2] at hc
          omega
      · simp only [Except.ok.injEq] at h
        subst h
        rcases hsh with ⟨_, _, _, hs⟩ | ⟨hf, _⟩
        · left
          rw [hs, if_pos (by omega)]
        · cases hf
    · simp only [hcap, if_false, Except.ok.injEq] at h
      exact Or.inr ⟨hcap, h.symm⟩

/-! ## The search meets every exact cover -/

/-- The state of the search is determined by its choice stack. -/
theorem Reach.state_unique {N fuel0 : Nat} {m0 : dlx_matrix} {cov0 : Nat → Prop}
    {stack : List (Nat × Nat)} {m : dlx_matrix} {cov : Nat → Prop}
    (h : Reach N fuel0 m0 cov0 stack m cov) :
    ∀ (stack' : List (Nat × Nat)) (m' : dlx_matrix) (cov' : Nat → Prop),
      Reach N fuel0 m0 cov0 stack' m' cov' → stack' = stack →
      m' = m ∧ ∀ c, cov' c ↔ cov c := by
  induction h with
  | base =>
    intro stack' m' cov' h2 hs
    cases h2 with
    | base => exact ⟨rfl, fun c => Iff.rfl⟩
    | push stack mp covp hidp nd m1 m cov hR hC hnd hh hc hm e1 e2 hcov => cases hs
  | push stack mp covp hidp nd m1 m cov hR hC hnd hh hc hm e1 e2 hcov ih =>
    intro stack' m' cov' h2 hs
    cases h2 with
    | base => cases hs
    | push stack2 mp2 covp2 hidp2 nd2 m12 m2 cov2 hR2 hC2 hnd2 hh2 hc2 hm2 e12 e22 hcov2 =>
      simp only [List.cons.injEq, Prod.mk.injEq] at hs
      obtain ⟨⟨_, hn⟩, hst⟩ := hs
      obtain ⟨hmp, hcv⟩ := ih stack2 mp2 covp2 hR2 hst
      subst hn
      subst hmp
      rw [e1] at e12
      cases e12
      rw [e2] at e22
      cases e22
      refine ⟨rfl, fun c => ?_⟩
      rw [hcov c, hcov2 c, hcv c]

/-- The lower parts of the stack of a state of the search are stacks of states
of the search. -/
theorem Reach.suffix {N fuel0 : Nat} {m0 : dlx_matrix} {cov0 : Nat → Prop} :
    ∀ (a c : List (Nat × Nat)) (m : dlx_matrix) (cov : Nat → Prop),
      Reach N fuel0 m0 cov0 (a ++ c) m cov → ∃ mc covc, Reach N fuel0 m0 cov0 c mc covc
  | [], c, m, cov, h => ⟨m, cov, h⟩
  | e :: a, c, m, cov, h => by
    generalize hs : (e :: a) ++ c = s at h
    cases h with
    | base => cases hs
    | push stack mp covp hidp nd m1 m cov hR hC hnd hh hc hm e1 e2 hcov =>
      simp only [List.cons_append, List.cons.injEq] at hs
      obtain ⟨_, hst⟩ := hs
      rw [← hst] at hR
      exact Reach.suffix a c mp covp hR

/-- The state below the top entry of the stack of a state of the search. -/
theorem Reach.parent {N fuel0 : Nat} {m0 : dlx_matrix} {cov0 : Nat → Prop}
    {H nd : Nat} {rest : List (Nat × Nat)} {m : dlx_matrix} {cov : Nat → Prop}
    (h : Reach N fuel0 m0 cov0 ((H, nd) :: rest) m cov) :
    ∃ mp covp hidp m1, Reach N fuel0 m0 cov0 rest mp covp ∧ Cons mp N hidp covp Option.none ∧
      nd < N ∧ ¬ hidp nd ∧ ¬ covp H ∧ H < mp.optional_constraint_start_column ∧
      mp.header.getD nd 0 = H ∧
      remove_column fuel0 (header_tree_erase mp H) nd = Except.ok m1 ∧
      remove_row fuel0 m1 nd = Except.ok m ∧
      (∀ c, cov c ↔ (covp c ∨ ∃ p, row_set mp N nd p ∧ mp.header.getD p 0 = c)) := by
  generalize hs : (H, nd) :: rest = s at h
  cases h with
  | base => cases hs
  | push stack mp covp hidp nd' m1 m cov hR hC hnd hh hc hm e1 e2 hcov =>
    simp only [List.cons.injEq, Prod.mk.injEq] at hs
    obtain ⟨⟨hH, hn⟩, hst⟩ := hs
    subst hn
    subst hst
    subst hH
    exact ⟨mp, covp, hidp, m1, hR, hC, hnd, hh, hc, hm, rfl, e1, e2, hcov⟩

/-- In a state of the search whose stack holds rows of the cover `S` only, the
node that `S` has in an uncovered column is linked. -/
theorem CoverOf.node_linked {N fuel0 : Nat} {m0 : dlx_matrix} {cov0 : Nat → Prop}
    {S : Nat → Prop} (hS : CoverOf m0 N cov0 S) (hf : N < fuel0)
    {stack : List (Nat × Nat)} {m : dlx_matrix} {cov hid : Nat → Prop}
    (hR : Reach N fuel0 m0 cov0 stack m cov) (hC : Cons m N hid cov Option.none)
    (hext : ∀ e, e ∈ stack → S (m0.matrix_row.getD e.2 0))
    {p : Nat} (hp : p < N) (hSp : S (m0.matrix_row.getD p 0))
    (hcp : ¬ cov (m0.header.getD p 0)) : col_set m N hid (m0.header.getD p 0) p := by
  have f := hR.frame hf
  obtain ⟨h1, _, _, _⟩ := hR.rows hf
  refine ⟨hp, by rw [f.header], fun hh => ?_⟩
  obtain ⟨q, hq, hrow, _, hcq⟩ := hC.witness p hh
  rw [f.matrix_row] at hrow
  rw [f.header] at hcq
  have htq : row_touches m0 N (m0.matrix_row.getD p 0) (m0.header.getD q 0) := ⟨q, hq, hrow, rfl⟩
  rcases (h1 _).mp hcq with a | ⟨e, he, a⟩
  · exact hS.live _ hSp _ htq a
  · have := hS.disjoint _ _ _ hSp (hext e he) htq a
    apply hcp
    rw [h1]
    refine Or.inr ⟨e, he, ?_⟩
    rw [← this]
    exact ⟨p, hp, rfl, rfl⟩

/-- In a state of the search whose stack holds rows of the cover `S` only, the
column that `*header_tree.begin()` names holds a linked node of a row of
`S`. -/
theorem CoverOf.begin_node {N fuel0 : Nat} {m0 : dlx_matrix} {cov0 : Nat → Prop}
    {S : Nat → Prop} (hS : CoverOf m0 N cov0 S) (hf : N < fuel0)
    {stack : List (Nat × Nat)} {m : dlx_matrix} {cov hid : Nat → Prop}
    (hR : Reach N fuel0 m0 cov0 stack m cov) (hC : Cons m N hid cov Option.none)
    (hext : ∀ e, e ∈ stack → S (m0.matrix_row.getD e.2 0))
    {H : Nat} (hb : tree_begin m = some H) :
    ∃ p, p < N ∧ S (m0.matrix_row.getD p 0) ∧ m0.header.getD p 0 = H ∧ col_set m N hid H p := by
  have f := hR.frame hf
  obtain ⟨h1, _, _, _⟩ := hR.rows hf
  obtain ⟨hHW, hbit⟩ := tree_begin_some hb
  have hHm : H < m.optional_constraint_start_column := by
    rcases Nat.lt_or_ge H m.optional_constraint_start_column with a | a
    · exact a
    · have := hC.tree.only_mand H hHW a
      rw [hbit] at this
      cases this
  have hncov : ¬ cov H := (hC.tree.mand H hHW hHm).mp hbit
  obtain ⟨r, hr, p, hp, hrow, hhd⟩ := hS.mandatory H (by rw [← f.array_width]; exact hHW)
    (by rw [← f.optional_start]; exact hHm) (fun a => hncov ((h1 H).mpr (Or.inl a)))
  subst hrow
  have := hS.node_linked hf hR hC hext hp hr (by rw [hhd]; exact hncov)
  rw [hhd] at this
  exact ⟨p, hp, hr, hhd, this⟩

/-- The backtracking `while` loop pops exactly the entries at the top of the
stack whose node is the bottom of its column in the state below the entry. -/
theorem backtrack_loop_popped {N fuel0 : Nat} {m0 : dlx_matrix} {cov0 : Nat → Prop}
    (hf : N < fuel0) {stack : List (Nat × Nat)} {m : dlx_matrix} {cov : Nat → Prop}
    (h : Reach N fuel0 m0 cov0 stack m cov) :
    ∃ m2 stack2 cov2 popped, backtrack_loop fuel0 m stack = Except.ok (m2, stack2) ∧
      Reach N fuel0 m0 cov0 stack2 m2 cov2 ∧ stack = popped ++ stack2 ∧
      (∀ H nd rest, stack2 = (H, nd) :: rest →
        m2.bottom.getD H Option.none ≠ some nd) ∧
      (∀ a H nd b mq covq, popped = a ++ (H, nd) :: b →
        Reach N fuel0 m0 cov0 (b ++ stack2) mq covq →
        mq.bottom.getD H Option.none = some nd) := by
  induction h with
  | base =>
    exact ⟨m0, [], cov0, [], rfl, Reach.base, rfl, fun _ _ _ e => (by cases e),
      fun a H nd b mq covq e => (by simp at e)⟩
  | push stack mp covp hidp nd m1 m cov hR hC hnd hh hc hm e1 e2 hcov ih =>
    obtain ⟨_, _, hrr, hrc⟩ := cover_row_facts hC hnd hh hc hf e1 e2 hcov
    obtain ⟨_, hbot, _⟩ := cover_row_column_stable hC hnd hh hc hf e1 e2 hcov
    rw [backtrack_loop]
    by_cases hb : m.bottom.getD (mp.header.getD nd 0) Option.none = some nd
    · rw [if_pos hb, hrr]
      simp only
      rw [hrc]
      simp only
      have hW := hC.col.static.header_lt nd hnd
      rw [header_tree_insert_erase mp _ ((hC.tree.mand _ hW hm).mpr hc)]
      obtain ⟨m2, stack2, cov2, popped, e, hR2, hpre, hstop, hpop⟩ := ih
      refine ⟨m2, stack2, cov2, (mp.header.getD nd 0, nd) :: popped, e, hR2,
        by rw [hpre]; rfl, hstop, fun a H nd' b mq covq hs hq => ?_⟩
      rcases a with _ | ⟨x, a⟩
      · simp only [List.nil_append, List.cons.injEq, Prod.mk.injEq] at hs
        obtain ⟨⟨hH, hn⟩, hb'⟩ := hs
        rw [← hb', ← hpre] at hq
        obtain ⟨hmq, _⟩ := hR.state_unique _ _ _ hq rfl
        rw [hmq, ← hH, ← hn, ← hbot]
        exact hb
      · simp only [List.cons_append, List.cons.injEq] at hs
        exact hpop a H nd' b mq covq hs.2 hq
    · rw [if_neg hb]
      refine ⟨m, _, cov, [], rfl, Reach.push stack mp covp hidp nd m1 m cov hR hC hnd hh hc hm e1 e2
        hcov, rfl, fun H nd' rest e => ?_, fun a H nd' b mq covq e => (by simp at e)⟩
      simp only [List.cons.injEq, Prod.mk.injEq] at e
      obtain ⟨⟨rfl, rfl⟩, _⟩ := e
      exact hb

/-- Pushing the entry that the descend step pushes keeps the stack canonical. -/
theorem Canon.push_begin {N fuel0 : Nat} {m0 : dlx_matrix} {cov0 : Nat → Prop}
    {stack : List (Nat × Nat)} {m : dlx_matrix} {cov : Nat → Prop}
    (hc : Canon N fuel0 m0 cov0 stack) (hR : Reach N fuel0 m0 cov0 stack m cov) {H : Nat}
    (hb : tree_begin m = some H) (nd : Nat) : Canon N fuel0 m0 cov0 ((H, nd) :: stack) := by
  intro a H' nd' c mc covc hs hq
  rcases a with _ | ⟨x, a⟩
  · simp only [List.nil_append, List.cons.injEq, Prod.mk.injEq] at hs
    obtain ⟨⟨hH, _⟩, hst⟩ := hs
    rw [← hst] at hq
    obtain ⟨hmq, _⟩ := hR.state_unique _ _ _ hq rfl
    rw [hmq, ← hH]
    exact hb
  · simp only [List.cons_append, List.cons.injEq] at hs
    exact hc a H' nd' c mc covc hs.2 hq

/-- Popping entries and replacing the node of the entry then on top keeps the
stack canonical. -/
theorem Canon.replace {N fuel0 : Nat} {m0 : dlx_matrix} {cov0 : Nat → Prop}
    {popped rest : List (Nat × Nat)} {H nd : Nat}
    (hc : Canon N fuel0 m0 cov0 (popped ++ (H, nd) :: rest)) (nd' : Nat) :
    Canon N fuel0 m0 cov0 ((H, nd') :: rest) := by
  intro a H' nd2 c mc covc hs hq
  rcases a with _ | ⟨x, a⟩
  · simp only [List.nil_append, List.cons.injEq, Prod.mk.injEq] at hs
    obtain ⟨⟨hH, _⟩, hst⟩ := hs
    rw [← hst] at hq
    rw [← hH]
    exact hc popped H nd rest mc covc rfl hq
  · simp only [List.cons_append, List.cons.injEq] at hs
    refine hc (popped ++ (H, nd) :: a) H' nd2 c mc covc ?_ hq
    rw [hs.2]
    simp

/-- In a state where the search turns back, a cover that is still to come
either is the stack itself, all mandatory columns being covered, or waits
below an entry of the stack whose node lies before the node of the cover. -/
theorem Ahead.terminal {N fuel0 : Nat} {m0 : dlx_matrix} {cov0 : Nat → Prop}
    (hf : N < fuel0)
    (hmand : ∀ p, p < N → ∃ c, c < m0.optional_constraint_start_column ∧
      row_touches m0 N (m0.matrix_row.getD p 0) c)
    {stack : List (Nat × Nat)} {m : dlx_matrix} {cov hid : Nat → Prop}
    (hR : Reach N fuel0 m0 cov0 stack m cov) (hC : Cons m N hid cov Option.none)
    (ht : terminal_check m = true) {S : Nat → Prop} (hS : CoverOf m0 N cov0 S)
    (hA : Ahead m0 N S stack) :
    (tree_empty m = true ∧
      ∀ r, S r ↔ r ∈ stack.map (fun e => m0.matrix_row.getD e.2 0)) ∨
    ∃ pre' H nd p post, stack = pre' ++ (H, nd) :: post ∧
      (∀ e, e ∈ post → S (m0.matrix_row.getD e.2 0)) ∧ p < N ∧
      S (m0.matrix_row.getD p 0) ∧ m0.header.getD p 0 = H ∧ nd < p := by
  have f := hR.frame hf
  obtain ⟨h1, _, _, _⟩ := hR.rows hf
  obtain ⟨pre, post, hs, hext, hcase⟩ := hA
  rcases hcase with rfl | ⟨pre', H, nd, p, rfl, hp, hSp, hH, hlt⟩
  · simp only [List.nil_append] at hs
    subst hs
    by_cases hte : tree_empty m = true
    · refine Or.inl ⟨hte, fun r => ⟨fun hr => ?_, fun hr => ?_⟩⟩
      · obtain ⟨p, hp, rfl⟩ := hS.real r hr
        obtain ⟨c, hcm, hct⟩ := hmand p hp
        have hcW : c < m.array_width := by
          obtain ⟨q, hq, _, hqc⟩ := hct
          have := hC.col.static.header_lt q hq
          rw [f.header, hqc] at this
          exact this
        have hcov : cov c := by
          by_contra hn
          have := (hC.tree.mand c hcW (by rw [f.optional_start]; exact hcm)).mpr hn
          rw [(tree_empty_iff m).mp hte c hcW] at this
          cases this
        rcases (h1 c).mp hcov with a | ⟨e, he, a⟩
        · exact absurd a (hS.live _ hr c hct)
        · have := hS.disjoint _ _ c hr (hext e he) hct a
          rw [this]
          exact List.mem_map.mpr ⟨e, he, rfl⟩
      · obtain ⟨e, he, rfl⟩ := List.mem_map.mp hr
        exact hext e he
    · exfalso
      unfold terminal_check at ht
      simp only [Bool.or_eq_true] at ht
      rcases ht with ht | ht
      · exact hte ht
      · rcases hb : tree_begin m with _ | b
        · apply hte
          rw [tree_empty_iff]
          intro c hc
          have := tree_begin_none hb c hc
          simpa using this
        · rw [hb] at ht
          simp only [decide_eq_true_eq] at ht
          obtain ⟨p, _, _, _, hcs⟩ := hS.begin_node hf hR hC hext hb
          have := (hC.col.col b (tree_begin_some hb).1).count_pos hcs
          omega
  · refine Or.inr ⟨pre', H, nd, p, post, ?_, hext, hp, hSp, hH, hlt⟩
    rw [hs]
    simp

/-- A cover that waits below an entry of the stack is not passed by the
backtracking loop: the entry it waits below is not popped. -/
theorem pending_not_popped {N fuel0 : Nat} {m0 : dlx_matrix} {cov0 : Nat → Prop}
    (hf : N < fuel0)
    {stack : List (Nat × Nat)} {m : dlx_matrix} {cov : Nat → Prop}
    (hR : Reach N fuel0 m0 cov0 stack m cov) {S : Nat → Prop} (hS : CoverOf m0 N cov0 S)
    {popped stack2 pre' post : List (Nat × Nat)} {H nd p : Nat}
    (hpre : stack = popped ++ stack2)
    (hpop : ∀ a H nd b mq covq, popped = a ++ (H, nd) :: b →
      Reach N fuel0 m0 cov0 (b ++ stack2) mq covq → mq.bottom.getD H Option.none = some nd)
    (hs : stack = pre' ++ (H, nd) :: post)
    (hext : ∀ e, e ∈ post → S (m0.matrix_row.getD e.2 0)) (hp : p < N)
    (hSp : S (m0.matrix_row.getD p 0)) (hH : m0.header.getD p 0 = H) (hlt : nd < p) :
    ∃ a', stack2 = a' ++ (H, nd) :: post ∧ pre' = popped ++ a' := by
  have hs2 : popped ++ stack2 = pre' ++ (H, nd) :: post := by rw [← hpre, hs]
  rcases List.append_eq_append_iff.mp hs2 with ⟨a', ha, hb⟩ | ⟨c', ha, hb⟩
  · exact ⟨a', hb, ha⟩
  · rcases c' with _ | ⟨x, b⟩
    · simp only [List.nil_append] at hb
      simp only [List.append_nil] at ha
      exact ⟨[], by rw [← hb]; rfl, by rw [ha]; simp⟩
    · exfalso
      simp only [List.cons_append, List.cons.injEq] at hb
      obtain ⟨hx, hpost⟩ := hb
      subst hx
      rw [hs] at hR
      obtain ⟨mx, covx, hRx⟩ := Reach.suffix pre' _ _ _ hR
      obtain ⟨mp, covp, hidp, m1, hRp, hCp, hnd, hh, hc, hm, hhd, e1, e2, hcov⟩ := hRx.parent
      have hq := hpop pre' H nd b mp covp ha (by rw [← hpost]; exact hRp)
      have hW := hCp.col.static.header_lt nd hnd
      rw [hhd] at hW
      have hcs := hS.node_linked hf hRp hCp hext hp hSp (by rw [hH]; exact hc)
      rw [hH] at hcs
      have := ((hCp.col.col H hW).bottom_some nd hq).2 p hcs
      omega

/-- The descend step keeps a cover that is still to come still to come: the
node it pushes is the first linked node of its column. -/
theorem Ahead.descend {N fuel0 : Nat} {m0 : dlx_matrix} {cov0 : Nat → Prop}
    (hf : N < fuel0) {stack : List (Nat × Nat)} {m : dlx_matrix} {cov hid : Nat → Prop}
    (hR : Reach N fuel0 m0 cov0 stack m cov) (hC : Cons m N hid cov Option.none)
    {H nd : Nat} (hb : tree_begin m = some H) (htop : m.top.getD H Option.none = some nd)
    {S : Nat → Prop} (hS : CoverOf m0 N cov0 S) (hA : Ahead m0 N S stack) :
    Ahead m0 N S ((H, nd) :: stack) := by
  obtain ⟨pre, post, hs, hext, hcase⟩ := hA
  rcases hcase with rfl | ⟨pre', H', nd', p, rfl, hp, hSp, hH, hlt⟩
  · simp only [List.nil_append] at hs
    subst hs
    obtain ⟨p, hp, hSp, hH, hcs⟩ := hS.begin_node hf hR hC hext hb
    have hle := ((hC.col.col H (tree_begin_some hb).1).top_some nd htop).2 p hcs
    rcases Nat.lt_or_ge nd p with hlt | hge
    · exact ⟨[(H, nd)], stack, rfl, hext, Or.inr ⟨[], H, nd, p, rfl, hp, hSp, hH, hlt⟩⟩
    · have hpn : p = nd := by omega
      subst hpn
      refine ⟨[], (H, p) :: stack, rfl, fun e he => ?_, Or.inl rfl⟩
      rcases List.mem_cons.mp he with rfl | he
      · exact hSp
      · exact hext e he
  · refine ⟨((H, nd) :: pre') ++ [(H', nd')], post, ?_, hext,
      Or.inr ⟨(H, nd) :: pre', H', nd', p, rfl, hp, hSp, hH, hlt⟩⟩
    rw [hs]
    simp

/-- The backtrack step keeps a cover that waits below an entry of the stack
still to come: the node that replaces the node of the top entry is the next
linked node of its column. -/
theorem pending_replace {N fuel0 : Nat} {m0 : dlx_matrix} {cov0 : Nat → Prop}
    (hf : N < fuel0) {rest1 : List (Nat × Nat)} {mp : dlx_matrix} {covp hidp : Nat → Prop}
    (hRp : Reach N fuel0 m0 cov0 rest1 mp covp) (hCp : Cons mp N hidp covp Option.none)
    {H1 nd1 : Nat} (hnd1 : nd1 < N) (hh1 : ¬ hidp nd1) (hhd1 : mp.header.getD nd1 0 = H1)
    (hc1 : ¬ covp H1)
    {S : Nat → Prop} (hS : CoverOf m0 N cov0 S)
    {a' post : List (Nat × Nat)} {H nd p : Nat}
    (hs : (H1, nd1) :: rest1 = a' ++ (H, nd) :: post)
    (hext : ∀ e, e ∈ post → S (m0.matrix_row.getD e.2 0)) (hp : p < N)
    (hSp : S (m0.matrix_row.getD p 0)) (hH : m0.header.getD p 0 = H) (hlt : nd < p) :
    Ahead m0 N S ((H1, mp.down.getD nd1 0) :: rest1) := by
  rcases a' with _ | ⟨x, a2⟩
  · simp only [List.nil_append, List.cons.injEq, Prod.mk.injEq] at hs
    obtain ⟨⟨hH1, hn1⟩, hrest⟩ := hs
    subst hH1
    subst hn1
    subst hrest
    have hW := hCp.col.static.header_lt nd1 hnd1
    rw [hhd1] at hW
    have hcs := hS.node_linked hf hRp hCp hext hp hSp (by rw [hH]; exact hc1)
    rw [hH] at hcs
    have hndS : col_set mp N hidp H1 nd1 := ⟨hnd1, hhd1, hh1⟩
    have hsucc := (hCp.col.col H1 hW).down_succ nd1 hndS
    rcases hsucc with ⟨hmem, ⟨hlt', hno⟩ | ⟨_, hall, _⟩⟩
    · have hle : mp.down.getD nd1 0 ≤ p := by
        by_contra hn
        exact hno p hcs ⟨hlt, by omega⟩
      rcases Nat.lt_or_ge (mp.down.getD nd1 0) p with hlt2 | hge
      · exact ⟨[(H1, mp.down.getD nd1 0)], rest1, rfl, hext,
          Or.inr ⟨[], H1, _, p, rfl, hp, hSp, hH, hlt2⟩⟩
      · have hpn : p = mp.down.getD nd1 0 := by omega
        refine ⟨[], (H1, mp.down.getD nd1 0) :: rest1, rfl, fun e he => ?_, Or.inl rfl⟩
        rcases List.mem_cons.mp he with rfl | he
        · rw [← hpn]
          exact hSp
        · exact hext e he
    · have := hall p hcs
      omega
  · simp only [List.cons_append, List.cons.injEq] at hs
    obtain ⟨_, hrest⟩ := hs
    refine ⟨((H1, mp.down.getD nd1 0) :: a2) ++ [(H, nd)], post, ?_, hext,
      Or.inr ⟨(H1, mp.down.getD nd1 0) :: a2, H, nd, p, rfl, hp, hSp, hH, hlt⟩⟩
    rw [hrest]
    simp

/-- One pass of the body of the main loop, in `solutions` mode, on a state of
the search with a canonical stack: the pass returns, leads to a state of the
search, records the stack exactly when every mandatory column is covered, and a
cover still to come is either the stack recorded in this pass or still to come
afterwards. -/
theorem solve_body_complete {β : Type} (i : dlx_matrix → List (Nat × Nat) → β)
    {N fuel0 : Nat} {m0 : dlx_matrix} {cov0 : Nat → Prop}
    (hf : N < fuel0) (h0 : ∃ hid, Cons m0 N hid cov0 Option.none)
    (hmand : ∀ p, p < N → ∃ c, c < m0.optional_constraint_start_column ∧
      row_touches m0 N (m0.matrix_row.getD p 0) c)
    (st : solve_state β) {cov : Nat → Prop}
    (hR : Reach N fuel0 m0 cov0 st.backtrack_stack st.m cov)
    (hcan : Canon N fuel0 m0 cov0 st.backtrack_stack) :
    ∃ f st1 cov1, solve_body i fuel0 dlx_save_setting.solutions st = Except.ok (f, st1) ∧
      Reach N fuel0 m0 cov0 st1.backtrack_stack st1.m cov1 ∧
      (f = false → Canon N fuel0 m0 cov0 st1.backtrack_stack ∧
        StackNext st.backtrack_stack st1.backtrack_stack) ∧
      ((tree_empty st.m = true ∧
          (∀ c, c < m0.array_width → c < m0.optional_constraint_start_column → cov c) ∧
          st1.solution_count = st.solution_count + 1 ∧
          ((st.solution_count + 1 < 1 ∧ st1.solutions = []) ∨
            st1.solutions = st.solutions ++ [i st.m st.backtrack_stack])) ∨
        (tree_empty st.m = false ∧ st1.solution_count = st.solution_count ∧
          ((st.solution_count < 1 ∧ st1.solutions = []) ∨ st1.solutions = st.solutions))) ∧
      ∀ S, CoverOf m0 N cov0 S → Ahead m0 N S st.backtrack_stack →
        (tree_empty st.m = true ∧
          ∀ r, S r ↔ r ∈ st.backtrack_stack.map (fun e => m0.matrix_row.getD e.2 0)) ∨
        (f = false ∧ Ahead m0 N S st1.backtrack_stack) := by
  obtain ⟨hid, hC⟩ := hR.consistent hf h0
  have fr := hR.frame hf
  unfold solve_body
  by_cases ht : terminal_check st.m = true
  · simp only [ht, if_true]
    -- the state after the solution has been recorded, if any
    have hm' : (if tree_empty st.m = true then
        record_solution i dlx_save_setting.solutions st else st).m = st.m := by
      split_ifs <;> rfl
    have hs' : (if tree_empty st.m = true then
        record_solution i dlx_save_setting.solutions st else st).backtrack_stack =
        st.backtrack_stack := by
      split_ifs <;> rfl
    have hbook : (tree_empty st.m = true ∧
          (∀ c, c < m0.array_width → c < m0.optional_constraint_start_column → cov c) ∧
          (if tree_empty st.m = true then
            record_solution i dlx_save_setting.solutions st else st).solution_count =
            st.solution_count + 1 ∧
          (if tree_empty st.m = true then
            record_solution i dlx_save_setting.solutions st else st).solutions =
            st.solutions ++ [i st.m st.backtrack_stack]) ∨
        (tree_empty st.m = false ∧
          (if tree_empty st.m = true then
            record_solution i dlx_save_setting.solutions st else st).solution_count =
            st.solution_count ∧
          (if tree_empty st.m = true then
            record_solution i dlx_save_setting.solutions st else st).solutions =
            st.solutions) := by
      by_cases hte : tree_empty st.m = true
      · refine Or.inl ⟨hte, fun c hc hcm => ?_, ?_, ?_⟩
        · by_contra hn
          have hcW : c < st.m.array_width := by rw [fr.array_width]; exact hc
          have := (hC.tree.mand c hcW (by rw [fr.optional_start]; exact hcm)).mpr hn
          rw [(tree_empty_iff st.m).mp hte c hcW] at this
          cases this
        · rw [if_pos hte]
          rfl
        · rw [if_pos hte]
          rfl
      · have hte' : tree_empty st.m = false := by simpa using hte
        refine Or.inr ⟨hte', ?_, ?_⟩
        · rw [if_neg hte]
        · rw [if_neg hte]
    generalize (if tree_empty st.m = true then
      record_solution i dlx_save_setting.solutions st else st) = st' at hm' hs' hbook ⊢
    rw [hm', hs']
    obtain ⟨m2, stack2, cov2, popped, e, hR2, hpre, hstop, hpop⟩ := backtrack_loop_popped hf hR
    rw [e]
    have hK := fun (S : Nat → Prop) (hS : CoverOf m0 N cov0 S)
        (hA : Ahead m0 N S st.backtrack_stack) => Ahead.terminal hf hmand hR hC ht hS hA
    rcases stack2 with _ | ⟨⟨H1, nd1⟩, rest1⟩
    · -- the stack is exhausted: the search returns
      have hdone : ∀ S, CoverOf m0 N cov0 S → Ahead m0 N S st.backtrack_stack →
          (tree_empty st.m = true ∧
            ∀ r, S r ↔ r ∈ st.backtrack_stack.map (fun e => m0.matrix_row.getD e.2 0)) ∨
          ((true : Bool) = false ∧ Ahead m0 N S ([] : List (Nat × Nat))) := by
        intro S hS hA
        rcases hK S hS hA with a | ⟨pre', H, nd, p, post, hs, hext, hp, hSp, hH, hlt⟩
        · exact Or.inl a
        · exfalso
          obtain ⟨a', ha', _⟩ := pending_not_popped hf hR hS hpre hpop hs hext hp hSp hH hlt
          cases a' <;> cases ha'
      by_cases h1 : st'.solution_count < 1
      · simp only [h1, if_true]
        refine ⟨true, _, cov2, rfl, hR2, fun h => (by cases h), ?_, hdone⟩
        rcases hbook with ⟨a, b, c, d⟩ | ⟨a, c, d⟩
        · exact Or.inl ⟨a, b, c, Or.inl ⟨by rw [← c]; exact h1, rfl⟩⟩
        · exact Or.inr ⟨a, c, Or.inl ⟨by rw [← c]; exact h1, rfl⟩⟩
      · simp only [h1, if_false]
        refine ⟨true, _, cov2, rfl, hR2, fun h => (by cases h), ?_, hdone⟩
        rcases hbook with ⟨a, b, c, d⟩ | ⟨a, c, d⟩
        · exact Or.inl ⟨a, b, c, Or.inr d⟩
        · exact Or.inr ⟨a, c, Or.inr d⟩
    · -- the node of the entry on top is replaced by the next node of its column
      obtain ⟨mp, covp, hidp, m1, hRp, hCp, hnd, hh, hc, hm, hhd, e1, e2, hcov⟩ := hR2.parent
      subst hhd
      obtain ⟨_, _, hrr, hrc⟩ := cover_row_facts hCp hnd hh hc hf e1 e2 hcov
      obtain ⟨hdown, hbot, hcur⟩ := cover_row_column_stable hCp hnd hh hc hf e1 e2 hcov
      have hlt : nd1 < mp.down.getD nd1 0 := by
        have hW := hCp.col.static.header_lt nd1 hnd
        have hp := hCp.col.col _ hW
        have hndS : col_set mp N hidp (mp.header.getD nd1 0) nd1 := ⟨hnd, rfl, hh⟩
        have hs := hstop _ _ _ rfl
        rw [hbot] at hs
        rcases hp.down_succ nd1 hndS with ⟨_, a | a⟩
        · exact a.1
        · exfalso
          rcases hb : mp.bottom.getD (mp.header.getD nd1 0) Option.none with _ | b
          · exact hp.bottom_none hb nd1 hndS
          · obtain ⟨b1, b2⟩ := hp.bottom_some b hb
            have := b2 nd1 hndS
            have := a.2.1 b b1
            apply hs
            rw [hb]
            congr 1
            omega
      simp only
      rw [hrr]
      simp only
      rw [hrc]
      simp only
      rw [hdown]
      obtain ⟨m5, m6, hid6, cov6, e5, e6, hC6, f6, _, hcov6, _⟩ :=
        cover_row_spec hCp hcur.1 hcur.2.2 (by rw [hcur.2.1]; exact hc) fuel0 hf
      rw [hcur.2.1] at e5
      rw [e5]
      simp only
      rw [e6]
      simp only
      have hRnew := Reach.push rest1 mp covp hidp (mp.down.getD nd1 0) m5 m6 cov6 hRp hCp hcur.1
        hcur.2.2 (by rw [hcur.2.1]; exact hc) (by rw [hcur.2.1]; exact hm)
        (by rw [hcur.2.1]; exact e5) e6 hcov6
      rw [hcur.2.1] at hRnew
      refine ⟨false, _, cov6, rfl, hRnew, fun _ => ⟨?_, Or.inr ⟨popped, _, nd1, _, rest1, hpre, rfl,
        hlt⟩⟩, ?_, ?_⟩
      · rw [hpre] at hcan
        exact hcan.replace _
      · simp only [record_move]
        rcases hbook with ⟨a, b, c, d⟩ | ⟨a, c, d⟩
        · exact Or.inl ⟨a, b, c, Or.inr (by simpa using d)⟩
        · exact Or.inr ⟨a, c, Or.inr (by simpa using d)⟩
      · intro S hS hA
        rcases hK S hS hA with a | ⟨pre', H, nd, p, post, hs, hext, hp, hSp, hH, hlt2⟩
        · exact Or.inl a
        · obtain ⟨a', ha', _⟩ := pending_not_popped hf hR hS hpre hpop hs hext hp hSp hH hlt2
          exact Or.inr ⟨rfl, pending_replace hf hRp hCp hnd hh rfl hc hS ha' hext hp hSp hH hlt2⟩
  · have ht' : terminal_check st.m = false := by simpa using ht
    simp only [ht', Bool.false_eq_true, if_false]
    have hte : tree_empty st.m = false := by
      unfold terminal_check at ht'
      simp only [Bool.or_eq_false_iff] at ht'
      exact ht'.1
    obtain ⟨H, hb, hcount⟩ := terminal_check_false ht'
    obtain ⟨hHW, hbit⟩ := tree_begin_some hb
    have hHm : H < st.m.optional_constraint_start_column := by
      rcases Nat.lt_or_ge H st.m.optional_constraint_start_column with a | a
      · exact a
      · have := hC.tree.only_mand H hHW a
        rw [hbit] at this
        cases this
    have hncov : ¬ cov H := (hC.tree.mand H hHW hHm).mp hbit
    have hcol := hC.col.col H hHW
    rw [hb]
    simp only
    rcases htop : st.m.top.getD H Option.none with _ | nd
    · exfalso
      obtain ⟨y, hy⟩ := hcol.exists_of_count_pos hcount
      exact hcol.top_none htop y hy
    · simp only
      obtain ⟨hndS, _⟩ := hcol.top_some nd htop
      obtain ⟨m5, m6, hid6, cov6, e5, e6, hC6, f6, _, hcov6, _⟩ :=
        cover_row_spec hC hndS.1 hndS.2.2 (by rw [hndS.2.1]; exact hncov) fuel0 hf
      rw [hndS.2.1] at e5
      rw [e5]
      simp only
      rw [e6]
      simp only
      have hRnew := Reach.push st.backtrack_stack st.m cov hid nd m5 m6 cov6 hR hC hndS.1
        hndS.2.2 (by rw [hndS.2.1]; exact hncov) (by rw [hndS.2.1]; exact hHm)
        (by rw [hndS.2.1]; exact e5) e6 hcov6
      rw [hndS.2.1] at hRnew
      refine ⟨false, _, cov6, rfl, hRnew, fun _ => ⟨hcan.push_begin hR hb nd, Or.inl ⟨H, nd, rfl⟩⟩,
        Or.inr ⟨hte, rfl, Or.inr ?_⟩, fun S hS hA => Or.inr ⟨rfl, Ahead.descend hf hR hC hb htop hS hA⟩⟩
      simp [record_move]

/-- In a state of the search where every mandatory column is covered, the
mandatory index is empty. -/
theorem Reach.complete_no_begin {N fuel0 : Nat} {m0 : dlx_matrix} {cov0 : Nat → Prop}
    (hf : N < fuel0) (h0 : ∃ hid, Cons m0 N hid cov0 Option.none)
    {stack : List (Nat × Nat)} {m : dlx_matrix} {cov : Nat → Prop}
    (hR : Reach N fuel0 m0 cov0 stack m cov)
    (hall : ∀ c, c < m0.array_width → c < m0.optional_constraint_start_column → cov c)
    (H : Nat) : tree_begin m ≠ some H := by
  intro hb
  obtain ⟨hid, hC⟩ := hR.consistent hf h0
  have fr := hR.frame hf
  obtain ⟨hHW, hbit⟩ := tree_begin_some hb
  have hHm : H < m.optional_constraint_start_column := by
    rcases Nat.lt_or_ge H m.optional_constraint_start_column with a | a
    · exact a
    · have := hC.tree.only_mand H hHW a
      rw [hbit] at this
      cases this
  exact (hC.tree.mand H hHW hHm).mp hbit
    (hall H (by rw [← fr.array_width]; exact hHW) (by rw [← fr.optional_start]; exact hHm))

theorem list_nil_or_snoc {α : Type} (l : List α) : l = [] ∨ ∃ L b, l = L ++ [b] := by
  rcases List.eq_nil_or_concat l with h | ⟨L, b, h⟩
  · exact Or.inl h
  · exact Or.inr ⟨L, b, by rw [h, List.concat_eq_append]⟩

/-- Two canonical stacks of complete states of the search that hold the same
rows are equal. -/
theorem canon_rows_unique {N fuel0 : Nat} {m0 : dlx_matrix} {cov0 : Nat → Prop}
    (hf : N < fuel0) (h0 : ∃ hid, Cons m0 N hid cov0 Option.none) :
    ∀ (n : Nat) (a b c : List (Nat × Nat)) (ms mt : dlx_matrix) (covs covt : Nat → Prop),
      a.length = n →
      Reach N fuel0 m0 cov0 (a ++ c) ms covs → Reach N fuel0 m0 cov0 (b ++ c) mt covt →
      Canon N fuel0 m0 cov0 (a ++ c) → Canon N fuel0 m0 cov0 (b ++ c) →
      (∀ x, x < m0.array_width → x < m0.optional_constraint_start_column → covs x) →
      (∀ x, x < m0.array_width → x < m0.optional_constraint_start_column → covt x) →
      (∀ r, r ∈ (a ++ c).map (fun e => m0.matrix_row.getD e.2 0) ↔
        r ∈ (b ++ c).map (fun e => m0.matrix_row.getD e.2 0)) →
      a = b
  | 0, a, b, c, ms, mt, covs, covt, hn, hRs, hRt, hcs, hct, has, hat, hrows => by
    have ha : a = [] := List.length_eq_zero.mp hn
    subst ha
    rcases list_nil_or_snoc b with rfl | ⟨b', ⟨H, y⟩, rfl⟩
    · rfl
    · exfalso
      simp only [List.nil_append] at hRs
      have := hct b' H y c ms covs (by simp) hRs
      exact hRs.complete_no_begin hf h0 has H this
  | n + 1, a, b, c, ms, mt, covs, covt, hn, hRs, hRt, hcs, hct, has, hat, hrows => by
    rcases list_nil_or_snoc a with rfl | ⟨a', ⟨H, x⟩, rfl⟩
    · simp at hn
    have hlen : a'.length = n := by
      simp only [List.length_append, List.length_singleton] at hn
      omega
    have hsa : (a' ++ [(H, x)]) ++ c = a' ++ ((H, x) :: c) := by simp
    rw [hsa] at hRs hcs hrows
    obtain ⟨mx, covx, hRx⟩ := Reach.suffix a' _ _ _ hRs
    obtain ⟨mp, covp, hidp, m1, hRp, hCp, hx, _, _, _, hhx, _, _, _⟩ := hRx.parent
    have hbs := hcs a' H x c mp covp rfl hRp
    rcases list_nil_or_snoc b with rfl | ⟨b', ⟨H', y⟩, rfl⟩
    · exfalso
      simp only [List.nil_append] at hRt
      obtain ⟨hm, _⟩ := hRt.state_unique _ _ _ hRp rfl
      rw [hm] at hbs
      exact hRt.complete_no_begin hf h0 hat H hbs
    · have hsb : (b' ++ [(H', y)]) ++ c = b' ++ ((H', y) :: c) := by simp
      rw [hsb] at hRt hct hrows
      obtain ⟨my, covy, hRy⟩ := Reach.suffix b' _ _ _ hRt
      obtain ⟨mq, covq, hidq, m1', hRq, hCq, hy, _, _, _, hhy, _, _, _⟩ := hRy.parent
      have hbt := hct b' H' y c mq covq rfl hRq
      obtain ⟨hm, _⟩ := hRp.state_unique _ _ _ hRq rfl
      rw [hm, hbs] at hbt
      have hHH : H' = H := (Option.some.inj hbt).symm
      subst hHH
      have fp := hRp.frame hf
      rw [fp.header] at hhx
      rw [hm, fp.header] at hhy
      obtain ⟨hid0, hC0⟩ := h0
      have hxy : x = y := by
        have hrx : m0.matrix_row.getD x 0 ∈
            (b' ++ (H', y) :: c).map (fun e => m0.matrix_row.getD e.2 0) :=
          (hrows _).mp (List.mem_map.mpr ⟨(H', x), by simp, rfl⟩)
        have hry : m0.matrix_row.getD y 0 ∈
            (b' ++ (H', y) :: c).map (fun e => m0.matrix_row.getD e.2 0) :=
          List.mem_map.mpr ⟨(H', y), by simp, rfl⟩
        have hrow : m0.matrix_row.getD x 0 = m0.matrix_row.getD y 0 := by
          by_contra hne
          have hpw := (hRt.rows hf).2.1
          have hsym : Symmetric (fun a b : Nat =>
              ∀ c, ¬ (row_touches m0 N a c ∧ row_touches m0 N b c)) :=
            fun a b hab c hc => hab c ⟨hc.2, hc.1⟩
          exact hpw.forall hsym hrx hry hne H' ⟨⟨x, hx, rfl, hhx⟩, ⟨y, hy, rfl, hhy⟩⟩
        exact hC0.col.static.row_distinct x y hx hy hrow (by rw [hhx, hhy])
      subst hxy
      have := canon_rows_unique hf ⟨hid0, hC0⟩ n a' b' ((H', x) :: c) ms mt covs covt hlen hRs hRt
        hcs hct has hat hrows
      rw [this]

/-- The main loop in `solutions` mode, from a state of the search with a
canonical stack: when it returns below the cap, the outputs it returns are the
interpretations of pairwise different canonical stacks of complete states, and
every cover that was still to come or already recorded is among them. -/
theorem solve_loop_complete {β : Type} (i : dlx_matrix → List (Nat × Nat) → β)
    {N fuel0 : Nat} {m0 : dlx_matrix} {cov0 : Nat → Prop} (cap : Int)
    (hf : N < fuel0) (h0 : ∃ hid, Cons m0 N hid cov0 Option.none)
    (hmand : ∀ p, p < N → ∃ c, c < m0.optional_constraint_start_column ∧
      row_touches m0 N (m0.matrix_row.getD p 0) c) :
    ∀ (fuel : Nat) (st st1 : solve_state β) (cov : Nat → Prop)
      (sols : List (dlx_matrix × List (Nat × Nat))),
      Reach N fuel0 m0 cov0 st.backtrack_stack st.m cov →
      Canon N fuel0 m0 cov0 st.backtrack_stack →
      st.solutions = sols.map (fun p => i p.1 p.2) →
      st.solution_count = (sols.length : Int) →
      (∀ p, p ∈ sols →
        (∃ covp, Reach N fuel0 m0 cov0 p.2 p.1 covp ∧
          ∀ x, x < m0.array_width → x < m0.optional_constraint_start_column → covp x) ∧
        Canon N fuel0 m0 cov0 p.2 ∧
        stack_value (N + 2) m0.array_width p.2 <
          stack_value (N + 2) m0.array_width st.backtrack_stack) →
      sols.Pairwise (fun a b => a.2 ≠ b.2) →
      (∀ S, CoverOf m0 N cov0 S →
        (∃ p, p ∈ sols ∧ ∀ r, S r ↔ r ∈ p.2.map (fun e => m0.matrix_row.getD e.2 0)) ∨
        Ahead m0 N S st.backtrack_stack) →
      solve_loop i fuel0 cap dlx_save_setting.solutions fuel st = Except.ok st1 →
      st1.solution_count < cap →
      ∃ sols1 : List (dlx_matrix × List (Nat × Nat)),
        st1.solutions = sols1.map (fun p => i p.1 p.2) ∧
        (∀ p, p ∈ sols1 →
          (∃ covp, Reach N fuel0 m0 cov0 p.2 p.1 covp ∧
            ∀ x, x < m0.array_width → x < m0.optional_constraint_start_column → covp x) ∧
          Canon N fuel0 m0 cov0 p.2) ∧
        sols1.Pairwise (fun a b => a.2 ≠ b.2) ∧
        ∀ S, CoverOf m0 N cov0 S →
          ∃ p, p ∈ sols1 ∧ ∀ r, S r ↔ r ∈ p.2.map (fun e => m0.matrix_row.getD e.2 0)
  | 0, _, _, _, _, _, _, _, _, _, _, _, h, _ => by simp [solve_loop] at h
  | fuel + 1, st, st1, cov, sols, hR, hcan, hsol, hcnt, hmem, hpw, hall, h, hlt => by
    rw [solve_loop] at h
    by_cases hcap : st.solution_count < cap
    · simp only [hcap, if_true] at h
      obtain ⟨f, st2, cov2, hb, hR2, hnext, hbook, hstep⟩ :=
        solve_body_complete i hf h0 hmand st hR hcan
      rw [hb] at h
      -- the stacks recorded after this pass
      have hnew : ∃ sols2 : List (dlx_matrix × List (Nat × Nat)),
          st2.solutions = sols2.map (fun p => i p.1 p.2) ∧
          st2.solution_count = (sols2.length : Int) ∧
          (∀ p, p ∈ sols2 →
            (∃ covp, Reach N fuel0 m0 cov0 p.2 p.1 covp ∧
              ∀ x, x < m0.array_width → x < m0.optional_constraint_start_column → covp x) ∧
            Canon N fuel0 m0 cov0 p.2 ∧
            stack_value (N + 2) m0.array_width p.2 ≤
              stack_value (N + 2) m0.array_width st.backtrack_stack) ∧
          sols2.Pairwise (fun a b => a.2 ≠ b.2) ∧
          (∀ S, CoverOf m0 N cov0 S →
            (∃ p, p ∈ sols2 ∧ ∀ r, S r ↔ r ∈ p.2.map (fun e => m0.matrix_row.getD e.2 0)) ∨
            (f = false ∧ Ahead m0 N S st2.backtrack_stack)) := by
        rcases hbook with ⟨hte, hcm, hc2, hs2⟩ | ⟨hte, hc2, hs2⟩
        · refine ⟨sols ++ [(st.m, st.backtrack_stack)], ?_, ?_, ?_, ?_, ?_⟩
          · rcases hs2 with ⟨a, _⟩ | a
            · exfalso
              rw [hcnt] at a
              have : (0 : Int) ≤ (sols.length : Int) := Int.ofNat_nonneg _
              omega
            · rw [a, hsol]
              simp
          · rw [hc2, hcnt]
            simp
          · intro p hp
            rcases List.mem_append.mp hp with hp | hp
            · obtain ⟨a, b, c⟩ := hmem p hp
              exact ⟨a, b, le_of_lt c⟩
            · simp only [List.mem_singleton] at hp
              subst hp
              exact ⟨⟨cov, hR, hcm⟩, hcan, le_refl _⟩
          · rw [List.pairwise_append]
            refine ⟨hpw, List.pairwise_singleton _ _, fun a ha b hb' => ?_⟩
            simp only [List.mem_singleton] at hb'
            subst hb'
            intro heq
            have := (hmem a ha).2.2
            rw [heq] at this
            exact lt_irrefl _ this
          · intro S hS
            rcases hall S hS with ⟨p, hp, hpr⟩ | hA
            · exact Or.inl ⟨p, List.mem_append_left _ hp, hpr⟩
            · rcases hstep S hS hA with ⟨_, hr⟩ | hr
              · exact Or.inl ⟨(st.m, st.backtrack_stack), by simp, hr⟩
              · exact Or.inr hr
        · refine ⟨sols, ?_, ?_, ?_, hpw, ?_⟩
          · rcases hs2 with ⟨a, b⟩ | a
            · rw [hcnt] at a
              have hz : sols.length = 0 := by omega
              rw [b, List.length_eq_zero.mp hz]
              rfl
            · rw [a, hsol]
          · rw [hc2, hcnt]
          · intro p hp
            obtain ⟨a, b, c⟩ := hmem p hp
            exact ⟨a, b, le_of_lt c⟩
          · intro S hS
            rcases hall S hS with ⟨p, hp, hpr⟩ | hA
            · exact Or.inl ⟨p, hp, hpr⟩
            · rcases hstep S hS hA with ⟨hte', _⟩ | hr
              · rw [hte] at hte'
                cases hte'
              · exact Or.inr hr
      obtain ⟨sols2, hsol2, hcnt2, hmem2, hpw2, hall2⟩ := hnew
      cases f
      · simp only at h
        obtain ⟨hcan2, hn⟩ := hnext rfl
        have hv := hn.value_lt (hR.rows hf).2.2.2 (hR.stack_depth hf).2.2
          (hR2.stack_depth hf).2.2
        refine solve_loop_complete i cap hf h0 hmand fuel st2 st1 cov2 sols2 hR2 hcan2 hsol2 hcnt2
          (fun p hp => ?_) hpw2 (fun S hS => ?_) h hlt
        · obtain ⟨a, b, c⟩ := hmem2 p hp
          exact ⟨a, b, lt_of_le_of_lt c hv⟩
        · rcases hall2 S hS with a | ⟨_, a⟩
          · exact Or.inl a
          · exact Or.inr a
      · simp only [Except.ok.injEq] at h
        subst h
        refine ⟨sols2, hsol2, fun p hp => ⟨(hmem2 p hp).1, (hmem2 p hp).2.1⟩, hpw2, fun S hS => ?_⟩
        rcases hall2 S hS with a | ⟨a, _⟩
        · exact a
        · cases a
    · simp only [hcap, if_false, Except.ok.injEq] at h
      subst h
      exact absurd hlt hcap

/-- A list of matrix rows with nodes that forms, with the rows `pre` covered at
the start, an exact cover is a cover of the problem that is left. -/
theorem CoverOf.of_exact_cover {m0 : dlx_matrix} {N : Nat} {cov0 : Nat → Prop}
    {pre S : List Nat}
    (hcov0 : ∀ c, cov0 c ↔ ∃ r, r ∈ pre ∧ row_touches m0 N r c)
    (hreal : ∀ r, r ∈ S → ∃ p, p < N ∧ m0.matrix_row.getD p 0 = r)
    (h : ExactCover m0 N (pre ++ S)) : CoverOf m0 N cov0 (fun r => r ∈ S) := by
  obtain ⟨_, hS, hcross⟩ := List.pairwise_append.mp h.disjoint
  refine ⟨hreal, fun r hr c hc h0 => ?_, fun r r' c hr hr' hc hc' => ?_, fun c hc hm hn => ?_⟩
  · obtain ⟨r', hr', ht⟩ := (hcov0 c).mp h0
    exact hcross r' hr' r hr c ⟨ht, hc⟩
  · by_contra hne
    have hsym : Symmetric (fun a b : Nat =>
        ∀ c, ¬ (row_touches m0 N a c ∧ row_touches m0 N b c)) :=
      fun a b hab c hc => hab c ⟨hc.2, hc.1⟩
    exact hS.forall hsym hr hr' hne c ⟨hc, hc'⟩
  · obtain ⟨r, hr, ht⟩ := h.mandatory c hc hm
    rcases List.mem_append.mp hr with a | a
    · exact absurd ((hcov0 c).mpr ⟨r, a, ht⟩) hn
    · exact ⟨r, a, ht⟩

/-- The rows on the stack of a complete state of the search form, with the
rows covered at the start, an exact cover. -/
theorem Reach.stack_exact_cover {N fuel0 : Nat} {m0 : dlx_matrix} {cov0 : Nat → Prop}
    (hf : N < fuel0) {stack : List (Nat × Nat)} {m : dlx_matrix} {cov : Nat → Prop}
    (hR : Reach N fuel0 m0 cov0 stack m cov)
    (hall : ∀ c, c < m0.array_width → c < m0.optional_constraint_start_column → cov c)
    (pre : List Nat)
    (hpre : pre.Pairwise (fun a b => ∀ c, ¬ (row_touches m0 N a c ∧ row_touches m0 N b c)))
    (hcov0 : ∀ c, cov0 c ↔ ∃ r, r ∈ pre ∧ row_touches m0 N r c) :
    ExactCover m0 N (pre ++ stack.map (fun e => m0.matrix_row.getD e.2 0)) := by
  obtain ⟨h1, h2, h3, h4⟩ := hR.rows hf
  refine ⟨?_, ?_⟩
  · rw [List.pairwise_append]
    refine ⟨hpre, h2, fun a ha b hb c hc => ?_⟩
    obtain ⟨e, he, rfl⟩ := List.mem_map.mp hb
    exact h3 e he c hc.2 ((hcov0 c).mpr ⟨a, ha, hc.1⟩)
  · intro c hc hm
    rcases (h1 c).mp (hall c hc hm) with a | ⟨e, he, a⟩
    · obtain ⟨r, hr, hr'⟩ := (hcov0 c).mp a
      exact ⟨r, List.mem_append_left _ hr, hr'⟩
    · exact ⟨_, List.mem_append_right _ (List.mem_map.mpr ⟨e, he, rfl⟩), a⟩

/-- Completeness of the search in `solutions` mode, from the mesh `m1` that
`initialize` leaves: when the main loop returns fewer outputs than the cap,
the outputs are the interpretations of a list of stacks whose rows form, with
the rows `pre`, exact covers, no two of the stacks hold the same rows, and every exact
cover made of `pre` and rows with nodes is the set of rows of one of them. -/
theorem solve_loop_every_cover {β : Type} (i : dlx_matrix → List (Nat × Nat) → β)
    {N fuel : Nat} {m1 : dlx_matrix} {cov0 : Nat → Prop} (cap : Int) (hf : N < fuel)
    (h0 : ∃ hid, Cons m1 N hid cov0 Option.none) (pre : List Nat)
    (hpre : pre.Pairwise (fun a b => ∀ c, ¬ (row_touches m1 N a c ∧ row_touches m1 N b c)))
    (hcov0 : ∀ c, cov0 c ↔ ∃ r, r ∈ pre ∧ row_touches m1 N r c)
    (hmand : ∀ p, p < N → ∃ c, c < m1.optional_constraint_start_column ∧
      row_touches m1 N (m1.matrix_row.getD p 0) c)
    (st : solve_state β)
    (h : solve_loop i fuel cap dlx_save_setting.solutions fuel
      { m := m1, backtrack_stack := [], solutions := [], solution_count := 0 } = Except.ok st)
    (hlt : (st.solutions.length : Int) < cap) :
    ∃ found : List (dlx_matrix × List (Nat × Nat)),
      st.solutions = found.map (fun p => i p.1 p.2) ∧
      (∀ p, p ∈ found → SameFrame m1 p.1 ∧
        ExactCover m1 N (pre ++ p.2.map (fun e => m1.matrix_row.getD e.2 0)) ∧
        ∀ e, e ∈ p.2 → e.2 < N) ∧
      found.Pairwise (fun p q =>
        ¬ ∀ r, r ∈ p.2.map (fun e => m1.matrix_row.getD e.2 0) ↔
          r ∈ q.2.map (fun e => m1.matrix_row.getD e.2 0)) ∧
      ∀ S : List Nat, (∀ r, r ∈ S → ∃ p, p < N ∧ m1.matrix_row.getD p 0 = r) →
        ExactCover m1 N (pre ++ S) →
        ∃ p, p ∈ found ∧ ∀ r, r ∈ S ↔ r ∈ p.2.map (fun e => m1.matrix_row.getD e.2 0) := by
  obtain ⟨hlen, _, _, _⟩ := solve_loop_solutions i fuel cap fuel _ st h (by simp)
  have hcan0 : Canon N fuel m1 cov0 [] := by
    intro a H nd c mc covc hs _
    cases a <;> cases hs
  obtain ⟨sols, hsol, hmem, hpw, hall⟩ := solve_loop_complete i cap hf h0 hmand fuel _ st cov0 []
    Reach.base hcan0 rfl rfl (fun p hp => by simp at hp) List.Pairwise.nil
    (fun S _ => Or.inr ⟨[], [], rfl, fun e he => by simp at he, Or.inl rfl⟩) h
    (by rw [← hlen]; exact hlt)
  refine ⟨sols, hsol, fun p hp => ?_, ?_, fun S hreal hS => ?_⟩
  · obtain ⟨⟨covp, hRp, hcm⟩, _⟩ := hmem p hp
    exact ⟨hRp.frame hf, hRp.stack_exact_cover hf hcm pre hpre hcov0, (hRp.rows hf).2.2.2⟩
  · refine (List.pairwise_iff_forall_sublist.mpr ?_)
    intro a b hab
    have hne : a.2 ≠ b.2 := List.pairwise_iff_forall_sublist.mp hpw hab
    have ha := hab.subset (List.mem_cons_self _ _)
    have hb := hab.subset (List.mem_cons_of_mem _ (List.mem_singleton_self _))
    obtain ⟨⟨cova, hRa, hca⟩, hcana⟩ := hmem a ha
    obtain ⟨⟨covb, hRb, hcb⟩, hcanb⟩ := hmem b hb
    intro hrows
    apply hne
    have := canon_rows_unique hf h0 a.2.length a.2 b.2 [] a.1 b.1 cova covb rfl
      (by rw [List.append_nil]; exact hRa) (by rw [List.append_nil]; exact hRb)
      (by rw [List.append_nil]; exact hcana) (by rw [List.append_nil]; exact hcanb) hca hcb
      (by rw [List.append_nil, List.append_nil]; exact hrows)
    exact this
  · exact hall (fun r => r ∈ S) (CoverOf.of_exact_cover hcov0 hreal hS)

/-! ## A matrix with more exact covers than the cap of `solve` -/

/-- With `max_solutions = -1` the list `solve` returns in `solutions` mode has
at most 2147483647 members. -/
theorem solve_outputs_le_cap {β : Type}
    (initialize_fn : Nat → dlx_matrix → Except Err (Bool × dlx_matrix))
    (interpret_result : dlx_matrix → List (Nat × Nat) → β) (fuel : Nat) (m : dlx_matrix)
    (outs : List β)
    (h : returned (solve initialize_fn interpret_result fuel m (-1)
      dlx_save_setting.solutions) = some outs) : outs.length ≤ 2147483647 := by
  obtain ⟨st, hst, rfl⟩ := returned_eq_some h
  unfold solve at hst
  simp only at hst
  by_cases hw : m.array_width < m.optional_constraint_start_column
  · simp [hw] at hst
  simp only [hw, if_false, if_true] at hst
  rcases hi : initialize_fn fuel (populate_trees m) with e | ⟨_ | _, m1⟩
  · simp [hi] at hst
  · simp only [hi, Except.ok.injEq] at hst
    subst hst
    simp
  · simp only [hi] at hst
    obtain ⟨h1, _, h3, _⟩ := solve_loop_solutions interpret_result fuel 2147483647 fuel _ st hst
      (by simp)
    have := h3 (by simp)
    omega

/-- The callbacks of the matrix with 62 rows and 31 mandatory columns in which
column `c` holds the rows `2c` and `2c + 1` describe an exact-cover matrix. -/
theorem pairs_genok :
    GenOK 62 31 1 (fun _ => 2) (fun r _ => ((r / 2 : Nat) : Int)) := by
  refine ⟨⟨by decide, fun r i hr _ => ?_, fun r i j _ hi hj _ => by omega⟩, fun c hc => ?_⟩
  · constructor
    · exact Int.ofNat_nonneg _
    · have : r / 2 < 31 := by omega
      exact_mod_cast this
  · have hnh : ∀ p, node_header 1 (fun r _ => ((r / 2 : Nat) : Int)) p = p / 2 := by
      intro p
      simp only [node_header, Nat.div_one]
      exact Int.toNat_ofNat _
    simp only [hnh]
    rw [ncard_eq_of_enum 2 (fun i => 2 * c + i)]
    · rfl
    · intro i j _ _ hij
      have : 2 * c + i = 2 * c + j := hij
      omega
    · intro i hi
      simp only [Set.mem_setOf_eq]
      omega
    · intro x hx
      simp only [Set.mem_setOf_eq] at hx
      exact ⟨x - 2 * c, by omega, show 2 * c + (x - 2 * c) = x by omega⟩

/-- In that matrix row `r` has its one node in column `r / 2`. -/
theorem pairs_row_touches (r x : Nat) :
    row_touches (generate 62 31 1 (fun _ => 2) (fun r _ => ((r / 2 : Nat) : Int)) 31) (62 * 1)
      r x ↔ (r < 62 ∧ r / 2 = x) := by
  rw [row_touches_generate pairs_genok.toGenShape, touches_iff]
  constructor
  · rintro ⟨hr, k, _, hk⟩
    exact ⟨hr, by exact_mod_cast hk⟩
  · rintro ⟨hr, hx⟩
    exact ⟨hr, 0, by decide, by exact_mod_cast hx⟩

/-- Choosing for every column `c` the row `2c` or `2c + 1`, as bit `c` of `n`
says, gives an exact cover of that matrix. -/
theorem pairs_exact_cover (n : Nat) :
    (∀ r, r ∈ (List.range 31).map (fun c => 2 * c + (if n.testBit c then 1 else 0)) → r < 62) ∧
    ExactCover (generate 62 31 1 (fun _ => 2) (fun r _ => ((r / 2 : Nat) : Int)) 31) (62 * 1)
      ([] ++ (List.range 31).map (fun c => 2 * c + (if n.testBit c then 1 else 0))) := by
  have inv := generate_inv (fun _ => (2 : Int)) 31 pairs_genok.toGenShape
  refine ⟨fun r hr => ?_, ?_, fun c hc _ => ?_⟩
  · obtain ⟨c, hc, rfl⟩ := List.mem_map.mp hr
    have := List.mem_range.mp hc
    split_ifs <;> omega
  · rw [List.nil_append, List.pairwise_map]
    refine (List.pairwise_lt_range 31).imp_of_mem ?_
    intro a b ha hb hab x hx
    rw [pairs_row_touches, pairs_row_touches] at hx
    obtain ⟨⟨_, h1⟩, ⟨_, h2⟩⟩ := hx
    have := List.mem_range.mp ha
    have := List.mem_range.mp hb
    split_ifs at h1 h2 <;> omega
  · rw [inv.array_width] at hc
    refine ⟨2 * c + (if n.testBit c then 1 else 0), ?_, ?_⟩
    · rw [List.nil_append]
      exact List.mem_map.mpr ⟨c, List.mem_range.mpr hc, rfl⟩
    · rw [pairs_row_touches]
      split_ifs <;> omega

/-- Two numbers below `2 ^ 31` that choose the same rows are equal. -/
theorem pairs_cover_injective (a b : Nat) (ha : a < 2147483648) (hb : b < 2147483648)
    (h : ∀ r, r ∈ (List.range 31).map (fun c => 2 * c + (if a.testBit c then 1 else 0)) ↔
      r ∈ (List.range 31).map (fun c => 2 * c + (if b.testBit c then 1 else 0))) : a = b := by
  apply Nat.eq_of_testBit_eq
  intro c
  rcases Nat.lt_or_ge c 31 with hc | hc
  · have hm : 2 * c + (if a.testBit c then 1 else 0) ∈
        (List.range 31).map (fun c => 2 * c + (if b.testBit c then 1 else 0)) :=
      (h _).mp (List.mem_map.mpr ⟨c, List.mem_range.mpr hc, rfl⟩)
    obtain ⟨c', _, hc'⟩ := List.mem_map.mp hm
    replace hc' : 2 * c' + (if b.testBit c' then 1 else 0) =
        2 * c + (if a.testBit c then 1 else 0) := hc'
    have hcc : c' = c := by
      split_ifs at hc' <;> omega
    subst hcc
    cases ha' : a.testBit c' <;> cases hb' : b.testBit c' <;> simp [ha', hb'] at hc' ⊢
  · have h31 : 2147483648 ≤ 2 ^ c := by
      calc 2147483648 = 2 ^ 31 := by norm_num
        _ ≤ 2 ^ c := Nat.pow_le_pow_right (by decide) hc
    rw [Nat.testBit_lt_two_pow (lt_of_lt_of_le ha h31),
      Nat.testBit_lt_two_pow (lt_of_lt_of_le hb h31)]

/-- With the optional columns starting inside the header array and an
`initialize` that returns true leaving a consistent mesh of `N` nodes, `solve`
returns as soon as its fuel exceeds `(N + 2) ^ array_width`. -/
theorem solve_returns_of_cons {β : Type} (N : Nat) (m : dlx_matrix)
    (initialize_fn : Nat → dlx_matrix → Except Err (Bool × dlx_matrix))
    (interpret_result : dlx_matrix → List (Nat × Nat) → β) (fuel : Nat) (max_solutions : Int)
    (s : dlx_save_setting) (m1 : dlx_matrix) (hid cov0 : Nat → Prop)
    (hw : m.optional_constraint_start_column ≤ m.array_width)
    (hi : initialize_fn fuel (populate_trees m) = Except.ok (true, m1))
    (hC : Cons m1 N hid cov0 Option.none)
    (hN : N < fuel) (hf : (N + 2) ^ m1.array_width < fuel) :
    ∃ st, solve initialize_fn interpret_result fuel m max_solutions s = Except.ok st := by
  unfold solve
  simp only [not_lt.mpr hw, if_false, hi]
  exact @solve_loop_returns β interpret_result N fuel m1 cov0 _ s hN ⟨hid, hC⟩ fuel
    { m := m1, backtrack_stack := [], solutions := [], solution_count := 0 } cov0
    Reach.base (by
      show (N + 2) ^ m1.array_width - stack_value (N + 2) m1.array_width [] < fuel
      omega)

/-- On that matrix `solve` returns when it is given enough fuel. -/
theorem pairs_solve_returns :
    ∃ fuel outs, returned (solve (fun _ m => Except.ok (true, m)) (fun _ s => s) fuel
      (generate 62 31 1 (fun _ => 2) (fun r _ => ((r / 2 : Nat) : Int)) 31) (-1)
      dlx_save_setting.solutions) = some outs := by
  have inv := generate_inv (fun _ => (2 : Int)) 31 pairs_genok.toGenShape
  have hC := generate_cons 31 pairs_genok (le_refl 31)
  generalize generate 62 31 1 (fun _ => 2) (fun r _ => ((r / 2 : Nat) : Int)) 31 = G at inv hC ⊢
  have hw : G.optional_constraint_start_column ≤ G.array_width := by
    rw [inv.array_width, inv.optional_start]
  have haw : (populate_trees G).array_width = 31 := by
    rw [(populate_trees_mesh G).frame.array_width]
    exact inv.array_width
  obtain ⟨st, hst⟩ := solve_returns_of_cons (62 * 1) G (fun _ m => Except.ok (true, m))
    (fun _ s => s) (64 ^ 31 + 1) (-1) dlx_save_setting.solutions (populate_trees G) _ _ hw rfl hC
    (by norm_num) (by rw [haw]; norm_num)
  exact ⟨64 ^ 31 + 1, st.solutions, by rw [hst]; rfl⟩

/-! ## Runs on concrete inputs -/

set_option maxRecDepth 100000

/-- The complete search on the empty 4×4 n-queens board (fuel 40, no cap,
solutions mode) returns two boards. -/
theorem n_queens_4_search :
    returned (n_queens_solve 4 40 [[0,0,0,0],[0,0,0,0],[0,0,0,0],[0,0,0,0]] (-1)
        dlx_save_setting.solutions) =
      some [[[0, 1, 0, 0], [0, 0, 0, 1], [1, 0, 0, 0], [0, 0, 1, 0]],
        [[0, 0, 1, 0], [1, 0, 0, 0], [0, 0, 0, 1], [0, 1, 0, 0]]] := by
  decide!

/-- The complete search on the all-zero 4×4 n-queens board with fuel 70 (no
cap, solutions mode) returns the same two boards. -/
theorem n_queens_4_search_70 :
    returned (n_queens_solve 4 70 (List.replicate 4 (List.replicate 4 0)) (-1)
        dlx_save_setting.solutions) =
      some [[[0, 1, 0, 0], [0, 0, 0, 1], [1, 0, 0, 0], [0, 0, 1, 0]],
        [[0, 0, 1, 0], [1, 0, 0, 0], [0, 0, 0, 1], [0, 1, 0, 0]]] := by
  decide!

/-- Claim C5 fails at the solution cap: on the empty 4×4 n-queens board with
`max_solutions = 1` the call returns one board and leaves the count of header 1
at 1, while the freshly generated matrix has 4 there. -/
theorem solve_cap_leaves_mesh_covered :
    returned (n_queens_solve 4 40 [[0,0,0,0],[0,0,0,0],[0,0,0,0],[0,0,0,0]] 1
        dlx_save_setting.solutions) =
      some [[[0, 1, 0, 0], [0, 0, 0, 1], [1, 0, 0, 0], [0, 0, 1, 0]]] ∧
    (final_mesh (n_queens_solve 4 40 [[0,0,0,0],[0,0,0,0],[0,0,0,0],[0,0,0,0]] 1
        dlx_save_setting.solutions)).map (fun m => m.count.getD 1 0) = some 1 ∧
    (dlx_matrix_n_queens 4).count.getD 1 0 = 4 := by
  decide!

/-- Claim C11: on the empty 4×4 board the n-queens solver with
`max_solutions = -1` returns exactly two boards, and they differ. -/
theorem n_queens_4_two_boards :
    returned (n_queens_solve 4 40 [[0,0,0,0],[0,0,0,0],[0,0,0,0],[0,0,0,0]] (-1)
        dlx_save_setting.solutions) =
      some [[[0, 1, 0, 0], [0, 0, 0, 1], [1, 0, 0, 0], [0, 0, 1, 0]],
        [[0, 0, 1, 0], [1, 0, 0, 0], [0, 0, 0, 1], [0, 1, 0, 0]]] ∧
    ([[0, 1, 0, 0], [0, 0, 0, 1], [1, 0, 0, 0], [0, 0, 1, 0]] : List (List Int)) ≠
      [[0, 0, 1, 0], [1, 0, 0, 0], [0, 0, 0, 1], [0, 1, 0, 0]] :=
  ⟨n_queens_4_search, by decide⟩

/-- Claim C16 fails when no solution exists: on the empty 2×2 n-queens board
the first pass of the loop pushes a choice, yet the list returned in
`all_moves` mode is empty. -/
theorem all_moves_dropped_without_solution :
    terminal_check (populate_trees (dlx_matrix_n_queens 2)) = false ∧
    returned (n_queens_solve 2 20 [[0,0],[0,0]] (-1) dlx_save_setting.all_moves) = some [] := by
  decide!

/-- Claim C17 fails when no solution exists: on the empty 2×2 n-queens board
`solve(input, 1)` returns the empty vector and the one-argument `solve` reads
its element 0. -/
theorem solve_first_reads_empty_vector :
    returned (n_queens_solve 2 20 [[0,0],[0,0]] 1 dlx_save_setting.solutions) = some [] ∧
    raised (solve_first (initialize_n_queens 2 [[0,0],[0,0]])
        (interpret_result_n_queens 2 [[0,0],[0,0]]) 20 (dlx_matrix_n_queens 2)) =
      some Err.undefined_behaviour := by
  decide!

/-- Claim C18 fails: a 0 in cell (0,0) of a 4×4 Sudoku board makes `initialize`
compute matrix row -1, and a 0 in cell (0,1) covers the candidate row of digit
4 in cell (0,0), so that the returned board keeps cell (0,0) unfilled. -/
theorem sudoku_zero_not_empty :
    raised (initialize_sudoku 4 [[0,-1,-1,-1],[-1,-1,-1,-1],[-1,-1,-1,-1],[-1,-1,-1,-1]] 50
        (populate_trees (dlx_matrix_sudoku 4))) = some Err.undefined_behaviour ∧
    returned (sudoku_solve 4 50 [[-1,0,-1,-1],[-1,-1,-1,-1],[-1,-1,-1,-1],[-1,-1,-1,-1]] 1
        dlx_save_setting.solutions) =
      some [[[-1, 1, 2, 3], [2, 3, 4, 1], [1, 4, 3, 2], [3, 2, 1, 4]]] := by
  decide!

/-- Claim C30 fails for n-queens boards with a pre-placed queen: after
`initialize` on the 2×2 board with a queen in cell (0,0), the optional headers 4
and 8 of the two diagonals through that cell, which the queen's row covers, are
still members of the optional index, while the mandatory headers 0 and 2 it
covers have left the mandatory index. -/
theorem covered_diagonal_stays_in_optional_index :
    (initialized_mesh (initialize_n_queens 2 [[1,0],[0,0]] 20
        (populate_trees (dlx_matrix_n_queens 2)))).map
      (fun m => (m.optional_header_tree.getD 4 false, m.optional_header_tree.getD 8 false,
        m.header_tree.getD 0 false, m.header_tree.getD 2 false)) =
      some (true, true, false, false) ∧
    (List.range 4).map (fun k => n_queens_get_column 2 0 k) = [0, 2, 4, 8] := by
  decide!

/-- Claim C28 fails in a state produced by `initialize`: on the 3×3 n-queens
board with queens in cells (0,0) and (0,1), `initialize` returns with the
optional header 8 a member of the optional index, its `top` null (no node can
be reached in its column) and its count equal to -1. -/
theorem count_negative_after_conflicting_queens :
    (initialized_mesh (initialize_n_queens 3 [[1,1,0],[0,0,0],[0,0,0]] 60
        (populate_trees (dlx_matrix_n_queens 3)))).map
      (fun m => (m.optional_header_tree.getD 8 false, m.top.getD 8 Option.none,
        m.count.getD 8 0)) =
      some (true, Option.none, -1) := by
  decide!

/-- C25 (fails): on the 2x2 board whose cell (0,0) is pre-occupied, with two
dominoes, `solve` returns one board; its choice stack holds node 1, a node of
matrix row 0, the placement of piece 0 on the cells (0,0) and (1,0), and the
marker 7 of the pre-occupied cell is overwritten in the output. -/
theorem preoccupied_cell_row_chosen :
    ∃ p, (polyomino_new [(0, 0), (1, 0)]).toOption = some p ∧
      returned (polyomino_solve [p, p] 2 30 [[7, 0], [0, 0]] (-1) dlx_save_setting.solutions) =
        some [[[0, 1], [0, 1]]] ∧
      polyomino_choice_stacks [p, p] 2 30 [[7, 0], [0, 0]] (-1) = some [[(2, 1), (1, 15)]] ∧
      (dlx_matrix_polyomino [p, p] 2).toOption.map
        (fun a => (a.m.matrix_row.getD 1 0, polyomino_row_cells a 0)) = some (0, [0, 2]) :=
  ⟨{ x_len := 2, y_len := 1, size := 2, orientations := 2,
     shapes := [[(0, 0), (0, 1)], [(0, 0), (1, 0)]], flipped := [true, false] },
   by decide, by decide!, by decide!, by decide!⟩

/-- C31 (fails for the polyomino adapter): on the 2x2 board whose cell (0,0) is
pre-occupied, with two dominoes, `initialize` returns true and leaves node 0,
the first node of matrix row 0, out of the ring of its row: its `left` is node
2 and its `right` is node 1, while `right` of node 2 is node 1 and `left` of
node 1 is node 2, so that the walk to the right from node 0 runs between
nodes 1 and 2 for ever.  The row is still live: node 1 is the `top` of header
2, a member of the mandatory index, and the search chooses it. -/
theorem spliced_top_leaves_row_ring :
    ∃ p, (polyomino_new [(0, 0), (1, 0)]).toOption = some p ∧
      ((dlx_matrix_polyomino [p, p] 2).toOption.bind
        (fun a => initialized_mesh
          (initialize_polyomino 2 [[7, 0], [0, 0]] 30 (populate_trees a.m)))).map
        (fun m => ((List.range 3).map (fun x => (m.matrix_row.getD x 0, m.left.getD x 0,
          m.right.getD x 0)), m.top.getD 2 Option.none, m.header_tree.getD 2 false)) =
        some ([(0, 2, 1), (0, 2, 2), (0, 1, 1)], some 1, true) ∧
      polyomino_choice_stacks [p, p] 2 30 [[7, 0], [0, 0]] (-1) = some [[(2, 1), (1, 15)]] :=
  ⟨{ x_len := 2, y_len := 1, size := 2, orientations := 2,
     shapes := [[(0, 0), (0, 1)], [(0, 0), (1, 0)]], flipped := [true, false] },
   by decide, by decide!, by decide!⟩

/-- Claim C12: whenever `solve` with `max_solutions = -1` returns a list in
`solutions` mode, `solve` with `max_solutions = K`, for `1 ≤ K` within the
range of `int`, run on the same fresh matrix and input returns the prefix of
length `min(K, T)` of that list of length `T`; its length is at most `K`. -/
theorem solve_cap_truncates {β : Type}
    (initialize_fn : Nat → dlx_matrix → Except Err (Bool × dlx_matrix))
    (interpret_result : dlx_matrix → List (Nat × Nat) → β) (fuel : Nat) (m : dlx_matrix)
    (K : Int) (hK : 1 ≤ K) (hK' : K ≤ 2147483647) (all : List β)
    (h : returned (solve initialize_fn interpret_result fuel m (-1)
      dlx_save_setting.solutions) = some all) :
    returned (solve initialize_fn interpret_result fuel m K dlx_save_setting.solutions) =
      some (all.take (min K.toNat all.length)) ∧
    (all.take (min K.toNat all.length)).length ≤ K.toNat := by
  refine ⟨?_, by simp⟩
  obtain ⟨b, hb, rfl⟩ := returned_eq_some h
  have hmin : b.solutions.take (min K.toNat b.solutions.length) = b.solutions.take K.toNat := by
    rcases Nat.le_total K.toNat b.solutions.length with h1 | h1
    · rw [Nat.min_eq_left h1]
    · rw [Nat.min_eq_right h1, List.take_length, List.take_of_length_le h1]
  rw [hmin]
  have hK1 : ¬ (K = -1) := by omega
  unfold solve at hb ⊢
  simp only [hK1, if_false, if_true] at hb ⊢
  by_cases hw : m.array_width < m.optional_constraint_start_column
  · simp [hw] at hb
  simp only [hw, if_false] at hb ⊢
  rcases hi : initialize_fn fuel (populate_trees m) with e | ⟨_ | _, m1⟩
  · simp [hi] at hb
  · simp only [hi, Except.ok.injEq] at hb ⊢
    subst hb
    simp [returned]
  · simp only [hi] at hb ⊢
    obtain ⟨a, ha, hs⟩ := solve_loop_cap interpret_result fuel K 2147483647 hK hK' fuel _ b hb
      (by simp) (by simp; omega)
    rw [ha]
    simp [returned, hs]

/-- Claim C13: when `solve` returns in `solutions` mode with
`max_solutions ≥ 1`, the returned list is empty if and only if `initialize`
reported the input over-constrained, or the loop ended with an empty choice
stack and no solution counted (the mandatory index was never found empty). -/
theorem solve_empty_iff {β : Type}
    (initialize_fn : Nat → dlx_matrix → Except Err (Bool × dlx_matrix))
    (interpret_result : dlx_matrix → List (Nat × Nat) → β) (fuel : Nat) (m : dlx_matrix)
    (max_solutions : Int) (hK : 1 ≤ max_solutions) (l : List β)
    (h : returned (solve initialize_fn interpret_result fuel m max_solutions
      dlx_save_setting.solutions) = some l) :
    l = [] ↔
      ((∃ m1, initialize_fn fuel (populate_trees m) = Except.ok (false, m1)) ∨
        ((∃ m1, initialize_fn fuel (populate_trees m) = Except.ok (true, m1)) ∧
          final_stack (solve initialize_fn interpret_result fuel m max_solutions
            dlx_save_setting.solutions) = some [] ∧
          final_count (solve initialize_fn interpret_result fuel m max_solutions
            dlx_save_setting.solutions) = some 0)) := by
  obtain ⟨b, hb, rfl⟩ := returned_eq_some h
  rw [hb]
  have hK1 : ¬ (max_solutions = -1) := by omega
  unfold solve at hb
  simp only [hK1, if_false] at hb
  by_cases hw : m.array_width < m.optional_constraint_start_column
  · simp [hw] at hb
  simp only [hw, if_false] at hb
  rcases hi : initialize_fn fuel (populate_trees m) with e | ⟨_ | _, m1⟩
  · simp [hi] at hb
  · simp only [hi, Except.ok.injEq] at hb
    subst hb
    simp
  · simp only [hi] at hb
    obtain ⟨g1, g2, g3, l', g4⟩ := solve_loop_solutions interpret_result fuel max_solutions fuel _ b
      hb (by simp)
    simp only [final_stack, final_count, Option.some.injEq]
    constructor
    · intro hnil
      have hc : b.solution_count = 0 := by
        rw [← g1, hnil]
        rfl
      exact Or.inr ⟨⟨m1, rfl⟩, solve_loop_exhausted interpret_result fuel max_solutions _ fuel _ b
        hb (by omega), hc⟩
    · rintro (⟨m2, h2⟩ | ⟨_, _, hc⟩)
      · simp at h2
      · rw [hc] at g1
        exact List.length_eq_zero.mp (by exact_mod_cast g1)

/-- Claim C14: for every input and every cap, the number of solutions counted
by `solve` in `none` mode equals the length of the list `solve` returns in
`solutions` mode on the same fresh matrix (and one call returns exactly when
the other does). -/
theorem none_count_eq_solutions_length {β : Type}
    (initialize_fn : Nat → dlx_matrix → Except Err (Bool × dlx_matrix))
    (interpret_result : dlx_matrix → List (Nat × Nat) → β) (fuel : Nat) (m : dlx_matrix)
    (max_solutions : Int) :
    final_count (solve initialize_fn interpret_result fuel m max_solutions
        dlx_save_setting.none) =
      (returned (solve initialize_fn interpret_result fuel m max_solutions
        dlx_save_setting.solutions)).map (fun l => (l.length : Int)) := by
  unfold solve
  simp only
  by_cases hw : m.array_width < m.optional_constraint_start_column
  · simp [hw, final_count, returned]
  simp only [hw, if_false]
  rcases hi : initialize_fn fuel (populate_trees m) with e | ⟨_ | _, m1⟩
  · simp [final_count, returned]
  · simp [final_count, returned]
  · simp only
    rcases solve_loop_core interpret_result interpret_result fuel
        (if max_solutions = -1 then 2147483647 else max_solutions)
        dlx_save_setting.none dlx_save_setting.solutions fuel
        { m := m1, backtrack_stack := [], solutions := [], solution_count := 0 }
        { m := m1, backtrack_stack := [], solutions := [], solution_count := 0 } rfl with
      ⟨e, e1, e2⟩ | ⟨a1, b1, e1, e2, hc⟩
    · rw [e1, e2]
      simp [final_count, returned]
    · rw [e1, e2]
      obtain ⟨g1, _⟩ := solve_loop_solutions interpret_result fuel _ fuel _ b1 e2 (by simp)
      simp only [solve_state.core, Prod.mk.injEq] at hc
      simp [final_count, returned, g1, hc.2.2]

theorem solve_cap_truncates_witness :
    returned (solve (initialize_n_queens 4 [[0,0,0,0],[0,0,0,0],[0,0,0,0],[0,0,0,0]])
        (interpret_result_n_queens 4 [[0,0,0,0],[0,0,0,0],[0,0,0,0],[0,0,0,0]]) 40
        (dlx_matrix_n_queens 4) (-1) dlx_save_setting.solutions) =
      some [[[0, 1, 0, 0], [0, 0, 0, 1], [1, 0, 0, 0], [0, 0, 1, 0]],
        [[0, 0, 1, 0], [1, 0, 0, 0], [0, 0, 0, 1], [0, 1, 0, 0]]] ∧
    returned (solve (initialize_n_queens 4 [[0,0,0,0],[0,0,0,0],[0,0,0,0],[0,0,0,0]])
        (interpret_result_n_queens 4 [[0,0,0,0],[0,0,0,0],[0,0,0,0],[0,0,0,0]]) 40
        (dlx_matrix_n_queens 4) 1 dlx_save_setting.solutions) =
      some [[[0, 1, 0, 0], [0, 0, 0, 1], [1, 0, 0, 0], [0, 0, 1, 0]]] := by
  have h : returned (solve (initialize_n_queens 4 [[0,0,0,0],[0,0,0,0],[0,0,0,0],[0,0,0,0]])
        (interpret_result_n_queens 4 [[0,0,0,0],[0,0,0,0],[0,0,0,0],[0,0,0,0]]) 40
        (dlx_matrix_n_queens 4) (-1) dlx_save_setting.solutions) =
      some [[[0, 1, 0, 0], [0, 0, 0, 1], [1, 0, 0, 0], [0, 0, 1, 0]],
        [[0, 0, 1, 0], [1, 0, 0, 0], [0, 0, 0, 1], [0, 1, 0, 0]]] := n_queens_4_search
  exact ⟨h, (solve_cap_truncates _ _ 40 _ 1 (by decide) (by decide) _ h).1⟩

theorem solve_empty_iff_witness :
    returned (solve (initialize_n_queens 2 [[0,0],[0,0]])
        (interpret_result_n_queens 2 [[0,0],[0,0]]) 20 (dlx_matrix_n_queens 2) 1
        dlx_save_setting.solutions) = some [] ∧
    (([] : List (List (List Int))) = [] ↔
      ((∃ m1, initialize_n_queens 2 [[0,0],[0,0]] 20 (populate_trees (dlx_matrix_n_queens 2)) =
          Except.ok (false, m1)) ∨
        ((∃ m1, initialize_n_queens 2 [[0,0],[0,0]] 20
            (populate_trees (dlx_matrix_n_queens 2)) = Except.ok (true, m1)) ∧
          final_stack (solve (initialize_n_queens 2 [[0,0],[0,0]])
            (interpret_result_n_queens 2 [[0,0],[0,0]]) 20 (dlx_matrix_n_queens 2) 1
            dlx_save_setting.solutions) = some [] ∧
          final_count (solve (initialize_n_queens 2 [[0,0],[0,0]])
            (interpret_result_n_queens 2 [[0,0],[0,0]]) 20 (dlx_matrix_n_queens 2) 1
            dlx_save_setting.solutions) = some 0))) := by
  have h : returned (solve (initialize_n_queens 2 [[0,0],[0,0]])
        (interpret_result_n_queens 2 [[0,0],[0,0]]) 20 (dlx_matrix_n_queens 2) 1
        dlx_save_setting.solutions) = some [] := by
    decide!
  exact ⟨h, solve_empty_iff _ _ 20 _ 1 (by decide) [] h⟩

/-- C16 (amended): in `all_moves` mode, when `solve` returns having counted at
least one solution, the list it returns holds exactly one output for every
push and every replace-on-backtrack of the search, in the order they were
performed, each the interpretation of the mesh and choice stack right after
the step; when it returns without a counted solution, the list is empty. -/
theorem all_moves_records_every_move {β : Type}
    (initialize_fn : Nat → dlx_matrix → Except Err (Bool × dlx_matrix))
    (i : dlx_matrix → List (Nat × Nat) → β) (fuel : Nat) (m : dlx_matrix)
    (max_solutions : Int) (st : solve_state β)
    (h : solve initialize_fn i fuel m max_solutions dlx_save_setting.all_moves = Except.ok st) :
    st.solutions =
      if st.solution_count < 1 then []
      else (solve_moves initialize_fn fuel m max_solutions).map (fun p => i p.1 p.2) := by
  unfold solve at h
  unfold solve_moves
  simp only [] at h
  split at h
  · cases h
  rcases hi : initialize_fn fuel (populate_trees m) with e | ⟨b, m1⟩
  · rw [hi] at h
    cases h
  rw [hi] at h
  cases b
  · simp only [Except.ok.injEq] at h
    subst h
    simp
  · simp only [] at h ⊢
    by_cases hc : st.solution_count < 1
    · rw [if_pos hc]
      rcases solve_loop_all_moves_none i fuel _ fuel _ st (le_refl _) h hc with e | ⟨_, e⟩
      · exact e
      · rw [e]
    · rw [if_neg hc]
      have := solve_loop_all_moves i fuel _ fuel _
        { m := m1, backtrack_stack := [], solutions := [], solution_count := 0 } st rfl h
        (by omega)
      rw [this]
      rfl

theorem all_moves_records_every_move_witness :
    ∃ st, n_queens_solve 4 40 [[0,0,0,0],[0,0,0,0],[0,0,0,0],[0,0,0,0]] 1
        dlx_save_setting.all_moves = Except.ok st ∧
      st.solution_count = 1 ∧
      st.solutions =
        (solve_moves (initialize_n_queens 4 [[0,0,0,0],[0,0,0,0],[0,0,0,0],[0,0,0,0]]) 40
          (dlx_matrix_n_queens 4) 1).map
          (fun p => interpret_result_n_queens 4 [[0,0,0,0],[0,0,0,0],[0,0,0,0],[0,0,0,0]]
            p.1 p.2) := by
  have hev : final_count (n_queens_solve 4 40 [[0,0,0,0],[0,0,0,0],[0,0,0,0],[0,0,0,0]] 1
      dlx_save_setting.all_moves) = some 1 := by
    decide!
  rcases hd : n_queens_solve 4 40 [[0,0,0,0],[0,0,0,0],[0,0,0,0],[0,0,0,0]] 1
      dlx_save_setting.all_moves with e | st
  · rw [hd] at hev
    cases hev
  rw [hd] at hev
  have hc : st.solution_count = 1 := Option.some.inj hev
  have key := all_moves_records_every_move _ _ _ _ _ st hd
  rw [if_neg (by omega)] at key
  exact ⟨st, rfl, hc, key⟩

/-- Claim C26: after `generate`, for `num_constraints ≥ 1` and a `get_column`
that sends the constraint indices of each row to distinct in-range columns,
the nodes of a row form one ring (`right` applied `num_constraints` times comes
back, `left` and `right` are inverse, `right` stays in the row, and every node
of the row is reached from every node of the row by fewer than
`num_constraints` steps of `right`); `down` leads
from a node to the next node of its column in strictly increasing row order, or
from the last node of the column, the header's `bottom`, to the first, its
`top`; and `top` and `bottom` are the nodes of least and greatest row of the
column, null exactly when the column has no node. -/
theorem generate_rings (L W K : Nat) (gc : Nat → Int) (col : Nat → Nat → Int) (ocs : Nat)
    (hg : GenShape L W K col) :
    (∀ p, p < L * K →
      (fun x => (generate L W K gc col ocs).right.getD x 0)^[K] p = p ∧
      (generate L W K gc col ocs).left.getD ((generate L W K gc col ocs).right.getD p 0) 0 = p ∧
      (generate L W K gc col ocs).right.getD ((generate L W K gc col ocs).left.getD p 0) 0 = p ∧
      (generate L W K gc col ocs).matrix_row.getD
          ((generate L W K gc col ocs).right.getD p 0) 0 =
        (generate L W K gc col ocs).matrix_row.getD p 0 ∧
      ∀ q, q < L * K →
        (generate L W K gc col ocs).matrix_row.getD q 0 =
          (generate L W K gc col ocs).matrix_row.getD p 0 →
        ∃ j, j < K ∧ (fun x => (generate L W K gc col ocs).right.getD x 0)^[j] p = q) ∧
    (∀ p, p < L * K →
      (generate L W K gc col ocs).down.getD p 0 < L * K ∧
      (generate L W K gc col ocs).header.getD ((generate L W K gc col ocs).down.getD p 0) 0 =
        (generate L W K gc col ocs).header.getD p 0 ∧
      (((generate L W K gc col ocs).matrix_row.getD p 0 <
            (generate L W K gc col ocs).matrix_row.getD
              ((generate L W K gc col ocs).down.getD p 0) 0 ∧
          ∀ x, x < L * K → (generate L W K gc col ocs).header.getD x 0 =
              (generate L W K gc col ocs).header.getD p 0 →
            ¬ ((generate L W K gc col ocs).matrix_row.getD p 0 <
                (generate L W K gc col ocs).matrix_row.getD x 0 ∧
              (generate L W K gc col ocs).matrix_row.getD x 0 <
                (generate L W K gc col ocs).matrix_row.getD
                  ((generate L W K gc col ocs).down.getD p 0) 0)) ∨
        ((generate L W K gc col ocs).bottom.getD
            ((generate L W K gc col ocs).header.getD p 0) Option.none = some p ∧
          (generate L W K gc col ocs).top.getD
            ((generate L W K gc col ocs).header.getD p 0) Option.none =
              some ((generate L W K gc col ocs).down.getD p 0)))) ∧
    (∀ c, c < W →
      ((generate L W K gc col ocs).top.getD c Option.none = Option.none ∧
        (generate L W K gc col ocs).bottom.getD c Option.none = Option.none ∧
        ∀ x, x < L * K → (generate L W K gc col ocs).header.getD x 0 ≠ c) ∨
      (∃ t b, (generate L W K gc col ocs).top.getD c Option.none = some t ∧
        (generate L W K gc col ocs).bottom.getD c Option.none = some b ∧
        t < L * K ∧ b < L * K ∧
        (generate L W K gc col ocs).header.getD t 0 = c ∧
        (generate L W K gc col ocs).header.getD b 0 = c ∧
        ∀ x, x < L * K → (generate L W K gc col ocs).header.getD x 0 = c →
          (generate L W K gc col ocs).matrix_row.getD t 0 ≤
              (generate L W K gc col ocs).matrix_row.getD x 0 ∧
            (generate L W K gc col ocs).matrix_row.getD x 0 ≤
              (generate L W K gc col ocs).matrix_row.getD b 0)) := by
  have h := generate_inv gc ocs hg
  have hst := h.static_ok hg
  generalize generate L W K gc col ocs = m at h hst
  have hK := hg.K_pos
  have hcolW : ∀ p, p < L * K → m.header.getD p 0 < W := fun p hp =>
    h.array_width ▸ hst.header_lt p hp
  have hS : ∀ p x, p < L * K →
      ((x < L * K ∧ node_header K col x = m.header.getD p 0) ↔
        (x < L * K ∧ m.header.getD x 0 = m.header.getD p 0)) := by
    intro p x _
    constructor
    · rintro ⟨a, b⟩
      exact ⟨a, by rw [h.header x a]; exact b⟩
    · rintro ⟨a, b⟩
      exact ⟨a, by rw [← h.header x a]; exact b⟩
  have hrowlt : ∀ p q, p < L * K → q < L * K → m.header.getD p 0 = m.header.getD q 0 →
      p < q → m.matrix_row.getD p 0 < m.matrix_row.getD q 0 := by
    intro p q hp hq e hpq
    rcases Nat.lt_or_ge (m.matrix_row.getD p 0) (m.matrix_row.getD q 0) with h1 | h1
    · exact h1
    · have := hst.row_mono p q hp hq hpq.le
      have := hst.row_distinct p q hp hq (by omega) e
      omega
  have hrowle : ∀ p q, p < L * K → q < L * K → p ≤ q →
      m.matrix_row.getD p 0 ≤ m.matrix_row.getD q 0 := fun p q hp hq => hst.row_mono p q hp hq
  refine ⟨fun p hp => ⟨?_, hst.left_right hp, hst.right_left hp, ?_, ?_⟩, fun p hp => ?_,
    fun c hc => ?_⟩
  · rw [generate_right_iterate hK h p hp K, Nat.add_mod_right, Nat.mod_mod]
    exact Nat.div_add_mod' p K
  · exact (hst.right_succ p hp).1.2
  · intro q hq hrow
    rw [h.matrix_row q hq, h.matrix_row p hp] at hrow
    have ha : p % K < K := Nat.mod_lt _ hK
    have hc : q % K < K := Nat.mod_lt _ hK
    have hqd : p / K * K + q % K = q := by
      rw [← hrow]
      exact Nat.div_add_mod' q K
    by_cases hle : p % K ≤ q % K
    · refine ⟨q % K - p % K, by omega, ?_⟩
      rw [generate_right_iterate hK h p hp, show p % K + (q % K - p % K) = q % K by omega,
        Nat.mod_mod]
      exact hqd
    · refine ⟨q % K + K - p % K, by omega, ?_⟩
      rw [generate_right_iterate hK h p hp,
        show p % K + (q % K + K - p % K) = q % K + K by omega, Nat.add_mod_right, Nat.mod_mod]
      exact hqd
  · have hr := h.ring _ (hcolW p hp)
    have hp' : (fun x => x < L * K ∧ node_header K col x = m.header.getD p 0) p :=
      ⟨hp, (h.header p hp).symm⟩
    obtain ⟨hq, hcase⟩ := hr.down_succ p hp'
    have hq' := (hS p _ hp).mp hq
    refine ⟨hq'.1, hq'.2, ?_⟩
    rcases hcase with ⟨h1, h2⟩ | ⟨h1, h2, h3⟩
    · refine Or.inl ⟨hrowlt p _ hp hq'.1 hq'.2.symm h1, fun x hx ex hbetween => ?_⟩
      have hx' := (hS p x hp).mpr ⟨hx, ex⟩
      refine h2 x hx' ⟨?_, ?_⟩
      · rcases Nat.lt_or_ge p x with a | a
        · exact a
        · have := hrowle x p hx hp a
          omega
      · rcases Nat.lt_or_ge x (m.down.getD p 0) with a | a
        · exact a
        · have := hrowle _ x hq'.1 hx a
          omega
    · refine Or.inr ⟨?_, ?_⟩
      · rcases hb : m.bottom.getD (m.header.getD p 0) Option.none with _ | b
        · exact absurd hp' (hr.bottom_none hb p)
        · obtain ⟨b1, b2⟩ := hr.bottom_some b hb
          have := h2 b b1
          have := b2 p hp'
          congr 1
          omega
      · rcases ht : m.top.getD (m.header.getD p 0) Option.none with _ | t
        · exact absurd hp' (hr.top_none ht p)
        · obtain ⟨t1, t2⟩ := hr.top_some t ht
          have := h3 t t1
          have := t2 _ hq
          congr 1
          omega
  · have hr := h.ring c hc
    rcases ht : m.top.getD c Option.none with _ | t
    · refine Or.inl ⟨rfl, hr.both.mp ht, fun x hx e => ?_⟩
      exact hr.top_none ht x ⟨hx, by rw [← h.header x hx]; exact e⟩
    · rcases hb : m.bottom.getD c Option.none with _ | b
      · have := hr.both.mpr hb
        rw [ht] at this
        cases this
      · obtain ⟨t1, t2⟩ := hr.top_some t ht
        obtain ⟨b1, b2⟩ := hr.bottom_some b hb
        refine Or.inr ⟨t, b, rfl, rfl, t1.1, b1.1, by rw [h.header t t1.1]; exact t1.2,
          by rw [h.header b b1.1]; exact b1.2, fun x hx e => ?_⟩
        have hx' : x < L * K ∧ node_header K col x = c := ⟨hx, by rw [← h.header x hx]; exact e⟩
        exact ⟨hrowle t x t1.1 hx (t2 x hx'), hrowle x b hx b1.1 (b2 x hx')⟩

theorem generate_rings_witness :
    (fun x => (generate (2 * 2) (2 * 2 + (2 * 2 - 1) * 2) 4 (n_queens_get_count 2)
      (n_queens_get_column 2) 4).right.getD x 0)^[4] 5 = 5 ∧
    ∃ j, j < 4 ∧ (fun x => (generate (2 * 2) (2 * 2 + (2 * 2 - 1) * 2) 4 (n_queens_get_count 2)
      (n_queens_get_column 2) 4).right.getD x 0)^[j] 5 = 4 :=
  ⟨((generate_rings (2 * 2) (2 * 2 + (2 * 2 - 1) * 2) 4 (n_queens_get_count 2)
    (n_queens_get_column 2) 4 (n_queens_genok 2 (by decide)).toGenShape).1 5 (by decide)).1,
   ((generate_rings (2 * 2) (2 * 2 + (2 * 2 - 1) * 2) 4 (n_queens_get_count 2)
    (n_queens_get_column 2) 4 (n_queens_genok 2 (by decide)).toGenShape).1 5
      (by decide)).2.2.2.2 4 (by decide) (by decide!)⟩

/-- Claim C4: in a consistent mesh state, for a live node `r` whose own column
has just been removed as in the descend step (`header_tree.erase` of its
header, then `remove_column(r)`), `remove_row(r)` returns and `restore_row(r)`
after it gives back the very state before `remove_row`: all links, counts,
tops, bottoms and both header indices. -/
theorem remove_restore_row {m : dlx_matrix} {N : Nat} {hid cov : Nat → Prop} {r : Nat}
    (h : Cons m N hid cov Option.none) (hr : r < N) (hnr : ¬ hid r)
    (hcr : ¬ cov (m.header.getD r 0)) (fuel : Nat) (hf : N < fuel) :
    ∃ m1 m2, remove_column fuel (header_tree_erase m (m.header.getD r 0)) r = Except.ok m1 ∧
      remove_row fuel m1 r = Except.ok m2 ∧ restore_row fuel m2 r = Except.ok m1 := by
  obtain ⟨m1, m2, _, _, e1, e2, _, _, _, _, _, _, hrt, _⟩ := cover_row_spec h hr hnr hcr fuel hf
  exact ⟨m1, m2, e1, e2, hrt fuel hf⟩

theorem remove_restore_row_witness :
    ∃ m1 m2, remove_column 17 (header_tree_erase
        (populate_trees (generate (2 * 2) (2 * 2 + (2 * 2 - 1) * 2) 4
          (n_queens_get_count 2) (n_queens_get_column 2) (2 * 2)))
        ((populate_trees (generate (2 * 2) (2 * 2 + (2 * 2 - 1) * 2) 4
          (n_queens_get_count 2) (n_queens_get_column 2) (2 * 2))).header.getD 0 0)) 0 =
        Except.ok m1 ∧
      remove_row 17 m1 0 = Except.ok m2 ∧ restore_row 17 m2 0 = Except.ok m1 :=
  remove_restore_row (generate_cons (2 * 2) (n_queens_genok 2 (by decide)) (by decide))
    (by decide) (fun f => f) (fun f => f) 17 (by decide)

/-- Claim C29: every state of the search (reached from a consistent mesh by
pushes, replacements and pops of `solve`) is consistent for the set `hid` of
its unlinked nodes, which the links of the mesh determine, and has the header
shape: count 0 goes with null `top` and `bottom`, positive count with `top` and
`bottom` the linked nodes of least and greatest row of the column; and on such
a state `remove_column` of a live node `s` returns a mesh that is well linked
for the set of unlinked nodes grown by the other nodes of the rows of the other
linked nodes of the column of `s`, has the header shape for that set, and from
which `restore_column` leads back. -/
theorem header_shape_preserved {N fuel0 : Nat} {m0 : dlx_matrix} {cov0 : Nat → Prop}
    {stack : List (Nat × Nat)} {m : dlx_matrix} {cov : Nat → Prop} (hf : N < fuel0)
    (h0 : ∃ hid, Cons m0 N hid cov0 Option.none) (h : Reach N fuel0 m0 cov0 stack m cov) :
    ∃ hid, Cons m N hid cov Option.none ∧ (∀ hid', ColInv m N hid' → hid' = hid) ∧
      HeaderShape m N hid ∧
      ∀ s, s < N → ¬ hid s → ¬ cov (m.header.getD s 0) →
        ∃ m', remove_column fuel0 m s = Except.ok m' ∧
          ColInv m' N (fun y => hid y ∨ col_others m N hid s y) ∧
          HeaderShape m' N (fun y => hid y ∨ col_others m N hid s y) ∧
          restore_column fuel0 m' s = Except.ok m := by
  obtain ⟨hid, hC⟩ := h.consistent hf h0
  refine ⟨hid, hC, fun hid' h' => hC.col.hid_unique h', hC.col.header_shape,
    fun s hs hns hcs => ?_⟩
  obtain ⟨m', e, hC', _, _, _, hrt⟩ := remove_column_spec hC.col hs hns
    (fun y hy => by
      obtain ⟨a, b, _⟩ := hC.col_others_free hs hcs (Or.inl rfl) y hy
      obtain ⟨C, _, _, hyC, _⟩ := hy
      exact ⟨a, hC.tree.in_index hC.col.static (hC.col.static.header_lt y hyC.1) b⟩)
    fuel0 hf
  exact ⟨m', e, hC', hC'.header_shape, hrt fuel0 hf⟩

theorem header_shape_preserved_witness :
    ∃ hid, Cons (populate_trees (generate (2 * 2) (2 * 2 + (2 * 2 - 1) * 2) 4
        (n_queens_get_count 2) (n_queens_get_column 2) (2 * 2))) (2 * 2 * 4) hid
        (fun _ => False) Option.none ∧
      HeaderShape (populate_trees (generate (2 * 2) (2 * 2 + (2 * 2 - 1) * 2) 4
        (n_queens_get_count 2) (n_queens_get_column 2) (2 * 2))) (2 * 2 * 4) hid ∧
      ∃ m', remove_column 17 (populate_trees (generate (2 * 2)
          (2 * 2 + (2 * 2 - 1) * 2) 4 (n_queens_get_count 2) (n_queens_get_column 2)
          (2 * 2))) 0 = Except.ok m' ∧
        HeaderShape m' (2 * 2 * 4) (fun y => hid y ∨ col_others (populate_trees (generate (2 * 2)
          (2 * 2 + (2 * 2 - 1) * 2) 4 (n_queens_get_count 2) (n_queens_get_column 2)
          (2 * 2))) (2 * 2 * 4) hid 0 y) := by
  obtain ⟨hid, h1, h2, h3, h4⟩ := @header_shape_preserved (2 * 2 * 4) 17 _ _ _ _ _ (by decide)
    ⟨_, generate_cons (2 * 2) (n_queens_genok 2 (by decide)) (by decide)⟩ Reach.base
  have hnone : ¬ hid 0 := by
    have e := h2 _ (generate_cons (2 * 2) (n_queens_genok 2 (by decide)) (by decide)).col
    rw [← e]
    exact fun f => f
  obtain ⟨m', e1, -, e3, -⟩ := h4 0 (by decide) hnone (fun f => f)
  exact ⟨hid, h1, h3, m', e1, e3⟩

/-- Claim C1: for a matrix built by `generate` from callbacks that describe an
exact-cover matrix, and an `initialize` that leaves the mesh consistent with
the rows `pre` covered, whenever `solve` returns in `solutions` mode every
output it returns is the interpretation of a choice stack whose rows, together
with the rows `pre`, touch every mandatory column exactly once and every
optional column at most once (no two of the rows share a column, and every
mandatory column is met). -/
theorem solve_outputs_exact_cover {β : Type} (L W K : Nat) (gc : Nat → Int)
    (col : Nat → Nat → Int) (ocs : Nat)
    (initialize_fn : Nat → dlx_matrix → Except Err (Bool × dlx_matrix))
    (interpret_result : dlx_matrix → List (Nat × Nat) → β) (fuel : Nat) (max_solutions : Int)
    (pre : List Nat) (outs : List β)
    (hf : L * K < fuel)
    (hinit : ∀ m1, initialize_fn fuel (populate_trees (generate L W K gc col ocs)) =
        Except.ok (true, m1) →
      SameFrame (generate L W K gc col ocs) m1 ∧
      ∃ hid cov0, Cons m1 (L * K) hid cov0 Option.none ∧
        pre.Pairwise (fun a b => ∀ c, ¬ (row_touches (generate L W K gc col ocs) (L * K) a c ∧
          row_touches (generate L W K gc col ocs) (L * K) b c)) ∧
        ∀ c, cov0 c ↔ ∃ r, r ∈ pre ∧ row_touches (generate L W K gc col ocs) (L * K) r c)
    (h : returned (solve initialize_fn interpret_result fuel (generate L W K gc col ocs)
      max_solutions dlx_save_setting.solutions) = some outs) :
    ∀ o, o ∈ outs → ∃ m stack, SameFrame (generate L W K gc col ocs) m ∧
      o = interpret_result m stack ∧
      ExactCover (generate L W K gc col ocs) (L * K)
        (pre ++ stack.map (fun e => (generate L W K gc col ocs).matrix_row.getD e.2 0)) ∧
      ∀ e, e ∈ stack → e.2 < L * K :=
  solve_sound L W K gc col ocs initialize_fn interpret_result fuel max_solutions pre outs hf hinit h

theorem solve_outputs_exact_cover_witness :
    ∃ m stack,
      SameFrame (generate (4 * 4) (4 * 2 + (4 * 2 - 1) * 2) 4 (n_queens_get_count 4)
        (n_queens_get_column 4) (4 * 2)) m ∧
      ([[0, 1, 0, 0], [0, 0, 0, 1], [1, 0, 0, 0], [0, 0, 1, 0]] : List (List Int)) =
        interpret_result_n_queens 4 (List.replicate 4 (List.replicate 4 0)) m stack ∧
      ExactCover (generate (4 * 4) (4 * 2 + (4 * 2 - 1) * 2) 4 (n_queens_get_count 4)
        (n_queens_get_column 4) (4 * 2)) (4 * 4 * 4)
        ([] ++ stack.map (fun e => (generate (4 * 4) (4 * 2 + (4 * 2 - 1) * 2) 4
          (n_queens_get_count 4) (n_queens_get_column 4) (4 * 2)).matrix_row.getD e.2 0)) ∧
      ∀ e, e ∈ stack → e.2 < 4 * 4 * 4 :=
  solve_outputs_exact_cover (4 * 4) (4 * 2 + (4 * 2 - 1) * 2) 4 (n_queens_get_count 4)
    (n_queens_get_column 4) (4 * 2)
    (initialize_n_queens 4 (List.replicate 4 (List.replicate 4 0)))
    (interpret_result_n_queens 4 (List.replicate 4 (List.replicate 4 0))) 70 (-1) []
    [[[0, 1, 0, 0], [0, 0, 0, 1], [1, 0, 0, 0], [0, 0, 1, 0]],
      [[0, 0, 1, 0], [1, 0, 0, 0], [0, 0, 0, 1], [0, 1, 0, 0]]]
    (by decide)
    (fun m1 hi => by
      rw [initialize_n_queens_zero] at hi
      cases hi
      exact ⟨(populate_trees_mesh _).frame, fun _ => False, fun _ => False,
        generate_cons (4 * 2) (n_queens_genok 4 (by decide)) (by decide), List.Pairwise.nil,
        fun c => by simp⟩)
    n_queens_4_search_70 _ (List.mem_cons_self _ _)

/-- Claim C10: for every board width `w ≥ 1` and the all-zero `w × w` input,
every board `solve` of `dlx_matrix_n_queens(w)` returns in `solutions` mode has
exactly one 1 in each row and in each column and at most one 1 on each of the
`2w-1` diagonals of either direction. -/
theorem n_queens_outputs_valid (w : Nat) (hw : 1 ≤ w) (fuel : Nat) (hf : w * w * 4 < fuel)
    (max_solutions : Int) (outs : List (List (List Int)))
    (h : returned (n_queens_solve w fuel (List.replicate w (List.replicate w 0)) max_solutions
      dlx_save_setting.solutions) = some outs) :
    ∀ o, o ∈ outs → n_queens_valid w o := by
  intro o ho
  have hg := n_queens_genok w hw
  obtain ⟨m, stack, f, rfl, hec, hlt⟩ := solve_sound (w * w) (w * 2 + (w * 2 - 1) * 2) 4
    (n_queens_get_count w) (n_queens_get_column w) (w * 2)
    (initialize_n_queens w (List.replicate w (List.replicate w 0)))
    (interpret_result_n_queens w (List.replicate w (List.replicate w 0))) fuel max_solutions []
    outs hf
    (fun m1 hi => by
      rw [initialize_n_queens_zero] at hi
      cases hi
      exact ⟨(populate_trees_mesh _).frame, fun _ => False, fun _ => False,
        generate_cons (w * 2) hg (by omega), List.Pairwise.nil, fun c => by simp⟩)
    h o ho
  have hgi := generate_inv (n_queens_get_count w) (w * 2) hg.toGenShape
  have hrowlt : ∀ e, e ∈ stack → m.matrix_row.getD e.2 0 < w * w := by
    intro e he
    rw [f.matrix_row, hgi.matrix_row _ (hlt e he)]
    have := hlt e he
    omega
  have hne : (List.replicate w (List.replicate w (0 : Int))) ≠ [] := by
    cases w with
    | zero => omega
    | succ n => simp [List.replicate_succ]
  obtain ⟨hd, hc⟩ := interpret_n_queens_loop_cell w m stack _ (zero_board_dims w) hrowlt
  simp only [List.nil_append] at hec
  refine n_queens_cover_valid w hw _ ?_ hec _ ?_ ?_
  · intro r hr
    obtain ⟨e, he, rfl⟩ := List.mem_map.mp hr
    rw [← f.matrix_row]
    exact hrowlt e he
  · unfold interpret_result_n_queens
    rw [if_pos hne]
    exact hd
  · intro i j hi hj
    unfold interpret_result_n_queens
    rw [if_pos hne, hc i j hi hj, zero_board_cell]
    have hiff : (∃ e, e ∈ stack ∧ m.matrix_row.getD e.2 0 / w = i ∧
        m.matrix_row.getD e.2 0 % w = j) ↔
        i * w + j ∈ stack.map (fun e => (generate (w * w) (w * 2 + (w * 2 - 1) * 2) 4
          (n_queens_get_count w) (n_queens_get_column w) (w * 2)).matrix_row.getD e.2 0) := by
      rw [List.mem_map, ← f.matrix_row]
      constructor
      · rintro ⟨e, he, e1, e2⟩
        exact ⟨e, he, by rw [← e1, ← e2]; exact (Nat.div_add_mod' _ w).symm⟩
      · rintro ⟨e, he, e1⟩
        exact ⟨e, he, by rw [e1]; exact row_block_div w i j hj,
          by rw [e1]; exact row_block_mod w i j hj⟩
    by_cases hx : ∃ e, e ∈ stack ∧ m.matrix_row.getD e.2 0 / w = i ∧
        m.matrix_row.getD e.2 0 % w = j
    · rw [if_pos hx, if_pos (hiff.mp hx)]
    · rw [if_neg hx, if_neg (fun a => hx (hiff.mpr a))]

theorem n_queens_outputs_valid_witness :
    n_queens_valid 4 [[0, 1, 0, 0], [0, 0, 0, 1], [1, 0, 0, 0], [0, 0, 1, 0]] :=
  n_queens_outputs_valid 4 (by decide) 70 (by decide) (-1)
    [[[0, 1, 0, 0], [0, 0, 0, 1], [1, 0, 0, 0], [0, 0, 1, 0]],
      [[0, 0, 1, 0], [1, 0, 0, 0], [0, 0, 0, 1], [0, 1, 0, 0]]]
    n_queens_4_search_70 _ (List.mem_cons_self _ _)

/-! ## Polyomino pieces: claims -/

/-- C21 fails at the largest `int`: for the piece with the offsets (0,0) and
(2147483647,0), which are distinct, non-negative and touch both axes, the
increment `x_len++` overflows.  The constructor stores two orientations; the
second one has the cells (0,0) and (2147483647,0), so its largest x is
2147483647, while `getXLength(1)` is -2147483648. -/
theorem bounding_box_overflows_at_int_max :
    ∃ P, (polyomino_new [(0, 0), (2147483647, 0)]).toOption = some P ∧
      getOrientations P = 2 ∧ getSize P = 2 ∧
      getBlock P 1 0 = (0, 0) ∧ getBlock P 1 1 = (2147483647, 0) ∧
      getXLength P 1 = -2147483648 :=
  ⟨{ x_len := -2147483648, y_len := 1, size := 2, orientations := 2,
     shapes := [[(0, 0), (0, 2147483647)], [(0, 0), (2147483647, 0)]],
     flipped := [true, false] },
   by decide!, by decide, by decide, by decide, by decide, by decide⟩

/-- C21 (amended): for a piece given as distinct non-negative offsets below
2147483647 that touches both axes, the constructor succeeds and every stored
orientation `k` has only non-negative coordinates, its largest x being
`getXLength(k) - 1` and its largest y being `getYLength(k) - 1`. -/
theorem orientation_bounding_box (bp : List (Int × Int)) (hn : bp.Nodup)
    (hnn : ∀ p ∈ bp, 0 ≤ p.1 ∧ 0 ≤ p.2)
    (hb : ∀ p ∈ bp, p.1 < 2147483647 ∧ p.2 < 2147483647)
    (hx : ∃ p ∈ bp, p.1 = 0) (hy : ∃ p ∈ bp, p.2 = 0) :
    ∃ P, polyomino_new bp = Except.ok P ∧ ∀ k, k < getOrientations P →
      (∀ i, i < getSize P →
        0 ≤ (getBlock P k i).1 ∧ (getBlock P k i).1 ≤ getXLength P k - 1 ∧
        0 ≤ (getBlock P k i).2 ∧ (getBlock P k i).2 ≤ getYLength P k - 1) ∧
      (∃ i, i < getSize P ∧ (getBlock P k i).1 = getXLength P k - 1) ∧
      (∃ i, i < getSize P ∧ (getBlock P k i).2 = getYLength P k - 1) := by
  obtain ⟨wx, wy, -, -⟩ := @polyomino_new_lengths bp 2147483646 (by omega) (by omega)
    (fun p hp => by have := hb p hp; omega)
  obtain ⟨P, hP, -, -, -, hk, -, -⟩ := polyomino_new_spec bp hn hnn
  obtain ⟨hf, hnf⟩ := flipped_images_span (Spans.of_piece hnn hx hy)
  refine ⟨P, hP, ?_⟩
  intro k hlt
  obtain ⟨hmem, hxl, hyl⟩ := hk k hlt
  have key : Spans (orientation_cells P k) (getXLength P k - 1) (getYLength P k - 1) := by
    by_cases hm : orientation_cells P k ∈ flipped_images (largest_x bp) (largest_y bp) bp
    · rw [hxl, hyl, if_pos hm, if_pos hm, wx, wy]
      simpa using hf _ hm
    · rw [hxl, hyl, if_neg hm, if_neg hm, wx, wy]
      simpa using hnf _ hmem hm
  obtain ⟨h1, -, ⟨b, hb, hb'⟩, -, ⟨d, hd, hd'⟩⟩ := key
  refine ⟨?_, ?_, ?_⟩
  · intro i hi
    exact h1 _ (mem_orientation_cells.2 ⟨i, hi, rfl⟩)
  · obtain ⟨i, hi, e⟩ := mem_orientation_cells.1 hb
    exact ⟨i, hi, by rw [e]; exact hb'⟩
  · obtain ⟨i, hi, e⟩ := mem_orientation_cells.1 hd
    exact ⟨i, hi, by rw [e]; exact hd'⟩

theorem orientation_bounding_box_witness :
    ∃ P, polyomino_new [(0, 0), (1, 0), (1, 1), (1, 2)] = Except.ok P ∧
      ∀ k, k < getOrientations P →
      (∀ i, i < getSize P →
        0 ≤ (getBlock P k i).1 ∧ (getBlock P k i).1 ≤ getXLength P k - 1 ∧
        0 ≤ (getBlock P k i).2 ∧ (getBlock P k i).2 ≤ getYLength P k - 1) ∧
      (∃ i, i < getSize P ∧ (getBlock P k i).1 = getXLength P k - 1) ∧
      (∃ i, i < getSize P ∧ (getBlock P k i).2 = getYLength P k - 1) :=
  orientation_bounding_box [(0, 0), (1, 0), (1, 1), (1, 2)] (by decide) (by decide) (by decide)
    (by decide) (by decide)

/-- C22: for a piece given as distinct non-negative offsets, the constructor
succeeds, stores between 1 and 8 orientations, each with `getSize()` pairwise
distinct cells, no two orientations with the same cell set, and the stored
cell sets are exactly the cell sets of the eight dihedral images of the piece. -/
theorem orientations_are_dihedral_images (bp : List (Int × Int)) (hn : bp.Nodup)
    (hnn : ∀ p ∈ bp, 0 ≤ p.1 ∧ 0 ≤ p.2) :
    ∃ P, polyomino_new bp = Except.ok P ∧ getSize P = bp.length ∧
      1 ≤ getOrientations P ∧ getOrientations P ≤ 8 ∧
      (∀ k, k < getOrientations P →
        (orientation_cells P k).Nodup ∧ (orientation_cells P k).length = getSize P) ∧
      (∀ k1 k2, k1 < getOrientations P → k2 < getOrientations P → k1 ≠ k2 →
        ¬ ∀ c, c ∈ orientation_cells P k1 ↔ c ∈ orientation_cells P k2) ∧
      (∀ k, k < getOrientations P →
        ∃ d, d ∈ dihedral_images bp ∧ ∀ c, c ∈ orientation_cells P k ↔ c ∈ d) ∧
      (∀ d, d ∈ dihedral_images bp →
        ∃ k, k < getOrientations P ∧ ∀ c, c ∈ orientation_cells P k ↔ c ∈ d) := by
  obtain ⟨P, hP, hsz, h1, h8, hk, himg, hinj⟩ := polyomino_new_spec bp hn hnn
  have hsorted := constructor_images_sorted (largest_x bp) (largest_y bp) bp
  refine ⟨P, hP, hsz, h1, h8, ?_, ?_, ?_, ?_⟩
  · intro k hlt
    refine ⟨sorted_cells_nodup (hsorted _ (hk k hlt).1), ?_⟩
    simp [orientation_cells]
  · intro k1 k2 hk1 hk2 hne hc
    exact hne (hinj k1 k2 hk1 hk2
      (sorted_cells_ext (hsorted _ (hk k1 hk1).1) (hsorted _ (hk k2 hk2).1) hc))
  · intro k hlt
    exact forall2_mem_left (constructor_images_dihedral bp) _ (hk k hlt).1
  · intro d hd
    obtain ⟨s, hs, hr⟩ := forall2_mem_right (constructor_images_dihedral bp) d hd
    obtain ⟨k, hlt, e⟩ := himg s hs
    exact ⟨k, hlt, by rw [e]; exact hr⟩

theorem orientations_are_dihedral_images_witness :
    ∃ P, polyomino_new [(0, 0), (1, 0), (1, 1), (1, 2)] = Except.ok P ∧ getSize P = 4 ∧
      1 ≤ getOrientations P ∧ getOrientations P ≤ 8 ∧
      (∀ k, k < getOrientations P →
        (orientation_cells P k).Nodup ∧ (orientation_cells P k).length = getSize P) ∧
      (∀ k1 k2, k1 < getOrientations P → k2 < getOrientations P → k1 ≠ k2 →
        ¬ ∀ c, c ∈ orientation_cells P k1 ↔ c ∈ orientation_cells P k2) ∧
      (∀ k, k < getOrientations P →
        ∃ d, d ∈ dihedral_images [(0, 0), (1, 0), (1, 1), (1, 2)] ∧
          ∀ c, c ∈ orientation_cells P k ↔ c ∈ d) ∧
      (∀ d, d ∈ dihedral_images [(0, 0), (1, 0), (1, 1), (1, 2)] →
        ∃ k, k < getOrientations P ∧ ∀ c, c ∈ orientation_cells P k ↔ c ∈ d) :=
  orientations_are_dihedral_images [(0, 0), (1, 0), (1, 1), (1, 2)] (by decide) (by decide)

/-- C23: the constructor of `polyomino` calls `exit(1)` exactly when some
offset has a negative coordinate, and it completes with at least one
orientation exactly when all offsets are non-negative. -/
theorem polyomino_new_fails_iff (bp : List (Int × Int)) :
    (polyomino_new bp = Except.error Err.exit_failure ↔ ∃ p ∈ bp, p.1 < 0 ∨ p.2 < 0) ∧
    ((∃ P, polyomino_new bp = Except.ok P ∧ 1 ≤ getOrientations P) ↔
      ∀ p ∈ bp, 0 ≤ p.1 ∧ 0 ≤ p.2) := by
  by_cases h : ∃ p ∈ bp, p.1 < 0 ∨ p.2 < 0
  · have e : polyomino_new bp = Except.error Err.exit_failure := by
      unfold polyomino_new
      rw [(polyomino_extent_none_iff bp 0 0).2 h]
    refine ⟨⟨fun _ => h, fun _ => e⟩, ?_, ?_⟩
    · rintro ⟨P, hP, -⟩
      rw [e] at hP
      exact Except.noConfusion hP
    · intro hnn
      obtain ⟨p, hp, hneg⟩ := h
      have := hnn p hp
      omega
  · have hnn : ∀ p ∈ bp, 0 ≤ p.1 ∧ 0 ≤ p.2 := by
      intro p hp
      by_contra hc
      exact h ⟨p, hp, by omega⟩
    have e := polyomino_new_eq bp hnn
    refine ⟨⟨?_, fun h2 => absurd h2 h⟩, fun _ => hnn, fun _ => ⟨_, e, ?_⟩⟩
    · intro h2
      rw [e] at h2
      exact Except.noConfusion h2
    · exact (constructor_shapes_length _ _ bp).1

/-- C27 (fails as stated): for the horizontal tromino, whose extents are
`x_len = 2`, `y_len = 0` and whose largest y is 0, the first rotation pass of
the constructor yields the cells (0,0), (0,1), (0,2); this is not the image
under `(x, y) -> (y, Ymax - x)`, which would hold (0,-2) and not (0,2). -/
theorem rotation_step_not_ymax :
    polyomino_extent [(0, 0), (1, 0), (2, 0)] 0 0 = some (2, 0) ∧
    largest_y (cell_set_of [(0, 0), (1, 0), (2, 0)]) = 0 ∧
    (rotation_step 2 0 (cell_set_of [(0, 0), (1, 0), (2, 0)],
      shape_set_insert (cell_set_of [(0, 0), (1, 0), (2, 0)]) [], []) 0).1 =
        [(0, 0), (0, 1), (0, 2)] ∧
    ¬ (∀ c, c ∈ (rotation_step 2 0 (cell_set_of [(0, 0), (1, 0), (2, 0)],
        shape_set_insert (cell_set_of [(0, 0), (1, 0), (2, 0)]) [], []) 0).1 ↔
      ∃ p ∈ cell_set_of [(0, 0), (1, 0), (2, 0)],
        c = (p.2, largest_y (cell_set_of [(0, 0), (1, 0), (2, 0)]) - p.1)) := by
  refine ⟨by decide, by decide, by decide, ?_⟩
  intro h
  have h2 := (h (0, 2)).1 (by decide)
  revert h2
  decide

/-- C27 (amended): for a piece with non-negative offsets that touches both
axes, every rotation pass `i` of either rotation loop of the constructor maps
every cell `(x, y)` of the current orientation to `(y, Xmax - x)`, where `Xmax`
is the largest x coordinate of the current orientation. -/
theorem rotation_step_xmax (bp : List (Int × Int)) (x_len y_len : Int)
    (hext : polyomino_extent bp 0 0 = some (x_len, y_len))
    (hx : ∃ p ∈ bp, p.1 = 0) (hy : ∃ p ∈ bp, p.2 = 0)
    (start : List (Int × Int))
    (hstart : start = cell_set_of bp ∨
      start = cell_set_of (bp.map (fun p => (p.1, y_len - p.2))))
    (S F : List (List (Int × Int))) (i : Nat) (hi : i < 3) (c : Int × Int) :
    c ∈ (rotation_step x_len y_len
        ((List.range i).foldl (rotation_step x_len y_len) (start, S, F)) i).1 ↔
      ∃ p ∈ ((List.range i).foldl (rotation_step x_len y_len) (start, S, F)).1,
        c = (p.2, largest_x ((List.range i).foldl (rotation_step x_len y_len) (start, S, F)).1
          - p.1) := by
  obtain ⟨hnn, ex, ey⟩ := polyomino_extent_eq hext
  have hs : Spans bp x_len y_len := by rw [ex, ey]; exact Spans.of_piece hnn hx hy
  have h0 : Spans start x_len y_len := by
    rcases hstart with e | e
    · rw [e]; exact hs.congr_mem (fun _ => mem_cell_set_of)
    · rw [e]; exact hs.mirror
  have hstep : ∀ st j, (rotation_step x_len y_len st j).1 =
      rotate_cells (if j % 2 = 1 then y_len else x_len) st.1 := fun _ _ => rfl
  rw [hstep, mem_rotate_cells]
  have e0 : (if 0 % 2 = 1 then y_len else x_len) = x_len := by simp
  have e1 : (if 1 % 2 = 1 then y_len else x_len) = y_len := by simp
  have e2 : (if 2 % 2 = 1 then y_len else x_len) = x_len := by simp
  interval_cases i
  · simp only [List.range_zero, List.foldl_nil]
    rw [h0.largest_x_eq, e0]
  · simp only [List.range_succ, List.range_zero, List.nil_append, List.foldl_cons,
      List.foldl_nil, hstep]
    simp only [e0, if_true]
    rw [(h0.rotate).largest_x_eq]
  · simp only [List.range_succ, List.range_zero, List.nil_append, List.foldl_cons,
      List.foldl_nil, List.foldl_append, List.cons_append, hstep]
    simp only [e0, if_true]
    rw [(h0.rotate.rotate).largest_x_eq]

theorem rotation_step_xmax_witness :
    ((0, 2) : Int × Int) ∈ (rotation_step 2 0
        ((List.range 0).foldl (rotation_step 2 0)
          (cell_set_of [(0, 0), (1, 0), (2, 0)], [], [])) 0).1 ↔
      ∃ p ∈ ((List.range 0).foldl (rotation_step 2 0)
          (cell_set_of [(0, 0), (1, 0), (2, 0)], [], [])).1,
        ((0, 2) : Int × Int) = (p.2, largest_x ((List.range 0).foldl (rotation_step 2 0)
          (cell_set_of [(0, 0), (1, 0), (2, 0)], [], [])).1 - p.1) :=
  rotation_step_xmax [(0, 0), (1, 0), (2, 0)] 2 0 (by decide) (by decide) (by decide)
    (cell_set_of [(0, 0), (1, 0), (2, 0)]) (Or.inl rfl) [] [] 0 (by decide) (0, 2)

/-! ## The polyomino matrix: claims -/

/-- C24 fails outside four bounds.  (1) For the piece given by the offsets
(0,0), (0,0) and board width 1 the matrix has one row, with two nodes in column
0, and the count of header 0 is 2 although one row touches column 0.  (2) For
the piece (0,0), (2147483646,0) and board width 2 the sum `col + getXLength`
overflows at `col = 1`, the test passes and the index check ends the program
with `exit(1)`.  (3) For the piece with the one offset (2147483647,2147483647)
both lengths overflow to -2147483648, so on the board of width 0 the offset
(0,0) passes the test of the claim for each of the four stored orientations,
yet no row is built.  (4) For board width
46341 the header count `board_width*board_width` overflows to a negative `int`
and no matrix is built, even without pieces. -/
theorem generate_rows_fail_outside_bounds :
    (∃ p, (polyomino_new [(0, 0), (0, 0)]).toOption = some p ∧
      (dlx_matrix_polyomino [p] 1).toOption.map
        (fun a => (a.m.array_len, polyomino_row_columns a 0, a.m.count.getD 0 0,
          ((List.range a.m.array_len).filter
            (fun r => decide (0 ∈ polyomino_row_columns a r))).length)) =
        some (1, [0, 0, 1], 2, 1)) ∧
    (∃ q, (polyomino_new [(0, 0), (2147483646, 0)]).toOption = some q ∧
      raised (dlx_matrix_polyomino [q] 2) = some Err.exit_failure) ∧
    (∃ r, (polyomino_new [(2147483647, 2147483647)]).toOption = some r ∧
      getOrientations r = 4 ∧
      (0 : Int) + getYLength r 0 ≤ 0 ∧ (0 : Int) + getXLength r 0 ≤ 0 ∧
      polyomino_placements [r] 0 = []) ∧
    raised (dlx_matrix_polyomino [] 46341) = some Err.undefined_behaviour :=
  ⟨⟨{ x_len := 1, y_len := 1, size := 2, orientations := 1,
      shapes := [[(0, 0), (0, 0)]], flipped := [true] }, by decide!, by decide!⟩,
   ⟨{ x_len := 2147483647, y_len := 1, size := 2, orientations := 2,
      shapes := [[(0, 0), (0, 2147483646)], [(0, 0), (2147483646, 0)]],
      flipped := [true, false] }, by decide!, by decide!⟩,
   ⟨{ x_len := -2147483648, y_len := -2147483648, size := 1, orientations := 4,
      shapes := [[(0, 0)], [(0, 2147483647)], [(2147483647, 0)], [(2147483647, 2147483647)]],
      flipped := [true, true, true, true] },
     by decide!, by decide, by decide, by decide, by decide⟩,
   by decide!⟩

/-- C24 (amended): let `b * b` plus the number of pieces be at most 2147483647,
and let each piece be built by the constructor from pairwise distinct offsets
`(x, y)` with `x, y < 2147483647` and `x + b, y + b <= 2147483647`.  Then the
constructor of `dlx_matrix_polyomino` completes; the placements it builds rows
for are pairwise distinct and are exactly the `(row, col, p, k)` with
`row + getYLength(k) <= b` and `col + getXLength(k) <= b`; row `r` belongs to
the `r`-th placement, has one node per cell `(x, y)` of the orientation in
column `(x + col) + (y + row) * b`, which is below `b * b`, and a last node in
the usage column `b * b + p`; and the count of every header is the number of
rows with a node in its column. -/
theorem polyomino_generate_rows (polyomino_list : List polyomino) (b : Nat)
    (hp : ∀ P ∈ polyomino_list, ∃ bp, bp.Nodup ∧
      (∀ p ∈ bp, p.1 < 2147483647 ∧ p.2 < 2147483647 ∧
        p.1 + (b : Int) ≤ 2147483647 ∧ p.2 + (b : Int) ≤ 2147483647) ∧
      polyomino_new bp = Except.ok P)
    (hb : b * b + polyomino_list.length ≤ 2147483647) :
    ∃ a, dlx_matrix_polyomino polyomino_list b = Except.ok a ∧
      (polyomino_placements polyomino_list b).Nodup ∧
      (∀ row col p k, (row, col, p, k) ∈ polyomino_placements polyomino_list b ↔
        ∃ P, polyomino_list.get? p = some P ∧ k < getOrientations P ∧
          (row : Int) + getYLength P k ≤ b ∧ (col : Int) + getXLength P k ≤ b) ∧
      a.m.array_len = (polyomino_placements polyomino_list b).length ∧
      (∀ r pl P, (polyomino_placements polyomino_list b).get? r = some pl →
        polyomino_list.get? pl.2.2.1 = some P →
        a.row_size.getD r 0 = getSize P + 1 ∧
        (∀ i, i < getSize P →
          (a.m.header.getD (a.row_start.getD r 0 + i) 0 : Int) =
            (getBlock P pl.2.2.2 i).1 + pl.2.1 + ((getBlock P pl.2.2.2 i).2 + pl.1) * b ∧
          a.m.header.getD (a.row_start.getD r 0 + i) 0 < b * b ∧
          a.m.matrix_row.getD (a.row_start.getD r 0 + i) 0 = r) ∧
        a.m.header.getD (a.row_start.getD r 0 + getSize P) 0 = b * b + pl.2.2.1 ∧
        a.m.matrix_row.getD (a.row_start.getD r 0 + getSize P) 0 = r) ∧
      (∀ h, h < a.m.array_width →
        a.m.count.getD h 0 =
          (((List.range a.m.array_len).filter
            (fun r => decide (h ∈ polyomino_row_columns a r))).length : Int)) := by
  have hbI : (b : Int) ≤ 2147483647 := by
    have h1 : b ≤ b * b := Nat.le_mul_self b
    have h2 : b ≤ 2147483647 := by omega
    exact_mod_cast h2
  have hboth : ∀ P ∈ polyomino_list, PieceOK P ∧ ∀ k, k < getOrientations P →
      getXLength P k + b ≤ 2147483648 ∧ getYLength P k + b ≤ 2147483648 := by
    intro P hP
    obtain ⟨bp, hn, hbd, e⟩ := hp P hP
    have hb0 : (0 : Int) ≤ b := Int.ofNat_nonneg _
    by_cases hz : b = 0
    · obtain ⟨h1, h2⟩ := @polyomino_new_piece_ok bp P 2147483646 hn
        (by omega) (by omega) (fun p hp => by have := hbd p hp; omega) e
      refine ⟨h1, fun k hk => ?_⟩
      have := h2 k hk
      omega
    · obtain ⟨h1, h2⟩ := @polyomino_new_piece_ok bp P (2147483647 - (b : Int)) hn
        (by omega) (by omega) (fun p hp => by have := hbd p hp; omega) e
      refine ⟨h1, fun k hk => ?_⟩
      have := h2 k hk
      omega
  have hpo : ∀ P ∈ polyomino_list, PieceOK P := fun P hP => (hboth P hP).1
  have hlen : ∀ P ∈ polyomino_list, ∀ k, k < getOrientations P →
      getXLength P k + b ≤ 2147483648 ∧ getYLength P k + b ≤ 2147483648 :=
    fun P hP => (hboth P hP).2
  obtain ⟨a, cols, rows, e, inv⟩ := polyomino_generate_ok polyomino_list b hpo hlen hb
  refine ⟨a, e, polyomino_placements_nodup _ _, ?_, inv.alen, ?_, ?_⟩
  · intro row col p k
    rw [mem_polyomino_placements]
    constructor
    · rintro ⟨hrow, hcol, P, hg, hk, h1, h2⟩
      obtain ⟨w1, w2⟩ := fit_test_exact (hpo P (List.get?_mem hg)) hk
        (hlen P (List.get?_mem hg) k hk) hrow hcol
      rw [w1] at h1
      rw [w2] at h2
      exact ⟨P, hg, hk, h1, h2⟩
    · rintro ⟨P, hg, hk, h1, h2⟩
      have hpos := (hpo P (List.get?_mem hg) k hk).1
      have hrow : row < b := by
        have : (row : Int) < b := by omega
        exact_mod_cast this
      have hcol : col < b := by
        have : (col : Int) < b := by omega
        exact_mod_cast this
      obtain ⟨w1, w2⟩ := fit_test_exact (hpo P (List.get?_mem hg)) hk
        (hlen P (List.get?_mem hg) k hk) hrow hcol
      exact ⟨hrow, hcol, P, hg, hk, by rw [w1]; exact h1, by rw [w2]; exact h2⟩
  · intro r pl P hr hg
    rw [List.get?_eq_getElem?] at hr
    obtain ⟨hlt, hel⟩ := List.getElem?_eq_some_iff.1 hr
    have hd : (polyomino_placements polyomino_list b).getD r (0, 0, 0, 0) = pl := by
      rw [List.getD_eq_getElem _ _ hlt, hel]
    obtain ⟨r1, r2, r3⟩ := inv.row r hlt
    rw [hd] at r1 r2 r3
    have hl := placement_columns_length (b := b) hg
    rw [hl] at r1 r2 r3
    have hmem : pl ∈ polyomino_placements polyomino_list b := by
      rw [← hel]; exact List.getElem_mem hlt
    obtain ⟨P2, hg2, hcomp, -⟩ := placement_ok_of_piece hpo hlen hmem
    rw [hg] at hg2
    have eP : P = P2 := Option.some.inj hg2
    subst eP
    have hfit : ∀ i, i < getSize P →
        0 ≤ (getBlock P pl.2.2.2 i).1 + pl.2.1 + ((getBlock P pl.2.2.2 i).2 + pl.1) * b ∧
        (getBlock P pl.2.2.2 i).1 + pl.2.1 + ((getBlock P pl.2.2.2 i).2 + pl.1) * b
          < (b : Int) * b := by
      intro i hi
      have hc := hcomp i hi
      have := cell_index_wrap (b := b) (by omega) ⟨hc.1, hc.2.1⟩ ⟨hc.2.2.1, hc.2.2.2⟩
      exact ⟨this.2.2.1, this.2.2.2⟩
    have hcol : ∀ j, j < getSize P + 1 →
        a.m.header.getD (a.row_start.getD r 0 + j) 0 =
          (placement_columns polyomino_list b pl).getD j 0 ∧
        a.m.matrix_row.getD (a.row_start.getD r 0 + j) 0 = r := by
      intro j hj
      obtain ⟨c1, c2⟩ := r3 j hj
      rw [inv.nodes.hdr _ (by omega), inv.nodes.mrow _ (by omega), c1, c2]
      exact ⟨rfl, rfl⟩
    have hpc : placement_columns polyomino_list b pl =
        (List.range (getSize P)).map (fun i => ((getBlock P pl.2.2.2 i).1 + pl.2.1 +
          ((getBlock P pl.2.2.2 i).2 + pl.1) * b).toNat) ++ [pl.2.2.1 + b * b] := by
      unfold placement_columns
      rw [hg]
    refine ⟨r1, ?_, ?_, (hcol _ (by omega)).2⟩
    · intro i hi
      obtain ⟨c1, c2⟩ := hcol i (by omega)
      have hv : (placement_columns polyomino_list b pl).getD i 0 =
          ((getBlock P pl.2.2.2 i).1 + pl.2.1 + ((getBlock P pl.2.2.2 i).2 + pl.1) * b).toNat := by
        rw [hpc, getD_append_lt _ _ _ _ (by simpa using hi)]
        rw [List.getD_eq_getElem _ _ (by simpa using hi)]
        simp
      rw [c1, hv]
      have hf := hfit i hi
      have hcast : ((((getBlock P pl.2.2.2 i).1 + pl.2.1 +
          ((getBlock P pl.2.2.2 i).2 + pl.1) * b).toNat : Nat) : Int) =
          (getBlock P pl.2.2.2 i).1 + pl.2.1 + ((getBlock P pl.2.2.2 i).2 + pl.1) * b :=
        Int.toNat_of_nonneg hf.1
      refine ⟨hcast, ?_, c2⟩
      have : ((((getBlock P pl.2.2.2 i).1 + pl.2.1 +
          ((getBlock P pl.2.2.2 i).2 + pl.1) * b).toNat : Nat) : Int) < ((b * b : Nat) : Int) := by
        rw [hcast]; push_cast; exact hf.2
      exact_mod_cast this
    · rw [(hcol _ (by omega)).1, hpc]
      have := getD_append_ge ((List.range (getSize P)).map (fun i =>
        ((getBlock P pl.2.2.2 i).1 + pl.2.1 + ((getBlock P pl.2.2.2 i).2 + pl.1) * b).toNat))
        [pl.2.2.1 + b * b] 0 0
      simp only [List.length_map, List.length_range, Nat.add_zero] at this
      rw [this]
      simp [Nat.add_comm]
  · intro h hh
    rw [inv.nodes.cnt h hh, inv.count h, inv.alen]
    refine congrArg (fun l : List Nat => ((l.length : Nat) : Int)) ?_
    apply List.filter_congr
    intro r hr
    rw [row_columns_eq inv (List.mem_range.1 hr)]

theorem polyomino_generate_rows_witness :
    ∃ a, dlx_matrix_polyomino
        [{ x_len := 2, y_len := 1, size := 2, orientations := 2,
           shapes := [[(0, 0), (0, 1)], [(0, 0), (1, 0)]], flipped := [true, false] }] 2 =
        Except.ok a ∧ a.m.array_len = 4 := by
  obtain ⟨a, h1, -, -, h4, -, -⟩ := polyomino_generate_rows
    [{ x_len := 2, y_len := 1, size := 2, orientations := 2,
       shapes := [[(0, 0), (0, 1)], [(0, 0), (1, 0)]], flipped := [true, false] }] 2
    (fun P hP => ⟨[(0, 0), (1, 0)], by decide, by decide, by
      rw [List.mem_singleton.1 hP]; rfl⟩) (by decide)
  exact ⟨a, h1, h4.trans (by decide)⟩

/-! ## Reading a board: claims -/

/-- C39: whatever the text, the values the extractions deliver and the outcome
of the floating-point squareness test, a non-empty board returned by
`getBoardFromStream` has as many rows as its first row has cells, all its rows
have that length, every cell is -1 or lies between 1 and that length, and the
board is the sequence of the lines read (up to the first empty line) with
every value below 1 replaced by -1. -/
theorem getBoardFromStream_board (extract : List Char → List Int) (square_ok : Nat → Bool)
    (text : List Char) (h : getBoardFromStream extract square_ok text ≠ []) :
    (getBoardFromStream extract square_ok text).length =
        ((getBoardFromStream extract square_ok text).getD 0 []).length ∧
      (∀ row ∈ getBoardFromStream extract square_ok text,
        row.length = ((getBoardFromStream extract square_ok text).getD 0 []).length ∧
        ∀ v ∈ row, v = -1 ∨ (1 ≤ v ∧
          v ≤ (((getBoardFromStream extract square_ok text).getD 0 []).length : Int))) ∧
      getBoardFromStream extract square_ok text =
        ((stream_lines text []).takeWhile (fun l => decide (l ≠ []))).map
          (fun l => (extract l).map (fun v => if v < 1 then -1 else v)) := by
  unfold getBoardFromStream at h ⊢
  obtain ⟨e, hrows⟩ := getBoardFromStream_loop_spec extract square_ok (stream_lines text []) []
    (-1) 0 (Or.inl ⟨rfl, rfl, le_refl _⟩) h
  generalize getBoardFromStream_loop extract square_ok (stream_lines text []) [] (-1) 0 = b
    at h e hrows ⊢
  have hfirst : (b.getD 0 []).length = b.length := by
    cases b with
    | nil => exact absurd rfl h
    | cons r rest =>
      have := (hrows r (List.mem_cons_self _ _)).1
      simpa using this
  rw [hfirst]
  exact ⟨rfl, hrows, by simpa using e⟩

theorem getBoardFromStream_board_witness :
    (getBoardFromStream (fun l => l.map (fun c => (c.toNat : Int) - 48)) (fun _ => true)
        ['2', '1', Char.ofNat 10, '0', '2']).length =
        ((getBoardFromStream (fun l => l.map (fun c => (c.toNat : Int) - 48)) (fun _ => true)
          ['2', '1', Char.ofNat 10, '0', '2']).getD 0 []).length ∧
      (∀ row ∈ getBoardFromStream (fun l => l.map (fun c => (c.toNat : Int) - 48))
          (fun _ => true) ['2', '1', Char.ofNat 10, '0', '2'],
        row.length = ((getBoardFromStream (fun l => l.map (fun c => (c.toNat : Int) - 48))
          (fun _ => true) ['2', '1', Char.ofNat 10, '0', '2']).getD 0 []).length ∧
        ∀ v ∈ row, v = -1 ∨ (1 ≤ v ∧
          v ≤ (((getBoardFromStream (fun l => l.map (fun c => (c.toNat : Int) - 48))
            (fun _ => true) ['2', '1', Char.ofNat 10, '0', '2']).getD 0 []).length : Int))) ∧
      getBoardFromStream (fun l => l.map (fun c => (c.toNat : Int) - 48)) (fun _ => true)
          ['2', '1', Char.ofNat 10, '0', '2'] =
        ((stream_lines ['2', '1', Char.ofNat 10, '0', '2'] []).takeWhile (fun l => decide (l ≠ []))).map
          (fun l => (l.map (fun c => (c.toNat : Int) - 48)).map
            (fun v => if v < 1 then -1 else v)) :=
  getBoardFromStream_board (fun l => l.map (fun c => (c.toNat : Int) - 48)) (fun _ => true)
    ['2', '1', Char.ofNat 10, '0', '2'] (by decide)

/-! ## Sudoku adapter: claims -/

/-- C34: for every width `n`, cell `(i, j)` with `i, j < n` and digit `v` in
`1..n`, a chosen node of the candidate row `(i*n + j)*n + v - 1` (the row
`initialize` uses for a pre-filled `v` at `(i, j)`) makes `interpret_result`
write `v` at cell `(i, j)` and nothing else; and a cell that no chosen row
decodes to keeps the value of the input board. -/
theorem sudoku_row_decodes (n i j : Nat) (v : Int) (hi : i < n) (hj : j < n) (hv1 : 1 ≤ v)
    (hvn : v ≤ n) (m : dlx_matrix) (hm : SameFrame (dlx_matrix_sudoku n) m) (H k : Nat)
    (hk : k < 4) (rest : List (Nat × Nat)) (board : List (List Int)) :
    interpret_result_sudoku_loop n m
        ((H, ((((i * n + j) * n : Nat) : Int) + v - 1).toNat * 4 + k) :: rest) board =
      interpret_result_sudoku_loop n m rest (board_set board i j v) ∧
    ∀ (stack : List (Nat × Nat)) (a c : Nat),
      (∀ e ∈ stack, e.2 < n * n * n * 4 ∧ ¬ (e.2 / 4 / n / n = a ∧ e.2 / 4 / n % n = c)) →
      cell (interpret_result_sudoku n board m stack) a c = cell board a c := by
  refine ⟨?_, fun stack a c h => sudoku_untouched_cell n m hm a c stack board h⟩
  obtain ⟨d, rfl⟩ : ∃ d : Nat, v = ((d + 1 : Nat) : Int) := ⟨(v - 1).toNat, by omega⟩
  have hd : d < n := by omega
  have e1 : ((((i * n + j) * n : Nat) : Int) + ((d + 1 : Nat) : Int) - 1).toNat =
      (i * n + j) * n + d := by omega
  rw [e1]
  have hrow : ((i * n + j) * n + d) * 4 + k < n * n * n * 4 := by
    have h1 := cell_index_lt hi hj
    have h2 : (i * n + j + 1) * n ≤ n * n * n := Nat.mul_le_mul_right n h1
    rw [Nat.succ_mul] at h2
    omega
  rw [sudoku_decode_step n m hm H _ hrow]
  have e2 : (((i * n + j) * n + d) * 4 + k) / 4 = (i * n + j) * n + d := by omega
  rw [e2, (div_mod_of_lt hd).1, (div_mod_of_lt hd).2, (div_mod_of_lt hj).1,
    (div_mod_of_lt hj).2]

theorem sudoku_row_decodes_witness :
    interpret_result_sudoku_loop 4 (dlx_matrix_sudoku 4)
        ((0, ((((1 * 4 + 2) * 4 : Nat) : Int) + 3 - 1).toNat * 4 + 0) :: [])
        [[-1, -1, -1, -1], [-1, -1, -1, -1], [-1, -1, -1, -1], [-1, -1, -1, -1]] =
      interpret_result_sudoku_loop 4 (dlx_matrix_sudoku 4) []
        (board_set [[-1, -1, -1, -1], [-1, -1, -1, -1], [-1, -1, -1, -1], [-1, -1, -1, -1]]
          1 2 3) :=
  (sudoku_row_decodes 4 1 2 3 (by decide) (by decide) (by decide) (by decide)
    (dlx_matrix_sudoku 4) (SameFrame.refl _) 0 0 (by decide) []
    [[-1, -1, -1, -1], [-1, -1, -1, -1], [-1, -1, -1, -1], [-1, -1, -1, -1]]).1

/-- C18 (amended): a cell holding -1 is treated as empty by
`dlx_matrix_sudoku::initialize`: the function does for a board what its loops
do when the cells holding -1 are left out of the cells they visit, so for such
a cell no matrix row index is computed and no candidate row is covered. -/
theorem sudoku_blank_cells_skipped (sudoku_width fuel : Nat)
    (starting_puzzle : List (List Int)) (m : dlx_matrix) :
    initialize_sudoku sudoku_width starting_puzzle fuel m =
      initialize_sudoku_loop sudoku_width fuel starting_puzzle
        ((board_positions starting_puzzle).filter
          (fun pos => decide ((starting_puzzle.getD pos.1 []).get? pos.2 ≠ some (-1)))) m :=
  initialize_sudoku_loop_filter sudoku_width fuel starting_puzzle _ m

/-! ## Interpretation by the polyomino adapter: claims -/

/-- C35: let `a` be the object the constructor of `dlx_matrix_polyomino`
returns for a list of pieces and the board width `b`, `m` any mesh with the
node and header data of `a`, and the input board empty or `b x b`.  For every
choice stack: the cells `(column / b, column % b)` of the cell columns of a
chosen row are cells of the board; a cell that no entry of the stack has among
the cells of its row keeps the value of the input board; and when the usage
column of the row of an entry, the column of the last node of the row, is
`b * b + p`, each cell of that row that no entry deeper in the stack has holds
the piece number `p` in the output. -/
theorem polyomino_interpret_cells (polyomino_list : List polyomino) (b : Nat)
    (a : polyomino_adapter) (h : dlx_matrix_polyomino polyomino_list b = Except.ok a)
    (m : dlx_matrix) (hm : SameFrame a.m m) (board : List (List Int))
    (hb : board = [] ∨ board_dims b board) (stack : List (Nat × Nat)) :
    (∀ e X Y, (X, Y) ∈ polyomino_entry_cells a m e → X < b ∧ Y < b) ∧
    (∀ X Y, (∀ e ∈ stack, (X, Y) ∉ polyomino_entry_cells a m e) →
      cell (interpret_result_polyomino a board m stack) X Y = cell board X Y) ∧
    (∀ (pre post : List (Nat × Nat)) (e : Nat × Nat) (X Y p : Nat),
      stack = pre ++ e :: post →
      (X, Y) ∈ polyomino_entry_cells a m e →
      (∀ k ∈ post, (X, Y) ∉ polyomino_entry_cells a m k) →
      m.matrix_column.getD (m.header.getD (a.row_start.getD (m.matrix_row.getD e.2 0) 0 +
        (a.row_size.getD (m.matrix_row.getD e.2 0) 0 - 1)) 0) 0 = b * b + p →
      cell (interpret_result_polyomino a board m stack) X Y = (p : Int)) := by
  have inv := polyomino_generate_frame h
  have hw := inv.width
  have hcells : ∀ e X Y, (X, Y) ∈ polyomino_entry_cells a m e → X < b ∧ Y < b := by
    intro e X Y he
    obtain ⟨i, hi, hX, hY⟩ := mem_polyomino_entry_cells.1 he
    have hi' := List.mem_range.1 hi
    obtain ⟨c1, c2⟩ := inv.cells (m.matrix_row.getD e.2 0) i (by omega)
    rw [hw, hm.header, hm.matrix_column] at hX hY
    rw [inv.mcol _ c2] at hX hY
    have h0 : (0 : Int) ≤ (b : Int) * b := mul_nonneg (Int.ofNat_nonneg _) (Int.ofNat_nonneg _)
    have hlt : a.m.header.getD (a.row_start.getD (m.matrix_row.getD e.2 0) 0 + i) 0 < b * b := by
      have : ((a.m.header.getD (a.row_start.getD (m.matrix_row.getD e.2 0) 0 + i) 0 : Nat) : Int)
          < (b : Int) * b := lt_of_lt_of_le c1 (int_wrap_le_self h0)
      exact_mod_cast this
    have hbpos : 0 < b := by
      rcases Nat.eq_zero_or_pos b with e0 | e0
      · rw [e0] at hlt
        simp at hlt
      · exact e0
    rw [← hX, ← hY]
    exact ⟨Nat.div_lt_of_lt_mul hlt, Nat.mod_lt _ hbpos⟩
  have hzero : ∀ X Y, cell (List.replicate b (List.replicate b (0 : Int))) X Y = 0 :=
    fun X Y => zero_board_cell b X Y
  have hdz : board_dims b (List.replicate b (List.replicate b (0 : Int))) := zero_board_dims b
  have hinit : ∀ X Y, cell (if board ≠ [] then board
      else List.replicate a.board_width (List.replicate a.board_width 0)) X Y = cell board X Y := by
    intro X Y
    by_cases hne : board ≠ []
    · rw [if_pos hne]
    · rw [if_neg hne, hw, hzero, not_not.1 hne]
      rfl
  have hdims : board_dims b (if board ≠ [] then board
      else List.replicate a.board_width (List.replicate a.board_width 0)) := by
    by_cases hne : board ≠ []
    · rw [if_pos hne]
      exact hb.resolve_left hne
    · rw [if_neg hne, hw]
      exact hdz
  refine ⟨hcells, ?_, ?_⟩
  · intro X Y hno
    unfold interpret_result_polyomino
    rw [polyomino_loop_untouched a m X Y stack _ hno]
    exact hinit X Y
  · intro pre post e X Y p hs he hpost hu
    obtain ⟨hX, hY⟩ := hcells e X Y he
    unfold interpret_result_polyomino
    have hX' : X < a.board_width := by rw [hw]; exact hX
    have hY' : Y < a.board_width := by rw [hw]; exact hY
    have hdims' : board_dims a.board_width (if board ≠ [] then board
        else List.replicate a.board_width (List.replicate a.board_width 0)) := by
      rw [hw] at hdims ⊢
      exact hdims
    rw [hs, polyomino_loop_written a m X Y hX' hY' pre post e _ hdims' he hpost, hu, hw]
    have hle := inv.mcol_le (m.header.getD (a.row_start.getD (m.matrix_row.getD e.2 0) 0 +
      (a.row_size.getD (m.matrix_row.getD e.2 0) 0 - 1)) 0)
    rw [← hm.matrix_column, hu] at hle
    have hle' : ((b * b + p : Nat) : Int) ≤ 2147483647 := by exact_mod_cast hle
    have h0 : (0 : Int) ≤ (b : Int) * b := mul_nonneg (Int.ofNat_nonneg _) (Int.ofNat_nonneg _)
    have hp0 : (0 : Int) ≤ (p : Int) := Int.ofNat_nonneg _
    push_cast at hle' ⊢
    generalize (b : Int) * b = t at h0 hle' ⊢
    unfold int_wrap
    omega

theorem polyomino_interpret_cells_witness :
    ∃ a, dlx_matrix_polyomino
        [{ x_len := 2, y_len := 1, size := 2, orientations := 2,
           shapes := [[(0, 0), (0, 1)], [(0, 0), (1, 0)]], flipped := [true, false] },
         { x_len := 2, y_len := 1, size := 2, orientations := 2,
           shapes := [[(0, 0), (0, 1)], [(0, 0), (1, 0)]], flipped := [true, false] }] 2 =
        Except.ok a ∧
      (0, 1) ∈ polyomino_entry_cells a a.m (1, 15) ∧
      cell (interpret_result_polyomino a [[7, 0], [0, 0]] a.m [(2, 1), (1, 15)]) 0 1 =
        ((1 : Nat) : Int) := by
  have hev : (dlx_matrix_polyomino
      [{ x_len := 2, y_len := 1, size := 2, orientations := 2,
         shapes := [[(0, 0), (0, 1)], [(0, 0), (1, 0)]], flipped := [true, false] },
       { x_len := 2, y_len := 1, size := 2, orientations := 2,
         shapes := [[(0, 0), (0, 1)], [(0, 0), (1, 0)]], flipped := [true, false] }]
      2).toOption.map (fun a =>
        (decide ((0, 1) ∈ polyomino_entry_cells a a.m (1, 15)),
          a.m.matrix_column.getD (a.m.header.getD
            (a.row_start.getD (a.m.matrix_row.getD 15 0) 0 +
              (a.row_size.getD (a.m.matrix_row.getD 15 0) 0 - 1)) 0) 0)) =
      some (true, 2 * 2 + 1) := by
    decide!
  rcases hd : dlx_matrix_polyomino
      [{ x_len := 2, y_len := 1, size := 2, orientations := 2,
         shapes := [[(0, 0), (0, 1)], [(0, 0), (1, 0)]], flipped := [true, false] },
       { x_len := 2, y_len := 1, size := 2, orientations := 2,
         shapes := [[(0, 0), (0, 1)], [(0, 0), (1, 0)]], flipped := [true, false] }] 2
    with e | a
  · rw [hd] at hev
    cases hev
  rw [hd] at hev
  simp only [Except.toOption, Option.map_some', Option.some.injEq, Prod.mk.injEq,
    decide_eq_true_eq] at hev
  exact ⟨a, rfl, hev.1,
    (polyomino_interpret_cells _ 2 a hd a.m (SameFrame.refl _) [[7, 0], [0, 0]]
      (Or.inr ⟨rfl, by decide⟩) [(2, 1), (1, 15)]).2.2 [(2, 1)] [] (1, 15) 0 1 1 rfl hev.1
      (fun k hk => by simp at hk) hev.2⟩

/-! ## The descend step: claims -/

/-- C32: on a state of the search that is not terminal, the body of the main
loop descends: it picks a header `H` of the mandatory index whose key
(count, matrix_column) is least among the members of the index, pushes
`(H, nd)` with `nd` the `top` of `H`, which is the linked node of least matrix
row in column `H`, and the mesh it leaves is the result of `remove_column(nd)`
followed by `remove_row(nd)` on the mesh in which `H` has been erased from the
index. -/
theorem descend_picks_least {β : Type} (i : dlx_matrix → List (Nat × Nat) → β)
    (s : dlx_save_setting) {N fuel0 : Nat} {m0 : dlx_matrix} {cov0 : Nat → Prop}
    (hf : N < fuel0) (h0 : ∃ hid, Cons m0 N hid cov0 Option.none) (st : solve_state β)
    {cov : Nat → Prop} (hR : Reach N fuel0 m0 cov0 st.backtrack_stack st.m cov)
    (ht : terminal_check st.m = false) :
    ∃ H nd m2 st1 hid,
      solve_body i fuel0 s st = Except.ok (false, st1) ∧
      st1.backtrack_stack = (H, nd) :: st.backtrack_stack ∧
      H < st.m.array_width ∧ st.m.header_tree.getD H false = true ∧
      H < st.m.optional_constraint_start_column ∧
      (∀ c, c < st.m.array_width → st.m.header_tree.getD c false = true →
        st.m.count.getD H 0 < st.m.count.getD c 0 ∨
          (st.m.count.getD H 0 = st.m.count.getD c 0 ∧
            st.m.matrix_column.getD H 0 ≤ st.m.matrix_column.getD c 0)) ∧
      st.m.top.getD H Option.none = some nd ∧
      Cons st.m N hid cov Option.none ∧ col_set st.m N hid H nd ∧
      (∀ x, col_set st.m N hid H x →
        st.m.matrix_row.getD nd 0 ≤ st.m.matrix_row.getD x 0) ∧
      remove_column fuel0 (header_tree_erase st.m H) nd = Except.ok m2 ∧
      remove_row fuel0 m2 nd = Except.ok st1.m := by
  obtain ⟨hid, hC⟩ := hR.consistent hf h0
  obtain ⟨H, hb, hcount⟩ := terminal_check_false ht
  obtain ⟨hHW, hbit⟩ := tree_begin_some hb
  have hHm : H < st.m.optional_constraint_start_column := by
    rcases Nat.lt_or_ge H st.m.optional_constraint_start_column with a | a
    · exact a
    · have := hC.tree.only_mand H hHW a
      rw [hbit] at this
      cases this
  have hncov : ¬ cov H := (hC.tree.mand H hHW hHm).mp hbit
  have hcol := hC.col.col H hHW
  rcases htop : st.m.top.getD H Option.none with _ | nd
  · exfalso
    have hempty := hcol.top_none htop
    have : Set.ncard {x | col_set st.m N hid H x} = 0 := by
      have : {x | col_set st.m N hid H x} = ∅ := by
        ext x
        simp only [Set.mem_setOf_eq, Set.mem_empty_iff_false, iff_false]
        exact hempty x
      rw [this, Set.ncard_empty]
    have := hcol.count_eq
    omega
  · obtain ⟨hndS, hleast⟩ := hcol.top_some nd htop
    obtain ⟨m5, m6, hid6, cov6, e5, e6, _⟩ :=
      cover_row_spec hC hndS.1 hndS.2.2 (by rw [hndS.2.1]; exact hncov) fuel0 hf
    rw [hndS.2.1] at e5
    refine ⟨H, nd, m5,
      { m := m6, backtrack_stack := (H, nd) :: st.backtrack_stack,
        solutions := record_move i s st.solutions m6 ((H, nd) :: st.backtrack_stack),
        solution_count := st.solution_count },
      hid, ?_, rfl, hHW, hbit, hHm, tree_begin_least hb, htop, hC, hndS, ?_, e5, e6⟩
    · unfold solve_body
      simp only [ht, Bool.false_eq_true, if_false, hb, htop, e5, e6]
    · intro x hx
      exact hC.col.static.row_mono nd x hndS.1 hx.1 (hleast x hx)

theorem descend_picks_least_witness :
    ∃ H nd st1,
      solve_body (fun _ st => st) 17 dlx_save_setting.solutions
        { m := populate_trees (generate (2 * 2) (2 * 2 + (2 * 2 - 1) * 2) 4
            (n_queens_get_count 2) (n_queens_get_column 2) (2 * 2)),
          backtrack_stack := [], solutions := [], solution_count := 0 } =
        Except.ok (false, st1) ∧
      st1.backtrack_stack = [(H, nd)] := by
  obtain ⟨H, nd, m2, st1, hid, h1, h2, _⟩ := @descend_picks_least _ (fun _ st => st)
    dlx_save_setting.solutions (2 * 2 * 4) 17
    (populate_trees (generate (2 * 2) (2 * 2 + (2 * 2 - 1) * 2) 4
      (n_queens_get_count 2) (n_queens_get_column 2) (2 * 2))) _
    (by decide)
    ⟨_, generate_cons (2 * 2) (n_queens_genok 2 (by decide)) (by decide)⟩
    { m := populate_trees (generate (2 * 2) (2 * 2 + (2 * 2 - 1) * 2) 4
        (n_queens_get_count 2) (n_queens_get_column 2) (2 * 2)),
      backtrack_stack := [], solutions := [], solution_count := 0 } _
    Reach.base (by decide)
  exact ⟨H, nd, st1, h1, h2⟩

/-! ## The column of the seed of `remove_column`: claims -/

/-- C33: in a well-linked mesh (every column sorted and circular with the right
count, `top` and `bottom`; a row meets a column at most once), for a linked
node `s` such that the rows crossing its column at the other linked nodes are
fully linked with their headers in the index, `remove_column(s)` returns and
leaves the column of `s` as it was: the count, `top` and `bottom` of the header
of `s`, and the `up` and `down` links of every node of that column, `s`
included, linked or not. -/
theorem remove_column_keeps_seed_column {N s : Nat} {m : dlx_matrix} {hid : Nat → Prop}
    (h : ColInv m N hid) (hs : s < N) (hns : ¬ hid s)
    (hrows : ∀ y, col_others m N hid s y → ¬ hid y ∧ in_index m (m.header.getD y 0))
    (fuel : Nat) (hf : N < fuel) :
    ∃ m', remove_column fuel m s = Except.ok m' ∧
      m'.count.getD (m.header.getD s 0) 0 = m.count.getD (m.header.getD s 0) 0 ∧
      m'.top.getD (m.header.getD s 0) Option.none =
        m.top.getD (m.header.getD s 0) Option.none ∧
      m'.bottom.getD (m.header.getD s 0) Option.none =
        m.bottom.getD (m.header.getD s 0) Option.none ∧
      ∀ p, p < N → m.header.getD p 0 = m.header.getD s 0 →
        m'.up.getD p 0 = m.up.getD p 0 ∧ m'.down.getD p 0 = m.down.getD p 0 := by
  obtain ⟨m', e, _⟩ := remove_column_spec h hs hns hrows fuel hf
  have k := remove_column_keep h hs hns hrows fuel (le_of_lt hf) e
  exact ⟨m', e, k.count, k.top, k.bottom, fun p hp hc => ⟨k.up p hp hc, k.down p hp hc⟩⟩

theorem remove_column_keeps_seed_column_witness :
    ∃ m', remove_column 17 (populate_trees (generate (2 * 2) (2 * 2 + (2 * 2 - 1) * 2) 4
        (n_queens_get_count 2) (n_queens_get_column 2) (2 * 2))) 0 = Except.ok m' ∧
      m'.count.getD 0 0 = 2 ∧ m'.up.getD 0 0 = 4 ∧ m'.down.getD 0 0 = 4 := by
  have hC := generate_cons (2 * 2) (n_queens_genok 2 (by decide))
    (show 2 * 2 ≤ 2 * 2 + (2 * 2 - 1) * 2 by decide)
  obtain ⟨m', e, h1, _, _, h2⟩ := @remove_column_keeps_seed_column (2 * 2 * 4) 0
    (populate_trees (generate (2 * 2) (2 * 2 + (2 * 2 - 1) * 2) 4
      (n_queens_get_count 2) (n_queens_get_column 2) (2 * 2))) (fun _ => False)
    hC.col (by decide) (fun f => f)
    (fun y hy => by
      obtain ⟨a, b, _⟩ := hC.col_others_free (show 0 < 2 * 2 * 4 by decide) (fun f => f)
        (Or.inl rfl) y hy
      obtain ⟨C, _, _, hyC, _⟩ := hy
      exact ⟨a, hC.tree.in_index hC.col.static (hC.col.static.header_lt y hyC.1) b⟩)
    17 (by decide)
  refine ⟨m', e, ?_, ?_, ?_⟩
  · rw [show (0 : Nat) = (populate_trees (generate (2 * 2) (2 * 2 + (2 * 2 - 1) * 2) 4
      (n_queens_get_count 2) (n_queens_get_column 2) (2 * 2))).header.getD 0 0 by decide, h1]
    decide
  · rw [(h2 0 (by decide) rfl).1]; decide
  · rw [(h2 0 (by decide) rfl).2]; decide

/-! ## The mesh when the search is exhausted: claims -/

/-- C38: for an `initialize` that, when it reports success, leaves a
consistent mesh, whenever `solve` returns with an empty choice stack, in any
save mode and for any `max_solutions`, the mesh it leaves is the very mesh
`initialize` left: every link, every count, `top` and `bottom`, and both header
indices. -/
theorem solve_exhausted_restores_mesh {β : Type} (N : Nat) (m : dlx_matrix)
    (initialize_fn : Nat → dlx_matrix → Except Err (Bool × dlx_matrix))
    (interpret_result : dlx_matrix → List (Nat × Nat) → β) (fuel : Nat) (max_solutions : Int)
    (s : dlx_save_setting) (b : Bool) (m1 : dlx_matrix) (st : solve_state β)
    (hf : N < fuel)
    (hi : initialize_fn fuel (populate_trees m) = Except.ok (b, m1))
    (hinit : b = true → ∃ hid cov0, Cons m1 N hid cov0 Option.none)
    (h : solve initialize_fn interpret_result fuel m max_solutions s = Except.ok st)
    (hs : st.backtrack_stack = []) :
    st.m = m1 := by
  unfold solve at h
  by_cases hw : m.array_width < m.optional_constraint_start_column
  · simp [hw] at h
  simp only [hw, if_false, hi] at h
  cases b
  · simp only [Except.ok.injEq] at h
    subst h
    rfl
  · simp only at h
    obtain ⟨hid, cov0, hC⟩ := hinit rfl
    obtain ⟨cov1, hR⟩ := @solve_loop_reach β interpret_result N fuel m1 cov0 _ s hf ⟨hid, hC⟩ fuel
      { m := m1, backtrack_stack := [], solutions := [], solution_count := 0 } st cov0
      Reach.base h
    exact hR.of_nil hs

theorem solve_exhausted_restores_mesh_witness :
    ∃ st, solve (initialize_n_queens 2 (List.replicate 2 (List.replicate 2 0)))
        (interpret_result_n_queens 2 (List.replicate 2 (List.replicate 2 0))) 20
        (generate (2 * 2) (2 * 2 + (2 * 2 - 1) * 2) 4 (n_queens_get_count 2)
          (n_queens_get_column 2) (2 * 2)) (-1) dlx_save_setting.all_moves = Except.ok st ∧
      st.backtrack_stack = [] ∧
      st.m = populate_trees (generate (2 * 2) (2 * 2 + (2 * 2 - 1) * 2) 4
        (n_queens_get_count 2) (n_queens_get_column 2) (2 * 2)) := by
  have h : final_stack (solve (initialize_n_queens 2 (List.replicate 2 (List.replicate 2 0)))
      (interpret_result_n_queens 2 (List.replicate 2 (List.replicate 2 0))) 20
      (generate (2 * 2) (2 * 2 + (2 * 2 - 1) * 2) 4 (n_queens_get_count 2)
        (n_queens_get_column 2) (2 * 2)) (-1) dlx_save_setting.all_moves) = some [] := by
    decide!
  rcases hr : solve (initialize_n_queens 2 (List.replicate 2 (List.replicate 2 0)))
      (interpret_result_n_queens 2 (List.replicate 2 (List.replicate 2 0))) 20
      (generate (2 * 2) (2 * 2 + (2 * 2 - 1) * 2) 4 (n_queens_get_count 2)
        (n_queens_get_column 2) (2 * 2)) (-1) dlx_save_setting.all_moves with e | st
  · rw [hr] at h
    cases h
  · rw [hr] at h
    have hs : st.backtrack_stack = [] := by simpa [final_stack] using h
    exact ⟨st, rfl, hs, solve_exhausted_restores_mesh (2 * 2 * 4) _ _ _ 20 (-1)
      dlx_save_setting.all_moves true _ st (by decide) (initialize_n_queens_zero 2 20 _)
      (fun _ => ⟨_, _, generate_cons (2 * 2) (n_queens_genok 2 (by decide)) (by decide)⟩) hr hs⟩

/-! ## Conflicting pre-filled cells: claims -/

/-- C37 (fails): on the 4x4 board whose first row starts with two 1s,
`dlx_matrix_sudoku::initialize` returns neither true nor false, whatever the
fuel: the walk of `remove_column` for the cell (0,1) starts from node 16, which
the cover of the row of the cell (0,0) has unlinked from its column, and the
descent from it never comes back to it. -/
theorem sudoku_initialize_never_returns (fuel : Nat) :
    initialize_sudoku 4 [[1,1,-1,-1],[-1,-1,-1,-1],[-1,-1,-1,-1],[-1,-1,-1,-1]] fuel
      (populate_trees (dlx_matrix_sudoku 4)) = Except.error Err.out_of_fuel :=
  initialize_sudoku_two_ones fuel

/-- C7 (fails), for every amount of fuel: with two 1s in the first row of the
4x4 board, `solve` does not return, it runs out of fuel inside `initialize`. -/
theorem sudoku_two_ones_never_returns (fuel : Nat) :
    raised (sudoku_solve 4 fuel [[1,1,-1,-1],[-1,-1,-1,-1],[-1,-1,-1,-1],[-1,-1,-1,-1]] 1
      dlx_save_setting.solutions) = some Err.out_of_fuel := by
  have hw : ¬ ((dlx_matrix_sudoku 4).array_width <
      (dlx_matrix_sudoku 4).optional_constraint_start_column) := by
    decide!
  unfold sudoku_solve solve
  simp only [hw, if_false, initialize_sudoku_two_ones fuel]
  rfl

/-! ## Termination of the search: claims -/

/-- C36: for a matrix whose optional columns start inside the header array and
an `initialize` that returns true leaving a consistent mesh of `N` nodes, in
every save mode and for every `max_solutions` the search loop of `solve`
terminates: every step of the loop (a descend, or a backtrack followed by a
replace) moves the choice stack forward in an order with fewer than
`(N + 2) ^ array_width` places, so that with more fuel than that `solve`
returns. -/
theorem solve_search_terminates {β : Type} (N : Nat) (m : dlx_matrix)
    (initialize_fn : Nat → dlx_matrix → Except Err (Bool × dlx_matrix))
    (interpret_result : dlx_matrix → List (Nat × Nat) → β) (fuel : Nat) (max_solutions : Int)
    (s : dlx_save_setting) (m1 : dlx_matrix)
    (hw : m.optional_constraint_start_column ≤ m.array_width)
    (hi : initialize_fn fuel (populate_trees m) = Except.ok (true, m1))
    (hC : ∃ hid cov0, Cons m1 N hid cov0 Option.none)
    (hN : N < fuel) (hf : (N + 2) ^ m1.array_width < fuel) :
    ∃ st, solve initialize_fn interpret_result fuel m max_solutions s = Except.ok st := by
  obtain ⟨hid, cov0, hC⟩ := hC
  unfold solve
  simp only [not_lt.mpr hw, if_false, hi]
  exact @solve_loop_returns β interpret_result N fuel m1 cov0 _ s hN ⟨hid, hC⟩ fuel
    { m := m1, backtrack_stack := [], solutions := [], solution_count := 0 } cov0
    Reach.base (by
      show (N + 2) ^ m1.array_width - stack_value (N + 2) m1.array_width [] < fuel
      omega)

theorem solve_search_terminates_witness :
    ∃ st, solve (initialize_n_queens 2 (List.replicate 2 (List.replicate 2 0)))
        (interpret_result_n_queens 2 (List.replicate 2 (List.replicate 2 0))) (18 ^ 10 + 1)
        (generate (2 * 2) (2 * 2 + (2 * 2 - 1) * 2) 4 (n_queens_get_count 2)
          (n_queens_get_column 2) (2 * 2)) (-1) dlx_save_setting.all_moves = Except.ok st :=
  solve_search_terminates (2 * 2 * 4) _ _ _ (18 ^ 10 + 1) (-1) dlx_save_setting.all_moves _
    (by decide) (initialize_n_queens_zero 2 _ _)
    ⟨_, _, generate_cons (2 * 2) (n_queens_genok 2 (by decide)) (by decide)⟩
    (by decide) (by decide)

/-! ## The columns of the Sudoku matrix: claims -/

set_option maxRecDepth 100000 in
/-- C9: on the 4 × 4 puzzle `[[1,-1,-1,4],[-1,-1,-1,-1],[-1,-1,-1,-1],[4,-1,-1,1]]`
with `max_solutions = -1` in solutions mode, `solve` returns a list without
repetition whose members are exactly the boards that satisfy the Sudoku rules
and carry the four clues. -/
theorem sudoku_four_clues_all_boards :
    ∃ L, returned (sudoku_solve 4 257
        [[1, -1, -1, 4], [-1, -1, -1, -1], [-1, -1, -1, -1], [4, -1, -1, 1]] (-1)
        dlx_save_setting.solutions) = some L ∧ L.Nodup ∧
      ∀ board, board ∈ L ↔ (sudoku_valid 2 board ∧ cell board 0 0 = 1 ∧ cell board 0 3 = 4 ∧
        cell board 3 0 = 4 ∧ cell board 3 3 = 1) := by
  refine ⟨[[[1, 2, 3, 4], [3, 4, 1, 2], [2, 1, 4, 3], [4, 3, 2, 1]],
    [[1, 3, 2, 4], [2, 4, 1, 3], [3, 1, 4, 2], [4, 2, 3, 1]]], by decide!, by decide, ?_⟩
  intro board
  constructor
  · intro h
    simp only [List.mem_cons, List.mem_singleton, List.not_mem_nil, or_false] at h
    rcases h with rfl | rfl
    · refine ⟨?_, rfl, rfl, rfl, rfl⟩
      unfold sudoku_valid board_dims
      decide
    · refine ⟨?_, rfl, rfl, rfl, rfl⟩
      unfold sudoku_valid board_dims
      decide
  · rintro ⟨hv, k1, k2, k3, k4⟩
    rcases four_clues_boards board hv k1 k2 k3 k4 with rfl | rfl <;> simp

/-! ## Every board that the Sudoku solver returns: claim -/

/-- C2 fails in two ways.  (1) A row without a node in a mandatory column is
never chosen: on the matrix with the mandatory column 0, the optional column 1
and the two rows 0 and 1, row `r` having its one node in column `r`, `solve`
with `max_solutions = -1` returns one output, the interpretation of the stack
that holds node 0, although the set of row 0 and the set of the rows 0 and 1
are both exact covers.  (2) `max_solutions = -1` stands for the cap
2147483647: on the matrix with 62 rows and 31 mandatory columns in which column
`c` holds the rows `2c` and `2c + 1` (every row has its node in a mandatory
column), `solve` returns with enough fuel and whatever it returns has at most
2147483647 members, while the `2 ^ 31 = 2147483648` choices of one row per
column are exact covers with pairwise different sets of rows. -/
theorem covers_missed_by_solve :
    (returned (solve (fun _ m => Except.ok (true, m)) (fun _ s => s) 9
        (generate 2 2 1 (fun _ => 1) (fun r _ => (r : Int)) 1) (-1)
        dlx_save_setting.solutions) = some [[(0, 0)]] ∧
      ExactCover (generate 2 2 1 (fun _ => 1) (fun r _ => (r : Int)) 1) (2 * 1) ([] ++ [0]) ∧
      ExactCover (generate 2 2 1 (fun _ => 1) (fun r _ => (r : Int)) 1) (2 * 1)
        ([] ++ [0, 1])) ∧
    ((∀ r, r < 62 → ∃ c, c < 31 ∧ touches 1 (fun r _ => ((r / 2 : Nat) : Int)) r c = true) ∧
      (∃ fuel outs, returned (solve (fun _ m => Except.ok (true, m)) (fun _ s => s) fuel
        (generate 62 31 1 (fun _ => 2) (fun r _ => ((r / 2 : Nat) : Int)) 31) (-1)
        dlx_save_setting.solutions) = some outs) ∧
      (∀ fuel outs, returned (solve (fun _ m => Except.ok (true, m)) (fun _ s => s) fuel
        (generate 62 31 1 (fun _ => 2) (fun r _ => ((r / 2 : Nat) : Int)) 31) (-1)
        dlx_save_setting.solutions) = some outs → outs.length ≤ 2147483647) ∧
      (∀ n : Nat, (∀ r, r ∈ (List.range 31).map (fun c => 2 * c + (if n.testBit c then 1 else 0)) →
          r < 62) ∧
        ExactCover (generate 62 31 1 (fun _ => 2) (fun r _ => ((r / 2 : Nat) : Int)) 31) (62 * 1)
          ([] ++ (List.range 31).map (fun c => 2 * c + (if n.testBit c then 1 else 0)))) ∧
      ∀ a b : Nat, a < 2147483648 → b < 2147483648 →
        (∀ r, r ∈ (List.range 31).map (fun c => 2 * c + (if a.testBit c then 1 else 0)) ↔
          r ∈ (List.range 31).map (fun c => 2 * c + (if b.testBit c then 1 else 0))) →
        a = b) := by
  have hg1 : GenShape 2 2 1 (fun r _ => (r : Int)) :=
    ⟨by decide, fun r i hr _ => ⟨Int.ofNat_nonneg _, by exact_mod_cast hr⟩,
      fun r i j _ hi hj _ => by omega⟩
  have inv1 := generate_inv (fun _ => (1 : Int)) 1 hg1
  have ht1 : ∀ r c, row_touches (generate 2 2 1 (fun _ => 1) (fun r _ => (r : Int)) 1) (2 * 1)
      r c ↔ (r < 2 ∧ r = c) := by
    intro r c
    rw [row_touches_generate hg1, touches_iff]
    constructor
    · rintro ⟨hr, k, _, hk⟩
      exact ⟨hr, by exact_mod_cast hk⟩
    · rintro ⟨hr, hx⟩
      exact ⟨hr, 0, by decide, by exact_mod_cast hx⟩
  have hm1 : ∀ (S : List Nat), 0 ∈ S → ∀ c,
      c < (generate 2 2 1 (fun _ => 1) (fun r _ => (r : Int)) 1).array_width →
      c < (generate 2 2 1 (fun _ => 1)
        (fun r _ => (r : Int)) 1).optional_constraint_start_column →
      ∃ r, r ∈ [] ++ S ∧
        row_touches (generate 2 2 1 (fun _ => 1) (fun r _ => (r : Int)) 1) (2 * 1) r c := by
    intro S hS c _ hc
    rw [inv1.optional_start] at hc
    refine ⟨0, by simpa using hS, ?_⟩
    rw [ht1]
    omega
  refine ⟨⟨by decide!, ⟨List.pairwise_singleton _ _, hm1 [0] (by simp)⟩,
    ⟨?_, hm1 [0, 1] (by simp)⟩⟩, fun r hr => ?_, pairs_solve_returns,
    fun fuel outs h => solve_outputs_le_cap _ _ fuel _ outs h, pairs_exact_cover,
    pairs_cover_injective⟩
  · rw [List.nil_append, List.pairwise_pair]
    intro c hc
    rw [ht1, ht1] at hc
    omega
  · refine ⟨r / 2, by omega, ?_⟩
    rw [touches_iff]
    exact ⟨0, by decide, rfl⟩

/-- C2 (amended): for a matrix built by `generate` from callbacks that describe
a matrix in which every row has a node in a mandatory column, and an
`initialize` that succeeds and leaves the mesh consistent with the rows `pre`
covered: with the optional columns starting inside the header array and more
fuel than `(L * K + 2) ^ W`, `solve` with `max_solutions = -1` returns in
`solutions` mode; and whenever it returns fewer than 2147483647 outputs, the
outputs are, one by one, the interpretations of a list of choice stacks such
that the rows of each stack form with `pre` an exact cover, no two stacks hold
the same set of rows, and every set `S` of rows that forms with `pre` an exact
cover (each mandatory column met exactly once, each optional column at most
once) is the set of rows of one of the stacks. -/
theorem solve_outputs_every_cover {β : Type} (L W K : Nat) (gc : Nat → Int)
    (col : Nat → Nat → Int) (ocs : Nat)
    (initialize_fn : Nat → dlx_matrix → Except Err (Bool × dlx_matrix))
    (interpret_result : dlx_matrix → List (Nat × Nat) → β) (fuel : Nat)
    (pre : List Nat)
    (hg : GenShape L W K col)
    (hmand : ∀ r, r < L → ∃ c, c < ocs ∧ touches K col r c = true)
    (hf : L * K < fuel)
    (hsucc : ∃ m1, initialize_fn fuel (populate_trees (generate L W K gc col ocs)) =
      Except.ok (true, m1))
    (hinit : ∀ m1, initialize_fn fuel (populate_trees (generate L W K gc col ocs)) =
        Except.ok (true, m1) →
      SameFrame (generate L W K gc col ocs) m1 ∧
      ∃ hid cov0, Cons m1 (L * K) hid cov0 Option.none ∧
        pre.Pairwise (fun a b => ∀ c, ¬ (row_touches (generate L W K gc col ocs) (L * K) a c ∧
          row_touches (generate L W K gc col ocs) (L * K) b c)) ∧
        ∀ c, cov0 c ↔ ∃ r, r ∈ pre ∧ row_touches (generate L W K gc col ocs) (L * K) r c) :
    (ocs ≤ W → (L * K + 2) ^ W < fuel →
      ∃ outs, returned (solve initialize_fn interpret_result fuel (generate L W K gc col ocs)
        (-1) dlx_save_setting.solutions) = some outs) ∧
    ∀ outs : List β,
      returned (solve initialize_fn interpret_result fuel (generate L W K gc col ocs)
        (-1) dlx_save_setting.solutions) = some outs →
      outs.length < 2147483647 →
      ∃ found : List (dlx_matrix × List (Nat × Nat)),
        outs = found.map (fun p => interpret_result p.1 p.2) ∧
        (∀ p, p ∈ found → SameFrame (generate L W K gc col ocs) p.1 ∧
          ExactCover (generate L W K gc col ocs) (L * K)
            (pre ++ p.2.map (fun e => (generate L W K gc col ocs).matrix_row.getD e.2 0)) ∧
          ∀ e, e ∈ p.2 → e.2 < L * K) ∧
        found.Pairwise (fun p q =>
          ¬ ∀ r, r ∈ p.2.map (fun e => (generate L W K gc col ocs).matrix_row.getD e.2 0) ↔
            r ∈ q.2.map (fun e => (generate L W K gc col ocs).matrix_row.getD e.2 0)) ∧
        ∀ S : List Nat, (∀ r, r ∈ S → r < L) →
          ExactCover (generate L W K gc col ocs) (L * K) (pre ++ S) →
          ∃ p, p ∈ found ∧ ∀ r, r ∈ S ↔
            r ∈ p.2.map (fun e => (generate L W K gc col ocs).matrix_row.getD e.2 0) := by
  obtain ⟨m1, hi⟩ := hsucc
  obtain ⟨f, hid, cov0, hC, hpre, hcov0⟩ := hinit m1 hi
  have inv := generate_inv gc ocs hg
  have hK := hg.K_pos
  refine ⟨fun hocs hfuel => ?_, fun outs h hcap => ?_⟩
  · have hw : ¬ (generate L W K gc col ocs).array_width <
        (generate L W K gc col ocs).optional_constraint_start_column := by
      rw [inv.array_width, inv.optional_start]
      omega
    have haw : m1.array_width = W := by rw [f.array_width, inv.array_width]
    obtain ⟨st, hst⟩ := @solve_loop_returns β interpret_result (L * K) fuel m1 cov0 2147483647
      dlx_save_setting.solutions hf ⟨hid, hC⟩ fuel
      { m := m1, backtrack_stack := [], solutions := [], solution_count := 0 } cov0
      Reach.base (by
        show (L * K + 2) ^ m1.array_width - stack_value (L * K + 2) m1.array_width [] < fuel
        rw [haw]
        omega)
    refine ⟨st.solutions, ?_⟩
    unfold solve
    simp only [hw, if_false, if_true, hi]
    rw [hst]
    rfl
  obtain ⟨st, hst, rfl⟩ := returned_eq_some h
  unfold solve at hst
  simp only at hst
  by_cases hw : (generate L W K gc col ocs).array_width <
      (generate L W K gc col ocs).optional_constraint_start_column
  · simp [hw] at hst
  simp only [hw, if_false, hi, if_true] at hst
  have hmand' : ∀ p, p < L * K → ∃ c, c < m1.optional_constraint_start_column ∧
      row_touches m1 (L * K) (m1.matrix_row.getD p 0) c := by
    intro p hp
    have hdiv : p / K < L := Nat.div_lt_of_lt_mul (by rw [Nat.mul_comm]; exact hp)
    obtain ⟨c, hc, ht⟩ := hmand (p / K) hdiv
    refine ⟨c, by rw [f.optional_start, inv.optional_start]; exact hc, ?_⟩
    rw [f.matrix_row, inv.matrix_row p hp, row_touches_frame f]
    exact (row_touches_generate hg gc ocs _ _).mpr ⟨hdiv, ht⟩
  obtain ⟨found, hsol, hmem, hpw, hall⟩ := solve_loop_every_cover interpret_result 2147483647 hf
    ⟨hid, hC⟩ pre
    (hpre.imp (fun hab c hc => hab c
      ⟨(row_touches_frame f _ _ c).mp hc.1, (row_touches_frame f _ _ c).mp hc.2⟩))
    (fun c => (hcov0 c).trans ⟨fun ⟨r, a, b⟩ => ⟨r, a, (row_touches_frame f _ r c).mpr b⟩,
      fun ⟨r, a, b⟩ => ⟨r, a, (row_touches_frame f _ r c).mp b⟩⟩) hmand' st hst
    (by exact_mod_cast hcap)
  rw [f.matrix_row] at hmem hpw hall
  refine ⟨found, hsol, fun p hp => ?_, hpw, fun S hS hec => ?_⟩
  · obtain ⟨a, b, c⟩ := hmem p hp
    exact ⟨f.trans a, b.transfer_frame f, c⟩
  · refine hall S (fun r hr => ?_) (hec.transfer_frame f.symm)
    have hr' := hS r hr
    have hp : r * K < L * K := Nat.mul_lt_mul_of_pos_right hr' hK
    exact ⟨r * K, hp, by rw [inv.matrix_row _ hp, Nat.mul_div_cancel _ hK]⟩

theorem solve_outputs_every_cover_witness :
    ∃ found : List (dlx_matrix × List (Nat × Nat)),
      ([[[0, 1, 0, 0], [0, 0, 0, 1], [1, 0, 0, 0], [0, 0, 1, 0]],
        [[0, 0, 1, 0], [1, 0, 0, 0], [0, 0, 0, 1], [0, 1, 0, 0]]] : List (List (List Int))) =
        found.map (fun p =>
          interpret_result_n_queens 4 (List.replicate 4 (List.replicate 4 0)) p.1 p.2) ∧
      (∀ p, p ∈ found →
        SameFrame (generate (4 * 4) (4 * 2 + (4 * 2 - 1) * 2) 4 (n_queens_get_count 4)
          (n_queens_get_column 4) (4 * 2)) p.1 ∧
        ExactCover (generate (4 * 4) (4 * 2 + (4 * 2 - 1) * 2) 4 (n_queens_get_count 4)
          (n_queens_get_column 4) (4 * 2)) (4 * 4 * 4)
          ([] ++ p.2.map (fun e => (generate (4 * 4) (4 * 2 + (4 * 2 - 1) * 2) 4
            (n_queens_get_count 4) (n_queens_get_column 4) (4 * 2)).matrix_row.getD e.2 0)) ∧
        ∀ e, e ∈ p.2 → e.2 < 4 * 4 * 4) ∧
      found.Pairwise (fun p q =>
        ¬ ∀ r, r ∈ p.2.map (fun e => (generate (4 * 4) (4 * 2 + (4 * 2 - 1) * 2) 4
            (n_queens_get_count 4) (n_queens_get_column 4) (4 * 2)).matrix_row.getD e.2 0) ↔
          r ∈ q.2.map (fun e => (generate (4 * 4) (4 * 2 + (4 * 2 - 1) * 2) 4
            (n_queens_get_count 4) (n_queens_get_column 4) (4 * 2)).matrix_row.getD e.2 0)) ∧
      ∀ S : List Nat, (∀ r, r ∈ S → r < 4 * 4) →
        ExactCover (generate (4 * 4) (4 * 2 + (4 * 2 - 1) * 2) 4 (n_queens_get_count 4)
          (n_queens_get_column 4) (4 * 2)) (4 * 4 * 4) ([] ++ S) →
        ∃ p, p ∈ found ∧ ∀ r, r ∈ S ↔
          r ∈ p.2.map (fun e => (generate (4 * 4) (4 * 2 + (4 * 2 - 1) * 2) 4
            (n_queens_get_count 4) (n_queens_get_column 4) (4 * 2)).matrix_row.getD e.2 0) :=
  (solve_outputs_every_cover (4 * 4) (4 * 2 + (4 * 2 - 1) * 2) 4 (n_queens_get_count 4)
    (n_queens_get_column 4) (4 * 2)
    (initialize_n_queens 4 (List.replicate 4 (List.replicate 4 0)))
    (interpret_result_n_queens 4 (List.replicate 4 (List.replicate 4 0))) 70 []
    (n_queens_genok 4 (by decide)).toGenShape (by decide) (by decide)
    ⟨_, initialize_n_queens_zero 4 _ _⟩
    (fun m1 hi => by
      rw [initialize_n_queens_zero] at hi
      cases hi
      exact ⟨(populate_trees_mesh _).frame, fun _ => False, fun _ => False,
        generate_cons (4 * 2) (n_queens_genok 4 (by decide)) (by decide), List.Pairwise.nil,
        fun c => by simp⟩)).2
    [[[0, 1, 0, 0], [0, 0, 0, 1], [1, 0, 0, 0], [0, 0, 1, 0]],
      [[0, 0, 1, 0], [1, 0, 0, 0], [0, 0, 0, 1], [0, 1, 0, 0]]]
    n_queens_4_search_70 (by decide)

end DLX
